import Mathlib

/-! ABAC: adaptive binary arithmetic coder over a bit-addressable buffer

A shallow embedding of `bitstream.cpp`, `memory.cpp` and `cabac.cpp`.

* Machine integers are natural numbers; every place where the C++ code
  computes in `uint8`, `uint32` or `uint64` is reduced with `u8`, `u32`,
  `u64`, and unsigned subtraction is `sub32`.
* A `bitstream` owns a byte store, modelled as a list of bytes; so is the
  memory behind a caller's `void *` argument.
* The two `while (true)` renormalisation loops take a `fuel` argument: one
  unit per loop test.  `none` means the fuel ran out; it is never a result of
  the code.  Counted `for` loops recurse on their bound.
* Pointer arguments are passed by value and returned.  Null-pointer checks
  disappear; the argument checks that remain are guarded by `param_check`
  (the C++ `EVX_PARAM_CHECK`, on in debug builds only).
-/

namespace evx

/-! ## Part 1: definitions -/

/-! ### base.h, math.h -/

abbrev evx_status := Nat

def EVX_SUCCESS : evx_status := 0
def EVX_ERROR_INVALIDARG : evx_status := 1
def EVX_ERROR_CAPACITY_LIMIT : evx_status := 7
def EVX_ERROR_INVALID_RESOURCE : evx_status := 8
def EVX_ERROR_EXECUTION_FAILURE : evx_status := 10

/-- Truncation to `uint8`. -/
def u8 (x : Nat) : Nat := x % 256

/-- Truncation to `uint32`. -/
def u32 (x : Nat) : Nat := x % 4294967296

/-- Truncation to `uint64`. -/
def u64 (x : Nat) : Nat := x % 18446744073709551616

/-- Subtraction `a - b` in `uint32` arithmetic (wraps below zero). -/
def sub32 (a b : Nat) : Nat := (u32 a + 4294967296 - u32 b) % 4294967296

/-- Bitwise complement `~x` of a 32-bit `int` operand, as a bit pattern. -/
def not32 (x : Nat) : Nat := 4294967295 ^^^ x

def EVX_KB : Nat := 1024
def EVX_MB : Nat := u32 (EVX_KB * EVX_KB)
def EVX_GB : Nat := u32 (EVX_MB * EVX_KB)

/-! ### cabac.cpp: constants -/

def EVX_ENTROPY_PRECISION : Nat := 16
def EVX_ENTROPY_PRECISION_MAX : Nat := u32 (1 <<< EVX_ENTROPY_PRECISION) - 1
def EVX_ENTROPY_PRECISION_MASK : Nat := u32 (1 <<< EVX_ENTROPY_PRECISION) - 1
def EVX_ENTROPY_HALF_RANGE : Nat := EVX_ENTROPY_PRECISION_MAX >>> 1
def EVX_ENTROPY_QTR_RANGE : Nat := EVX_ENTROPY_HALF_RANGE >>> 1
def EVX_ENTROPY_3QTR_RANGE : Nat := 3 * EVX_ENTROPY_QTR_RANGE
def EVX_ENTROPY_MSB_MASK : Nat := u64 (1 <<< (EVX_ENTROPY_PRECISION - 1))
def EVX_ENTROPY_SMSB_MASK : Nat := EVX_ENTROPY_MSB_MASK >>> 1

/-! ### bitstream.cpp -/

/-- The class `bitstream`: two bit cursors, a capacity in bytes and the
byte store (`data_store`, a null pointer being the empty list). -/
structure bitstream where
  read_index : Nat
  write_index : Nat
  data_capacity : Nat
  data_store : List Nat
deriving DecidableEq, Repr

namespace bitstream

/-- The constructor `bitstream()`. -/
def construct : bitstream :=
  { read_index := 0, write_index := 0, data_capacity := 0, data_store := [] }

/-- The method `query_capacity`: `data_capacity << 3`. -/
def query_capacity (s : bitstream) : Nat := u32 (s.data_capacity <<< 3)

/-- The method `query_occupancy`: `write_index - read_index`. -/
def query_occupancy (s : bitstream) : Nat := sub32 s.write_index s.read_index

/-- The method `is_empty`. -/
def is_empty (s : bitstream) : Bool := s.write_index == s.read_index

/-- The method `is_full`. -/
def is_full (s : bitstream) : Bool := s.write_index == s.query_capacity

/-- The method `write_bit`: refuses with `CAPACITY_LIMIT` past capacity,
otherwise clears and sets bit `write_index % 8` of byte `write_index >> 3`. -/
def write_bit (s : bitstream) (value : Nat) : evx_status × bitstream :=
  if u32 (s.write_index + 1) > s.query_capacity then
    (EVX_ERROR_CAPACITY_LIMIT, s)
  else
    let dest_byte := s.write_index >>> 3
    let dest_bit := u8 (s.write_index % 8)
    let data := s.data_store.getD dest_byte 0
    let data1 := u8 ((data &&& not32 (1 <<< dest_bit)) ||| ((value &&& 1) <<< dest_bit))
    (EVX_SUCCESS,
      { s with data_store := s.data_store.set dest_byte data1,
               write_index := u32 (s.write_index + 1) })

/-- The method `read_bit`; `dest` is the byte the caller's pointer refers to,
returned with its low bit replaced (its high bits are preserved). On
underflow nothing changes. -/
def read_bit (s : bitstream) (dest : Nat) : evx_status × bitstream × Nat :=
  if s.read_index ≥ s.write_index then
    (EVX_ERROR_INVALID_RESOURCE, s, dest)
  else
    let source_byte := s.read_index >>> 3
    let source_bit := u8 (s.read_index % 8)
    let dest1 := dest &&& 254
    let dest2 := dest1 ||| ((s.data_store.getD source_byte 0 >>> source_bit) &&& 1)
    (EVX_SUCCESS, { s with read_index := u32 (s.read_index + 1) }, dest2)

end bitstream

/-! ### cabac.cpp: the coder -/

/-- The class `entropy_coder`. -/
structure entropy_coder where
  adaptive : Bool
  e3_count : Nat
  history0 : Nat
  history1 : Nat
  value : Nat
  model : Nat
  low : Nat
  high : Nat
  mid : Nat
deriving DecidableEq, Repr

namespace entropy_coder

/-- The constructor `entropy_coder()`: adaptive, priors `[1, 1]`. -/
def construct : entropy_coder :=
  { history0 := 1, history1 := 1, e3_count := 0, adaptive := true,
    model := EVX_ENTROPY_HALF_RANGE, value := 0, low := 0,
    high := EVX_ENTROPY_PRECISION_MAX, mid := EVX_ENTROPY_HALF_RANGE }

/-- The constructor `entropy_coder(uint32 input_model)`: fixed model. -/
def construct_model (input_model : Nat) : entropy_coder :=
  { history0 := 0, history1 := 0, model := input_model, e3_count := 0,
    adaptive := false, value := 0, low := 0,
    high := EVX_ENTROPY_PRECISION_MAX, mid := input_model }

/-- The method `clear`. -/
def clear (c : entropy_coder) : entropy_coder :=
  let c := { c with low := 0, value := 0, e3_count := 0 }
  if c.adaptive then
    { c with history0 := 1, history1 := 1,
             high := EVX_ENTROPY_PRECISION_MAX, mid := EVX_ENTROPY_HALF_RANGE }
  else
    { c with high := EVX_ENTROPY_PRECISION_MAX, mid := c.model }

/-- The array access `history[i]` for `i` in `{0, 1}` (the only indices the
public methods produce; any other index reads `history[1]` here). -/
def history (c : entropy_coder) (i : Nat) : Nat :=
  if i = 0 then c.history0 else c.history1

/-- The statement `history[i]++`. -/
def history_incr (c : entropy_coder) (i : Nat) : entropy_coder :=
  if i = 0 then { c with history0 := u32 (c.history0 + 1) }
  else { c with history1 := u32 (c.history1 + 1) }

/-- The division of `resolve_model` is defined in C++: the coder is fixed
(the divisor is the constant `PRECISION_MAX`), or the `uint32` divisor
`history[0] + history[1]` is not zero. -/
def resolve_model_defined (c : entropy_coder) : Prop :=
  c.adaptive = true → u32 (c.history0 + c.history1) ≠ 0

instance (c : entropy_coder) : Decidable c.resolve_model_defined := by
  unfold resolve_model_defined
  infer_instance

/-- The method `resolve_model`. The product is formed in `uint64`, the
divisor `history[0] + history[1]` in `uint32`. A division by a zero divisor
is undefined in C++ (the program traps): this definition describes the
method in the states that satisfy `resolve_model_defined`, and its value in
the other states (quotient `0`) stands for no behaviour of the code. -/
def resolve_model (c : entropy_coder) : entropy_coder :=
  let range := sub32 c.high c.low
  let mid_range :=
    if c.adaptive then u64 (range * c.history0) / u32 (c.history0 + c.history1)
    else u64 (range * c.model) / EVX_ENTROPY_PRECISION_MAX
  { c with mid := u32 (c.low + mid_range) }

/-- The method `encode_symbol`. -/
def encode_symbol (c : entropy_coder) (value : Nat) : evx_status × entropy_coder :=
  if c.history value ≥ u32 (2 * EVX_GB) then
    (EVX_ERROR_INVALID_RESOURCE, c)
  else
    let c := c.resolve_model
    let value := value &&& 1
    let c := if value ≠ 0 then { c with low := u32 (c.mid + 1) } else { c with high := c.mid }
    (EVX_SUCCESS, c.history_incr value)

/-- The method `decode_symbol`; the status of `write_bit` is ignored, as in
the source. -/
def decode_symbol (c : entropy_coder) (value : Nat) (dest : bitstream) :
    evx_status × entropy_coder × bitstream :=
  let c := c.resolve_model
  if value ≥ c.low ∧ value ≤ c.mid then
    (EVX_SUCCESS, { c with high := c.mid, history0 := u32 (c.history0 + 1) },
      (dest.write_bit 0).2)
  else if value > c.mid ∧ value ≤ c.high then
    (EVX_SUCCESS, { c with low := u32 (c.mid + 1), history1 := u32 (c.history1 + 1) },
      (dest.write_bit 1).2)
  else
    (EVX_SUCCESS, c, dest)

/-- The `for` loop of `flush_inverse_bits`: `n` further writes of `value`;
stops at the first failing write. -/
def flush_inverse_loop (value : Nat) : Nat → bitstream → evx_status × bitstream
  | 0, dest => (EVX_SUCCESS, dest)
  | n + 1, dest =>
    let r := dest.write_bit value
    if r.1 ≠ EVX_SUCCESS then (EVX_ERROR_EXECUTION_FAILURE, r.2)
    else flush_inverse_loop value n r.2

/-- The method `flush_inverse_bits`: writes `e3_count` copies of `!value`
and resets `e3_count` (not reset when a write fails). -/
def flush_inverse_bits (c : entropy_coder) (value : Nat) (dest : bitstream) :
    evx_status × entropy_coder × bitstream :=
  let value := if value = 0 then 1 else 0
  let r := flush_inverse_loop value c.e3_count dest
  if r.1 ≠ EVX_SUCCESS then (r.1, c, r.2)
  else (EVX_SUCCESS, { c with e3_count := 0 }, r.2)

/-- The two shift statements that end an iteration of either scaling loop. -/
def shift_bounds (c : entropy_coder) : entropy_coder :=
  { c with high := (u32 (c.high <<< 1) &&& EVX_ENTROPY_PRECISION_MAX) ||| 1,
           low := (u32 (c.low <<< 1) &&& EVX_ENTROPY_PRECISION_MAX) ||| 0 }

/-- The body of the `while (true)` loop of `resolve_encode_scaling`: one
iteration. `none` is the `break`; otherwise the status is that of the
iteration (a failing write returns from the method before the shift). -/
def encode_scaling_iter (c : entropy_coder) (dest : bitstream) :
    Option (evx_status × entropy_coder × bitstream) :=
  if (c.high &&& EVX_ENTROPY_MSB_MASK) = (c.low &&& EVX_ENTROPY_MSB_MASK) then
    let msb := u8 ((c.high &&& EVX_ENTROPY_MSB_MASK) >>> (EVX_ENTROPY_PRECISION - 1))
    let c := { c with low := sub32 c.low (u32 (u32 (EVX_ENTROPY_HALF_RANGE * msb) + msb)) }
    let c := { c with high := sub32 c.high (u32 (u32 (EVX_ENTROPY_HALF_RANGE * msb) + msb)) }
    let w := dest.write_bit msb
    if w.1 ≠ EVX_SUCCESS then some (EVX_ERROR_INVALID_RESOURCE, c, w.2)
    else
      let f := c.flush_inverse_bits msb w.2
      if f.1 ≠ EVX_SUCCESS then some (EVX_ERROR_INVALID_RESOURCE, f.2.1, f.2.2)
      else some (EVX_SUCCESS, f.2.1.shift_bounds, f.2.2)
  else if c.high ≤ EVX_ENTROPY_3QTR_RANGE ∧ c.low > EVX_ENTROPY_QTR_RANGE then
    let c := { c with high := sub32 c.high (EVX_ENTROPY_QTR_RANGE + 1) }
    let c := { c with low := sub32 c.low (EVX_ENTROPY_QTR_RANGE + 1) }
    let c := { c with e3_count := u32 (c.e3_count + 1) }
    some (EVX_SUCCESS, c.shift_bounds, dest)
  else
    none

/-- The method `resolve_encode_scaling`: the loop body repeated until it
breaks or a write fails. -/
def resolve_encode_scaling :
    Nat → entropy_coder → bitstream → Option (evx_status × entropy_coder × bitstream)
  | 0, _, _ => none
  | fuel + 1, c, dest =>
    match encode_scaling_iter c dest with
    | none => some (EVX_SUCCESS, c, dest)
    | some (st, c1, dest1) =>
      if st ≠ EVX_SUCCESS then some (st, c1, dest1)
      else resolve_encode_scaling fuel c1 dest1

/-- The rule selection of `resolve_decode_scaling`: the `if / else if`
chain of one iteration applied to `low`, `high` and `*value` (the member
`value`, the only pointer the method is ever called with). `none` is the
`break`. -/
def decode_scaling_rule (c : entropy_coder) : Option entropy_coder :=
  if c.high ≤ EVX_ENTROPY_HALF_RANGE then
    some c
  else if c.low > EVX_ENTROPY_HALF_RANGE then
    some { c with high := sub32 c.high (EVX_ENTROPY_HALF_RANGE + 1),
                  low := sub32 c.low (EVX_ENTROPY_HALF_RANGE + 1),
                  value := sub32 c.value (EVX_ENTROPY_HALF_RANGE + 1) }
  else if c.high ≤ EVX_ENTROPY_3QTR_RANGE ∧ c.low > EVX_ENTROPY_QTR_RANGE then
    some { c with high := sub32 c.high (EVX_ENTROPY_QTR_RANGE + 1),
                  low := sub32 c.low (EVX_ENTROPY_QTR_RANGE + 1),
                  value := sub32 c.value (EVX_ENTROPY_QTR_RANGE + 1) }
  else
    none

/-- The statement `*value = ((*value << 1) & PRECISION_MAX) | bit`, after
the two bound shifts. -/
def shift_value (c : entropy_coder) (bit : Nat) : entropy_coder :=
  { c.shift_bounds with
    value := (u32 (c.value <<< 1) &&& EVX_ENTROPY_PRECISION_MAX) ||| bit }

/-- The body of the `while (true)` loop of `resolve_decode_scaling`: one
iteration. `bit` is the local `uint8 bit`; it is overwritten only when the
source still holds a bit, and otherwise keeps its last content. `none` is
the `break`. -/
def decode_scaling_iter (c : entropy_coder) (bit : Nat) (source : bitstream) :
    Option (evx_status × entropy_coder × Nat × bitstream) :=
  match c.decode_scaling_rule with
  | none => none
  | some c1 =>
    if ¬ source.is_empty then
      let r := source.read_bit bit
      if r.1 ≠ EVX_SUCCESS then some (EVX_ERROR_EXECUTION_FAILURE, c1, r.2.2, r.2.1)
      else some (EVX_SUCCESS, c1.shift_value r.2.2, r.2.2, r.2.1)
    else some (EVX_SUCCESS, c1.shift_value bit, bit, source)

/-- The loop of `resolve_decode_scaling`. -/
def resolve_decode_scaling_loop :
    Nat → entropy_coder → Nat → bitstream → Option (evx_status × entropy_coder × bitstream)
  | 0, _, _, _ => none
  | fuel + 1, c, bit, source =>
    match decode_scaling_iter c bit source with
    | none => some (EVX_SUCCESS, c, source)
    | some (st, c1, bit1, source1) =>
      if st ≠ EVX_SUCCESS then some (st, c1, source1)
      else resolve_decode_scaling_loop fuel c1 bit1 source1

/-- The method `resolve_decode_scaling(&value, source, dest)`: the local
`bit` starts at `0` on every call. -/
def resolve_decode_scaling (fuel : Nat) (c : entropy_coder) (source : bitstream) :
    Option (evx_status × entropy_coder × bitstream) :=
  resolve_decode_scaling_loop fuel c 0 source

/-- The method `flush_encoder`. -/
def flush_encoder (c : entropy_coder) (dest : bitstream) :
    evx_status × entropy_coder × bitstream :=
  let c := { c with e3_count := u32 (c.e3_count + 1) }
  let first := if c.low < EVX_ENTROPY_QTR_RANGE then 0 else 1
  let w := dest.write_bit first
  if w.1 ≠ EVX_SUCCESS then (EVX_ERROR_EXECUTION_FAILURE, c, w.2)
  else
    let f := c.flush_inverse_bits first w.2
    if f.1 ≠ EVX_SUCCESS then (EVX_ERROR_EXECUTION_FAILURE, f.2.1, f.2.2)
    else (EVX_SUCCESS, f.2.1.clear, f.2.2)

/-- The `while (!source->is_empty())` loop of `encode`. The bound `n` only
makes the recursion structural: each round consumes one source bit, so the
occupancy of the source at entry is always enough (a source whose
`read_index` is past `write_index` fails at its first read). -/
def encode_loop (fuel : Nat) :
    Nat → entropy_coder → bitstream → bitstream →
      Option (evx_status × entropy_coder × bitstream × bitstream)
  | n, c, source, dest =>
    if source.is_empty then some (EVX_SUCCESS, c, source, dest)
    else
      let r := source.read_bit 0
      if r.1 ≠ EVX_SUCCESS then some (EVX_ERROR_INVALID_RESOURCE, c, r.2.1, dest)
      else
        match n with
        | 0 => none
        | n + 1 =>
          let e := c.encode_symbol r.2.2
          if e.1 ≠ EVX_SUCCESS then some (EVX_ERROR_INVALID_RESOURCE, e.2, r.2.1, dest)
          else
            match resolve_encode_scaling fuel e.2 dest with
            | none => none
            | some (st, c1, dest1) =>
              if st ≠ EVX_SUCCESS then some (EVX_ERROR_INVALID_RESOURCE, c1, r.2.1, dest1)
              else encode_loop fuel n c1 r.2.1 dest1

/-- The method `encode(source, dest, auto_finish)`. -/
def encode (fuel : Nat) (c : entropy_coder) (source dest : bitstream) (auto_finish : Bool) :
    Option (evx_status × entropy_coder × bitstream × bitstream) :=
  match encode_loop fuel (source.write_index - source.read_index) c source dest with
  | none => none
  | some (st, c1, source1, dest1) =>
    if st ≠ EVX_SUCCESS then some (st, c1, source1, dest1)
    else if auto_finish then
      let f := c1.flush_encoder dest1
      if f.1 ≠ EVX_SUCCESS then some (EVX_ERROR_EXECUTION_FAILURE, f.2.1, source1, f.2.2)
      else some (EVX_SUCCESS, f.2.1.clear, source1, f.2.2)
    else some (EVX_SUCCESS, c1, source1, dest1)

/-- The priming loop shared by `decode` (under `auto_start`) and
`start_decode`: `n` rounds of "read a bit if there is one, shift it into
`value`". The local `bit` is not reset when the source is empty. -/
def prime_loop : Nat → entropy_coder → Nat → bitstream → evx_status × entropy_coder × Nat × bitstream
  | 0, c, bit, source => (EVX_SUCCESS, c, bit, source)
  | n + 1, c, bit, source =>
    if ¬ source.is_empty then
      let r := source.read_bit bit
      if r.1 ≠ EVX_SUCCESS then (EVX_ERROR_INVALID_RESOURCE, c, r.2.2, r.2.1)
      else
        prime_loop n { c with value := u32 (u32 (c.value <<< 1) ||| r.2.2) } r.2.2 r.2.1
    else
      prime_loop n { c with value := u32 (u32 (c.value <<< 1) ||| bit) } bit source

/-- The method `start_decode`. -/
def start_decode (c : entropy_coder) (source : bitstream) :
    evx_status × entropy_coder × bitstream :=
  let c := { c with value := 0 }
  let c := c.clear
  let r := prime_loop EVX_ENTROPY_PRECISION c 0 source
  (r.1, r.2.1, r.2.2.2)

/-- The symbol loop of `decode`. -/
def decode_loop (fuel : Nat) :
    Nat → entropy_coder → bitstream → bitstream →
      Option (evx_status × entropy_coder × bitstream × bitstream)
  | 0, c, source, dest => some (EVX_SUCCESS, c, source, dest)
  | n + 1, c, source, dest =>
    let d := c.decode_symbol c.value dest
    if d.1 ≠ EVX_SUCCESS then some (EVX_ERROR_EXECUTION_FAILURE, d.2.1, source, d.2.2)
    else
      match resolve_decode_scaling fuel d.2.1 source with
      | none => none
      | some (st, c1, source1) =>
        if st ≠ EVX_SUCCESS then some (EVX_ERROR_EXECUTION_FAILURE, c1, source1, d.2.2)
        else decode_loop fuel n c1 source1 d.2.2

/-- The method `decode(symbol_count, source, dest, auto_start)`. -/
def decode (param_check : Bool) (fuel : Nat) (c : entropy_coder) (symbol_count : Nat)
    (source dest : bitstream) (auto_start : Bool) :
    Option (evx_status × entropy_coder × bitstream × bitstream) :=
  if param_check ∧ symbol_count = 0 then some (EVX_ERROR_INVALIDARG, c, source, dest)
  else if auto_start then
    let c := { c with value := 0 }
    let c := c.clear
    let r := prime_loop EVX_ENTROPY_PRECISION c 0 source
    if r.1 ≠ EVX_SUCCESS then some (EVX_ERROR_INVALID_RESOURCE, r.2.1, r.2.2.2, dest)
    else decode_loop fuel symbol_count r.2.1 r.2.2.2 dest
  else decode_loop fuel symbol_count c source dest

/-- The method `finish_encode`. -/
def finish_encode (c : entropy_coder) (dest : bitstream) :
    evx_status × entropy_coder × bitstream :=
  let f := c.flush_encoder dest
  if f.1 ≠ EVX_SUCCESS then (EVX_ERROR_EXECUTION_FAILURE, f.2.1, f.2.2)
  else (EVX_SUCCESS, f.2.1.clear, f.2.2)

end entropy_coder

/-! ### Vocabulary of the statements

The live content of a buffer as a list of bits, and list-level counterparts
of the emitting methods: what they append to an unbounded destination. -/

namespace bitstream

/-- Bit `i` of the byte store: byte `i >> 3`, position `i % 8` counted from
the least significant bit (the expression `read_bit` evaluates). -/
def bit_at (s : bitstream) (i : Nat) : Nat :=
  (s.data_store.getD (i >>> 3) 0 >>> (i % 8)) &&& 1

/-- The live content: the stored bits at `read_index, ..., write_index - 1`. -/
def live (s : bitstream) : List Nat :=
  (List.range' s.read_index (s.write_index - s.read_index)).map s.bit_at

/-- A buffer as the class maintains it: the store has `data_capacity` bytes,
the cursors are ordered and within capacity, and the capacity in bits fits
a `uint32`. -/
def wf (s : bitstream) : Prop :=
  s.data_store.length = s.data_capacity ∧ s.read_index ≤ s.write_index ∧
    s.write_index ≤ 8 * s.data_capacity ∧ 8 * s.data_capacity < 4294967296

instance (s : bitstream) : Decidable s.wf := by
  unfold wf
  infer_instance

/-- The number of bits that can still be written. -/
def free_bits (s : bitstream) : Nat := 8 * s.data_capacity - s.write_index

/-- Successive `write_bit` calls, one per list element, statuses ignored. -/
def write_list (s : bitstream) : List Nat → bitstream
  | [] => s
  | b :: bs => write_list (s.write_bit b).2 bs

end bitstream

/-- The number formed by the first `n` bits of `s`, most significant first,
a missing bit counting as `0`: the decoder window over a stream. -/
def win : Nat → List Nat → Nat
  | 0, _ => 0
  | _ + 1, [] => 0
  | n + 1, b :: s => b * 2 ^ n + win n s

namespace entropy_coder

/-- List-level counterpart of `resolve_encode_scaling` on an interval
`low ≤ high ≤ 65535`: the coder after the loop and the bits the loop
appends when no write fails (`scaling_refines` proves the agreement). -/
def scaling_out : Nat → entropy_coder → entropy_coder × List Nat
  | 0, c => (c, [])
  | fuel + 1, c =>
    if c.high < 32768 then
      let r := scaling_out fuel
        { c with low := 2 * c.low, high := 2 * c.high + 1, e3_count := 0 }
      (r.1, 0 :: (List.replicate c.e3_count 1 ++ r.2))
    else if 32768 ≤ c.low then
      let r := scaling_out fuel
        { c with low := 2 * (c.low - 32768), high := 2 * (c.high - 32768) + 1, e3_count := 0 }
      (r.1, 1 :: (List.replicate c.e3_count 0 ++ r.2))
    else if c.high ≤ 49149 ∧ 16384 ≤ c.low then
      scaling_out fuel
        { c with low := 2 * (c.low - 16384), high := 2 * (c.high - 16384) + 1,
                 e3_count := c.e3_count + 1 }
    else (c, [])

/-- List-level counterpart of `flush_encoder`: the bits it appends. -/
def flush_out (c : entropy_coder) : List Nat :=
  if c.low < 16383 then 0 :: List.replicate (c.e3_count + 1) 1
  else 1 :: List.replicate (c.e3_count + 1) 0

/-- List-level counterpart of `encode` with `auto_finish`: the bits
appended for the source bits `bs`, flush included. -/
def encode_out (fuel : Nat) : entropy_coder → List Nat → List Nat
  | c, [] => flush_out c
  | c, b :: bs =>
    let r := scaling_out fuel (c.encode_symbol b).2
    r.2 ++ encode_out fuel r.1 bs

/-- The coder reached by `encode` (without flush) after the source bits `bs`. -/
def encode_end (fuel : Nat) : entropy_coder → List Nat → entropy_coder
  | c, [] => c
  | c, b :: bs => encode_end fuel (scaling_out fuel (c.encode_symbol b).2).1 bs

/-- An interval inside the precision range. -/
def valid (c : entropy_coder) : Prop := c.low ≤ c.high ∧ c.high ≤ 65535

/-- An interval on which the scaling loops stop: it straddles the middle
and is not inside the two middle quarters. -/
def stopped (c : entropy_coder) : Prop :=
  c.low ≤ 32767 ∧ 32768 ≤ c.high ∧ c.high ≤ 65535 ∧ ¬ (c.high ≤ 49149 ∧ 16384 ≤ c.low)

/-- A model that gives both symbols a non-empty sub-interval: counts of at
least one when adaptive, a fixed model below `PRECISION_MAX` otherwise. -/
def model_ok (c : entropy_coder) : Prop :=
  if c.adaptive then 1 ≤ c.history0 ∧ 1 ≤ c.history1 else c.model ≤ 65534

/-- Room in the symbol counters for `n` more symbols. -/
def hist_ok (c : entropy_coder) (n : Nat) : Prop :=
  c.history0 + n ≤ 2147483648 ∧ c.history1 + n ≤ 2147483648

/-- The last bit `flush_encoder` writes. -/
def flush_last (c : entropy_coder) : Nat := if c.low < 16383 then 1 else 0

/-- What the encoder owes the decoder at a state with `e3_count` pending
bits, about the bits `o` it will still append: `o` starts with a bit `m`
followed by `e3_count` inverse bits, and once those are dropped every
16-bit window over the stream, however padded, lies in `[low, high]`.
The padding may be anything when the stream ends in `1` (`L = 1`) and is
all zeros when it ends in `0`. -/
def promise (L : Nat) (c : entropy_coder) (o : List Nat) : Prop :=
  ∃ m t, m < 2 ∧ (∀ b ∈ t, b < 2) ∧ o = m :: (List.replicate c.e3_count (1 - m) ++ t) ∧
    ∀ pad, (∀ b ∈ pad, b < 2 ∧ (L = 0 → b = 0)) →
      c.low ≤ win 16 (m :: (t ++ pad)) ∧ win 16 (m :: (t ++ pad)) ≤ c.high

/-- List-level counterpart of the loop of `encode`: the bits appended for
the source bits `bs`, flush excluded. -/
def symbols_out (fuel : Nat) : entropy_coder → List Nat → List Nat
  | _, [] => []
  | c, b :: bs =>
    let r := scaling_out fuel (c.encode_symbol b).2
    r.2 ++ symbols_out fuel r.1 bs

/-- The decoder `d` follows the encoder `c`: same interval, same kind of
model, and the same counts when the model is adaptive (a fixed coder never
reads its counts while decoding). -/
def sync (c d : entropy_coder) : Prop :=
  d.low = c.low ∧ d.high = c.high ∧ d.adaptive = c.adaptive ∧ d.model = c.model ∧
    (c.adaptive = true → d.history0 = c.history0 ∧ d.history1 = c.history1)

/-- The decoder window `value` and the unread source bits `rest` against the
bits `o` the encoder emits from a state with `k` pending bits: `o` is a
bit `m`, then `k` inverse bits, then `t`; the window holds the first 16 bits
of `m :: t` followed by padding, and `rest` is what follows them. Padding
appears only once the source is empty and is admissible for the last
stream bit `L`. -/
def window_rel (L k : Nat) (o : List Nat) (value : Nat) (rest : List Nat) : Prop :=
  ∃ m t w pad, m < 2 ∧ (∀ b ∈ t, b < 2) ∧ o = m :: (List.replicate k (1 - m) ++ t) ∧
    w.length = 16 ∧ value = win 16 w ∧ w ++ rest = (m :: t) ++ pad ∧
    (∀ y ∈ pad, y < 2 ∧ (L = 0 → y = 0)) ∧ (rest ≠ [] → pad = []) ∧
    (rest ≠ [] → rest.getLast? = some L)

/-- A coder as its constructors and `clear` leave it, as far as coding
depends on it: full interval, nothing pending, priors `[1, 1]` when
adaptive. -/
def fresh (c : entropy_coder) : Prop :=
  c.low = 0 ∧ c.high = 65535 ∧ c.e3_count = 0 ∧ (c.adaptive = true → c.history0 = 1 ∧ c.history1 = 1)

/-- The incremental use as C3 words it: `encode(X, dst, false)`, then
`encode(Y, dst, false)`, then `finish_encode(dst)`, each call made whatever
the previous one returned. The result is the last status, the coder and the
destination. -/
def encode_incremental (fuel : Nat) (c : entropy_coder) (srcX srcY dst : bitstream) :
    Option (evx_status × entropy_coder × bitstream) :=
  match c.encode fuel srcX dst false with
  | none => none
  | some (_, c1, _, d1) =>
    match c1.encode fuel srcY d1 false with
    | none => none
    | some (_, c2, _, d2) => some (c2.finish_encode d2)

/-- The incremental use with a caller that stops at the first failing call,
as the interface comment and the error policy require (a failed session is
aborted). -/
def encode_incremental_checked (fuel : Nat) (c : entropy_coder) (srcX srcY dst : bitstream) :
    Option (evx_status × entropy_coder × bitstream) :=
  match c.encode fuel srcX dst false with
  | none => none
  | some (st, c1, _, d1) =>
    if st ≠ EVX_SUCCESS then some (st, c1, d1)
    else
      match c1.encode fuel srcY d1 false with
      | none => none
      | some (st2, c2, _, d2) =>
        if st2 ≠ EVX_SUCCESS then some (st2, c2, d2)
        else some (c2.finish_encode d2)

/-- The loop of `encode` as a function of the source bits alone. -/
def encode_bits (fuel : Nat) :
    entropy_coder → List Nat → bitstream → Option (evx_status × entropy_coder × bitstream)
  | c, [], dest => some (EVX_SUCCESS, c, dest)
  | c, b :: bs, dest =>
    let e := c.encode_symbol b
    if e.1 ≠ EVX_SUCCESS then some (EVX_ERROR_INVALID_RESOURCE, e.2, dest)
    else
      match resolve_encode_scaling fuel e.2 dest with
      | none => none
      | some (st, c1, dest1) =>
        if st ≠ EVX_SUCCESS then some (EVX_ERROR_INVALID_RESOURCE, c1, dest1)
        else encode_bits fuel c1 bs dest1

/-- The status, coder and destination of a result of `encode`. -/
def drop_source (r : evx_status × entropy_coder × bitstream × bitstream) :
    evx_status × entropy_coder × bitstream :=
  (r.1, r.2.1, r.2.2.2)

end entropy_coder

/-- The coder states a decode session passes through, from the state `init`
left by the priming: `decode_reach init n c` says `c` is reached with `n`
symbols decoded. A session alternates symbol steps (`decode_symbol` on the
member `value`, any destination) and iterations of the scaling loop (any
source, any content `0` or `1` of the local `bit`). -/
inductive decode_reach (init : entropy_coder) : Nat → entropy_coder → Prop
  | start : decode_reach init 0 init
  | symbol {n : Nat} {c : entropy_coder} (dest : bitstream) :
      decode_reach init n c → n + 1 < 2147483648 →
      decode_reach init (n + 1) (c.decode_symbol c.value dest).2.1
  | scale {n : Nat} {c c1 : entropy_coder} {bit bit1 : Nat} {source source1 : bitstream} :
      decode_reach init n c → bit < 2 →
      c.decode_scaling_iter bit source = some (EVX_SUCCESS, c1, bit1, source1) →
      decode_reach init n c1

/-- The decoder window invariant, together with what keeps the split point
inside the interval: counts that started at `[1, 1]` and grew by one per
symbol when adaptive, a model on the precision scale otherwise. -/
def window_inv (n : Nat) (c : entropy_coder) : Prop :=
  c.low ≤ c.value ∧ c.value ≤ c.high ∧ c.high ≤ 65535 ∧
    (if c.adaptive then 1 ≤ c.history0 ∧ 1 ≤ c.history1 ∧ c.history0 + c.history1 ≤ n + 2
     else c.model ≤ 65535)

/-- A sample decode session: a default coder primed from the one-bit
source `[1]`. -/
def sample_primed : entropy_coder :=
  (entropy_coder.construct.start_decode
    { read_index := 0, write_index := 1, data_capacity := 1, data_store := [1] }).2.1

/-- The sample session after its first `decode_symbol`. -/
def sample_decoded : entropy_coder :=
  (sample_primed.decode_symbol sample_primed.value bitstream.construct).2.1

/-- The coder states an encode session passes through from the state
`init`, as long as no call fails. The flag is `true` inside the scaling loop
(after a symbol step) and `false` between symbols: a session alternates a
successful `encode_symbol`, successful iterations of the scaling loop (any
destination) and the `break` of the loop. -/
inductive encode_reach (init : entropy_coder) : Bool → entropy_coder → Prop
  | start : encode_reach init false init
  | symbol {c : entropy_coder} (value : Nat) :
      encode_reach init false c → value < 2 → (c.encode_symbol value).1 = EVX_SUCCESS →
      encode_reach init true (c.encode_symbol value).2
  | scale {c c1 : entropy_coder} {dest dest1 : bitstream} :
      encode_reach init true c →
      c.encode_scaling_iter dest = some (EVX_SUCCESS, c1, dest1) →
      encode_reach init true c1
  | exit {c : entropy_coder} {dest : bitstream} :
      encode_reach init true c → c.encode_scaling_iter dest = none →
      encode_reach init false c

/-- A source buffer holding the two bits `1, 0`. -/
def flush_sample_source : bitstream :=
  { read_index := 0, write_index := 2, data_capacity := 1, data_store := [1] }

/-- An empty buffer of one byte. -/
def flush_sample_dest : bitstream :=
  { read_index := 0, write_index := 0, data_capacity := 1, data_store := [0] }

/-- A buffer of two bytes holding the bits `1, 0` followed by fourteen `1`
bits: an encoded stream `1, 0` with further content written after it. -/
def flush_sample_stream : bitstream :=
  { read_index := 0, write_index := 16, data_capacity := 2, data_store := [253, 255] }

/-- A source buffer holding the single bit `1`. -/
def one_bit_source : bitstream :=
  { read_index := 0, write_index := 1, data_capacity := 1, data_store := [1] }

/-- A source buffer holding sixteen `0` bits followed by one `1` bit. -/
def zeros_then_one_source : bitstream :=
  { read_index := 0, write_index := 17, data_capacity := 3, data_store := [0, 0, 1] }

/-- A default coder whose count of `1` symbols has reached the limit of the
guard in `encode_symbol`. -/
def saturated_coder : entropy_coder :=
  { entropy_coder.construct with history1 := 2147483648 }

/-! ### memory.cpp, math.h: block copies

A byte array (the memory a `uint8 *` points to) is a list of bytes; a store
past its end is dropped and a load past its end yields `0` (both are
undefined in C++). -/

/-- The macro `evx_min2`. -/
def evx_min2 (a b : Nat) : Nat := if a < b then a else b

/-- The call `memcpy(dest + d, source + s, n)`. -/
def memcpy (dest : List Nat) (d : Nat) (source : List Nat) (s : Nat) : Nat → List Nat
  | 0 => dest
  | n + 1 => memcpy (dest.set d (source.getD s 0)) (d + 1) source (s + 1) n

/-- The function `aligned_bit_copy`: the number of bits copied and the
destination array. The argument check is compiled in debug builds only
(`param_check`). -/
def aligned_bit_copy (param_check : Bool) (dest : List Nat) (dest_bit_offset : Nat)
    (source : List Nat) (source_bit_offset copy_bit_count : Nat) : Nat × List Nat :=
  if param_check ∧ (dest_bit_offset % 8 ≠ 0 ∨ source_bit_offset % 8 ≠ 0 ∨
      copy_bit_count >>> 3 = 0) then (0, dest)
  else
    let dest_byte_offset := dest_bit_offset >>> 3
    let source_byte_offset := source_bit_offset >>> 3
    let bytes_copied := copy_bit_count >>> 3
    (u32 (bytes_copied <<< 3), memcpy dest dest_byte_offset source source_byte_offset bytes_copied)

/-- The body of the `while` loop of `unaligned_bit_copy`: the destination
array and the two advanced offsets. -/
def unaligned_step (dest : List Nat) (dest_offset : Nat) (source : List Nat)
    (source_offset source_copy_limit : Nat) : List Nat × Nat × Nat :=
  let target_byte := dest_offset >>> 3
  let target_bit := u8 (dest_offset % 8)
  let source_byte := source_offset >>> 3
  let source_bit := u8 (source_offset % 8)
  let bits_left := sub32 source_copy_limit source_offset
  let write_capacity := u8 (evx_min2 (8 - target_bit) (8 - source_bit))
  let write_count := u8 (evx_min2 write_capacity bits_left)
  let write_fill_mask := u8 ((1 <<< write_count) - 1)
  let target_data := dest.getD target_byte 0
  let source_data := source.getD source_byte 0
  let target_data := u8 (target_data &&& not32 (write_fill_mask <<< target_bit))
  let target_data := u8 (target_data |||
    (((source_data &&& (write_fill_mask <<< source_bit)) >>> source_bit) <<< target_bit))
  (dest.set target_byte target_data, u32 (dest_offset + write_count),
    u32 (source_offset + write_count))

/-- The `while (source_offset < source_copy_limit)` loop of
`unaligned_bit_copy`. The first argument only makes the recursion
structural: every iteration copies at least one bit, so a bound of
`copy_bit_count` iterations is never reached with the loop still running
(`unaligned_loop_bound`). -/
def unaligned_loop : Nat → List Nat → Nat → List Nat → Nat → Nat → List Nat
  | 0, dest, _, _, _, _ => dest
  | n + 1, dest, dest_offset, source, source_offset, source_copy_limit =>
    if source_offset < source_copy_limit then
      let r := unaligned_step dest dest_offset source source_offset source_copy_limit
      unaligned_loop n r.1 r.2.1 source r.2.2 source_copy_limit
    else dest

/-- The function `unaligned_bit_copy`: the number of bits copied and the
destination array. -/
def unaligned_bit_copy (param_check : Bool) (dest : List Nat) (dest_offset : Nat)
    (source : List Nat) (source_offset copy_bit_count : Nat) : Nat × List Nat :=
  if param_check ∧ copy_bit_count = 0 then (0, dest)
  else
    let source_copy_limit := u32 (source_offset + copy_bit_count)
    (copy_bit_count,
      unaligned_loop copy_bit_count dest dest_offset source source_offset source_copy_limit)

namespace bitstream

/-- The `for` loop of the unaligned branch of `write_byte`: `write_bit` of
bits `i, ..., 7` of `value`, statuses ignored. -/
def write_byte_loop (value : Nat) : Nat → Nat → bitstream → bitstream
  | 0, _, s => s
  | n + 1, i, s => write_byte_loop value n (i + 1) (s.write_bit ((value >>> i) &&& 1)).2

/-- The method `write_byte`. -/
def write_byte (s : bitstream) (value : Nat) : evx_status × bitstream :=
  if u32 (s.write_index + 8) > s.query_capacity then
    (EVX_ERROR_CAPACITY_LIMIT, s)
  else
    let dest_byte := s.write_index >>> 3
    let dest_bit := u8 (s.write_index % 8)
    if 0 = dest_bit then
      (EVX_SUCCESS, { s with data_store := s.data_store.set dest_byte (u8 value),
                             write_index := u32 (s.write_index + 8) })
    else
      (EVX_SUCCESS, write_byte_loop (u8 value) 8 0 s)

/-- The method `write_bits`; `data` is the caller's byte array. The check of
`bit_count` is compiled in debug builds only (`param_check`). -/
def write_bits (param_check : Bool) (s : bitstream) (data : List Nat) (bit_count : Nat) :
    evx_status × bitstream :=
  if param_check ∧ bit_count = 0 then (EVX_ERROR_INVALIDARG, s)
  else if u32 (s.write_index + bit_count) > s.query_capacity then (EVX_ERROR_CAPACITY_LIMIT, s)
  else
    let fast := decide (0 = s.write_index % 8 ∧ bit_count ≥ 8)
    let a := if fast then aligned_bit_copy param_check s.data_store s.write_index data 0 bit_count
      else (0, s.data_store)
    if fast ∧ a.1 = 0 then (EVX_ERROR_EXECUTION_FAILURE, { s with data_store := a.2 })
    else
      let b := if a.1 < bit_count then
          let r := unaligned_bit_copy param_check a.2 (u32 (s.write_index + a.1)) data a.1
            (sub32 bit_count a.1)
          (u32 (a.1 + r.1), r.2)
        else a
      (EVX_SUCCESS, { s with data_store := b.2, write_index := u32 (s.write_index + b.1) })

/-- The method `write_bytes`. -/
def write_bytes (param_check : Bool) (s : bitstream) (data : List Nat) (byte_count : Nat) :
    evx_status × bitstream :=
  s.write_bits param_check data (u32 (byte_count <<< 3))

/-- The `for` loop of the unaligned branch of `read_byte`: rounds
`i, ..., 7`, each reading one bit into a zeroed `temp` (status ignored) and
storing it as bit `i` of `*dest`. -/
def read_byte_loop : Nat → Nat → bitstream → Nat → bitstream × Nat
  | 0, _, s, dest => (s, dest)
  | n + 1, i, s, dest =>
    let r := s.read_bit 0
    read_byte_loop n (i + 1) r.2.1 (u8 ((dest &&& not32 (1 <<< i)) ||| (r.2.2 <<< i)))

/-- The method `read_byte`; `dest` is the byte the caller's pointer refers
to. -/
def read_byte (s : bitstream) (dest : Nat) : evx_status × bitstream × Nat :=
  if u32 (s.read_index + 8) > s.write_index then
    (EVX_ERROR_INVALID_RESOURCE, s, dest)
  else
    let source_byte := s.read_index >>> 3
    let source_bit := u8 (s.read_index % 8)
    if 0 = source_bit % 8 then
      (EVX_SUCCESS, { s with read_index := u32 (s.read_index + 8) },
        s.data_store.getD source_byte 0)
    else
      let r := read_byte_loop 8 0 s dest
      (EVX_SUCCESS, r.1, r.2)

/-- The method `read_bits`: the status, the buffer, the caller's byte array
`data` and the caller's `*bit_count`. -/
def read_bits (param_check : Bool) (s : bitstream) (data : List Nat) (bit_count : Nat) :
    evx_status × bitstream × List Nat × Nat :=
  if param_check ∧ bit_count = 0 then (EVX_ERROR_INVALIDARG, s, data, bit_count)
  else
    let bit_count := if u32 (s.read_index + bit_count) > s.write_index then
        sub32 s.write_index s.read_index else bit_count
    let fast := decide (0 = s.read_index % 8 ∧ bit_count ≥ 8)
    let a := if fast then aligned_bit_copy param_check data 0 s.data_store s.read_index bit_count
      else (0, data)
    if fast ∧ a.1 = 0 then (EVX_ERROR_EXECUTION_FAILURE, s, a.2, bit_count)
    else
      let b := if a.1 < bit_count then
          let r := unaligned_bit_copy param_check a.2 a.1 s.data_store (u32 (s.read_index + a.1))
            (sub32 bit_count a.1)
          (u32 (a.1 + r.1), r.2)
        else a
      (EVX_SUCCESS, { s with read_index := u32 (s.read_index + b.1) }, b.2, bit_count)

/-- The method `read_bytes`: the status, the buffer, the caller's byte array
and the caller's `*byte_count`. -/
def read_bytes (param_check : Bool) (s : bitstream) (data : List Nat) (byte_count : Nat) :
    evx_status × bitstream × List Nat × Nat :=
  if param_check ∧ byte_count = 0 then (EVX_ERROR_INVALIDARG, s, data, byte_count)
  else
    let r := s.read_bits param_check data (u32 (byte_count <<< 3))
    (r.1, r.2.1, r.2.2.1, r.2.2.2 >>> 3)

end bitstream

/-- Bit `i` of a byte array, in the wire order: byte `i >> 3`, position
`i & 7` counted from the least significant bit. -/
def mem_bit (l : List Nat) (i : Nat) : Nat := (l.getD (i >>> 3) 0 >>> (i % 8)) &&& 1

/-- The first `n` bits of a byte array, in the wire order. -/
def mem_bits (l : List Nat) (n : Nat) : List Nat := (List.range n).map (mem_bit l)

/-- The eight bits of a byte, least significant first. -/
def byte_bits (v : Nat) : List Nat := (List.range 8).map (fun i => (v >>> i) &&& 1)

/-- A byte array holds bytes: every element is below `256`. -/
def bytes_ok (l : List Nat) : Prop := ∀ b ∈ l, b < 256

/-- An empty buffer of two bytes (16 bits). -/
def sixteen_bit_buffer : bitstream :=
  { read_index := 0, write_index := 0, data_capacity := 2, data_store := [0, 0] }

/-- A caller array of `2^29 + 1` bytes, all `0xFF`. -/
def large_source : List Nat := List.replicate 536870913 255

/-- A caller array of `2^29` zero bytes. -/
def large_out : List Nat := List.replicate 536870912 0

/-- A buffer of the largest capacity whose bit count fits `uint32`
(`2^29 - 1` bytes, `2^32 - 8` bits), completely written. -/
def max_full_buffer : bitstream :=
  { read_index := 0, write_index := 4294967288, data_capacity := 536870911,
    data_store := List.replicate 536870911 0 }

/-- The buffer `max_full_buffer` after all of it has been read. -/
def max_spent_buffer : bitstream :=
  { read_index := 4294967288, write_index := 4294967288, data_capacity := 536870911,
    data_store := List.replicate 536870911 0 }

/-- A buffer of two bytes, both written, the first one read. -/
def half_read_buffer : bitstream :=
  { read_index := 8, write_index := 16, data_capacity := 2, data_store := [1, 2] }

/-- The function `greater_multiple` of math.h. -/
def greater_multiple (value multiple : Nat) : Nat :=
  let mod := value % multiple
  if 0 ≠ mod then u32 (value + (multiple - mod)) else value

/-- The function `align` of math.h. -/
def align (value alignment : Nat) : Nat := greater_multiple value alignment

namespace bitstream

/-- The method `empty`. -/
def empty (s : bitstream) : bitstream := { s with write_index := 0, read_index := 0 }

/-- The method `clear`: `empty()`, then the store is released. -/
def clear (s : bitstream) : bitstream := { s.empty with data_store := [], data_capacity := 0 }

/-- The method `resize_capacity`: the returned size and the buffer. The new
array is not initialised by the code: `fresh i` is the byte found at index
`i` (`new` does not return a null pointer, so the check that follows the
allocation never fires). The check of `size_in_bits` is compiled in debug
builds only (`param_check`). -/
def resize_capacity (param_check : Bool) (s : bitstream) (size_in_bits : Nat)
    (fresh : Nat → Nat) : Nat × bitstream :=
  if param_check ∧ size_in_bits = 0 then (0, s)
  else
    let s := s.clear
    let byte_size := align size_in_bits 8 >>> 3
    (size_in_bits,
      { s with data_store := (List.range byte_size).map (fun i => u8 (fresh i)),
               data_capacity := byte_size })

end bitstream

/-- One call of a write method, with its arguments. -/
inductive write_call where
  | bit (value : Nat)
  | byte (value : Nat)
  | bits (data : List Nat) (bit_count : Nat)
  | bytes (data : List Nat) (byte_count : Nat)

namespace write_call

/-- The call made on a buffer. -/
def run (param_check : Bool) (s : bitstream) : write_call → evx_status × bitstream
  | bit v => s.write_bit v
  | byte v => s.write_byte v
  | bits data n => s.write_bits param_check data n
  | bytes data n => s.write_bytes param_check data n

/-- The bits a call is given, in stream order (a byte contributes bit 0
first). -/
def stream : write_call → List Nat
  | bit v => [v &&& 1]
  | byte v => byte_bits v
  | bits data n => mem_bits data n
  | bytes data n => mem_bits data (8 * n)

end write_call

/-- A sequence of write calls made on a buffer, each one after the previous
one succeeded: the final buffer, or `none` when a call fails. -/
def run_calls (param_check : Bool) : bitstream → List write_call → Option bitstream
  | s, [] => some s
  | s, c :: cs =>
    if (c.run param_check s).1 ≠ EVX_SUCCESS then none
    else run_calls param_check (c.run param_check s).2 cs

/-- The bit stream the inputs of a sequence of calls concatenate to. -/
def calls_stream (calls : List write_call) : List Nat := (calls.map write_call.stream).flatten

/-- A coder whose interval `[0, 16383]` is the lowest quarter of the range. -/
def quarter_coder : entropy_coder := { entropy_coder.construct with high := 16383 }

/-- One single-bit call on a buffer: `write_bit(value)` or `read_bit(&b)`. -/
inductive bit_call where
  | write (value : Nat)
  | read

namespace bit_call

/-- The call made on a buffer: its status and the buffer it leaves. -/
def run (s : bitstream) : bit_call → evx_status × bitstream
  | write v => s.write_bit v
  | read => ((s.read_bit 0).1, (s.read_bit 0).2.1)

end bit_call

/-- An interleaving of single-bit writes and reads, all of them successful:
the final buffer, or `none` when a call fails. -/
def run_bit_calls : bitstream → List bit_call → Option bitstream
  | s, [] => some s
  | s, k :: ks =>
    if (k.run s).1 ≠ EVX_SUCCESS then none else run_bit_calls (k.run s).2 ks

/-- The number of writes in an interleaving. -/
def count_writes : List bit_call → Nat
  | [] => 0
  | bit_call.write _ :: ks => count_writes ks + 1
  | bit_call.read :: ks => count_writes ks

/-- The number of reads in an interleaving. -/
def count_reads : List bit_call → Nat
  | [] => 0
  | bit_call.write _ :: ks => count_reads ks
  | bit_call.read :: ks => count_reads ks + 1

namespace bitstream

/-- The method `seek`. -/
def seek (s : bitstream) (bit_offset : Nat) : evx_status × bitstream :=
  let bit_offset := if bit_offset ≥ s.write_index then s.write_index else bit_offset
  (0, { s with read_index := bit_offset })

/-- The method `assign`, called with a non-null pointer to the byte array
`bytes`. As in `resize_capacity`, `fresh` is the content of the new array
before `memcpy` fills it, and the check of `size` is compiled in debug
builds only (`param_check`). -/
def assign (param_check : Bool) (s : bitstream) (bytes : List Nat) (size : Nat)
    (fresh : Nat → Nat) : evx_status × bitstream :=
  if param_check ∧ size = 0 then (EVX_ERROR_INVALIDARG, s)
  else
    let s := s.clear
    (EVX_SUCCESS,
      { s with data_store := memcpy ((List.range size).map (fun i => u8 (fresh i))) 0 bytes 0 size,
               read_index := 0,
               write_index := u32 (size <<< 3),
               data_capacity := size })

/-- The constructor `bitstream(uint32 size)`. It sets `data_store = 0` and
calls `resize_capacity`; `raw` holds what the other members contain before
the constructor runs. -/
def construct_sized (param_check : Bool) (raw : bitstream) (size : Nat) (fresh : Nat → Nat) :
    bitstream :=
  (resize_capacity param_check { raw with data_store := [] } size fresh).2

/-- The constructor `bitstream(void *bytes, uint32 size)`. It sets
`data_store = 0` and calls `assign`; `raw` holds what the other members
contain before the constructor runs. -/
def construct_bytes (param_check : Bool) (raw : bitstream) (bytes : List Nat) (size : Nat)
    (fresh : Nat → Nat) : bitstream :=
  (assign param_check { raw with data_store := [] } bytes size fresh).2

end bitstream

/-- A buffer of two bytes whose first byte has been written and read. -/
def spent_byte_buffer : bitstream :=
  { read_index := 8, write_index := 8, data_capacity := 2, data_store := [7, 0] }

/-- A coder whose interval is the single point `[0, 0]`. -/
def point_coder : entropy_coder := { entropy_coder.construct with high := 0 }

/-- The function `test_kernel` of test.cpp. -/
def test_kernel (value : Nat) : Nat := u8 (value % 4)

/-- A buffer as `bitstream a((uint32) 512)` constructs it (the fresh array
taken as zeroed). -/
def test_buffer : bitstream :=
  bitstream.construct_sized false bitstream.construct 512 (fun _ => 0)

/-- The source of `test_basic_cabac_rt`: the buffer after
`a.write_byte(test_kernel(i))` for `i = 0, ..., 31`. -/
def test_source : bitstream :=
  (List.range 32).foldl (fun s i => (s.write_byte (test_kernel i)).2) test_buffer

/-- An adaptive coder whose counts `[1, 2^32 - 1]` add up to `0` in
`uint32`. -/
def zero_divisor_coder : entropy_coder :=
  { entropy_coder.construct with history1 := 4294967295 }

/-- A decoder state one symbol before `zero_divisor_coder`: counts
`[1, 2^32 - 2]` and the window at the top of the interval. -/
def near_zero_divisor_coder : entropy_coder :=
  { entropy_coder.construct with history1 := 4294967294, value := 65535 }

/-- The state of a fixed coder with model `131070` after the priming on an
empty source and one `decode_symbol`. -/
def wide_model_decoded : entropy_coder :=
  (((entropy_coder.construct_model 131070).start_decode bitstream.construct).2.1.decode_symbol
    ((entropy_coder.construct_model 131070).start_decode bitstream.construct).2.1.value
    bitstream.construct).2.1

/-- A source buffer holding the sixteen bits of the bytes `5, 181`. -/
def skip_sample_source : bitstream :=
  { read_index := 0, write_index := 16, data_capacity := 2, data_store := [5, 181] }

/-- An empty buffer of five bytes (40 bits). -/
def forty_bit_buffer : bitstream :=
  { read_index := 0, write_index := 0, data_capacity := 5, data_store := [0, 0, 0, 0, 0] }

/-! ## Part 2: theorems -/

/-! ### Constants -/

theorem PRECISION_MAX_eq : EVX_ENTROPY_PRECISION_MAX = 65535 := by decide
theorem HALF_RANGE_eq : EVX_ENTROPY_HALF_RANGE = 32767 := by decide
theorem QTR_RANGE_eq : EVX_ENTROPY_QTR_RANGE = 16383 := by decide
theorem THREE_QTR_RANGE_eq : EVX_ENTROPY_3QTR_RANGE = 49149 := by decide
theorem MSB_MASK_eq : EVX_ENTROPY_MSB_MASK = 32768 := by decide
theorem PRECISION_eq : EVX_ENTROPY_PRECISION = 16 := rfl
theorem GB_eq : EVX_GB = 1073741824 := by decide

/-! ### Machine arithmetic -/

theorem u8_of_lt {x : Nat} (h : x < 256) : u8 x = x := Nat.mod_eq_of_lt h
theorem u32_of_lt {x : Nat} (h : x < 4294967296) : u32 x = x := Nat.mod_eq_of_lt h
theorem u64_of_lt {x : Nat} (h : x < 18446744073709551616) : u64 x = x := Nat.mod_eq_of_lt h

theorem sub32_of_le {a b : Nat} (hb : b ≤ a) (ha : a < 4294967296) : sub32 a b = a - b := by
  unfold sub32 u32
  rw [Nat.mod_eq_of_lt ha, Nat.mod_eq_of_lt (lt_of_le_of_lt hb ha)]
  omega

theorem and_mask16 (x : Nat) : x &&& 65535 = x % 65536 :=
  Nat.and_pow_two_sub_one_eq_mod x 16

theorem and_one (x : Nat) : x &&& 1 = x % 2 := Nat.and_one_is_mod x

theorem and_msb (x : Nat) : x &&& 32768 = (x / 32768 % 2) * 32768 := by
  have h := Nat.and_two_pow x 15
  have h2 : (x.testBit 15).toNat = x / 32768 % 2 := by
    rw [Nat.testBit_to_div_mod]
    rcases Nat.mod_two_eq_zero_or_one (x / 2 ^ 15) with h0 | h1
    · norm_num at h0 ⊢; simp [h0]
    · norm_num at h1 ⊢; simp [h1]
  rw [h2] at h
  simpa using h

theorem or_bit (a b : Nat) (hb : b < 2) : (2 * a) ||| b = 2 * a + b := by
  have := @Nat.mul_add_lt_is_or 1 b (by simpa using hb) a
  simpa using this.symm

/-! ### Bit store -/

theorem shr_and_one (x j : Nat) : (x >>> j) &&& 1 = (x.testBit j).toNat := by
  rw [Nat.and_one_is_mod, Nat.shiftRight_eq_div_pow, Nat.toNat_testBit]

theorem testBit_one (k : Nat) : (1 : Nat).testBit k = decide (k = 0) := by
  cases k with
  | zero => simp
  | succ n => simp [Nat.testBit_succ]

/-- The byte update of `write_bit` changes bit `b` to `v & 1` and no other bit. -/
theorem byte_update (data v b j : Nat) (hj : j < 8) :
    ((u8 ((data &&& not32 (1 <<< b)) ||| ((v &&& 1) <<< b))) >>> j) &&& 1
      = if j = b then v % 2 else (data >>> j) &&& 1 := by
  unfold u8 not32
  rw [shr_and_one, shr_and_one]
  have h256 : (256 : Nat) = 2 ^ 8 := by norm_num
  have hm : (4294967295 : Nat) = 2 ^ 32 - 1 := by norm_num
  rw [h256, hm]
  simp only [Nat.testBit_mod_two_pow, Nat.testBit_or, Nat.testBit_and, Nat.testBit_xor,
    Nat.testBit_two_pow_sub_one, Nat.testBit_shiftLeft, testBit_one]
  have hj32 : j < 32 := by omega
  by_cases hjb : j = b
  · subst hjb
    rcases Nat.mod_two_eq_zero_or_one v with h | h <;> simp [hj, hj32, h, Nat.testBit_zero]
  · by_cases hbj : b ≤ j
    · have h0 : ¬ (j - b = 0) := by omega
      simp [hj, hjb, hj32, hbj, h0]
    · simp [hj, hjb, hj32, hbj]

namespace bitstream

theorem bit_at_lt (s : bitstream) (i : Nat) : s.bit_at i < 2 := by
  unfold bit_at
  rw [and_one]
  omega

theorem query_capacity_eq {s : bitstream} (h : s.wf) : s.query_capacity = 8 * s.data_capacity := by
  unfold query_capacity
  obtain ⟨_, _, _, h4⟩ := h
  rw [u32_of_lt (by omega)]
  omega

theorem is_empty_iff {s : bitstream} (h : s.wf) : s.is_empty = true ↔ s.live = [] := by
  obtain ⟨_, h2, _, _⟩ := h
  unfold is_empty live
  simp
  omega

theorem live_length (s : bitstream) : s.live.length = s.write_index - s.read_index := by
  simp [live]

theorem getD_set_ne (l : List Nat) (i j a : Nat) (h : i ≠ j) :
    (l.set i a).getD j 0 = l.getD j 0 := by
  simp [List.getD_eq_getElem?_getD, List.getElem?_set, h]

theorem getD_set_eq (l : List Nat) (i a : Nat) (h : i < l.length) :
    (l.set i a).getD i 0 = a := by
  simp [List.getD_eq_getElem?_getD, List.getElem?_set, h]

/-- A write below capacity succeeds, advances the write cursor by one, stores
`v & 1` at the old write position and changes no other bit. -/
theorem write_bit_ok {s : bitstream} (h : s.wf) (hc : s.write_index < 8 * s.data_capacity)
    (v : Nat) :
    (s.write_bit v).1 = EVX_SUCCESS ∧ (s.write_bit v).2.wf ∧
      (s.write_bit v).2.read_index = s.read_index ∧
      (s.write_bit v).2.write_index = s.write_index + 1 ∧
      (s.write_bit v).2.data_capacity = s.data_capacity ∧
      (s.write_bit v).2.bit_at s.write_index = v % 2 ∧
      ∀ i, i ≠ s.write_index → (s.write_bit v).2.bit_at i = s.bit_at i := by
  have hq := query_capacity_eq h
  obtain ⟨h1, h2, h3, h4⟩ := h
  have hw : u32 (s.write_index + 1) = s.write_index + 1 := u32_of_lt (by omega)
  have hnot : ¬ (u32 (s.write_index + 1) > s.query_capacity) := by rw [hw, hq]; omega
  have hb8 : u8 (s.write_index % 8) = s.write_index % 8 := u8_of_lt (by omega)
  have hlen : s.write_index >>> 3 < s.data_store.length := by
    rw [h1, Nat.shiftRight_eq_div_pow]; norm_num; omega
  unfold write_bit
  rw [if_neg hnot]
  refine ⟨rfl, ⟨by simp [h1], by simp [hw]; omega, by simp [hw]; omega, h4⟩, rfl, by simp [hw],
    rfl, ?_, ?_⟩
  · simp only [bit_at]
    rw [getD_set_eq _ _ _ hlen, hb8, byte_update _ _ _ _ (by omega)]
    simp
  · intro i hi
    simp only [bit_at]
    by_cases hby : s.write_index >>> 3 = i >>> 3
    · rw [← hby, getD_set_eq _ _ _ hlen, hb8, byte_update _ _ _ _ (by omega)]
      have : i % 8 ≠ s.write_index % 8 := by
        intro hmod
        apply hi
        rw [Nat.shiftRight_eq_div_pow, Nat.shiftRight_eq_div_pow] at hby
        norm_num at hby
        omega
      rw [if_neg this]
    · rw [getD_set_ne _ _ _ _ hby]

/-- A write at capacity is refused and changes nothing. -/
theorem write_bit_full {s : bitstream} (h : s.wf) (hc : s.write_index = 8 * s.data_capacity)
    (v : Nat) : s.write_bit v = (EVX_ERROR_CAPACITY_LIMIT, s) := by
  have hq := query_capacity_eq h
  obtain ⟨h1, h2, h3, h4⟩ := h
  have hw : u32 (s.write_index + 1) = s.write_index + 1 := u32_of_lt (by omega)
  unfold write_bit
  rw [if_pos (by rw [hw, hq]; omega)]

theorem live_congr {s t : bitstream} (hr : t.read_index = s.read_index)
    (hw : t.write_index = s.write_index)
    (hb : ∀ i, i < s.write_index → t.bit_at i = s.bit_at i) : t.live = s.live := by
  unfold live
  rw [hr, hw]
  apply List.map_congr_left
  intro i hi
  rw [List.mem_range'_1] at hi
  exact hb i (by omega)

theorem live_write_bit {s : bitstream} (h : s.wf) (hc : s.write_index < 8 * s.data_capacity)
    (v : Nat) : (s.write_bit v).2.live = s.live ++ [v % 2] := by
  obtain ⟨_, _, hr, hw, _, hbit, hframe⟩ := write_bit_ok h hc v
  obtain ⟨h1, h2, h3, h4⟩ := h
  unfold live
  rw [hr, hw, show s.write_index + 1 - s.read_index = (s.write_index - s.read_index) + 1 by omega,
    List.range'_concat, List.map_append]
  congr 1
  · apply List.map_congr_left
    intro i hi
    rw [List.mem_range'_1] at hi
    exact hframe i (by omega)
  · simp only [List.map_cons, List.map_nil, mul_one]
    rw [show s.read_index + 1 * (s.write_index - s.read_index) = s.write_index by omega, hbit]

/-- A read from a non-empty buffer succeeds, advances the read cursor by
one and replaces the low bit of `dest` by the stored bit. -/
theorem read_bit_ok {s : bitstream} (h : s.wf) (hne : s.read_index < s.write_index)
    (dest : Nat) :
    s.read_bit dest = (EVX_SUCCESS, { s with read_index := s.read_index + 1 },
      (dest &&& 254) ||| s.bit_at s.read_index) := by
  obtain ⟨h1, h2, h3, h4⟩ := h
  have hr : u32 (s.read_index + 1) = s.read_index + 1 := u32_of_lt (by omega)
  have hb8 : u8 (s.read_index % 8) = s.read_index % 8 := u8_of_lt (by omega)
  unfold read_bit
  rw [if_neg (by omega), hr, hb8]
  rfl

theorem live_cons {s : bitstream} (hne : s.read_index < s.write_index) :
    s.live = s.bit_at s.read_index :: ({ s with read_index := s.read_index + 1 } : bitstream).live := by
  unfold live
  simp only
  rw [show s.write_index - s.read_index = (s.write_index - (s.read_index + 1)) + 1 by omega,
    List.range'_succ]
  simp [bit_at]

theorem wf_advance {s : bitstream} (h : s.wf) (hne : s.read_index < s.write_index) :
    ({ s with read_index := s.read_index + 1 } : bitstream).wf := by
  obtain ⟨h1, h2, h3, h4⟩ := h
  exact ⟨h1, by simp; omega, h3, h4⟩

theorem write_list_ok : ∀ (bits : List Nat) (s : bitstream), s.wf → bits.length ≤ s.free_bits →
    (s.write_list bits).wf ∧ (s.write_list bits).live = s.live ++ bits.map (· % 2) ∧
      (s.write_list bits).read_index = s.read_index ∧
      (s.write_list bits).write_index = s.write_index + bits.length ∧
      (s.write_list bits).data_capacity = s.data_capacity := by
  intro bits
  induction bits with
  | nil => intro s h _; simp [write_list, h]
  | cons b bs ih =>
    intro s h hlen
    have hc : s.write_index < 8 * s.data_capacity := by
      unfold free_bits at hlen; simp at hlen; omega
    obtain ⟨_, hwf, hr, hw, hcap, _, _⟩ := write_bit_ok h hc b
    have hl := live_write_bit h hc b
    have hfree : bs.length ≤ (s.write_bit b).2.free_bits := by
      unfold free_bits at hlen ⊢; simp at hlen; rw [hw, hcap]; omega
    obtain ⟨i1, i2, i3, i4, i5⟩ := ih _ hwf hfree
    simp only [write_list]
    refine ⟨i1, ?_, by rw [i3, hr], by rw [i4, hw]; simp; omega, by rw [i5, hcap]⟩
    rw [i2, hl]
    simp

theorem write_list_append (s : bitstream) (a b : List Nat) :
    s.write_list (a ++ b) = (s.write_list a).write_list b := by
  induction a generalizing s with
  | nil => rfl
  | cons x xs ih => simp [write_list, ih]

theorem free_bits_write_list {s : bitstream} (h : s.wf) {bits : List Nat}
    (hlen : bits.length ≤ s.free_bits) :
    (s.write_list bits).free_bits = s.free_bits - bits.length := by
  obtain ⟨_, _, _, hw, hc⟩ := write_list_ok bits s h hlen
  unfold free_bits at *
  rw [hw, hc]; omega

end bitstream

namespace entropy_coder

theorem flush_inverse_loop_ok (v : Nat) : ∀ (n : Nat) (s : bitstream), s.wf → n ≤ s.free_bits →
    flush_inverse_loop v n s = (EVX_SUCCESS, s.write_list (List.replicate n v)) := by
  intro n
  induction n with
  | zero => intro s _ _; rfl
  | succ n ih =>
    intro s h hn
    have hc : s.write_index < 8 * s.data_capacity := by
      unfold bitstream.free_bits at hn; omega
    obtain ⟨hst, hwf, hr, hw, hcap, _, _⟩ := bitstream.write_bit_ok h hc v
    have hfree : n ≤ (s.write_bit v).2.free_bits := by
      unfold bitstream.free_bits at hn ⊢; rw [hw, hcap]; omega
    simp only [flush_inverse_loop, hst, ne_eq, not_true_eq_false, if_false, List.replicate_succ,
      bitstream.write_list]
    exact ih _ hwf hfree

theorem msb_low {x : Nat} (h : x < 32768) : x &&& EVX_ENTROPY_MSB_MASK = 0 := by
  rw [MSB_MASK_eq, and_msb]; omega

theorem msb_high {x : Nat} (h1 : 32768 ≤ x) (h2 : x ≤ 65535) :
    x &&& EVX_ENTROPY_MSB_MASK = 32768 := by
  rw [MSB_MASK_eq, and_msb]; omega

theorem shift_bounds_eq {c : entropy_coder} (hl : c.low < 32768) (hh : c.high < 32768) :
    c.shift_bounds = { c with low := 2 * c.low, high := 2 * c.high + 1 } := by
  unfold shift_bounds
  rw [PRECISION_MAX_eq, and_mask16, and_mask16, Nat.or_zero]
  have e1 : u32 (c.high <<< 1) % 65536 = 2 * c.high := by unfold u32; omega
  have e2 : u32 (c.low <<< 1) % 65536 = 2 * c.low := by unfold u32; omega
  rw [e1, e2, or_bit _ _ (by omega)]

theorem flush_inverse_bits_ok (c : entropy_coder) (m : Nat) (hm : m < 2) (s : bitstream)
    (h : s.wf) (hn : c.e3_count ≤ s.free_bits) :
    c.flush_inverse_bits m s =
      (EVX_SUCCESS, { c with e3_count := 0 }, s.write_list (List.replicate c.e3_count (1 - m))) := by
  unfold flush_inverse_bits
  have hv : (if m = 0 then 1 else 0) = 1 - m := by
    rcases (show m = 0 ∨ m = 1 by omega) with h | h <;> simp [h]
  simp only [hv]
  rw [flush_inverse_loop_ok _ _ _ h hn]
  simp

theorem iter_e1 {c : entropy_coder} (hv : c.valid) (hh : c.high < 32768) {dest : bitstream}
    (hd : dest.wf) (hn : c.e3_count + 1 ≤ dest.free_bits) :
    encode_scaling_iter c dest = some (EVX_SUCCESS,
      { c with low := 2 * c.low, high := 2 * c.high + 1, e3_count := 0 },
      dest.write_list (0 :: List.replicate c.e3_count 1)) := by
  obtain ⟨hlh, hmax⟩ := hv
  have hl : c.low < 32768 := by omega
  have hc : dest.write_index < 8 * dest.data_capacity := by
    unfold bitstream.free_bits at hn; omega
  obtain ⟨hst, hwf, hr, hw, hcap, _, _⟩ := bitstream.write_bit_ok hd hc 0
  have hfree : c.e3_count ≤ (dest.write_bit 0).2.free_bits := by
    unfold bitstream.free_bits at hn ⊢; rw [hw, hcap]; omega
  unfold encode_scaling_iter
  rw [msb_low hh, msb_low hl]
  simp only [if_true, Nat.zero_shiftRight, show u8 0 = 0 from rfl, Nat.mul_zero, Nat.add_zero,
    show u32 0 = 0 from rfl]
  rw [sub32_of_le (Nat.zero_le _) (by omega), sub32_of_le (Nat.zero_le _) (by omega)]
  simp only [Nat.sub_zero, hst, ne_eq, not_true_eq_false, if_false]
  rw [flush_inverse_bits_ok _ 0 (by omega) _ hwf hfree]
  simp only [ne_eq, not_true_eq_false, if_false]
  rw [shift_bounds_eq (by simpa using hl) (by simpa using hh)]
  rfl

theorem iter_e2 {c : entropy_coder} (hv : c.valid) (hl : 32768 ≤ c.low) {dest : bitstream}
    (hd : dest.wf) (hn : c.e3_count + 1 ≤ dest.free_bits) :
    encode_scaling_iter c dest = some (EVX_SUCCESS,
      { c with low := 2 * (c.low - 32768), high := 2 * (c.high - 32768) + 1, e3_count := 0 },
      dest.write_list (1 :: List.replicate c.e3_count 0)) := by
  obtain ⟨hlh, hmax⟩ := hv
  have hc : dest.write_index < 8 * dest.data_capacity := by
    unfold bitstream.free_bits at hn; omega
  obtain ⟨hst, hwf, hr, hw, hcap, _, _⟩ := bitstream.write_bit_ok hd hc 1
  have hfree : c.e3_count ≤ (dest.write_bit 1).2.free_bits := by
    unfold bitstream.free_bits at hn ⊢; rw [hw, hcap]; omega
  unfold encode_scaling_iter
  rw [msb_high (by omega) hmax, msb_high hl (by omega)]
  have hmsb : u8 (32768 >>> (EVX_ENTROPY_PRECISION - 1)) = 1 := by decide
  have hsub : u32 (u32 (EVX_ENTROPY_HALF_RANGE * 1) + 1) = 32768 := by decide
  simp only [if_true, hmsb, hsub]
  rw [sub32_of_le hl (by omega), sub32_of_le (by omega : 32768 ≤ c.high) (by omega)]
  simp only [hst, ne_eq, not_true_eq_false, if_false]
  rw [flush_inverse_bits_ok { c with low := c.low - 32768, high := c.high - 32768 } 1
    (by omega) _ hwf hfree]
  simp only [ne_eq, not_true_eq_false, if_false]
  rw [shift_bounds_eq (by simp; omega) (by simp; omega)]
  rfl

theorem iter_e3 {c : entropy_coder} (hv : c.valid) (h1 : 32768 ≤ c.high) (h2 : c.low < 32768)
    (h3 : c.high ≤ 49149) (h4 : 16384 ≤ c.low) (hk : c.e3_count + 1 < 4294967296)
    (dest : bitstream) :
    encode_scaling_iter c dest = some (EVX_SUCCESS,
      { c with low := 2 * (c.low - 16384), high := 2 * (c.high - 16384) + 1,
               e3_count := c.e3_count + 1 }, dest) := by
  obtain ⟨hlh, hmax⟩ := hv
  unfold encode_scaling_iter
  rw [msb_high h1 hmax, msb_low h2, THREE_QTR_RANGE_eq, QTR_RANGE_eq]
  simp only [show ¬ ((32768 : Nat) = 0) by decide, if_false]
  rw [if_pos ⟨h3, by omega⟩]
  rw [sub32_of_le (by omega) (by omega), sub32_of_le (by omega) (by omega), u32_of_lt hk]
  rw [shift_bounds_eq (by simp; omega) (by simp; omega)]

theorem iter_stop {c : entropy_coder} (hv : c.valid) (h1 : 32768 ≤ c.high) (h2 : c.low < 32768)
    (h3 : ¬ (c.high ≤ 49149 ∧ 16384 ≤ c.low)) (dest : bitstream) :
    encode_scaling_iter c dest = none := by
  obtain ⟨hlh, hmax⟩ := hv
  unfold encode_scaling_iter
  rw [msb_high h1 hmax, msb_low h2, THREE_QTR_RANGE_eq, QTR_RANGE_eq]
  simp only [show ¬ ((32768 : Nat) = 0) by decide, if_false]
  rw [if_neg (by omega)]

theorem width_step {lo hi lo1 hi1 j : Nat} (hj : 0 < j)
    (hw : 65536 ≤ (hi - lo + 1) * 2 ^ j) (e : hi1 - lo1 + 1 = 2 * (hi - lo + 1)) :
    65536 ≤ (hi1 - lo1 + 1) * 2 ^ (j - 1) := by
  obtain ⟨i, rfl⟩ : ∃ i, j = i + 1 := ⟨j - 1, by omega⟩
  rw [e]
  simp only [Nat.add_sub_cancel]
  rw [pow_succ] at hw
  calc 65536 ≤ (hi - lo + 1) * (2 ^ i * 2) := hw
    _ = 2 * (hi - lo + 1) * 2 ^ i := by ring

/-- On a valid interval with room in the destination and in `e3_count`, the
method `resolve_encode_scaling` succeeds and does what `scaling_out` says. -/
theorem scaling_refines : ∀ (fuel j : Nat) (c : entropy_coder) (dest : bitstream),
    c.valid → 65536 ≤ (c.high - c.low + 1) * 2 ^ j → j < fuel →
    c.e3_count + j < 4294967296 → dest.wf →
    (scaling_out fuel c).2.length ≤ dest.free_bits →
    resolve_encode_scaling fuel c dest =
      some (EVX_SUCCESS, (scaling_out fuel c).1, dest.write_list (scaling_out fuel c).2) := by
  intro fuel
  induction fuel with
  | zero => intro j c dest _ _ hj; omega
  | succ fuel ih =>
    intro j c dest hv hw hj hk hd hn
    have hv' := hv
    obtain ⟨hlh, hmax⟩ := hv'
    have hj0 : (c.high < 32768 ∨ 32768 ≤ c.low ∨ (c.high ≤ 49149 ∧ 16384 ≤ c.low)) → 0 < j := by
      intro h
      rcases Nat.eq_zero_or_pos j with h0 | h0
      · subst h0; simp at hw; omega
      · exact h0
    unfold resolve_encode_scaling
    by_cases c1 : c.high < 32768
    · have hjp := hj0 (Or.inl c1)
      simp only [scaling_out, if_pos c1] at hn ⊢
      simp only [List.length_cons, List.length_append, List.length_replicate] at hn
      rw [iter_e1 hv c1 hd (by omega)]
      simp only [ne_eq, not_true_eq_false, if_false]
      have hd1 := bitstream.write_list_ok (0 :: List.replicate c.e3_count 1) dest hd
        (by simp; omega)
      have hf1 := bitstream.free_bits_write_list hd
        (show (0 :: List.replicate c.e3_count 1).length ≤ dest.free_bits by simp; omega)
      rw [ih (j - 1) _ _ ⟨by simp; omega, by simp; omega⟩
        (width_step hjp hw (by simp only; omega))
        (by omega) (by simp; omega) hd1.1 (by rw [hf1]; simp; omega)]
      rw [← bitstream.write_list_append]
      simp
    · by_cases c2 : 32768 ≤ c.low
      · have hjp := hj0 (Or.inr (Or.inl c2))
        simp only [scaling_out, if_neg c1, if_pos c2] at hn ⊢
        simp only [List.length_cons, List.length_append, List.length_replicate] at hn
        rw [iter_e2 hv c2 hd (by omega)]
        simp only [ne_eq, not_true_eq_false, if_false]
        have hd1 := bitstream.write_list_ok (1 :: List.replicate c.e3_count 0) dest hd
          (by simp; omega)
        have hf1 := bitstream.free_bits_write_list hd
          (show (1 :: List.replicate c.e3_count 0).length ≤ dest.free_bits by simp; omega)
        rw [ih (j - 1) _ _ ⟨by simp; omega, by simp; omega⟩
          (width_step hjp hw (by simp only; omega))
          (by omega) (by simp; omega) hd1.1 (by rw [hf1]; simp; omega)]
        rw [← bitstream.write_list_append]
        simp
      · by_cases c3 : c.high ≤ 49149 ∧ 16384 ≤ c.low
        · have hjp := hj0 (Or.inr (Or.inr c3))
          simp only [scaling_out, if_neg c1, if_neg c2, if_pos c3] at hn ⊢
          rw [iter_e3 hv (by omega) (by omega) c3.1 c3.2 (by omega)]
          simp only [ne_eq, not_true_eq_false, if_false]
          exact ih (j - 1) _ _ ⟨by simp; omega, by simp; omega⟩
            (width_step hjp hw (by simp only; omega))
            (by omega) (by simp; omega) hd hn
        · simp only [scaling_out, if_neg c1, if_neg c2, if_neg c3] at hn ⊢
          rw [iter_stop hv (by omega) (by omega) c3]
          rfl

end entropy_coder

/-! ### The decoder window over a bit list -/

theorem win_succ : ∀ (n : Nat) (s : List Nat), win (n + 1) s = 2 * win n s + s.getD n 0 := by
  intro n
  induction n with
  | zero => intro s; cases s <;> simp [win]
  | succ n ih =>
    intro s
    cases s with
    | nil => simp [win]
    | cons b t =>
      rw [win, ih t, win]
      simp only [List.getD_cons_succ]
      rw [pow_succ]
      ring

theorem getD_lt_two {s : List Nat} (h : ∀ b ∈ s, b < 2) (n : Nat) : s.getD n 0 < 2 := by
  rw [List.getD_eq_getElem?_getD]
  cases hg : s[n]? with
  | none => simp
  | some x =>
    simp
    exact h x (List.mem_iff_getElem?.mpr ⟨n, hg⟩)

theorem win_half {s : List Nat} (h : ∀ b ∈ s, b < 2) (n : Nat) : win n s = win (n + 1) s / 2 := by
  have := win_succ n s
  have := getD_lt_two h n
  omega

theorem win15_half {s : List Nat} (h : ∀ b ∈ s, b < 2) : win 15 s = win 16 s / 2 :=
  win_half h 15

theorem win14_half {s : List Nat} (h : ∀ b ∈ s, b < 2) : win 14 s = win 15 s / 2 :=
  win_half h 14

theorem win_lt {s : List Nat} (h : ∀ b ∈ s, b < 2) : ∀ n, win n s < 2 ^ n := by
  intro n
  induction n with
  | zero => simp [win]
  | succ n ih =>
    have := win_succ n s
    have := getD_lt_two h n
    rw [pow_succ]
    omega

theorem win_append_left : ∀ (n : Nat) (w r : List Nat), n ≤ w.length → win n (w ++ r) = win n w := by
  intro n
  induction n with
  | zero => intro w r _; simp [win]
  | succ n ih =>
    intro w r h
    cases w with
    | nil => simp at h
    | cons b t =>
      show b * 2 ^ n + win n (t ++ r) = b * 2 ^ n + win n t
      rw [ih t r (by simpa using h)]

theorem win_append_nil_pad : ∀ (n : Nat) (w p : List Nat), (∀ b ∈ p, b = 0) →
    win n (w ++ p) = win n w := by
  intro n
  induction n with
  | zero => intro w p _; simp [win]
  | succ n ih =>
    intro w p h
    cases w with
    | nil =>
      cases p with
      | nil => rfl
      | cons b t =>
        have hb : b = 0 := h b (by simp)
        have := ih [] t (fun x hx => h x (by simp [hx]))
        simp only [List.nil_append] at this
        show b * 2 ^ n + win n t = 0
        rw [this, hb]
        cases n <;> simp [win]
    | cons b t =>
      show b * 2 ^ n + win n (t ++ p) = b * 2 ^ n + win n t
      rw [ih t p h]

namespace entropy_coder

theorem win16_cons (m : Nat) (s : List Nat) : win 16 (m :: s) = m * 32768 + win 15 s := by
  simp [win]

theorem win15_cons (m : Nat) (s : List Nat) : win 15 (m :: s) = m * 16384 + win 14 s := by
  simp [win]

theorem promise_flush {c : entropy_coder} (h : c.stopped) :
    promise c.flush_last c c.flush_out := by
  obtain ⟨h1, h2, h3, h4⟩ := h
  unfold promise flush_out flush_last
  by_cases hl : c.low < 16383
  · simp only [if_pos hl]
    refine ⟨0, [1], by omega, by simp, by simp [List.replicate_succ'], ?_⟩
    intro pad hp
    have hb : ∀ b ∈ pad, b < 2 := fun b hb => (hp b hb).1
    have := win_lt hb 14
    rw [win16_cons, List.cons_append, win15_cons]
    simp only [List.nil_append]
    omega
  · simp only [if_neg hl]
    refine ⟨1, [0], by omega, by simp, by simp [List.replicate_succ'], ?_⟩
    intro pad hp
    have hz : ∀ b ∈ pad, b = 0 := fun b hb => by simpa using (hp b hb).2
    have hw : win 14 pad = 0 := by
      have := win_append_nil_pad 14 [] pad hz
      simpa [win] using this
    rw [win16_cons, List.cons_append, win15_cons]
    simp only [List.nil_append, hw]
    omega

theorem promise_mono {L : Nat} {c d : entropy_coder} {o : List Nat} (hk : d.e3_count = c.e3_count)
    (hl : c.low ≤ d.low) (hh : d.high ≤ c.high) (h : promise L d o) : promise L c o := by
  obtain ⟨m, t, hm, ht, ho, hb⟩ := h
  refine ⟨m, t, hm, ht, by rw [← hk]; exact ho, ?_⟩
  intro pad hp
  have := hb pad hp
  omega

theorem promise_scaling : ∀ (fuel : Nat) (c : entropy_coder), c.valid → ∀ (L : Nat) (o : List Nat),
    promise L (scaling_out fuel c).1 o → promise L c ((scaling_out fuel c).2 ++ o) := by
  intro fuel
  induction fuel with
  | zero => intro c _ L o h; simpa [scaling_out] using h
  | succ fuel ih =>
    intro c hv L o h
    obtain ⟨hlh, hmax⟩ := hv
    by_cases c1 : c.high < 32768
    · simp only [scaling_out, if_pos c1] at h ⊢
      obtain ⟨m, t, hm, ht, ho, hb⟩ := ih _ ⟨by simp; omega, by simp; omega⟩ L o h
      simp only [List.replicate_zero, List.nil_append] at ho hb
      refine ⟨0, m :: t, by omega, ?_, by simp [ho], ?_⟩
      · intro b hb'
        rcases List.mem_cons.mp hb' with rfl | hb'
        · exact hm
        · exact ht b hb'
      · intro pad hp
        have hbits : ∀ b ∈ m :: (t ++ pad), b < 2 := by
          intro b hb'
          rcases List.mem_cons.mp hb' with rfl | hb'
          · exact hm
          · rcases List.mem_append.mp hb' with h' | h'
            · exact ht b h'
            · exact (hp b h').1
        have e := win15_half hbits
        have := hb pad hp
        rw [win16_cons, List.cons_append, e]
        omega
    · by_cases c2 : 32768 ≤ c.low
      · simp only [scaling_out, if_neg c1, if_pos c2] at h ⊢
        obtain ⟨m, t, hm, ht, ho, hb⟩ := ih _ ⟨by simp; omega, by simp; omega⟩ L o h
        simp only [List.replicate_zero, List.nil_append] at ho hb
        refine ⟨1, m :: t, by omega, ?_, by simp [ho], ?_⟩
        · intro b hb'
          rcases List.mem_cons.mp hb' with rfl | hb'
          · exact hm
          · exact ht b hb'
        · intro pad hp
          have hbits : ∀ b ∈ m :: (t ++ pad), b < 2 := by
            intro b hb'
            rcases List.mem_cons.mp hb' with rfl | hb'
            · exact hm
            · rcases List.mem_append.mp hb' with h' | h'
              · exact ht b h'
              · exact (hp b h').1
          have e := win15_half hbits
          have := hb pad hp
          rw [win16_cons, List.cons_append, e]
          omega
      · by_cases c3 : c.high ≤ 49149 ∧ 16384 ≤ c.low
        · simp only [scaling_out, if_neg c1, if_neg c2, if_pos c3] at h ⊢
          obtain ⟨m, t, hm, ht, ho, hb⟩ := ih _ ⟨by simp; omega, by simp; omega⟩ L o h
          simp only at ho hb
          refine ⟨m, (1 - m) :: t, hm, ?_, ?_, ?_⟩
          · intro b hb'
            rcases List.mem_cons.mp hb' with rfl | hb'
            · omega
            · exact ht b hb'
          · rw [ho, List.replicate_succ']
            simp
          · intro pad hp
            have hbits : ∀ b ∈ t ++ pad, b < 2 := by
              intro b hb'
              rcases List.mem_append.mp hb' with h' | h'
              · exact ht b h'
              · exact (hp b h').1
            have e := win14_half hbits
            have hlt := win_lt hbits 15
            have := hb pad hp
            rw [win16_cons] at this
            rw [win16_cons, List.cons_append, win15_cons, e]
            rcases (show m = 0 ∨ m = 1 by omega) with rfl | rfl <;> omega
        · simpa [scaling_out, if_neg c1, if_neg c2, if_neg c3] using h

/-- The scaling loop touches only `low`, `high` and `e3_count`. -/
theorem scaling_out_fields : ∀ (fuel : Nat) (c : entropy_coder),
    (scaling_out fuel c).1.adaptive = c.adaptive ∧ (scaling_out fuel c).1.model = c.model ∧
    (scaling_out fuel c).1.history0 = c.history0 ∧ (scaling_out fuel c).1.history1 = c.history1 ∧
    (scaling_out fuel c).1.value = c.value ∧ (scaling_out fuel c).1.mid = c.mid := by
  intro fuel
  induction fuel with
  | zero => intro c; simp [scaling_out]
  | succ fuel ih =>
    intro c
    unfold scaling_out
    split_ifs
    · exact ih _
    · exact ih _
    · exact ih _
    · simp

/-- With enough fuel the loop ends on a stopped interval, and every
iteration is paid for by one emitted or one pending bit: at most `j` when
the width times `2 ^ j` reaches the full range. -/
theorem scaling_out_stopped : ∀ (fuel j : Nat) (c : entropy_coder),
    c.valid → 65536 ≤ (c.high - c.low + 1) * 2 ^ j → j < fuel →
    (scaling_out fuel c).1.stopped ∧
      (scaling_out fuel c).2.length + (scaling_out fuel c).1.e3_count ≤ c.e3_count + j ∧
      (∀ b ∈ (scaling_out fuel c).2, b < 2) := by
  intro fuel
  induction fuel with
  | zero => intro j c _ _ hj; omega
  | succ fuel ih =>
    intro j c hv hw hj
    obtain ⟨hlh, hmax⟩ := hv
    have hj0 : (c.high < 32768 ∨ 32768 ≤ c.low ∨ (c.high ≤ 49149 ∧ 16384 ≤ c.low)) → 0 < j := by
      intro h
      rcases Nat.eq_zero_or_pos j with h0 | h0
      · subst h0; simp at hw; omega
      · exact h0
    by_cases c1 : c.high < 32768
    · have hjp := hj0 (Or.inl c1)
      simp only [scaling_out, if_pos c1]
      obtain ⟨i1, i2, i3⟩ := ih (j - 1) { c with low := 2 * c.low, high := 2 * c.high + 1, e3_count := 0 }
        ⟨by simp; omega, by simp; omega⟩ (width_step hjp hw (by simp only; omega)) (by omega)
      refine ⟨i1, ?_, ?_⟩
      · simp only [List.length_cons, List.length_append, List.length_replicate] at i2 ⊢
        omega
      · intro b hb
        rcases List.mem_cons.mp hb with rfl | hb
        · omega
        · rcases List.mem_append.mp hb with h' | h'
          · rw [List.eq_of_mem_replicate h']; omega
          · exact i3 b h'
    · by_cases c2 : 32768 ≤ c.low
      · have hjp := hj0 (Or.inr (Or.inl c2))
        simp only [scaling_out, if_neg c1, if_pos c2]
        obtain ⟨i1, i2, i3⟩ := ih (j - 1)
          { c with low := 2 * (c.low - 32768), high := 2 * (c.high - 32768) + 1, e3_count := 0 }
          ⟨by simp; omega, by simp; omega⟩ (width_step hjp hw (by simp only; omega)) (by omega)
        refine ⟨i1, ?_, ?_⟩
        · simp only [List.length_cons, List.length_append, List.length_replicate] at i2 ⊢
          omega
        · intro b hb
          rcases List.mem_cons.mp hb with rfl | hb
          · omega
          · rcases List.mem_append.mp hb with h' | h'
            · rw [List.eq_of_mem_replicate h']; omega
            · exact i3 b h'
      · by_cases c3 : c.high ≤ 49149 ∧ 16384 ≤ c.low
        · have hjp := hj0 (Or.inr (Or.inr c3))
          simp only [scaling_out, if_neg c1, if_neg c2, if_pos c3]
          obtain ⟨i1, i2, i3⟩ := ih (j - 1)
            { c with low := 2 * (c.low - 16384), high := 2 * (c.high - 16384) + 1,
                     e3_count := c.e3_count + 1 }
            ⟨by simp; omega, by simp; omega⟩ (width_step hjp hw (by simp only; omega)) (by omega)
          refine ⟨i1, ?_, i3⟩
          simp only at i2
          omega
        · simp only [scaling_out, if_neg c1, if_neg c2, if_neg c3]
          refine ⟨⟨by omega, by omega, hmax, c3⟩, by simp, by simp⟩

theorem valid_width16 (c : entropy_coder) : 65536 ≤ (c.high - c.low + 1) * 2 ^ 16 := by
  have : 1 ≤ c.high - c.low + 1 := by omega
  calc 65536 = 1 * 2 ^ 16 := by norm_num
    _ ≤ (c.high - c.low + 1) * 2 ^ 16 := Nat.mul_le_mul_right _ this

theorem stopped_valid {c : entropy_coder} (h : c.stopped) : c.valid :=
  ⟨by obtain ⟨h1, h2, _, _⟩ := h; omega, h.2.2.1⟩

/-- The split point of `resolve_model` on a valid interval: inside the
interval, and strictly below `high` when the interval has two points. -/
theorem resolve_model_mid {c : entropy_coder} (hv : c.valid) (hm : c.model_ok)
    (hh : c.history0 + c.history1 < 4294967296) :
    c.low ≤ c.resolve_model.mid ∧ c.resolve_model.mid ≤ c.high ∧
      (c.low < c.high → c.resolve_model.mid < c.high) := by
  obtain ⟨hlh, hmax⟩ := hv
  unfold resolve_model
  simp only
  rw [sub32_of_le hlh (by omega)]
  unfold model_ok at hm
  obtain ⟨r, hr⟩ : ∃ r, c.high - c.low = r := ⟨_, rfl⟩
  rw [hr]
  have hr1 : r < 65536 := by omega
  by_cases ha : c.adaptive = true
  · rw [if_pos ha] at hm
    rw [if_pos ha, u32_of_lt hh]
    have h2 : c.history0 < 4294967296 := by omega
    have hprod : r * c.history0 < 18446744073709551616 := by
      calc r * c.history0 < 65536 * 4294967296 := Nat.mul_lt_mul'' hr1 h2
        _ < 18446744073709551616 := by norm_num
    rw [u64_of_lt hprod]
    have hle : r * c.history0 / (c.history0 + c.history1) ≤ r := by
      apply Nat.div_le_of_le_mul
      calc r * c.history0 = c.history0 * r := Nat.mul_comm _ _
        _ ≤ (c.history0 + c.history1) * r := Nat.mul_le_mul_right r (Nat.le_add_right _ _)
    have hlt : 0 < r → r * c.history0 / (c.history0 + c.history1) < r := by
      intro h
      apply Nat.div_lt_of_lt_mul
      calc r * c.history0 = c.history0 * r := Nat.mul_comm _ _
        _ < (c.history0 + c.history1) * r :=
          Nat.mul_lt_mul_of_pos_right (Nat.lt_add_of_pos_right hm.2) h
    generalize r * c.history0 / (c.history0 + c.history1) = q at hle hlt ⊢
    rw [u32_of_lt (by omega)]
    refine ⟨by omega, by omega, fun h => ?_⟩
    have := hlt (by omega)
    omega
  · rw [if_neg ha] at hm
    rw [if_neg ha, PRECISION_MAX_eq]
    have h2 : c.model < 65536 := by omega
    have hprod : r * c.model < 18446744073709551616 := by
      calc r * c.model < 65536 * 65536 := Nat.mul_lt_mul'' hr1 h2
        _ < 18446744073709551616 := by norm_num
    rw [u64_of_lt hprod]
    have hle : r * c.model / 65535 ≤ r := by
      apply Nat.div_le_of_le_mul
      calc r * c.model = c.model * r := Nat.mul_comm _ _
        _ ≤ 65535 * r := Nat.mul_le_mul_right r (by omega)
    have hlt : 0 < r → r * c.model / 65535 < r := by
      intro h
      apply Nat.div_lt_of_lt_mul
      calc r * c.model = c.model * r := Nat.mul_comm _ _
        _ < 65535 * r := Nat.mul_lt_mul_of_pos_right (by omega) h
    generalize r * c.model / 65535 = q at hle hlt ⊢
    rw [u32_of_lt (by omega)]
    refine ⟨by omega, by omega, fun h => ?_⟩
    have := hlt (by omega)
    omega

theorem resolve_model_fields (c : entropy_coder) :
    c.resolve_model.low = c.low ∧ c.resolve_model.high = c.high ∧
    c.resolve_model.e3_count = c.e3_count ∧ c.resolve_model.adaptive = c.adaptive ∧
    c.resolve_model.model = c.model ∧ c.resolve_model.history0 = c.history0 ∧
    c.resolve_model.history1 = c.history1 ∧ c.resolve_model.value = c.value := by
  simp [resolve_model]

/-- The symbol step of the encoder on a stopped interval: it succeeds, keeps
`[low, mid]` for a `0` and `[mid + 1, high]` for a `1`, and counts the
symbol. -/
theorem encode_symbol_ok {c : entropy_coder} (hs : c.stopped) (hm : c.model_ok) {b : Nat}
    (hb : b < 2) (hh : c.hist_ok 1) :
    (c.encode_symbol b).1 = EVX_SUCCESS ∧ (c.encode_symbol b).2.valid ∧
    c.low ≤ (c.encode_symbol b).2.low ∧ (c.encode_symbol b).2.high ≤ c.high ∧
    (c.encode_symbol b).2.e3_count = c.e3_count ∧
    (c.encode_symbol b).2.adaptive = c.adaptive ∧ (c.encode_symbol b).2.model = c.model ∧
    (c.encode_symbol b).2.history0 = c.history0 + (if b = 0 then 1 else 0) ∧
    (c.encode_symbol b).2.history1 = c.history1 + (if b = 0 then 0 else 1) ∧
    (c.encode_symbol b).2.value = c.value ∧
    (b = 0 → (c.encode_symbol b).2.low = c.low ∧
      (c.encode_symbol b).2.high = c.resolve_model.mid) ∧
    (b = 1 → (c.encode_symbol b).2.low = c.resolve_model.mid + 1 ∧
      (c.encode_symbol b).2.high = c.high) := by
  have hv := stopped_valid hs
  obtain ⟨h1, h2, h3, h4⟩ := hs
  obtain ⟨hh0, hh1⟩ := hh
  obtain ⟨m1, m2, m3⟩ := resolve_model_mid hv hm (by omega)
  have m3' := m3 (by omega)
  obtain ⟨f1, f2, f3, f4, f5, f6, f7, f8⟩ := resolve_model_fields c
  have hg : u32 (2 * EVX_GB) = 2147483648 := by decide
  unfold encode_symbol
  rw [hg]
  rcases (show b = 0 ∨ b = 1 by omega) with rfl | rfl
  · have : ¬ (c.history 0 ≥ 2147483648) := by simp [history]; omega
    rw [if_neg this]
    simp only [show (0 &&& 1 : Nat) = 0 by decide, ne_eq, not_true_eq_false, if_false,
      history_incr, if_true]
    rw [u32_of_lt (by rw [f6]; omega)]
    simp [valid, f1, f2, f3, f4, f5, f6, f7, f8]
    omega
  · have : ¬ (c.history 1 ≥ 2147483648) := by simp [history]; omega
    rw [if_neg this]
    simp only [show (1 &&& 1 : Nat) = 1 by decide, ne_eq, one_ne_zero, not_false_eq_true, if_true,
      history_incr, if_false]
    rw [u32_of_lt (by rw [f7]; omega), u32_of_lt (by omega)]
    simp [valid, f1, f2, f3, f4, f5, f6, f7, f8]
    omega

theorem model_ok_congr {c d : entropy_coder} (ha : d.adaptive = c.adaptive) (hm : d.model = c.model)
    (h0 : c.history0 ≤ d.history0) (h1 : c.history1 ≤ d.history1) (h : c.model_ok) :
    d.model_ok := by
  unfold model_ok at *
  rw [ha, hm]
  split_ifs at h ⊢
  · omega
  · exact h

/-- One round of the encoder loop keeps the loop invariant: the interval is
stopped again, the model stays sound and one counter slot is used up. -/
theorem encode_round {c : entropy_coder} (hs : c.stopped) (hm : c.model_ok) {b : Nat}
    (hb : b < 2) {n : Nat} (hh : c.hist_ok (n + 1)) {fuel : Nat} (hf : 17 ≤ fuel) :
    (scaling_out fuel (c.encode_symbol b).2).1.stopped ∧
      (scaling_out fuel (c.encode_symbol b).2).1.model_ok ∧
      (scaling_out fuel (c.encode_symbol b).2).1.hist_ok n ∧
      (scaling_out fuel (c.encode_symbol b).2).2.length +
        (scaling_out fuel (c.encode_symbol b).2).1.e3_count ≤ c.e3_count + 16 ∧
      (∀ x ∈ (scaling_out fuel (c.encode_symbol b).2).2, x < 2) := by
  have hh1 : c.hist_ok 1 := by unfold hist_ok at *; omega
  obtain ⟨_, e2, _, _, e5, e6, e7, e8, e9, _, _, _⟩ := encode_symbol_ok hs hm hb hh1
  obtain ⟨s1, s2, s3⟩ := scaling_out_stopped fuel 16 _ e2 (valid_width16 _) (by omega)
  obtain ⟨g1, g2, g3, g4, _, _⟩ := scaling_out_fields fuel (c.encode_symbol b).2
  refine ⟨s1, ?_, ?_, by omega, s3⟩
  · apply model_ok_congr (by rw [g1, e6]) (by rw [g2, e7]) _ _ hm
    · rw [g3, e8]; omega
    · rw [g4, e9]; omega
  · unfold hist_ok at *
    rw [g3, g4, e8, e9]
    split_ifs <;> omega

theorem promise_encode : ∀ (B : List Nat) (fuel : Nat) (c : entropy_coder), 17 ≤ fuel →
    c.stopped → c.model_ok → c.hist_ok B.length → (∀ b ∈ B, b < 2) →
    promise (encode_end fuel c B).flush_last c (encode_out fuel c B) := by
  intro B
  induction B with
  | nil => intro fuel c _ hs _ _ _; exact promise_flush hs
  | cons b B ih =>
    intro fuel c hf hs hm hh hB
    have hb : b < 2 := hB b (by simp)
    have hh1 : c.hist_ok 1 := by unfold hist_ok at *; simp at hh; omega
    obtain ⟨_, e2, e3, e4, e5, _⟩ := encode_symbol_ok hs hm hb hh1
    obtain ⟨r1, r2, r3, _, _⟩ := encode_round hs hm hb (by simpa using hh) hf
    have := ih fuel _ hf r1 r2 r3 (fun x hx => hB x (by simp [hx]))
    have := promise_scaling fuel _ e2 _ _ this
    exact promise_mono e5 e3 e4 this

end entropy_coder

namespace bitstream

theorem keep_low_bit {dest b : Nat} (hd : dest < 2) (hb : b < 2) : (dest &&& 254) ||| b = b := by
  rcases (show dest = 0 ∨ dest = 1 by omega) with rfl | rfl <;>
    rcases (show b = 0 ∨ b = 1 by omega) with rfl | rfl <;> decide

/-- Reading from a buffer whose live content is `b :: rest`. -/
theorem read_bit_live {s : bitstream} (h : s.wf) {b : Nat} {rest : List Nat}
    (hl : s.live = b :: rest) {dest : Nat} (hd : dest < 2) :
    s.is_empty = false ∧ (s.read_bit dest).1 = EVX_SUCCESS ∧ (s.read_bit dest).2.2 = b ∧
      (s.read_bit dest).2.1.wf ∧ (s.read_bit dest).2.1.live = rest ∧ b < 2 := by
  have hne : s.read_index < s.write_index := by
    have := live_length s
    rw [hl] at this
    simp at this
    omega
  have hc := live_cons hne
  rw [hl] at hc
  injection hc with hb hrest
  have hb2 : b < 2 := by rw [hb]; exact bit_at_lt _ _
  rw [read_bit_ok h hne dest]
  refine ⟨?_, rfl, ?_, wf_advance h hne, hrest.symm, hb2⟩
  · unfold is_empty; simp; omega
  · simp only
    rw [← hb]
    exact keep_low_bit hd hb2

theorem is_empty_of_live_nil {s : bitstream} (h : s.wf) (hl : s.live = []) : s.is_empty = true :=
  (is_empty_iff h).mpr hl

end bitstream

namespace entropy_coder

theorem encode_out_eq (fuel : Nat) : ∀ (B : List Nat) (c : entropy_coder),
    encode_out fuel c B = symbols_out fuel c B ++ (encode_end fuel c B).flush_out := by
  intro B
  induction B with
  | nil => intro c; simp [encode_out, symbols_out, encode_end]
  | cons b B ih => intro c; simp [encode_out, symbols_out, encode_end, ih]

/-- Output size of the symbol loop: at most 16 bits per symbol, pending
bits included. -/
theorem symbols_out_length : ∀ (B : List Nat) (fuel : Nat) (c : entropy_coder), 17 ≤ fuel →
    c.stopped → c.model_ok → c.hist_ok B.length → (∀ b ∈ B, b < 2) →
    (symbols_out fuel c B).length + (encode_end fuel c B).e3_count ≤ c.e3_count + 16 * B.length ∧
      (encode_end fuel c B).stopped ∧ (∀ x ∈ symbols_out fuel c B, x < 2) ∧
      (encode_end fuel c B).adaptive = c.adaptive ∧ (encode_end fuel c B).model = c.model := by
  intro B
  induction B with
  | nil => intro fuel c _ hs _ _ _; simp [symbols_out, encode_end, hs]
  | cons b B ih =>
    intro fuel c hf hs hm hh hB
    have hb : b < 2 := hB b (by simp)
    obtain ⟨r1, r2, r3, r4, r5⟩ := encode_round hs hm hb (by simpa using hh) hf
    obtain ⟨i1, i2, i3, i4, i5⟩ := ih fuel _ hf r1 r2 r3 (fun x hx => hB x (by simp [hx]))
    have hh1 : c.hist_ok 1 := by unfold hist_ok at *; simp at hh; omega
    obtain ⟨_, _, _, _, _, e6, e7, _⟩ := encode_symbol_ok hs hm hb hh1
    obtain ⟨g1, g2, _⟩ := scaling_out_fields fuel (c.encode_symbol b).2
    simp only [symbols_out, encode_end, List.length_append, List.length_cons]
    refine ⟨by omega, i2, ?_, by rw [i4, g1, e6], by rw [i5, g2, e7]⟩
    intro x hx
    rcases List.mem_append.mp hx with h | h
    · exact r5 x h
    · exact i3 x h

/-- The loop of `encode` on a source holding the bits `B`: with room for the
output it succeeds, empties the source and appends `symbols_out`. -/
theorem encode_loop_refines : ∀ (B : List Nat) (fuel n : Nat) (c : entropy_coder)
    (src dst : bitstream), 17 ≤ fuel → B.length ≤ n → c.stopped → c.model_ok →
    c.hist_ok B.length → src.wf → src.live = B → dst.wf →
    c.e3_count + 16 * B.length < 4294967296 → (symbols_out fuel c B).length ≤ dst.free_bits →
    ∃ src1, encode_loop fuel n c src dst =
        some (EVX_SUCCESS, encode_end fuel c B, src1, dst.write_list (symbols_out fuel c B)) ∧
      src1.wf ∧ src1.live = [] := by
  intro B
  induction B with
  | nil =>
    intro fuel n c src dst _ _ _ _ _ hsrc hl _ _ _
    refine ⟨src, ?_, hsrc, hl⟩
    unfold encode_loop
    rw [bitstream.is_empty_of_live_nil hsrc hl]
    rfl
  | cons b B ih =>
    intro fuel n c src dst hf hn hs hm hh hsrc hl hdst hk hcap
    obtain ⟨n, rfl⟩ : ∃ k, n = k + 1 := ⟨n - 1, by simp at hn; omega⟩
    obtain ⟨q1, q2, q3, q4, q5, hb⟩ := bitstream.read_bit_live hsrc hl (show (0 : Nat) < 2 by omega)
    have hh1 : c.hist_ok 1 := by unfold hist_ok at *; simp at hh; omega
    obtain ⟨e1, e2, _, _, e5, _⟩ := encode_symbol_ok hs hm hb hh1
    obtain ⟨r1, r2, r3, r4, r5⟩ := encode_round hs hm hb (by simpa using hh) hf
    simp only [symbols_out, List.length_append, List.length_cons] at hcap hk
    have hsc := scaling_refines fuel 16 (c.encode_symbol b).2 dst e2 (valid_width16 _) (by omega)
      (by rw [e5]; omega) hdst (by omega)
    have hd1 := bitstream.write_list_ok (scaling_out fuel (c.encode_symbol b).2).2 dst hdst
      (by omega)
    have hf1 := bitstream.free_bits_write_list hdst
      (show (scaling_out fuel (c.encode_symbol b).2).2.length ≤ dst.free_bits by omega)
    obtain ⟨src1, i1, i2, i3⟩ := ih fuel n _ (src.read_bit 0).2.1 _ hf (by simp at hn; omega)
      r1 r2 r3 q4 q5 hd1.1 (by omega) (by rw [hf1]; omega)
    refine ⟨src1, ?_, i2, i3⟩
    unfold encode_loop
    rw [q1]
    simp only [Bool.false_eq_true, if_false, q2, ne_eq, not_true_eq_false, q3, e1, hsc, i1,
      symbols_out, encode_end, bitstream.write_list_append]

theorem clear_clear (c : entropy_coder) : c.clear.clear = c.clear := by
  unfold clear
  by_cases h : c.adaptive = true <;> simp [h]

/-- The flush with room for `e3_count + 2` bits: it succeeds, appends
`flush_out` and clears the coder. -/
theorem flush_encoder_ok {c : entropy_coder} {dst : bitstream} (hd : dst.wf)
    (hk : c.e3_count + 1 < 4294967296) (hcap : c.e3_count + 2 ≤ dst.free_bits) :
    c.flush_encoder dst = (EVX_SUCCESS, c.clear, dst.write_list c.flush_out) := by
  have hc : dst.write_index < 8 * dst.data_capacity := by
    unfold bitstream.free_bits at hcap; omega
  unfold flush_encoder flush_out
  simp only [u32_of_lt hk, QTR_RANGE_eq]
  by_cases hl : c.low < 16383
  · obtain ⟨hst, hwf, hr, hw, hcp, _, _⟩ := bitstream.write_bit_ok hd hc 0
    have hfree : c.e3_count + 1 ≤ (dst.write_bit 0).2.free_bits := by
      unfold bitstream.free_bits at hcap ⊢; rw [hw, hcp]; omega
    simp only [if_pos hl, hst, ne_eq, not_true_eq_false, if_false]
    rw [flush_inverse_bits_ok { c with e3_count := c.e3_count + 1 } 0 (by omega) _ hwf hfree]
    simp only [ne_eq, not_true_eq_false, if_false, bitstream.write_list]
    congr 2
  · obtain ⟨hst, hwf, hr, hw, hcp, _, _⟩ := bitstream.write_bit_ok hd hc 1
    have hfree : c.e3_count + 1 ≤ (dst.write_bit 1).2.free_bits := by
      unfold bitstream.free_bits at hcap ⊢; rw [hw, hcp]; omega
    simp only [if_neg hl, hst, ne_eq, not_true_eq_false, if_false]
    rw [flush_inverse_bits_ok { c with e3_count := c.e3_count + 1 } 1 (by omega) _ hwf hfree]
    simp only [ne_eq, not_true_eq_false, if_false, bitstream.write_list]
    congr 2

theorem flush_out_length (c : entropy_coder) : c.flush_out.length = c.e3_count + 2 := by
  unfold flush_out
  split_ifs <;> simp

/-- One-shot `encode` with `auto_finish` on a source holding `B`: with
room for `encode_out` it succeeds and appends exactly `encode_out`. -/
theorem encode_refines {B : List Nat} {fuel : Nat} {c : entropy_coder} {src dst : bitstream}
    (hf : 17 ≤ fuel) (hs : c.stopped) (hm : c.model_ok) (hh : c.hist_ok B.length)
    (hB : ∀ b ∈ B, b < 2) (hsrc : src.wf) (hl : src.live = B) (hdst : dst.wf)
    (hk : c.e3_count + 16 * B.length + 1 < 4294967296)
    (hcap : (encode_out fuel c B).length ≤ dst.free_bits) :
    ∃ src1, encode fuel c src dst true =
        some (EVX_SUCCESS, (encode_end fuel c B).clear, src1,
          dst.write_list (encode_out fuel c B)) ∧ src1.wf ∧ src1.live = [] := by
  obtain ⟨l1, l2, l3, _, _⟩ := symbols_out_length B fuel c hf hs hm hh hB
  rw [encode_out_eq, List.length_append, flush_out_length] at hcap
  have hn : B.length ≤ src.write_index - src.read_index := by
    rw [← bitstream.live_length, hl]
  obtain ⟨src1, i1, i2, i3⟩ := encode_loop_refines B fuel _ c src dst hf hn hs hm hh hsrc hl hdst
    (by omega) (by omega)
  have hd1 := bitstream.write_list_ok (symbols_out fuel c B) dst hdst (by omega)
  have hf1 := bitstream.free_bits_write_list hdst
    (show (symbols_out fuel c B).length ≤ dst.free_bits by omega)
  refine ⟨src1, ?_, i2, i3⟩
  unfold encode
  rw [i1]
  simp only [ne_eq, not_true_eq_false, if_false, if_true]
  rw [flush_encoder_ok hd1.1 (by omega) (by rw [hf1]; omega)]
  simp only [ne_eq, not_true_eq_false, if_false, clear_clear, encode_out_eq,
    bitstream.write_list_append]

theorem decode_rule_e1 {d : entropy_coder} (h : d.high < 32768) : d.decode_scaling_rule = some d := by
  unfold decode_scaling_rule
  rw [HALF_RANGE_eq, if_pos (by omega)]

theorem decode_rule_e2 {d : entropy_coder} (hv : d.valid) (hl : 32768 ≤ d.low)
    (h1 : 32768 ≤ d.value) (h2 : d.value < 4294967296) :
    d.decode_scaling_rule = some { d with high := d.high - 32768, low := d.low - 32768,
                                          value := d.value - 32768 } := by
  obtain ⟨hlh, hmax⟩ := hv
  unfold decode_scaling_rule
  rw [HALF_RANGE_eq, if_neg (by omega), if_pos (by omega)]
  simp only [Nat.reduceAdd]
  rw [sub32_of_le (by omega : 32768 ≤ d.high) (by omega),
    sub32_of_le (by omega : 32768 ≤ d.low) (by omega), sub32_of_le h1 h2]

theorem decode_rule_e3 {d : entropy_coder} (hv : d.valid) (h1 : 32768 ≤ d.high)
    (h2 : d.low < 32768) (h3 : d.high ≤ 49149) (h4 : 16384 ≤ d.low)
    (h5 : 16384 ≤ d.value) (h6 : d.value < 4294967296) :
    d.decode_scaling_rule = some { d with high := d.high - 16384, low := d.low - 16384,
                                          value := d.value - 16384 } := by
  obtain ⟨hlh, hmax⟩ := hv
  unfold decode_scaling_rule
  rw [HALF_RANGE_eq, THREE_QTR_RANGE_eq, QTR_RANGE_eq, if_neg (by omega), if_neg (by omega),
    if_pos ⟨h3, by omega⟩]
  simp only [Nat.reduceAdd]
  rw [sub32_of_le (by omega : 16384 ≤ d.high) (by omega),
    sub32_of_le (by omega : 16384 ≤ d.low) (by omega), sub32_of_le h5 h6]

theorem decode_rule_stop {d : entropy_coder} (h1 : 32768 ≤ d.high) (h2 : d.low < 32768)
    (h3 : ¬ (d.high ≤ 49149 ∧ 16384 ≤ d.low)) : d.decode_scaling_rule = none := by
  unfold decode_scaling_rule
  rw [HALF_RANGE_eq, THREE_QTR_RANGE_eq, QTR_RANGE_eq, if_neg (by omega), if_neg (by omega),
    if_neg (by omega)]

theorem shift_value_eq {d : entropy_coder} (hl : d.low < 32768) (hh : d.high < 32768)
    (hv : d.value < 32768) {bit : Nat} (hb : bit < 2) :
    d.shift_value bit =
      { d with low := 2 * d.low, high := 2 * d.high + 1, value := 2 * d.value + bit } := by
  unfold shift_value
  rw [shift_bounds_eq hl hh, PRECISION_MAX_eq, and_mask16]
  have e1 : u32 (d.value <<< 1) % 65536 = 2 * d.value := by unfold u32; omega
  rw [e1, or_bit _ _ hb]

/-- One iteration of the decoder loop once a rule has fired: the next source
bit, or the stale `bit` when the source is empty, is shifted into `value`. -/
theorem decode_iter_step {d d1 : entropy_coder} (hr : d.decode_scaling_rule = some d1)
    (hl : d1.low < 32768) (hh : d1.high < 32768) (hv : d1.value < 32768)
    {src : bitstream} (hs : src.wf) {bit : Nat} (hb : bit < 2) :
    ∃ b src1, decode_scaling_iter d bit src = some (EVX_SUCCESS,
        { d1 with low := 2 * d1.low, high := 2 * d1.high + 1, value := 2 * d1.value + b },
        b, src1) ∧ src1.wf ∧ b < 2 ∧
      ((src.live = [] ∧ b = bit ∧ src1.live = []) ∨ src.live = b :: src1.live) := by
  unfold decode_scaling_iter
  rw [hr]
  simp only
  cases hlive : src.live with
  | nil =>
    refine ⟨bit, src, ?_, hs, hb, Or.inl ⟨rfl, rfl, hlive⟩⟩
    rw [bitstream.is_empty_of_live_nil hs hlive, shift_value_eq hl hh hv hb]
    simp
  | cons b rest =>
    obtain ⟨q1, q2, q3, q4, q5, hb2⟩ := bitstream.read_bit_live hs hlive hb
    refine ⟨b, (src.read_bit bit).2.1, ?_, q4, hb2, Or.inr (by rw [q5])⟩
    rw [q1]
    simp only [Bool.false_eq_true, not_false_eq_true, if_true, q2, ne_eq, not_true_eq_false,
      if_false, q3]
    rw [shift_value_eq hl hh hv hb2]

end entropy_coder

theorem win16_snoc {x : List Nat} (hx : x.length = 15) (b : Nat) :
    win 16 (x ++ [b]) = 2 * win 15 x + b := by
  have h1 := win_succ 15 (x ++ [b])
  have h2 := win_append_left 15 x [b] (by omega)
  have h3 : (x ++ [b]).getD 15 0 = b := by
    rw [List.getD_eq_getElem?_getD, List.getElem?_append_right (by omega)]
    simp [hx]
  rw [h2, h3] at h1
  exact h1

/-- Shifting one bit into a 15-bit window that tracks a stream: the new
bit extends either the real stream or the padding. -/
theorem window_shift {x rest S pad rest1 : List Nat} {L bit b : Nat}
    (he : x ++ rest = S ++ pad) (hpad : ∀ y ∈ pad, y < 2 ∧ (L = 0 → y = 0))
    (hp : rest ≠ [] → pad = []) (hlast : rest ≠ [] → rest.getLast? = some L)
    (hbit : rest = [] → L = 0 → bit = 0) (hb : b < 2)
    (hstep : (rest = [] ∧ b = bit ∧ rest1 = []) ∨ rest = b :: rest1) :
    ∃ pad1, (x ++ [b]) ++ rest1 = S ++ pad1 ∧ (∀ y ∈ pad1, y < 2 ∧ (L = 0 → y = 0)) ∧
      (rest1 ≠ [] → pad1 = []) ∧ (rest1 ≠ [] → rest1.getLast? = some L) ∧
      (rest1 = [] → L = 0 → b = 0) := by
  rcases hstep with ⟨h1, h2, h3⟩ | h1
  · subst h1 h2 h3
    refine ⟨pad ++ [b], ?_, ?_, by simp, by simp, fun _ => hbit rfl⟩
    · simp only [List.append_nil] at he ⊢
      rw [he, List.append_assoc]
    · intro y hy
      rcases List.mem_append.mp hy with h | h
      · exact hpad y h
      · simp at h; subst h; exact ⟨hb, hbit rfl⟩
  · subst h1
    have hp0 := hp (by simp)
    subst hp0
    refine ⟨[], ?_, by simp, by simp, ?_, ?_⟩
    · rw [List.append_assoc]; simpa using he
    · intro hne
      have := hlast (by simp)
      cases rest1 with
      | nil => exact absurd rfl hne
      | cons y ys => simpa [List.getLast?_cons_cons] using this
    · intro hnil hL
      subst hnil
      have := hlast (by simp)
      simp at this
      omega

namespace entropy_coder

theorem decomp_unique (m m2 k : Nat) {t t2 : List Nat}
    (h : m :: (List.replicate k (1 - m) ++ t) = m2 :: (List.replicate k (1 - m2) ++ t2)) :
    m = m2 ∧ t = t2 := by
  injection h with h1 h2
  subst h1
  exact ⟨rfl, List.append_cancel_left h2⟩

theorem split_window {x rest S pad : List Nat} {a n : Nat} (hx : x.length = n + 1)
    (he : x ++ rest = (a :: S) ++ pad) :
    ∃ y, x = a :: y ∧ y.length = n ∧ y ++ rest = S ++ pad := by
  cases x with
  | nil => simp at hx
  | cons b y =>
    simp only [List.cons_append] at he
    injection he with h1 h2
    subst h1
    exact ⟨y, rfl, by simpa using hx, h2⟩

theorem bits_of_window {x rest S pad : List Nat} {L : Nat} (he : x ++ rest = S ++ pad)
    (hS : ∀ b ∈ S, b < 2) (hpad : ∀ y ∈ pad, y < 2 ∧ (L = 0 → y = 0)) : ∀ b ∈ x, b < 2 := by
  intro b hb
  have : b ∈ S ++ pad := by rw [← he]; exact List.mem_append_left _ hb
  rcases List.mem_append.mp this with h | h
  · exact hS b h
  · exact (hpad b h).1

theorem promise_bits {L : Nat} {c : entropy_coder} {o : List Nat} (h : promise L c o) :
    ∃ m t, m < 2 ∧ (∀ b ∈ t, b < 2) ∧ o = m :: (List.replicate c.e3_count (1 - m) ++ t) := by
  obtain ⟨m, t, h1, h2, h3, _⟩ := h
  exact ⟨m, t, h1, h2, h3⟩

/-- The decoder loop mirrors the encoder loop: started in step on a valid
interval with the window tracking the encoder output, it performs the same
rescalings and ends in step, the window tracking the remaining output. -/
theorem decode_scaling_lockstep : ∀ (fuel j : Nat) (c d : entropy_coder) (bit : Nat)
    (src : bitstream) (L : Nat) (o : List Nat),
    c.valid → sync c d → 65536 ≤ (c.high - c.low + 1) * 2 ^ j → j < fuel →
    promise L (scaling_out fuel c).1 o →
    window_rel L c.e3_count ((scaling_out fuel c).2 ++ o) d.value src.live →
    src.wf → bit < 2 → (src.live = [] → L = 0 → bit = 0) →
    ∃ d1 src1, resolve_decode_scaling_loop fuel d bit src = some (EVX_SUCCESS, d1, src1) ∧
      sync (scaling_out fuel c).1 d1 ∧
      window_rel L (scaling_out fuel c).1.e3_count o d1.value src1.live ∧ src1.wf ∧
      d1.e3_count = d.e3_count ∧ d1.mid = d.mid := by
  intro fuel
  induction fuel with
  | zero => intro j c d bit src L o _ _ _ hj; omega
  | succ fuel ih =>
    intro j c d bit src L o hv hsy hw hj hp hrel hs hb hbit
    have hv' := hv
    obtain ⟨hlh, hmax⟩ := hv'
    obtain ⟨y1, y2, y5, y6, y34⟩ := hsy
    have hj0 : (c.high < 32768 ∨ 32768 ≤ c.low ∨ (c.high ≤ 49149 ∧ 16384 ≤ c.low)) → 0 < j := by
      intro h
      rcases Nat.eq_zero_or_pos j with h0 | h0
      · subst h0; simp at hw; omega
      · exact h0
    by_cases c1 : c.high < 32768
    · have hjp := hj0 (Or.inl c1)
      simp only [scaling_out, if_pos c1] at hp hrel ⊢
      have hv1 : ({ c with low := 2 * c.low, high := 2 * c.high + 1, e3_count := 0 } :
          entropy_coder).valid := ⟨by simp; omega, by simp; omega⟩
      obtain ⟨m, t, w, pad, hm, ht, ho, hwl, hval, he, hpad, hps, hlast⟩ := hrel
      rw [List.cons_append, List.append_assoc] at ho
      obtain ⟨hm0, htt⟩ := decomp_unique 0 m c.e3_count ho
      subst hm0
      obtain ⟨m1, t1, hm1, ht1, ho1⟩ := promise_bits (promise_scaling fuel _ hv1 L o hp)
      simp only [List.replicate_zero, List.nil_append] at ho1
      obtain ⟨x, rfl, hx, hex⟩ := split_window hwl he
      have hxb := bits_of_window hex ht hpad
      have hwx := win_lt hxb 15
      rw [win16_cons] at hval
      obtain ⟨b, src1, hiter, hs1, hb1, hstep⟩ := decode_iter_step (decode_rule_e1 (by omega))
        (by omega : d.low < 32768) (by omega : d.high < 32768) (by omega : d.value < 32768) hs hb
      obtain ⟨pad1, p1, p2, p3, p4, p5⟩ := window_shift hex hpad hps hlast hbit hb1 hstep
      obtain ⟨d1, src2, hloop, q1, q2, q3, q4, q5⟩ := ih (j - 1) _
        { d with low := 2 * d.low, high := 2 * d.high + 1, value := 2 * d.value + b } b src1 L o
        hv1 ⟨by simp [y1], by simp [y2], y5, y6, y34⟩
        (width_step hjp hw (by simp only; omega)) (by omega) hp
        ⟨m1, t1, x ++ [b], pad1, hm1, ht1, by simpa using ho1, by simp [hx],
          by simp only; rw [win16_snoc hx, hval]; omega, by rw [p1, ← htt, ho1], p2, p3, p4⟩
        hs1 hb1 p5
      refine ⟨d1, src2, ?_, q1, q2, q3, q4, q5⟩
      unfold resolve_decode_scaling_loop
      rw [hiter]
      simpa using hloop
    · by_cases c2 : 32768 ≤ c.low
      · have hjp := hj0 (Or.inr (Or.inl c2))
        simp only [scaling_out, if_neg c1, if_pos c2] at hp hrel ⊢
        have hv1 : ({ c with low := 2 * (c.low - 32768), high := 2 * (c.high - 32768) + 1, e3_count := 0 } : entropy_coder).valid := ⟨by simp; omega, by simp; omega⟩
        obtain ⟨m, t, w, pad, hm, ht, ho, hwl, hval, he, hpad, hps, hlast⟩ := hrel
        rw [List.cons_append, List.append_assoc] at ho
        obtain ⟨hm0, htt⟩ := decomp_unique 1 m c.e3_count ho
        subst hm0
        obtain ⟨m1, t1, hm1, ht1, ho1⟩ := promise_bits (promise_scaling fuel _ hv1 L o hp)
        simp only [List.replicate_zero, List.nil_append] at ho1
        obtain ⟨x, rfl, hx, hex⟩ := split_window hwl he
        have hxb := bits_of_window hex ht hpad
        have hwx := win_lt hxb 15
        rw [win16_cons] at hval
        obtain ⟨b, src1, hiter, hs1, hb1, hstep⟩ := decode_iter_step
          (decode_rule_e2 (show d.valid from ⟨by omega, by omega⟩) (by omega) (by omega) (by omega))
          (by simp only; omega) (by simp only; omega) (by simp only; omega) hs hb
        obtain ⟨pad1, p1, p2, p3, p4, p5⟩ := window_shift hex hpad hps hlast hbit hb1 hstep
        obtain ⟨d1, src2, hloop, q1, q2, q3, q4, q5⟩ := ih (j - 1) _
          { d with low := 2 * (d.low - 32768), high := 2 * (d.high - 32768) + 1, value := 2 * (d.value - 32768) + b } b src1 L o
          hv1 ⟨by simp [y1], by simp [y2], y5, y6, y34⟩
          (width_step hjp hw (by simp only; omega)) (by omega) hp
          ⟨m1, t1, x ++ [b], pad1, hm1, ht1, by simpa using ho1, by simp [hx],
            by simp only; rw [win16_snoc hx, hval]; omega, by rw [p1, ← htt, ho1], p2, p3, p4⟩
          hs1 hb1 p5
        refine ⟨d1, src2, ?_, q1, q2, q3, q4, q5⟩
        unfold resolve_decode_scaling_loop
        rw [hiter]
        simpa using hloop
      · by_cases c3 : c.high ≤ 49149 ∧ 16384 ≤ c.low
        · have hjp := hj0 (Or.inr (Or.inr c3))
          simp only [scaling_out, if_neg c1, if_neg c2, if_pos c3] at hp hrel ⊢
          have hv1 : ({ c with low := 2 * (c.low - 16384), high := 2 * (c.high - 16384) + 1, e3_count := c.e3_count + 1 } : entropy_coder).valid :=
            ⟨by simp; omega, by simp; omega⟩
          obtain ⟨m, t, w, pad, hm, ht, ho, hwl, hval, he, hpad, hps, hlast⟩ := hrel
          obtain ⟨m3, t3, hm3, ht3, ho3⟩ := promise_bits (promise_scaling fuel _ hv1 L o hp)
          simp only at ho3
          rw [ho3, List.replicate_succ', List.append_assoc] at ho
          obtain ⟨hmm, htt⟩ := decomp_unique m3 m c.e3_count ho
          subst hmm
          simp only [List.singleton_append] at htt
          obtain ⟨x, rfl, hx, hex⟩ := split_window hwl he
          rw [← htt] at hex
          obtain ⟨x2, rfl, hx2, hex2⟩ := split_window hx hex
          have hxb := bits_of_window hex2 ht3 hpad
          have hwx := win_lt hxb 14
          rw [win16_cons, win15_cons] at hval
          have hd1v : d.value - 16384 = win 15 (m3 :: x2) := by
            rw [win15_cons, hval]
            rcases (show m3 = 0 ∨ m3 = 1 by omega) with h | h <;> subst h <;> omega
          obtain ⟨b, src1, hiter, hs1, hb1, hstep⟩ := decode_iter_step
            (decode_rule_e3 (show d.valid from ⟨by omega, by omega⟩) (by omega) (by omega) (by omega) (by omega)
              (by rcases (show m3 = 0 ∨ m3 = 1 by omega) with h | h <;> subst h <;> omega)
              (by omega))
            (by simp only; omega) (by simp only; omega)
            (by simp only; rw [hd1v, win15_cons]; omega) hs hb
          have hex3 : (m3 :: x2) ++ src.live = (m3 :: t3) ++ pad := by
            simp only [List.cons_append, hex2]
          obtain ⟨pad1, p1, p2, p3, p4, p5⟩ := window_shift hex3 hpad hps hlast hbit hb1 hstep
          obtain ⟨d1, src2, hloop, q1, q2, q3, q4, q5⟩ := ih (j - 1) _
            { d with low := 2 * (d.low - 16384), high := 2 * (d.high - 16384) + 1, value := 2 * (d.value - 16384) + b } b src1 L o
            hv1 ⟨by simp [y1], by simp [y2], y5, y6, y34⟩
            (width_step hjp hw (by simp only; omega)) (by omega) hp
            ⟨m3, t3, (m3 :: x2) ++ [b], pad1, hm3, ht3, ho3, by simp [hx2],
              by simp only; rw [win16_snoc (by simp [hx2]), hd1v], p1, p2, p3, p4⟩
            hs1 hb1 p5
          refine ⟨d1, src2, ?_, q1, q2, q3, q4, q5⟩
          unfold resolve_decode_scaling_loop
          rw [hiter]
          simpa using hloop
        · simp only [scaling_out, if_neg c1, if_neg c2, if_neg c3] at hp hrel ⊢
          refine ⟨d, src, ?_, ⟨y1, y2, y5, y6, y34⟩, by simpa using hrel, hs, rfl, rfl⟩
          unfold resolve_decode_scaling_loop decode_scaling_iter
          rw [decode_rule_stop (by omega) (by omega) (by rw [y1, y2]; exact c3)]

theorem resolve_model_sync {c d : entropy_coder} (h : sync c d) :
    d.resolve_model.mid = c.resolve_model.mid := by
  obtain ⟨y1, y2, y5, y6, y34⟩ := h
  by_cases ha : c.adaptive = true
  · obtain ⟨y3, y4⟩ := y34 ha
    simp only [resolve_model, y1, y2, y3, y4, y5, y6]
  · simp only [resolve_model, y1, y2, y5, y6, ha]
    simp

/-- A window that tracks the encoder output lies in every interval the
encoder has promised for that output. -/
theorem window_in_promise {L k v : Nat} {o rest : List Nat} {c : entropy_coder}
    (hw : window_rel L k o v rest) (hp : promise L c o) (hk : c.e3_count = k) :
    c.low ≤ v ∧ v ≤ c.high := by
  obtain ⟨m, t, w, pad, hm, ht, ho, hwl, hval, he, hpad, hps, hlast⟩ := hw
  obtain ⟨m2, t2, hm2, ht2, ho2, hb⟩ := hp
  rw [hk, ho] at ho2
  obtain ⟨e1, e2⟩ := decomp_unique m m2 k ho2
  subst e1 e2
  have := hb pad hpad
  rw [← List.cons_append, ← he, win_append_left 16 w rest (by omega), ← hval] at this
  exact this

/-- The symbol step of the decoder, in step with the encoder: when the
window lies in the sub-interval the encoder chose for `b`, the decoder
emits `b` and moves to the same sub-interval. -/
theorem decode_symbol_sync {c d : entropy_coder} (hs : c.stopped) (hm : c.model_ok) {b : Nat}
    (hb : b < 2) (hh : c.hist_ok 1) (hsy : sync c d)
    (hlo : (c.encode_symbol b).2.low ≤ d.value) (hhi : d.value ≤ (c.encode_symbol b).2.high)
    (out : bitstream) :
    ∃ d1, d.decode_symbol d.value out = (EVX_SUCCESS, d1, (out.write_bit b).2) ∧
      sync (c.encode_symbol b).2 d1 ∧ d1.value = d.value := by
  have hv := stopped_valid hs
  obtain ⟨m1, m2, m3⟩ := resolve_model_mid hv hm (by unfold hist_ok at hh; omega)
  obtain ⟨_, _, _, _, e5, e6, e7, e8, e9, _, e11, e12⟩ := encode_symbol_ok hs hm hb hh
  have hmid := resolve_model_sync hsy
  obtain ⟨y1, y2, y5, y6, y34⟩ := hsy
  obtain ⟨f1, f2, f3, f4, f5, f6, f7, f8⟩ := resolve_model_fields d
  obtain ⟨hh0, hh1⟩ := hh
  obtain ⟨s1, s2, s3, s4⟩ := hs
  have m3' := m3 (by omega)
  unfold decode_symbol
  simp only
  rcases (show b = 0 ∨ b = 1 by omega) with rfl | rfl
  · obtain ⟨a1, a2⟩ := e11 rfl
    rw [a1] at hlo
    rw [a2] at hhi
    rw [if_pos ⟨by rw [f1, y1]; exact hlo, by rw [hmid]; exact hhi⟩]
    refine ⟨_, rfl, ⟨?_, ?_, ?_, ?_, ?_⟩, ?_⟩
    · simp only; rw [f1, y1, a1]
    · simp only; rw [hmid, a2]
    · simp only; rw [f4, y5, e6]
    · simp only; rw [f5, y6, e7]
    · intro ha
      rw [e6] at ha
      obtain ⟨y3, y4⟩ := y34 ha
      constructor
      · simp only; rw [f6, y3, e8, u32_of_lt (by omega)]; simp
      · simp only; rw [f7, y4, e9]; simp
    · simp only; rw [f8]
  · obtain ⟨a1, a2⟩ := e12 rfl
    rw [a1] at hlo
    rw [a2] at hhi
    rw [if_neg (by rw [hmid]; omega), if_pos ⟨by rw [hmid]; omega, by rw [f2, y2]; exact hhi⟩]
    refine ⟨_, rfl, ⟨?_, ?_, ?_, ?_, ?_⟩, ?_⟩
    · simp only; rw [hmid, a1, u32_of_lt (by omega)]
    · simp only; rw [f2, y2, a2]
    · simp only; rw [f4, y5, e6]
    · simp only; rw [f5, y6, e7]
    · intro ha
      rw [e6] at ha
      obtain ⟨y3, y4⟩ := y34 ha
      constructor
      · simp only; rw [f6, y3, e8]; simp
      · simp only; rw [f7, y4, e9, u32_of_lt (by omega)]; simp
    · simp only; rw [f8]

/-- The symbol loop of `decode` in step with the encoder: with the window
tracking `encode_out` it decodes exactly the encoded bits. -/
theorem decode_lockstep : ∀ (B : List Nat) (fuel : Nat) (c d : entropy_coder)
    (src out : bitstream), 17 ≤ fuel → c.stopped → c.model_ok → c.hist_ok B.length →
    (∀ b ∈ B, b < 2) → sync c d →
    window_rel (encode_end fuel c B).flush_last c.e3_count (encode_out fuel c B) d.value src.live →
    src.wf → out.wf → B.length ≤ out.free_bits →
    ∃ d1 src1, decode_loop fuel B.length d src out =
      some (EVX_SUCCESS, d1, src1, out.write_list B) := by
  intro B
  induction B with
  | nil => intro fuel c d src out _ _ _ _ _ _ _ _ _ _; exact ⟨d, src, rfl⟩
  | cons b B ih =>
    intro fuel c d src out hf hs hm hh hB hsy hw hsrc hout hcap
    have hb : b < 2 := hB b (by simp)
    have hB' : ∀ x ∈ B, x < 2 := fun x hx => hB x (by simp [hx])
    have hh1 : c.hist_ok 1 := by unfold hist_ok at *; simp at hh; omega
    obtain ⟨_, e2, _, _, e5, _⟩ := encode_symbol_ok hs hm hb hh1
    obtain ⟨r1, r2, r3, _, _⟩ := encode_round hs hm hb (by simpa using hh) hf
    simp only [encode_out, encode_end] at hw
    have P1 := promise_encode B fuel _ hf r1 r2 r3 hB'
    have P2 := promise_scaling fuel _ e2 _ _ P1
    obtain ⟨hlo, hhi⟩ := window_in_promise hw P2 e5
    obtain ⟨d1, hd1, hsy1, hv1⟩ := decode_symbol_sync hs hm hb hh1 hsy hlo hhi out
    rw [← e5, ← hv1] at hw
    obtain ⟨d2, src2, hloop, q1, q2, q3, _, _⟩ := decode_scaling_lockstep fuel 16 _ d1 0 src _ _
      e2 hsy1 (valid_width16 _) (by omega) P1 hw hsrc (by omega) (fun _ _ => rfl)
    have hc : out.write_index < 8 * out.data_capacity := by
      unfold bitstream.free_bits at hcap; simp at hcap; omega
    obtain ⟨_, hwf, _, hwi, hcp, _, _⟩ := bitstream.write_bit_ok hout hc b
    obtain ⟨d3, src3, hfin⟩ := ih fuel _ d2 src2 (out.write_bit b).2 hf r1 r2 r3 hB' q1 q2 q3 hwf
      (by unfold bitstream.free_bits at hcap ⊢; simp at hcap; rw [hwi, hcp]; omega)
    refine ⟨d3, src3, ?_⟩
    simp only [List.length_cons, decode_loop, hd1, ne_eq, not_true_eq_false, if_false,
      resolve_decode_scaling, hloop, hfin, bitstream.write_list]

end entropy_coder

theorem win_snoc : ∀ (n : Nat) (x : List Nat), x.length = n → ∀ b, win (n + 1) (x ++ [b]) = 2 * win n x + b := by
  intro n x hx b
  have h1 := win_succ n (x ++ [b])
  have h2 := win_append_left n x [b] (by omega)
  have h3 : (x ++ [b]).getD n 0 = b := by
    rw [List.getD_eq_getElem?_getD, List.getElem?_append_right (by omega)]
    simp [hx]
  rw [h2, h3] at h1
  exact h1

namespace entropy_coder

theorem prime_step {c : entropy_coder} {src : bitstream} (hs : src.wf) {bit : Nat} (hb : bit < 2)
    (hv : c.value < 2147483648) (n : Nat) :
    ∃ b src1, prime_loop (n + 1) c bit src =
        prime_loop n { c with value := 2 * c.value + b } b src1 ∧ src1.wf ∧ b < 2 ∧
      ((src.live = [] ∧ b = bit ∧ src1.live = []) ∨ src.live = b :: src1.live) := by
  have hval : ∀ b, b < 2 → u32 (u32 (c.value <<< 1) ||| b) = 2 * c.value + b := by
    intro b hb
    have e1 : u32 (c.value <<< 1) = 2 * c.value := by unfold u32; omega
    rw [e1, or_bit _ _ hb, u32_of_lt (by omega)]
  cases hlive : src.live with
  | nil =>
    refine ⟨bit, src, ?_, hs, hb, Or.inl ⟨rfl, rfl, hlive⟩⟩
    rw [prime_loop, bitstream.is_empty_of_live_nil hs hlive, hval bit hb]
    simp
  | cons b rest =>
    obtain ⟨q1, q2, q3, q4, q5, hb2⟩ := bitstream.read_bit_live hs hlive hb
    refine ⟨b, (src.read_bit bit).2.1, ?_, q4, hb2, Or.inr (by rw [q5])⟩
    rw [prime_loop, q1]
    simp only [Bool.false_eq_true, not_false_eq_true, if_true, q2, ne_eq, not_true_eq_false,
      if_false, q3]
    rw [hval b hb2]

/-- The priming loop builds the window from the leading source bits and,
once the source is empty, from copies of the last bit read. -/
theorem prime_loop_ok : ∀ (n : Nat) (c : entropy_coder) (bit : Nat) (src : bitstream)
    (x S pad : List Nat) (L : Nat), src.wf → bit < 2 → c.value = win x.length x →
    (∀ b ∈ x, b < 2) → x.length + n ≤ 31 → x ++ src.live = S ++ pad →
    (∀ y ∈ pad, y < 2 ∧ (L = 0 → y = 0)) → (src.live ≠ [] → pad = []) →
    (src.live ≠ [] → src.live.getLast? = some L) → (src.live = [] → L = 0 → bit = 0) →
    ∃ bit1 src1 x1 pad1, prime_loop n c bit src =
        (EVX_SUCCESS, { c with value := win x1.length x1 }, bit1, src1) ∧
      x1.length = x.length + n ∧ x1 ++ src1.live = S ++ pad1 ∧
      (∀ y ∈ pad1, y < 2 ∧ (L = 0 → y = 0)) ∧ (src1.live ≠ [] → pad1 = []) ∧
      (src1.live ≠ [] → src1.live.getLast? = some L) ∧ src1.wf := by
  intro n
  induction n with
  | zero =>
    intro c bit src x S pad L hs _ hv _ _ he hpad hps hlast _
    refine ⟨bit, src, x, pad, ?_, rfl, he, hpad, hps, hlast, hs⟩
    rw [prime_loop, ← hv]
  | succ n ih =>
    intro c bit src x S pad L hs hb hv hx hlen he hpad hps hlast hbit
    have hlt := win_lt hx x.length
    have hpow : 2 ^ x.length ≤ 2 ^ 30 := Nat.pow_le_pow_right (by omega) (by omega)
    obtain ⟨b, src1, hstep, hs1, hb1, hcase⟩ := prime_step hs hb
      (show c.value < 2147483648 by rw [hv]; omega) n
    obtain ⟨pad1, p1, p2, p3, p4, p5⟩ := window_shift he hpad hps hlast hbit hb1 hcase
    obtain ⟨bit2, src2, x2, pad2, i1, i2, i3, i4, i5, i6, i7⟩ := ih
      { c with value := 2 * c.value + b } b src1 (x ++ [b]) S pad1 L hs1 hb1
      (by simp only [List.length_append, List.length_singleton]; rw [win_snoc _ x rfl, hv])
      (by
        intro y hy
        rcases List.mem_append.mp hy with h | h
        · exact hx y h
        · simp at h; omega)
      (by simp; omega) p1 p2 p3 p4 p5
    refine ⟨bit2, src2, x2, pad2, ?_, by rw [i2]; simp; omega, i3, i4, i5, i6, i7⟩
    rw [hstep, i1]

theorem flush_out_last (c : entropy_coder) : c.flush_out.getLast? = some c.flush_last := by
  unfold flush_out flush_last
  split_ifs
  · rw [List.replicate_succ', ← List.cons_append,
      List.getLast?_append_of_ne_nil _ (by simp)]
    rfl
  · rw [List.replicate_succ', ← List.cons_append,
      List.getLast?_append_of_ne_nil _ (by simp)]
    rfl

theorem encode_out_last (fuel : Nat) (c : entropy_coder) (B : List Nat) :
    (encode_out fuel c B).getLast? = some (encode_end fuel c B).flush_last := by
  rw [encode_out_eq]
  have hne : (encode_end fuel c B).flush_out ≠ [] := by
    unfold flush_out; split_ifs <;> simp
  rw [List.getLast?_append_of_ne_nil _ hne]
  exact flush_out_last _

theorem map_mod_two {B : List Nat} (h : ∀ b ∈ B, b < 2) : B.map (· % 2) = B := by
  induction B with
  | nil => rfl
  | cons b B ih =>
    have hb : b < 2 := h b (by simp)
    have := ih (fun x hx => h x (by simp [hx]))
    simp only [List.map_cons, this]
    congr 1
    omega

theorem fresh_stopped {c : entropy_coder} (h : c.fresh) : c.stopped := by
  obtain ⟨h1, h2, _, _⟩ := h
  unfold stopped
  omega

theorem sync_clear {c cd : entropy_coder} (h : c.fresh) (ha : cd.adaptive = c.adaptive)
    (hm : cd.model = c.model) : sync c ({ cd with value := 0 } : entropy_coder).clear := by
  obtain ⟨h1, h2, _, h4⟩ := h
  unfold sync clear
  by_cases hca : c.adaptive = true
  · obtain ⟨h5, h6⟩ := h4 hca
    have : cd.adaptive = true := by rw [ha, hca]
    simp [this, h1, h2, hca, hm, h5, h6, PRECISION_MAX_eq]
  · have : cd.adaptive = false := by rw [ha]; simpa using hca
    simp [this, h1, h2, hca, hm, PRECISION_MAX_eq]

theorem clear_value (c : entropy_coder) : c.clear.value = 0 := by
  unfold clear
  simp only
  split_ifs <;> rfl

/-- Round trip from a fresh coder: with room for `encode_out` in the
encoded buffer and for the symbols in the output buffer, one-shot `encode`
followed by one-shot `decode` on a coder of the same kind succeeds and
writes back the source bits. -/
theorem round_trip_core {B : List Nat} {fuel : Nat} {c cd : entropy_coder}
    {src enc out : bitstream} (param_check : Bool) (hf : 17 ≤ fuel) (hB : B ≠ [])
    (hbits : ∀ b ∈ B, b < 2) (hc : c.fresh) (hm : c.model_ok) (hh : c.hist_ok B.length)
    (ha : cd.adaptive = c.adaptive) (hmo : cd.model = c.model)
    (hsrc : src.wf) (hl : src.live = B) (henc : enc.wf) (he : enc.live = []) (hout : out.wf)
    (hcapo : B.length ≤ out.free_bits) (hk : 16 * B.length + 1 < 4294967296)
    (hcap : (encode_out fuel c B).length ≤ enc.free_bits) :
    ∃ src1 d1 enc2,
      c.encode fuel src enc true = some (EVX_SUCCESS, (encode_end fuel c B).clear, src1,
        enc.write_list (encode_out fuel c B)) ∧
      (enc.write_list (encode_out fuel c B)).live = encode_out fuel c B ∧
      cd.decode param_check fuel B.length (enc.write_list (encode_out fuel c B)) out true =
        some (EVX_SUCCESS, d1, enc2, out.write_list B) ∧
      (out.write_list B).live = out.live ++ B := by
  have hs := fresh_stopped hc
  have hk0 : c.e3_count = 0 := hc.2.2.1
  obtain ⟨src1, henc1, _, _⟩ := encode_refines hf hs hm hh hbits hsrc hl henc
    (by rw [hk0]; omega) hcap
  have P := promise_encode B fuel c hf hs hm hh hbits
  obtain ⟨m, t, hm2, ht, ho⟩ := promise_bits P
  rw [hk0] at ho
  simp only [List.replicate_zero, List.nil_append] at ho
  have hobits : ∀ b ∈ encode_out fuel c B, b < 2 := by
    rw [ho]
    intro b hb
    rcases List.mem_cons.mp hb with rfl | hb
    · exact hm2
    · exact ht b hb
  obtain ⟨w1, w2, _, _, _⟩ := bitstream.write_list_ok (encode_out fuel c B) enc henc hcap
  rw [he, map_mod_two hobits, List.nil_append] at w2
  obtain ⟨o1, o2, _, _, _⟩ := bitstream.write_list_ok B out hout hcapo
  rw [map_mod_two hbits] at o2
  have hsy := sync_clear hc ha hmo
  have hlast := encode_out_last fuel c B
  obtain ⟨bit1, enc2, x1, pad1, i1, i2, i3, i4, i5, i6, i7⟩ := prime_loop_ok 16
    ({ cd with value := 0 } : entropy_coder).clear 0 (enc.write_list (encode_out fuel c B))
    [] (encode_out fuel c B) [] (encode_end fuel c B).flush_last w1 (by omega)
    (by rw [clear_value]; rfl) (by simp) (by simp) (by simp [w2]) (by simp) (fun _ => rfl)
    (fun _ => by rw [w2]; exact hlast) (fun _ _ => rfl)
  simp only [List.length_nil, Nat.zero_add] at i2
  have hrel : window_rel (encode_end fuel c B).flush_last c.e3_count (encode_out fuel c B)
      (win 16 x1) enc2.live := by
    rw [hk0]
    exact ⟨m, t, x1, pad1, hm2, ht, by simpa using ho, i2, rfl, by rw [i3, ho], i4, i5, i6⟩
  obtain ⟨d1, enc3, hdec⟩ := decode_lockstep B fuel c
    { ({ cd with value := 0 } : entropy_coder).clear with value := win x1.length x1 } enc2 out
    hf hs hm hh hbits
    (by
      obtain ⟨y1, y2, y3, y4, y5⟩ := hsy
      exact ⟨y1, y2, y3, y4, y5⟩)
    (by simp only; rw [i2]; exact hrel) i7 hout hcapo
  refine ⟨src1, d1, enc3, henc1, w2, ?_, o2⟩
  have hn0 : ¬ (param_check = true ∧ B.length = 0) := by
    intro h
    exact hB (List.length_eq_zero.mp h.2)
  unfold decode
  rw [if_neg hn0]
  simp only [if_true, PRECISION_eq, i1, ne_eq, not_true_eq_false, if_false]
  exact hdec

end entropy_coder

theorem encode_out_length_le {B : List Nat} {fuel : Nat} {c : entropy_coder} (hf : 17 ≤ fuel)
    (hs : c.stopped) (hm : c.model_ok) (hh : c.hist_ok B.length) (hB : ∀ b ∈ B, b < 2) :
    (entropy_coder.encode_out fuel c B).length ≤ c.e3_count + 16 * B.length + 2 := by
  obtain ⟨l1, _, _, _, _⟩ := entropy_coder.symbols_out_length B fuel c hf hs hm hh hB
  rw [entropy_coder.encode_out_eq, List.length_append, entropy_coder.flush_out_length]
  omega

theorem free_bits_lt {s : bitstream} (h : s.wf) : s.free_bits < 4294967296 := by
  obtain ⟨_, _, _, h4⟩ := h
  unfold bitstream.free_bits
  omega

namespace entropy_coder

theorem clear_kind (c : entropy_coder) :
    c.clear.adaptive = c.adaptive ∧ c.clear.model = c.model := by
  unfold clear
  simp only
  split_ifs <;> exact ⟨rfl, rfl⟩

theorem encode_symbol_kind (c : entropy_coder) (b : Nat) :
    (c.encode_symbol b).2.adaptive = c.adaptive ∧ (c.encode_symbol b).2.model = c.model := by
  unfold encode_symbol history_incr resolve_model
  simp only
  split_ifs <;> exact ⟨rfl, rfl⟩

theorem encode_end_kind (fuel : Nat) : ∀ (B : List Nat) (c : entropy_coder),
    (encode_end fuel c B).adaptive = c.adaptive ∧ (encode_end fuel c B).model = c.model := by
  intro B
  induction B with
  | nil => intro c; exact ⟨rfl, rfl⟩
  | cons b B ih =>
    intro c
    obtain ⟨i1, i2⟩ := ih (scaling_out fuel (c.encode_symbol b).2).1
    obtain ⟨g1, g2, _⟩ := scaling_out_fields fuel (c.encode_symbol b).2
    obtain ⟨e1, e2⟩ := encode_symbol_kind c b
    simp only [encode_end]
    exact ⟨by rw [i1, g1, e1], by rw [i2, g2, e2]⟩

theorem encode_end_clear_kind (fuel : Nat) (B : List Nat) (c : entropy_coder) :
    (encode_end fuel c B).clear.adaptive = c.adaptive ∧
      (encode_end fuel c B).clear.model = c.model := by
  obtain ⟨c1, c2⟩ := clear_kind (encode_end fuel c B)
  obtain ⟨e1, e2⟩ := encode_end_kind fuel B c
  exact ⟨by rw [c1, e1], by rw [c2, e2]⟩

/-- Beyond what the interval width needs, fuel does not change the result. -/
theorem scaling_out_fuel : ∀ (fuel fuel1 j : Nat) (c : entropy_coder),
    c.valid → 65536 ≤ (c.high - c.low + 1) * 2 ^ j → j < fuel → j < fuel1 →
    scaling_out fuel c = scaling_out fuel1 c := by
  intro fuel
  induction fuel with
  | zero => intro fuel1 j c _ _ hj; omega
  | succ fuel ih =>
    intro fuel1 j c hv hw hj hj1
    obtain ⟨fuel1, rfl⟩ : ∃ k, fuel1 = k + 1 := ⟨fuel1 - 1, by omega⟩
    obtain ⟨hlh, hmax⟩ := hv
    have hj0 : (c.high < 32768 ∨ 32768 ≤ c.low ∨ (c.high ≤ 49149 ∧ 16384 ≤ c.low)) → 0 < j := by
      intro h
      rcases Nat.eq_zero_or_pos j with h0 | h0
      · subst h0; simp at hw; omega
      · exact h0
    by_cases c1 : c.high < 32768
    · have hjp := hj0 (Or.inl c1)
      simp only [scaling_out, if_pos c1]
      rw [ih fuel1 (j - 1) _ ⟨by simp; omega, by simp; omega⟩
        (width_step hjp hw (by simp only; omega)) (by omega) (by omega)]
    · by_cases c2 : 32768 ≤ c.low
      · have hjp := hj0 (Or.inr (Or.inl c2))
        simp only [scaling_out, if_neg c1, if_pos c2]
        rw [ih fuel1 (j - 1) _ ⟨by simp; omega, by simp; omega⟩
          (width_step hjp hw (by simp only; omega)) (by omega) (by omega)]
      · by_cases c3 : c.high ≤ 49149 ∧ 16384 ≤ c.low
        · have hjp := hj0 (Or.inr (Or.inr c3))
          simp only [scaling_out, if_neg c1, if_neg c2, if_pos c3]
          exact ih fuel1 (j - 1) _ ⟨by simp; omega, by simp; omega⟩
            (width_step hjp hw (by simp only; omega)) (by omega) (by omega)
        · simp only [scaling_out, if_neg c1, if_neg c2, if_neg c3]

theorem encode_out_fuel : ∀ (B : List Nat) (fuel : Nat) (c : entropy_coder), 17 ≤ fuel →
    c.stopped → c.model_ok → c.hist_ok B.length → (∀ b ∈ B, b < 2) →
    encode_out fuel c B = encode_out 17 c B := by
  intro B
  induction B with
  | nil => intro fuel c _ _ _ _ _; rfl
  | cons b B ih =>
    intro fuel c hf hs hm hh hB
    have hb : b < 2 := hB b (by simp)
    have hh1 : c.hist_ok 1 := by unfold hist_ok at *; simp at hh; omega
    obtain ⟨_, e2, _⟩ := encode_symbol_ok hs hm hb hh1
    obtain ⟨r1, r2, r3, _, _⟩ := encode_round hs hm hb (by simpa using hh) hf
    have hsc := scaling_out_fuel fuel 17 16 _ e2 (valid_width16 _) (by omega) (by omega)
    simp only [encode_out]
    rw [ih fuel _ hf r1 r2 r3 (fun x hx => hB x (by simp [hx])), hsc]

end entropy_coder

set_option maxRecDepth 100000 in
/-- The encoder output for 256 zero bits from a default coder. -/
theorem zeros_out : entropy_coder.encode_out 17 entropy_coder.construct (List.replicate 256 0) =
    [0, 0, 0, 0, 0, 0, 0, 0, 0, 1] := by
  decide

/-- C4 (all-zeros compression). Encoding a source of 256 zero bits with a
default (adaptive) coder and `auto_finish`, into an empty destination with
at least 10 free bits, succeeds and appends at most 32 bits (exactly the ten
bits `0000000001`); `decode(256, ...)` of that output yields 256 zero bits. -/
theorem all_zeros_compress (src enc out : bitstream) (fuel : Nat) (param_check : Bool)
    (hsrc : src.wf) (hl : src.live = List.replicate 256 0) (henc : enc.wf) (he : enc.live = [])
    (hcap : 10 ≤ enc.free_bits) (hout : out.wf) (ho : out.live = [])
    (hcapo : 256 ≤ out.free_bits) (hf : 17 ≤ fuel) :
    ∃ c1 src1 enc1 c2 enc2 out1,
      entropy_coder.construct.encode fuel src enc true = some (EVX_SUCCESS, c1, src1, enc1) ∧
      enc1.live.length ≤ 32 ∧ enc1.live = [0, 0, 0, 0, 0, 0, 0, 0, 0, 1] ∧
      c1.decode param_check fuel 256 enc1 out true = some (EVX_SUCCESS, c2, enc2, out1) ∧
      out1.live = List.replicate 256 0 := by
  have hfresh : entropy_coder.construct.fresh := by
    unfold entropy_coder.fresh entropy_coder.construct
    simp [PRECISION_MAX_eq]
  have hm : entropy_coder.construct.model_ok := by
    unfold entropy_coder.model_ok entropy_coder.construct
    simp
  have hlen : (List.replicate 256 0 : List Nat).length = 256 := List.length_replicate _ _
  have hh : entropy_coder.construct.hist_ok (List.replicate 256 0).length := by
    rw [hlen]
    unfold entropy_coder.hist_ok entropy_coder.construct
    decide
  have hbits : ∀ b ∈ List.replicate 256 0, b < 2 := by
    intro b hb
    rw [List.eq_of_mem_replicate hb]
    omega
  have hne : (List.replicate 256 0 : List Nat) ≠ [] := by
    intro h
    rw [h] at hlen
    exact absurd hlen (by decide)
  have hout17 := entropy_coder.encode_out_fuel _ fuel _ hf (entropy_coder.fresh_stopped hfresh)
    hm hh hbits
  rw [zeros_out] at hout17
  obtain ⟨src1, d1, enc2, h1, h2, h3, h4⟩ := entropy_coder.round_trip_core param_check hf
    hne hbits hfresh hm hh
    (entropy_coder.encode_end_clear_kind fuel (List.replicate 256 0) entropy_coder.construct).1
    (entropy_coder.encode_end_clear_kind fuel (List.replicate 256 0) entropy_coder.construct).2
    hsrc hl henc he hout (by rw [hlen]; exact hcapo) (by rw [hlen]; decide)
    (by rw [hout17]; exact hcap)
  rw [ho, List.nil_append] at h4
  rw [hout17] at h1 h2 h3
  rw [hlen] at h3
  exact ⟨_, src1, _, d1, enc2, _, h1, by rw [h2]; decide, h2, h3, h4⟩

set_option maxRecDepth 100000 in
/-- Witness for `all_zeros_compress`: a 32-byte source of zero bytes, a
16-bit destination and a 256-bit output buffer. -/
theorem all_zeros_compress_witness :
    ∃ c1 src1 enc1 c2 enc2 out1,
      entropy_coder.construct.encode 17
          { read_index := 0, write_index := 256, data_capacity := 32,
            data_store := List.replicate 32 0 }
          { read_index := 0, write_index := 0, data_capacity := 2, data_store := [0, 0] }
          true = some (EVX_SUCCESS, c1, src1, enc1) ∧
      enc1.live.length ≤ 32 ∧ enc1.live = [0, 0, 0, 0, 0, 0, 0, 0, 0, 1] ∧
      c1.decode false 17 256 enc1
          { read_index := 0, write_index := 0, data_capacity := 32,
            data_store := List.replicate 32 0 } true =
        some (EVX_SUCCESS, c2, enc2, out1) ∧
      out1.live = List.replicate 256 0 :=
  all_zeros_compress
    { read_index := 0, write_index := 256, data_capacity := 32, data_store := List.replicate 32 0 }
    { read_index := 0, write_index := 0, data_capacity := 2, data_store := [0, 0] }
    { read_index := 0, write_index := 0, data_capacity := 32, data_store := List.replicate 32 0 }
    17 false (by decide) (by decide) (by decide) (by decide) (by decide) (by decide) (by decide)
    (by decide) (by decide)

namespace entropy_coder

/-- The loop of `encode` reads the live bits of its source in order and
depends on nothing else of the source. -/
theorem encode_loop_bits (fuel : Nat) : ∀ (B : List Nat) (n : Nat) (c : entropy_coder)
    (src dst : bitstream), src.wf → src.live = B → B.length ≤ n →
    (encode_loop fuel n c src dst).map drop_source = encode_bits fuel c B dst := by
  intro B
  induction B with
  | nil =>
    intro n c src dst hs hl _
    unfold encode_loop
    rw [bitstream.is_empty_of_live_nil hs hl]
    rfl
  | cons b B ih =>
    intro n c src dst hs hl hn
    obtain ⟨n, rfl⟩ : ∃ k, n = k + 1 := ⟨n - 1, by simp at hn; omega⟩
    obtain ⟨q1, q2, q3, q4, q5, _⟩ := bitstream.read_bit_live hs hl (show (0 : Nat) < 2 by omega)
    unfold encode_loop
    rw [q1]
    simp only [Bool.false_eq_true, if_false, q2, ne_eq, not_true_eq_false, q3, encode_bits]
    by_cases he : (c.encode_symbol b).1 = EVX_SUCCESS
    · simp only [he, not_true_eq_false, if_false]
      cases hsc : resolve_encode_scaling fuel (c.encode_symbol b).2 dst with
      | none => rfl
      | some r =>
        obtain ⟨st, c1, d1⟩ := r
        simp only
        by_cases hst : st = EVX_SUCCESS
        · simp only [hst, ne_eq, not_true_eq_false, if_false]
          exact ih n c1 _ d1 q4 q5 (by simp at hn; omega)
        · simp only [ne_eq, hst, not_false_eq_true, if_true]
          rfl
    · simp only [he, not_false_eq_true, if_true]
      rfl

theorem encode_bits_append (fuel : Nat) : ∀ (X Y : List Nat) (c : entropy_coder) (dst : bitstream),
    encode_bits fuel c (X ++ Y) dst =
      match encode_bits fuel c X dst with
      | none => none
      | some (st, c1, d1) =>
        if st ≠ EVX_SUCCESS then some (st, c1, d1) else encode_bits fuel c1 Y d1 := by
  intro X
  induction X with
  | nil => intro Y c dst; simp [encode_bits]
  | cons b X ih =>
    intro Y c dst
    simp only [List.cons_append, encode_bits]
    by_cases he : (c.encode_symbol b).1 = EVX_SUCCESS
    · simp only [he, ne_eq, not_true_eq_false, if_false]
      cases hsc : resolve_encode_scaling fuel (c.encode_symbol b).2 dst with
      | none => rfl
      | some r =>
        obtain ⟨st, c1, d1⟩ := r
        simp only
        by_cases hst : st = EVX_SUCCESS
        · simp only [hst, ne_eq, not_true_eq_false, if_false]
          exact ih Y c1 d1
        · simp only [ne_eq, hst, not_false_eq_true, if_true]
          rfl
    · simp only [ne_eq, he, not_false_eq_true, if_true]
      rfl

/-- What `encode` returns, from the source bits. -/
theorem encode_eq_bits (fuel : Nat) (c : entropy_coder) {src : bitstream} (dst : bitstream)
    (hs : src.wf) (auto_finish : Bool) :
    (c.encode fuel src dst auto_finish).map drop_source =
      match encode_bits fuel c src.live dst with
      | none => none
      | some (st, c1, d1) =>
        if st ≠ EVX_SUCCESS then some (st, c1, d1)
        else if auto_finish then
          (if (c1.flush_encoder d1).1 ≠ EVX_SUCCESS then
            some (EVX_ERROR_EXECUTION_FAILURE, (c1.flush_encoder d1).2.1, (c1.flush_encoder d1).2.2)
           else some (EVX_SUCCESS, (c1.flush_encoder d1).2.1.clear, (c1.flush_encoder d1).2.2))
        else some (EVX_SUCCESS, c1, d1) := by
  have h := encode_loop_bits fuel src.live (src.write_index - src.read_index) c src dst hs rfl
    (by rw [bitstream.live_length])
  unfold encode
  cases hl : encode_loop fuel (src.write_index - src.read_index) c src dst with
  | none =>
    rw [hl] at h
    simp only [Option.map_none'] at h
    rw [← h]
    rfl
  | some r =>
    obtain ⟨st, c1, s1, d1⟩ := r
    rw [hl] at h
    simp only [Option.map_some', drop_source] at h
    rw [← h]
    simp only
    by_cases hst : st = EVX_SUCCESS
    · simp only [hst, ne_eq, not_true_eq_false, if_false]
      cases auto_finish
      · rfl
      · simp only [if_true]
        by_cases hf : (c1.flush_encoder d1).1 = EVX_SUCCESS
        · simp [hf, drop_source]
        · simp [hf, drop_source]
    · simp [hst, drop_source]

theorem encode_false_bits (fuel : Nat) (c : entropy_coder) {src : bitstream} (dst : bitstream)
    (hs : src.wf) :
    (c.encode fuel src dst false).map drop_source = encode_bits fuel c src.live dst := by
  rw [encode_eq_bits fuel c dst hs false]
  cases encode_bits fuel c src.live dst with
  | none => rfl
  | some r =>
    obtain ⟨st, c1, d1⟩ := r
    simp only
    by_cases hst : st = EVX_SUCCESS
    · simp [hst]
    · simp [hst]

theorem encode_incremental_checked_eq (fuel : Nat) (c : entropy_coder) (srcX srcY dst : bitstream) :
    encode_incremental_checked fuel c srcX srcY dst =
      match (c.encode fuel srcX dst false).map drop_source with
      | none => none
      | some (st, c1, d1) =>
        if st ≠ EVX_SUCCESS then some (st, c1, d1)
        else
          match (c1.encode fuel srcY d1 false).map drop_source with
          | none => none
          | some (st2, c2, d2) =>
            if st2 ≠ EVX_SUCCESS then some (st2, c2, d2) else some (c2.finish_encode d2) := by
  unfold encode_incremental_checked
  cases h1 : c.encode fuel srcX dst false with
  | none => rfl
  | some r =>
    obtain ⟨st, c1, s1, d1⟩ := r
    simp only [Option.map_some', drop_source]
    by_cases hst : st = EVX_SUCCESS
    · simp only [hst, ne_eq, not_true_eq_false, if_false]
      cases h2 : c1.encode fuel srcY d1 false with
      | none => rfl
      | some r2 =>
        obtain ⟨st2, c2, s2, d2⟩ := r2
        rfl
    · simp only [ne_eq, hst, not_false_eq_true, if_true]

end entropy_coder

/-- C3 as stated fails: on a destination without capacity, calling
`encode([0])`, `encode([1])` and `finish_encode` one after the other leaves
the coder in another state than the single `encode([0, 1])`, which stops at
the first failing write. -/
theorem incremental_unchecked_differs :
    ¬ ((entropy_coder.encode_incremental 17 entropy_coder.construct
          { read_index := 0, write_index := 1, data_capacity := 1, data_store := [0] }
          { read_index := 0, write_index := 1, data_capacity := 1, data_store := [1] }
          bitstream.construct).map (fun r => r.2) =
        (entropy_coder.construct.encode 17
          { read_index := 0, write_index := 2, data_capacity := 1, data_store := [2] }
          bitstream.construct true).map (fun r => (entropy_coder.drop_source r).2)) := by
  decide

/-- C3 (amended): incremental encoding equals one-shot encoding when the
caller stops at the first failing call. For all sources holding `X`, `Y` and
`X ++ Y`, every starting coder state and every destination, `encode(X, dst,
false)`, `encode(Y, dst, false)`, `finish_encode(dst)` return the same
status, leave the same coder state and the same destination as the single
`encode(X ++ Y, dst, true)`. -/
theorem incremental_checked_eq_one_shot (fuel : Nat) (c : entropy_coder)
    (srcX srcY srcXY dst : bitstream) (hX : srcX.wf) (hY : srcY.wf) (hXY : srcXY.wf)
    (hl : srcXY.live = srcX.live ++ srcY.live) :
    entropy_coder.encode_incremental_checked fuel c srcX srcY dst =
      (c.encode fuel srcXY dst true).map entropy_coder.drop_source := by
  rw [entropy_coder.encode_incremental_checked_eq, entropy_coder.encode_eq_bits fuel c dst hXY true,
    hl, entropy_coder.encode_bits_append, entropy_coder.encode_false_bits fuel c dst hX]
  cases h1 : entropy_coder.encode_bits fuel c srcX.live dst with
  | none => rfl
  | some r =>
    obtain ⟨st, c1, d1⟩ := r
    simp only
    by_cases hst : st = EVX_SUCCESS
    · simp only [hst, ne_eq, not_true_eq_false, if_false]
      rw [entropy_coder.encode_false_bits fuel c1 d1 hY]
      cases h2 : entropy_coder.encode_bits fuel c1 srcY.live d1 with
      | none => rfl
      | some r2 =>
        obtain ⟨st2, c2, d2⟩ := r2
        simp only
        by_cases hst2 : st2 = EVX_SUCCESS
        · simp only [hst2, ne_eq, not_true_eq_false, if_false, if_true,
            entropy_coder.finish_encode]
          by_cases hf : (c2.flush_encoder d2).1 = EVX_SUCCESS
          · simp [hf]
          · simp [hf]
        · simp [hst2]
    · simp [hst]

/-- Witness for `incremental_checked_eq_one_shot`: `X = [0]`, `Y = [1]`, a
default coder and a 16-bit destination. -/
theorem incremental_checked_eq_one_shot_witness :
    entropy_coder.encode_incremental_checked 17 entropy_coder.construct
        { read_index := 0, write_index := 1, data_capacity := 1, data_store := [0] }
        { read_index := 0, write_index := 1, data_capacity := 1, data_store := [1] }
        { read_index := 0, write_index := 0, data_capacity := 2, data_store := [0, 0] } =
      (entropy_coder.construct.encode 17
        { read_index := 0, write_index := 2, data_capacity := 1, data_store := [2] }
        { read_index := 0, write_index := 0, data_capacity := 2, data_store := [0, 0] }
        true).map entropy_coder.drop_source :=
  incremental_checked_eq_one_shot 17 entropy_coder.construct
    { read_index := 0, write_index := 1, data_capacity := 1, data_store := [0] }
    { read_index := 0, write_index := 1, data_capacity := 1, data_store := [1] }
    { read_index := 0, write_index := 2, data_capacity := 1, data_store := [2] }
    { read_index := 0, write_index := 0, data_capacity := 2, data_store := [0, 0] }
    (by decide) (by decide) (by decide) (by decide)

namespace bitstream

theorem read_bit_lt (s : bitstream) {dest : Nat} (hd : dest < 2) : (s.read_bit dest).2.2 < 2 := by
  unfold read_bit
  split_ifs
  · exact hd
  · simp only
    have h1 : (s.data_store.getD (s.read_index >>> 3) 0 >>> u8 (s.read_index % 8)) &&& 1 < 2 := by
      rw [and_one]; omega
    generalize (s.data_store.getD (s.read_index >>> 3) 0 >>> u8 (s.read_index % 8)) &&& 1 = b
      at h1 ⊢
    rw [keep_low_bit hd h1]
    exact h1

end bitstream

namespace entropy_coder

/-- The split point stays inside a valid interval as soon as the divisor
does not wrap (adaptive) or the model is on the precision scale (fixed). -/
theorem resolve_model_le {c : entropy_coder} (hv : c.valid)
    (hm : if c.adaptive then c.history0 + c.history1 < 4294967296 else c.model ≤ 65535) :
    c.low ≤ c.resolve_model.mid ∧ c.resolve_model.mid ≤ c.high := by
  obtain ⟨hlh, hmax⟩ := hv
  unfold resolve_model
  simp only
  rw [sub32_of_le hlh (by omega)]
  obtain ⟨r, hr⟩ : ∃ r, c.high - c.low = r := ⟨_, rfl⟩
  rw [hr]
  have hr1 : r < 65536 := by omega
  by_cases ha : c.adaptive = true
  · rw [if_pos ha] at hm
    rw [if_pos ha, u32_of_lt hm]
    have h2 : c.history0 < 4294967296 := by omega
    have hprod : r * c.history0 < 18446744073709551616 := by
      calc r * c.history0 < 65536 * 4294967296 := Nat.mul_lt_mul'' hr1 h2
        _ < 18446744073709551616 := by norm_num
    rw [u64_of_lt hprod]
    have hle : r * c.history0 / (c.history0 + c.history1) ≤ r := by
      apply Nat.div_le_of_le_mul
      calc r * c.history0 = c.history0 * r := Nat.mul_comm _ _
        _ ≤ (c.history0 + c.history1) * r := Nat.mul_le_mul_right r (Nat.le_add_right _ _)
    generalize r * c.history0 / (c.history0 + c.history1) = q at hle ⊢
    rw [u32_of_lt (by omega)]
    omega
  · rw [if_neg ha] at hm
    rw [if_neg ha, PRECISION_MAX_eq]
    by_cases hr0 : r = 0
    · subst hr0
      simp [u64, u32]
      omega
    · have hprod : r * c.model < 18446744073709551616 := by
        calc r * c.model ≤ r * 65535 := Nat.mul_le_mul_left r hm
          _ < 65536 * 65536 := by omega
          _ < 18446744073709551616 := by norm_num
      rw [u64_of_lt hprod]
      have hle : r * c.model / 65535 ≤ r := by
        apply Nat.div_le_of_le_mul
        calc r * c.model = c.model * r := Nat.mul_comm _ _
          _ ≤ 65535 * r := Nat.mul_le_mul_right r hm
      generalize r * c.model / 65535 = q at hle ⊢
      rw [u32_of_lt (by omega)]
      omega

theorem window_inv_symbol {n : Nat} {c : entropy_coder} (h : window_inv n c)
    (hn : n + 1 < 2147483648) (dest : bitstream) :
    window_inv (n + 1) (c.decode_symbol c.value dest).2.1 := by
  obtain ⟨h1, h2, h3, h4⟩ := h
  have hv : c.valid := ⟨by omega, h3⟩
  have hm : (if c.adaptive then c.history0 + c.history1 < 4294967296 else c.model ≤ 65535) := by
    split_ifs at h4 ⊢
    · omega
    · exact h4
  obtain ⟨m1, m2⟩ := resolve_model_le hv hm
  obtain ⟨f1, f2, f3, f4, f5, f6, f7, f8⟩ := resolve_model_fields c
  unfold decode_symbol
  simp only
  by_cases b0 : c.value ≥ c.resolve_model.low ∧ c.value ≤ c.resolve_model.mid
  · rw [if_pos b0]
    refine ⟨by simp only; rw [f1, f8]; exact h1, by simp only; rw [f8]; exact b0.2,
      by simp only; omega, ?_⟩
    simp only [f4, f5, f6, f7]
    split_ifs at h4 ⊢
    · rw [u32_of_lt (by omega)]; omega
    · exact h4
  · rw [if_neg b0]
    by_cases b1 : c.value > c.resolve_model.mid ∧ c.value ≤ c.resolve_model.high
    · rw [if_pos b1]
      refine ⟨by simp only; rw [f8, u32_of_lt (by omega)]; omega,
        by simp only; rw [f2, f8]; exact h2, by simp only; rw [f2]; exact h3, ?_⟩
      simp only [f4, f5, f6, f7]
      split_ifs at h4 ⊢
      · rw [u32_of_lt (by omega)]; omega
      · exact h4
    · rw [if_neg b1]
      refine ⟨by rw [f1, f8]; exact h1, by rw [f2, f8]; exact h2, by rw [f2]; exact h3, ?_⟩
      simp only [f4, f5, f6, f7]
      split_ifs at h4 ⊢
      · omega
      · exact h4

/-- What a successful iteration of the decoder loop is: a rule fired and a
bit `0` or `1` was shifted in. -/
theorem decode_iter_success {c c1 : entropy_coder} {bit bit1 : Nat} {source source1 : bitstream}
    (hb : bit < 2)
    (h : c.decode_scaling_iter bit source = some (EVX_SUCCESS, c1, bit1, source1)) :
    ∃ c2, c.decode_scaling_rule = some c2 ∧ c1 = c2.shift_value bit1 ∧ bit1 < 2 := by
  unfold decode_scaling_iter at h
  cases hr : c.decode_scaling_rule with
  | none => rw [hr] at h; simp at h
  | some c2 =>
    rw [hr] at h
    simp only at h
    refine ⟨c2, rfl, ?_⟩
    by_cases he : source.is_empty = true
    · rw [he] at h
      simp only [not_true_eq_false, if_false, Option.some.injEq, Prod.mk.injEq, true_and] at h
      obtain ⟨h1, h2, h3⟩ := h
      rw [← h2]
      exact ⟨h1.symm, hb⟩
    · have he' : source.is_empty = false := by simpa using he
      rw [he'] at h
      simp only [Bool.false_eq_true, not_false_eq_true, if_true] at h
      by_cases hs : (source.read_bit bit).1 = EVX_SUCCESS
      · rw [if_neg (by simp [hs])] at h
        simp only [Option.some.injEq, Prod.mk.injEq, true_and] at h
        obtain ⟨h1, h2, h3⟩ := h
        rw [← h2]
        exact ⟨h1.symm, bitstream.read_bit_lt source hb⟩
      · rw [if_pos (by simpa using hs)] at h
        simp only [Option.some.injEq, Prod.mk.injEq] at h
        exact absurd h.1 (by decide)

theorem window_inv_scale {n : Nat} {c c1 : entropy_coder} {bit bit1 : Nat}
    {source source1 : bitstream} (h : window_inv n c) (hb : bit < 2)
    (hi : c.decode_scaling_iter bit source = some (EVX_SUCCESS, c1, bit1, source1)) :
    window_inv n c1 := by
  obtain ⟨c2, hr, rfl, hb1⟩ := decode_iter_success hb hi
  obtain ⟨h1, h2, h3, h4⟩ := h
  by_cases c1' : c.high < 32768
  · rw [decode_rule_e1 c1'] at hr
    injection hr with hr
    subst hr
    rw [shift_value_eq (by omega) c1' (by omega) hb1]
    exact ⟨by simp only; omega, by simp only; omega, by simp only; omega, h4⟩
  · by_cases c2' : 32768 ≤ c.low
    · rw [decode_rule_e2 ⟨by omega, h3⟩ c2' (by omega) (by omega)] at hr
      injection hr with hr
      subst hr
      rw [shift_value_eq (by simp only; omega) (by simp only; omega) (by simp only; omega) hb1]
      exact ⟨by simp only; omega, by simp only; omega, by simp only; omega, h4⟩
    · by_cases c3' : c.high ≤ 49149 ∧ 16384 ≤ c.low
      · rw [decode_rule_e3 ⟨by omega, h3⟩ (by omega) (by omega) c3'.1 c3'.2 (by omega)
          (by omega)] at hr
        injection hr with hr
        subst hr
        rw [shift_value_eq (by simp only; omega) (by simp only; omega) (by simp only; omega) hb1]
        exact ⟨by simp only; omega, by simp only; omega, by simp only; omega, h4⟩
      · rw [decode_rule_stop (by omega) (by omega) c3'] at hr
        exact absurd hr (by simp)

theorem window_inv_reach {init : entropy_coder} (h0 : window_inv 0 init) :
    ∀ {n : Nat} {c : entropy_coder}, decode_reach init n c → window_inv n c := by
  intro n c h
  induction h with
  | start => exact h0
  | symbol dest _ hn ih => exact window_inv_symbol ih hn dest
  | scale _ hb hi ih => exact window_inv_scale ih hb hi

theorem shift_in_eq {v b : Nat} (hv : v < 2147483648) (hb : b < 2) :
    u32 (u32 (v <<< 1) ||| b) = 2 * v + b := by
  have e1 : u32 (v <<< 1) = 2 * v := by unfold u32; omega
  rw [e1, or_bit _ _ hb, u32_of_lt (by omega)]

/-- The priming loop on any source: it only changes `value`, and after `n`
rounds from a `k`-bit value the value has at most `k + n` bits. -/
theorem prime_loop_bound : ∀ (n : Nat) (c : entropy_coder) (bit : Nat) (src : bitstream) (k : Nat),
    bit < 2 → c.value < 2 ^ k → k + n ≤ 31 →
    (prime_loop n c bit src).2.1.value < 2 ^ (k + n) ∧
      (prime_loop n c bit src).2.1.low = c.low ∧ (prime_loop n c bit src).2.1.high = c.high ∧
      (prime_loop n c bit src).2.1.adaptive = c.adaptive ∧
      (prime_loop n c bit src).2.1.model = c.model ∧
      (prime_loop n c bit src).2.1.history0 = c.history0 ∧
      (prime_loop n c bit src).2.1.history1 = c.history1 := by
  intro n
  induction n with
  | zero => intro c bit src k _ hv _; simpa [prime_loop] using hv
  | succ n ih =>
    intro c bit src k hb hv hk
    have hp : 2 ^ k ≤ 2 ^ 30 := Nat.pow_le_pow_right (by omega) (by omega)
    have hmono : 2 ^ k ≤ 2 ^ (k + (n + 1)) := Nat.pow_le_pow_right (by omega) (by omega)
    have hstep : ∀ b, b < 2 → 2 * c.value + b < 2 ^ (k + 1) := by
      intro b hb
      rw [pow_succ]
      omega
    unfold prime_loop
    by_cases he : src.is_empty = true
    · simp only [he, not_true_eq_false, if_false]
      rw [shift_in_eq (by omega) hb]
      have := ih { c with value := 2 * c.value + bit } bit src (k + 1) hb (hstep bit hb) (by omega)
      rw [show k + 1 + n = k + (n + 1) by omega] at this
      exact this
    · simp only [he, Bool.false_eq_true, not_false_eq_true, if_true]
      by_cases hs : (src.read_bit bit).1 = EVX_SUCCESS
      · have hb2 := bitstream.read_bit_lt src hb
        rw [if_neg (by simp [hs]), shift_in_eq (by omega) hb2]
        have := ih { c with value := 2 * c.value + (src.read_bit bit).2.2 } (src.read_bit bit).2.2
          (src.read_bit bit).2.1 (k + 1) hb2 (hstep _ hb2) (by omega)
        rw [show k + 1 + n = k + (n + 1) by omega] at this
        exact this
      · rw [if_pos (by simpa using hs)]
        exact ⟨by simp only; omega, rfl, rfl, rfl, rfl, rfl, rfl⟩

theorem window_inv_start (c0 : entropy_coder) (source : bitstream)
    (hk : c0.adaptive = true ∨ c0.model ≤ EVX_ENTROPY_PRECISION_MAX) :
    window_inv 0 (c0.start_decode source).2.1 := by
  unfold start_decode
  simp only
  obtain ⟨p1, p2, p3, p4, p5, p6, p7⟩ := prime_loop_bound EVX_ENTROPY_PRECISION
    ({ c0 with value := 0 } : entropy_coder).clear 0 source 0 (by omega)
    (by rw [clear_value]; omega) (by rw [PRECISION_eq]; omega)
  rw [PRECISION_eq] at p1 p2 p3 p4 p5 p6 p7 ⊢
  unfold window_inv
  rw [p2, p3, p4, p5, p6, p7]
  rw [PRECISION_MAX_eq] at hk
  have hlow : ({ c0 with value := 0 } : entropy_coder).clear.low = 0 := by
    unfold clear; simp only; split_ifs <;> rfl
  have hhigh : ({ c0 with value := 0 } : entropy_coder).clear.high = 65535 := by
    unfold clear; simp only; split_ifs <;> exact PRECISION_MAX_eq
  obtain ⟨k1, k2⟩ := clear_kind ({ c0 with value := 0 } : entropy_coder)
  rw [hlow, hhigh, k1, k2]
  refine ⟨by omega, by simp at p1; omega, by omega, ?_⟩
  by_cases ha : c0.adaptive = true
  · simp only [ha, if_true]
    unfold clear
    simp [ha]
  · simp only [ha]
    rcases hk with hk | hk
    · exact absurd hk ha
    · simpa using hk

end entropy_coder

/-- C5 (decoder window invariant). Start from `start_decode` on any source
content, with an adaptive coder or a fixed coder whose model is on the
precision scale. After every `decode_symbol` and at every iteration
boundary of the decoder scaling loop, for fewer than `2^31` decoded symbols
and whatever bit is shifted into `value`, the state satisfies
`low ≤ value ≤ high ≤ PRECISION_MAX`. -/
theorem decoder_window_invariant (c0 : entropy_coder) (source : bitstream)
    (hk : c0.adaptive = true ∨ c0.model ≤ EVX_ENTROPY_PRECISION_MAX) (n : Nat)
    (c : entropy_coder) (h : decode_reach (c0.start_decode source).2.1 n c) :
    c.low ≤ c.value ∧ c.value ≤ c.high ∧ c.high ≤ EVX_ENTROPY_PRECISION_MAX := by
  obtain ⟨h1, h2, h3, _⟩ := entropy_coder.window_inv_reach
    (entropy_coder.window_inv_start c0 source hk) h
  rw [PRECISION_MAX_eq]
  exact ⟨h1, h2, h3⟩

/-- Witness for `decoder_window_invariant`: a default coder primed from the
one-bit source `[1]`, after one decoded symbol. -/
theorem decoder_window_invariant_witness :
    sample_decoded.low ≤ sample_decoded.value ∧ sample_decoded.value ≤ sample_decoded.high ∧
      sample_decoded.high ≤ EVX_ENTROPY_PRECISION_MAX :=
  decoder_window_invariant entropy_coder.construct
    { read_index := 0, write_index := 1, data_capacity := 1, data_store := [1] }
    (Or.inl rfl) 1 sample_decoded
    (decode_reach.symbol bitstream.construct decode_reach.start (by decide))

namespace entropy_coder

theorem decode_iter_bit {c c1 : entropy_coder} {bit bit1 : Nat} {source source1 : bitstream}
    (hb : bit < 2)
    (h : c.decode_scaling_iter bit source = some (EVX_SUCCESS, c1, bit1, source1)) : bit1 < 2 := by
  obtain ⟨_, _, _, h3⟩ := decode_iter_success hb h
  exact h3

/-- The scaling loop only passes through reachable states. -/
theorem scaling_loop_reach {init : entropy_coder} : ∀ (fuel n : Nat) (c : entropy_coder) (bit : Nat)
    (src : bitstream) (c1 : entropy_coder) (src1 : bitstream), bit < 2 →
    decode_reach init n c →
    resolve_decode_scaling_loop fuel c bit src = some (EVX_SUCCESS, c1, src1) →
    decode_reach init n c1 := by
  intro fuel
  induction fuel with
  | zero => intro n c bit src c1 src1 _ _ h; simp [resolve_decode_scaling_loop] at h
  | succ fuel ih =>
    intro n c bit src c1 src1 hb hr h
    unfold resolve_decode_scaling_loop at h
    cases hi : c.decode_scaling_iter bit src with
    | none =>
      rw [hi] at h
      simp only [Option.some.injEq, Prod.mk.injEq, true_and] at h
      rw [← h.1]
      exact hr
    | some r =>
      obtain ⟨st, c2, bit2, src2⟩ := r
      rw [hi] at h
      simp only at h
      by_cases hst : st = EVX_SUCCESS
      · subst hst
        simp only [ne_eq, not_true_eq_false, if_false] at h
        exact ih n c2 bit2 src2 c1 src1 (decode_iter_bit hb hi) (decode_reach.scale hr hb hi) h
      · rw [if_pos hst] at h
        simp only [Option.some.injEq, Prod.mk.injEq] at h
        exact absurd h.1 hst

/-- The symbol loop of `decode` only passes through reachable states. -/
theorem decode_loop_reach {init : entropy_coder} (fuel : Nat) : ∀ (n m : Nat) (c : entropy_coder)
    (src dst : bitstream) (c1 : entropy_coder) (src1 dst1 : bitstream),
    decode_reach init m c → m + n < 2147483648 →
    decode_loop fuel n c src dst = some (EVX_SUCCESS, c1, src1, dst1) →
    decode_reach init (m + n) c1 := by
  intro n
  induction n with
  | zero =>
    intro m c src dst c1 src1 dst1 hr _ h
    simp only [decode_loop, Option.some.injEq, Prod.mk.injEq, true_and] at h
    rw [← h.1]
    exact hr
  | succ n ih =>
    intro m c src dst c1 src1 dst1 hr hm h
    unfold decode_loop at h
    simp only at h
    have hd : (c.decode_symbol c.value dst).1 = EVX_SUCCESS := by
      unfold decode_symbol
      simp only
      split_ifs <;> rfl
    rw [if_neg (by simp [hd])] at h
    unfold resolve_decode_scaling at h
    cases hs : resolve_decode_scaling_loop fuel (c.decode_symbol c.value dst).2.1 0 src with
    | none => rw [hs] at h; simp at h
    | some r =>
      obtain ⟨st, c2, src2⟩ := r
      rw [hs] at h
      simp only at h
      by_cases hst : st = EVX_SUCCESS
      · subst hst
        simp only [ne_eq, not_true_eq_false, if_false] at h
        have hr1 := decode_reach.symbol dst hr (by omega)
        have hr2 := scaling_loop_reach fuel (m + 1) _ 0 src c2 src2 (by omega) hr1 hs
        have := ih (m + 1) c2 src2 _ c1 src1 dst1 hr2 (by omega) h
        rw [show m + 1 + n = m + (n + 1) by omega] at this
        exact this
      · rw [if_pos hst] at h
        simp only [Option.some.injEq, Prod.mk.injEq] at h
        exact absurd h.1 (by decide)

/-- Every state in which a successful `decode(n, ...)` with `auto_start`
ends is a reachable state of the session started by the priming. -/
theorem decode_reach_of_decode {param_check : Bool} {fuel n : Nat} {c0 c1 : entropy_coder}
    {src dst src1 dst1 : bitstream} (hn : n < 2147483648)
    (h : c0.decode param_check fuel n src dst true = some (EVX_SUCCESS, c1, src1, dst1)) :
    decode_reach (c0.start_decode src).2.1 n c1 := by
  unfold decode at h
  by_cases hp : param_check = true ∧ n = 0
  · rw [if_pos hp] at h
    simp only [Option.some.injEq, Prod.mk.injEq] at h
    exact absurd h.1 (by decide)
  · rw [if_neg hp] at h
    simp only [if_true] at h
    by_cases hs : (prime_loop EVX_ENTROPY_PRECISION ({ c0 with value := 0 } : entropy_coder).clear
        0 src).1 = EVX_SUCCESS
    · rw [if_neg (by simp [hs])] at h
      have := decode_loop_reach fuel n 0 _ _ dst c1 src1 dst1
        (decode_reach.start) (by omega) h
      rw [Nat.zero_add] at this
      exact this
    · rw [if_pos (by simpa using hs)] at h
      simp only [Option.some.injEq, Prod.mk.injEq] at h
      exact absurd h.1 (by decide)

theorem flush_inverse_bits_fields (c : entropy_coder) (m : Nat) (s : bitstream) :
    (c.flush_inverse_bits m s).2.1.low = c.low ∧ (c.flush_inverse_bits m s).2.1.high = c.high ∧
    (c.flush_inverse_bits m s).2.1.adaptive = c.adaptive ∧
    (c.flush_inverse_bits m s).2.1.model = c.model ∧
    (c.flush_inverse_bits m s).2.1.history0 = c.history0 ∧
    (c.flush_inverse_bits m s).2.1.history1 = c.history1 := by
  unfold flush_inverse_bits
  simp only
  split_ifs <;> exact ⟨rfl, rfl, rfl, rfl, rfl, rfl⟩

/-- A successful iteration of the encoder's scaling loop, whatever the
destination: the interval is doubled around the half it lies in (E1, E2) or
around the middle (E3), and the model is untouched. -/
theorem encode_iter_coder {c c1 : entropy_coder} {dest dest1 : bitstream} (hv : c.valid)
    (hs : c.encode_scaling_iter dest = some (EVX_SUCCESS, c1, dest1)) :
    c1.low ≤ c1.high ∧ c1.high ≤ 65535 ∧ c1.adaptive = c.adaptive ∧ c1.model = c.model ∧
      c1.history0 = c.history0 ∧ c1.history1 = c.history1 := by
  obtain ⟨hlh, hmax⟩ := hv
  have hne : ¬ (EVX_ERROR_INVALID_RESOURCE = EVX_SUCCESS) := by decide
  by_cases hh : c.high < 32768
  · have hl : c.low < 32768 := by omega
    unfold encode_scaling_iter at hs
    rw [msb_low hh, msb_low hl] at hs
    simp only [if_true, Nat.zero_shiftRight, show u8 0 = 0 from rfl, Nat.mul_zero, Nat.add_zero,
      show u32 0 = 0 from rfl] at hs
    rw [sub32_of_le (Nat.zero_le _) (by omega), sub32_of_le (Nat.zero_le _) (by omega)] at hs
    simp only [Nat.sub_zero] at hs
    split_ifs at hs with h1 h2
    · simp only [Option.some.injEq, Prod.mk.injEq] at hs
      exact absurd hs.1 hne
    · simp only [Option.some.injEq, Prod.mk.injEq] at hs
      exact absurd hs.1 hne
    · simp only [Option.some.injEq, Prod.mk.injEq, true_and] at hs
      obtain ⟨g1, g2, g3, g4, g5, g6⟩ := flush_inverse_bits_fields c 0 (dest.write_bit 0).2
      rw [shift_bounds_eq (by rw [g1]; exact hl) (by rw [g2]; exact hh)] at hs
      rw [← hs.1]
      simp only [g1, g2, g3, g4, g5, g6]
      refine ⟨by omega, by omega, trivial, trivial, trivial, trivial⟩
  by_cases hl : 32768 ≤ c.low
  · unfold encode_scaling_iter at hs
    rw [msb_high (by omega) hmax, msb_high hl (by omega)] at hs
    have hmsb : u8 (32768 >>> (EVX_ENTROPY_PRECISION - 1)) = 1 := by decide
    have hsub : u32 (u32 (EVX_ENTROPY_HALF_RANGE * 1) + 1) = 32768 := by decide
    simp only [if_true, hmsb, hsub] at hs
    rw [sub32_of_le hl (by omega), sub32_of_le (by omega : 32768 ≤ c.high) (by omega)] at hs
    split_ifs at hs with h1 h2
    · simp only [Option.some.injEq, Prod.mk.injEq] at hs
      exact absurd hs.1 hne
    · simp only [Option.some.injEq, Prod.mk.injEq] at hs
      exact absurd hs.1 hne
    · simp only [Option.some.injEq, Prod.mk.injEq, true_and] at hs
      obtain ⟨g1, g2, g3, g4, g5, g6⟩ := flush_inverse_bits_fields
        { c with low := c.low - 32768, high := c.high - 32768 } 1 (dest.write_bit 1).2
      rw [shift_bounds_eq (by rw [g1]; simp only; omega) (by rw [g2]; simp only; omega)] at hs
      rw [← hs.1]
      simp only [g1, g2, g3, g4, g5, g6]
      refine ⟨by omega, by omega, trivial, trivial, trivial, trivial⟩
  · by_cases h3 : c.high ≤ 49149 ∧ 16384 ≤ c.low
    · unfold encode_scaling_iter at hs
      rw [msb_high (by omega) hmax, msb_low (by omega), THREE_QTR_RANGE_eq, QTR_RANGE_eq] at hs
      simp only [show ¬ ((32768 : Nat) = 0) by decide, if_false] at hs
      rw [if_pos ⟨h3.1, by omega⟩] at hs
      rw [sub32_of_le (by omega) (by omega), sub32_of_le (by omega) (by omega)] at hs
      rw [shift_bounds_eq (by simp; omega) (by simp; omega)] at hs
      simp only [Option.some.injEq, Prod.mk.injEq, true_and] at hs
      rw [← hs.1]
      simp only
      refine ⟨by omega, by omega, trivial, trivial, trivial, trivial⟩
    · rw [iter_stop ⟨hlh, hmax⟩ (by omega) (by omega) h3] at hs
      exact absurd hs (by simp)

/-- The scaling loop of the encoder only passes through reachable states. -/
theorem encode_scaling_reach {init : entropy_coder} : ∀ (fuel : Nat) (c : entropy_coder)
    (dest : bitstream) (c1 : entropy_coder) (dest1 : bitstream),
    encode_reach init true c →
    resolve_encode_scaling fuel c dest = some (EVX_SUCCESS, c1, dest1) →
    encode_reach init false c1 := by
  intro fuel
  induction fuel with
  | zero => intro c dest c1 dest1 _ h; simp [resolve_encode_scaling] at h
  | succ fuel ih =>
    intro c dest c1 dest1 hr h
    unfold resolve_encode_scaling at h
    cases hi : c.encode_scaling_iter dest with
    | none =>
      rw [hi] at h
      simp only [Option.some.injEq, Prod.mk.injEq, true_and] at h
      rw [← h.1]
      exact encode_reach.exit hr hi
    | some r =>
      obtain ⟨st, c2, dest2⟩ := r
      rw [hi] at h
      simp only at h
      by_cases hst : st = EVX_SUCCESS
      · subst hst
        simp only [ne_eq, not_true_eq_false, if_false] at h
        exact ih c2 dest2 c1 dest1 (encode_reach.scale hr hi) h
      · rw [if_pos hst] at h
        simp only [Option.some.injEq, Prod.mk.injEq] at h
        exact absurd h.1 hst

/-- The symbol loop of `encode` only passes through reachable states. -/
theorem encode_loop_reach {init : entropy_coder} (fuel : Nat) : ∀ (n : Nat) (c : entropy_coder)
    (src dst : bitstream) (c1 : entropy_coder) (src1 dst1 : bitstream),
    encode_reach init false c →
    encode_loop fuel n c src dst = some (EVX_SUCCESS, c1, src1, dst1) →
    encode_reach init false c1 := by
  intro n
  induction n with
  | zero =>
    intro c src dst c1 src1 dst1 hr h
    unfold encode_loop at h
    by_cases h1 : src.is_empty = true
    · rw [if_pos h1] at h
      simp only [Option.some.injEq, Prod.mk.injEq, true_and] at h
      rw [← h.1]
      exact hr
    · rw [if_neg h1] at h
      simp only at h
      by_cases h2 : (src.read_bit 0).1 = EVX_SUCCESS
      · rw [if_neg (by simpa using h2)] at h
        exact absurd h (by simp)
      · rw [if_pos h2] at h
        simp only [Option.some.injEq, Prod.mk.injEq] at h
        exact absurd h.1 (by decide)
  | succ n ih =>
    intro c src dst c1 src1 dst1 hr h
    unfold encode_loop at h
    by_cases h1 : src.is_empty = true
    · rw [if_pos h1] at h
      simp only [Option.some.injEq, Prod.mk.injEq, true_and] at h
      rw [← h.1]
      exact hr
    rw [if_neg h1] at h
    simp only at h
    by_cases h2 : (src.read_bit 0).1 = EVX_SUCCESS
    swap
    · rw [if_pos h2] at h
      simp only [Option.some.injEq, Prod.mk.injEq] at h
      exact absurd h.1 (by decide)
    rw [if_neg (by simpa using h2)] at h
    by_cases h3 : (c.encode_symbol (src.read_bit 0).2.2).1 = EVX_SUCCESS
    swap
    · rw [if_pos h3] at h
      simp only [Option.some.injEq, Prod.mk.injEq] at h
      exact absurd h.1 (by decide)
    rw [if_neg (by simpa using h3)] at h
    · have hsym := encode_reach.symbol (src.read_bit 0).2.2 hr
        (bitstream.read_bit_lt src (by omega)) h3
      cases hs : resolve_encode_scaling fuel (c.encode_symbol (src.read_bit 0).2.2).2 dst with
      | none => rw [hs] at h; simp at h
      | some r =>
        obtain ⟨st, c2, dst2⟩ := r
        rw [hs] at h
        simp only at h
        by_cases hst : st = EVX_SUCCESS
        · subst hst
          simp only [ne_eq, not_true_eq_false, if_false] at h
          exact ih c2 _ dst2 c1 src1 dst1 (encode_scaling_reach fuel _ dst c2 dst2 hsym hs) h
        · rw [if_pos hst] at h
          simp only [Option.some.injEq, Prod.mk.injEq] at h
          exact absurd h.1 (by decide)

/-- The state in which a successful `encode` without `auto_finish` ends is a
reachable state of the session. -/
theorem encode_reach_of_encode {fuel : Nat} {c0 c1 : entropy_coder}
    {src dst src1 dst1 : bitstream}
    (h : c0.encode fuel src dst false = some (EVX_SUCCESS, c1, src1, dst1)) :
    encode_reach c0 false c1 := by
  unfold encode at h
  cases hl : encode_loop fuel (src.write_index - src.read_index) c0 src dst with
  | none => rw [hl] at h; simp at h
  | some r =>
    obtain ⟨st, c2, src2, dst2⟩ := r
    rw [hl] at h
    simp only at h
    by_cases hst : st = EVX_SUCCESS
    · subst hst
      simp only [ne_eq, not_true_eq_false, if_false, Bool.false_eq_true, Option.some.injEq,
        Prod.mk.injEq, true_and] at h
      rw [← h.1]
      exact encode_loop_reach fuel _ c0 src dst c2 src2 dst2 encode_reach.start hl
    · rw [if_pos hst] at h
      simp only [Option.some.injEq, Prod.mk.injEq] at h
      exact absurd h.1 hst

end entropy_coder

/-- C7 (flush safety), evaluated at a failing input. A fixed coder with model
`32766` encodes the bits `1, 0` without any scaling emission and stops on the
interval `[32767, 49150]` with no pending E3 count; `flush_encoder` then
emits `1, 0`. The window `49151`, whose leading bits are `1, 0`, lies above
`high = 49150`: when the encoded bits are followed by `1` bits in the
buffer, `decode(2, ...)` yields `1, 1` instead of `1, 0`. -/
theorem flush_window_escapes :
    ((entropy_coder.construct_model 32766).encode 17 flush_sample_source flush_sample_dest
        false).map (fun r => (r.1, r.2.1.low, r.2.1.high, r.2.1.e3_count, r.2.2.2.live)) =
      some (EVX_SUCCESS, 32767, 49150, 0, []) ∧
    ((entropy_coder.construct_model 32766).encode 17 flush_sample_source flush_sample_dest
        false).map (fun r => (r.2.1.encode_scaling_iter r.2.2.2).isNone) = some true ∧
    ((entropy_coder.construct_model 32766).encode 17 flush_sample_source flush_sample_dest
        true).map (fun r => (r.1, r.2.2.2.live)) = some (EVX_SUCCESS, [1, 0]) ∧
    flush_sample_stream.live = [1, 0] ++ List.replicate 14 1 ∧
    win 16 flush_sample_stream.live = 49151 ∧
    ((entropy_coder.construct_model 32766).start_decode flush_sample_stream).2.1.value = 49151 ∧
    ((entropy_coder.construct_model 32766).decode false 17 2 flush_sample_stream
        flush_sample_dest true).map (fun r => (r.1, r.2.2.2.live)) =
      some (EVX_SUCCESS, [1, 1]) := by
  decide

/-- C8 (zero padding on source underflow), evaluated at failing inputs.
Priming from a source holding the single bit `1` yields `value = 65535`, not
`1 <<< 15 = 32768`: the last bit read is shifted in again at every round.
The same happens inside one call of `resolve_decode_scaling`: a fixed coder
with model `16383` decoding one symbol from sixteen `0` bits followed by a
`1` ends with `value = 3`, the last bit read shifted in twice. -/
theorem padding_repeats_last_bit :
    (entropy_coder.construct.start_decode one_bit_source).1 = EVX_SUCCESS ∧
    (entropy_coder.construct.start_decode one_bit_source).2.1.value = 65535 ∧
    (1 <<< (EVX_ENTROPY_PRECISION - 1) : Nat) = 32768 ∧
    ((entropy_coder.construct_model 16383).start_decode zeros_then_one_source).2.1.value = 0 ∧
    ((entropy_coder.construct_model 16383).start_decode zeros_then_one_source).2.2.live = [1] ∧
    ((entropy_coder.construct_model 16383).decode false 17 1 zeros_then_one_source
        flush_sample_dest true).map (fun r => (r.1, r.2.1.value, r.2.2.1.live)) =
      some (EVX_SUCCESS, 3, []) := by
  decide

/-- C9 (clear resets to the initial state), evaluated at a failing input. A
fixed coder that has encoded one `0` keeps `history[0] = 1` through
`clear()`, while a fresh `entropy_coder(32767)` has `history[0] = 0`; the
same holds after a whole `encode` with `auto_finish`. -/
theorem clear_keeps_fixed_history :
    ((entropy_coder.construct_model 32767).encode_symbol 0).2.clear.history0 = 1 ∧
    (entropy_coder.construct_model 32767).history0 = 0 ∧
    ((entropy_coder.construct_model 32767).encode_symbol 0).2.clear ≠
      entropy_coder.construct_model 32767 ∧
    ((entropy_coder.construct_model 32766).encode 17 flush_sample_source flush_sample_dest
        true).map (fun r => (r.1, r.2.1.history0, r.2.1.history1)) = some (EVX_SUCCESS, 1, 1) := by
  decide

namespace entropy_coder

/-- On an adaptive coder (whose `model` field is never written after the
constructor), `clear` restores the state of the default constructor. -/
theorem clear_adaptive (c : entropy_coder) (ha : c.adaptive = true)
    (hm : c.model = EVX_ENTROPY_HALF_RANGE) : c.clear = construct := by
  unfold clear construct
  simp only [ha, if_true, hm]

/-- On a fixed coder, `clear` restores the constructor state except for the
two symbol counts, which it leaves as they are. -/
theorem clear_fixed (c : entropy_coder) (ha : c.adaptive = false) :
    c.clear = { construct_model c.model with history0 := c.history0, history1 := c.history1 } := by
  unfold clear construct_model
  simp only [ha, Bool.false_eq_true, if_false]

/-- The status of `encode` in terms of the loop over the source bits. -/
theorem encode_status (fuel : Nat) (c : entropy_coder) {src : bitstream} (dst : bitstream)
    (hs : src.wf) (auto_finish : Bool) :
    (c.encode fuel src dst auto_finish).map Prod.fst =
      match encode_bits fuel c src.live dst with
      | none => none
      | some (st, c1, d1) =>
        if st ≠ EVX_SUCCESS then some st
        else if auto_finish then
          (if (c1.flush_encoder d1).1 ≠ EVX_SUCCESS then some EVX_ERROR_EXECUTION_FAILURE
           else some EVX_SUCCESS)
        else some EVX_SUCCESS := by
  have h := congrArg (Option.map Prod.fst) (encode_eq_bits fuel c dst hs auto_finish)
  rw [Option.map_map] at h
  have e : (Prod.fst ∘ drop_source) = (Prod.fst : evx_status × entropy_coder × bitstream × bitstream → evx_status) := rfl
  rw [e] at h
  rw [h]
  cases encode_bits fuel c src.live dst with
  | none => rfl
  | some r =>
    obtain ⟨st, c1, d1⟩ := r
    simp only
    split_ifs <;> rfl

end entropy_coder

/-- C10, counterexample. A default coder, an empty source and a destination
of capacity zero: with `auto_finish` the flush cannot write and `encode`
returns `EVX_ERROR_EXECUTION_FAILURE`, not `EVX_ERROR_INVALID_RESOURCE`. -/
theorem encode_flush_failure_kind :
    (entropy_coder.construct.encode 17 bitstream.construct bitstream.construct true).map Prod.fst =
      some EVX_ERROR_EXECUTION_FAILURE ∧
    EVX_ERROR_EXECUTION_FAILURE ≠ EVX_ERROR_INVALID_RESOURCE := by
  decide

/-- C10, amended. Let `encode` run on a well-formed source holding
`X ++ b :: Y`, the symbols of `X` having been encoded without failure.
If the symbol-count guard refuses `b`, or `resolve_encode_scaling` fails
after `b` (the destination ran out of capacity during a scaling emission),
`encode` returns `EVX_ERROR_INVALID_RESOURCE`. If all symbols are encoded
and the flush under `auto_finish` fails, `encode` returns
`EVX_ERROR_EXECUTION_FAILURE`. It reports success in none of these cases. -/
theorem encode_failure_kinds (fuel : Nat) (c : entropy_coder) (src dst : bitstream)
    (auto_finish : Bool) (hs : src.wf) :
    (∀ (X : List Nat) (b : Nat) (Y : List Nat) (c1 : entropy_coder) (d1 : bitstream),
      src.live = X ++ b :: Y →
      entropy_coder.encode_bits fuel c X dst = some (EVX_SUCCESS, c1, d1) →
      (c1.encode_symbol b).1 ≠ EVX_SUCCESS →
      (c.encode fuel src dst auto_finish).map Prod.fst = some EVX_ERROR_INVALID_RESOURCE) ∧
    (∀ (X : List Nat) (b : Nat) (Y : List Nat) (c1 : entropy_coder) (d1 : bitstream)
      (st : evx_status) (c2 : entropy_coder) (d2 : bitstream),
      src.live = X ++ b :: Y →
      entropy_coder.encode_bits fuel c X dst = some (EVX_SUCCESS, c1, d1) →
      (c1.encode_symbol b).1 = EVX_SUCCESS →
      entropy_coder.resolve_encode_scaling fuel (c1.encode_symbol b).2 d1 = some (st, c2, d2) →
      st ≠ EVX_SUCCESS →
      (c.encode fuel src dst auto_finish).map Prod.fst = some EVX_ERROR_INVALID_RESOURCE) ∧
    (∀ (c1 : entropy_coder) (d1 : bitstream),
      entropy_coder.encode_bits fuel c src.live dst = some (EVX_SUCCESS, c1, d1) →
      auto_finish = true → (c1.flush_encoder d1).1 ≠ EVX_SUCCESS →
      (c.encode fuel src dst auto_finish).map Prod.fst = some EVX_ERROR_EXECUTION_FAILURE) ∧
    EVX_ERROR_INVALID_RESOURCE ≠ EVX_SUCCESS ∧ EVX_ERROR_EXECUTION_FAILURE ≠ EVX_SUCCESS := by
  refine ⟨?_, ?_, ?_, by decide, by decide⟩
  · intro X b Y c1 d1 hl hX hb
    rw [entropy_coder.encode_status fuel c dst hs auto_finish, hl,
      entropy_coder.encode_bits_append, hX]
    simp only [ne_eq, not_true_eq_false, if_false]
    unfold entropy_coder.encode_bits
    simp only [ne_eq]
    rw [if_pos hb]
    simp only
    rw [if_pos (by decide)]
  · intro X b Y c1 d1 st c2 d2 hl hX hb hr hst
    rw [entropy_coder.encode_status fuel c dst hs auto_finish, hl,
      entropy_coder.encode_bits_append, hX]
    simp only [ne_eq, not_true_eq_false, if_false]
    unfold entropy_coder.encode_bits
    simp only [ne_eq]
    rw [if_neg (by simpa using hb), hr]
    simp only
    rw [if_pos hst]
    simp only
    rw [if_pos (by decide)]
  · intro c1 d1 hl ha hf
    rw [entropy_coder.encode_status fuel c dst hs auto_finish, hl]
    simp only [ne_eq, not_true_eq_false, if_false]
    rw [if_pos ha, if_pos hf]

/-- Witness for `encode_failure_kinds`: a coder whose count of `1` symbols is
at the guard's limit refuses the source `[1]`. -/
theorem encode_failure_kinds_witness :
    (saturated_coder.encode 17 one_bit_source flush_sample_dest true).map Prod.fst =
      some EVX_ERROR_INVALID_RESOURCE :=
  (encode_failure_kinds 17 saturated_coder one_bit_source flush_sample_dest true
    (by decide)).1 [] 1 [] saturated_coder flush_sample_dest (by decide) rfl (by decide)

theorem testBit_u8 (x p : Nat) : (u8 x).testBit p = (decide (p < 8) && x.testBit p) := by
  unfold u8
  rw [show (256 : Nat) = 2 ^ 8 by norm_num, Nat.testBit_mod_two_pow]

theorem testBit_not32 (x p : Nat) : (not32 x).testBit p = (decide (p < 32) ^^ x.testBit p) := by
  unfold not32
  rw [show (4294967295 : Nat) = 2 ^ 32 - 1 by norm_num, Nat.testBit_xor,
    Nat.testBit_two_pow_sub_one]

/-- The two byte updates of `unaligned_step` replace the window of `w` bits
at position `tb` of the target byte by the window at position `sb` of the
source byte, and change no other bit. -/
theorem window_update (t src tb sb w p : Nat) (hp : p < 8) (hsb : w + sb ≤ 8) :
    (u8 (u8 (t &&& not32 (u8 ((1 <<< w) - 1) <<< tb)) |||
      (((src &&& (u8 ((1 <<< w) - 1) <<< sb)) >>> sb) <<< tb))).testBit p =
      if tb ≤ p ∧ p < tb + w then src.testBit (p - tb + sb) else t.testBit p := by
  have hw : w ≤ 8 := by omega
  have hm : u8 ((1 <<< w) - 1) = 2 ^ w - 1 := by
    rw [Nat.one_shiftLeft]
    apply u8_of_lt
    have : 2 ^ w ≤ 2 ^ 8 := Nat.pow_le_pow_right (by norm_num) hw
    have : 0 < 2 ^ w := Nat.pow_pos (by norm_num)
    omega
  rw [hm]
  simp only [testBit_u8, Nat.testBit_or, Nat.testBit_and, testBit_not32, Nat.testBit_shiftLeft,
    Nat.testBit_shiftRight, Nat.testBit_two_pow_sub_one]
  have hp32 : p < 32 := by omega
  by_cases h1 : tb ≤ p
  · by_cases h2 : p < tb + w
    · have e1 : p - tb < w := by omega
      have e2 : sb + (p - tb) - sb < w := by omega
      have e3 : sb + (p - tb) = p - tb + sb := by omega
      simp [hp, hp32, h1, h2, e1, e2, e3]
    · have e1 : ¬ (p - tb < w) := by omega
      have e2 : ¬ (sb + (p - tb) - sb < w) := by omega
      simp [hp, hp32, h1, h2, e1, e2]
  · simp [hp, hp32, h1]

theorem mem_bit_eq (l : List Nat) (i : Nat) :
    mem_bit l i = ((l.getD (i / 8) 0).testBit (i % 8)).toNat := by
  unfold mem_bit
  rw [shr_and_one, Nat.shiftRight_eq_div_pow]

theorem mem_bit_lt (l : List Nat) (i : Nat) : mem_bit l i < 2 := by
  unfold mem_bit
  rw [and_one]
  omega

/-- One iteration of the loop of `unaligned_bit_copy`, inside both arrays'
index range: it copies a window of `w ≥ 1` bits that ends at the next byte
boundary of the target or the source, or at the copy limit. -/
theorem unaligned_step_spec (dest source : List Nat) (d so lim : Nat)
    (hd : d / 8 < dest.length) (hso : so < lim) (hlim : lim < 4294967296)
    (hd32 : d + (lim - so) < 4294967296) :
    ∃ w, 1 ≤ w ∧ so + w ≤ lim ∧
      (unaligned_step dest d source so lim).2.1 = d + w ∧
      (unaligned_step dest d source so lim).2.2 = so + w ∧
      (unaligned_step dest d source so lim).1.length = dest.length ∧
      ∀ j, mem_bit (unaligned_step dest d source so lim).1 j =
        if d ≤ j ∧ j < d + w then mem_bit source (so + (j - d)) else mem_bit dest j := by
  have htb : u8 (d % 8) = d % 8 := u8_of_lt (by omega)
  have hsb : u8 (so % 8) = so % 8 := u8_of_lt (by omega)
  have hbl : sub32 lim so = lim - so := sub32_of_le (by omega) hlim
  obtain ⟨w, hw⟩ : ∃ w, w = evx_min2 (evx_min2 (8 - d % 8) (8 - so % 8)) (lim - so) := ⟨_, rfl⟩
  have hw1 : 1 ≤ w := by
    rw [hw]; unfold evx_min2; split_ifs <;> omega
  have hw2 : w ≤ 8 - d % 8 := by
    rw [hw]; unfold evx_min2; split_ifs <;> omega
  have hw3 : w ≤ 8 - so % 8 := by
    rw [hw]; unfold evx_min2; split_ifs <;> omega
  have hw4 : w ≤ lim - so := by
    rw [hw]; unfold evx_min2; split_ifs <;> omega
  have hcap : u8 (evx_min2 (8 - d % 8) (8 - so % 8)) = evx_min2 (8 - d % 8) (8 - so % 8) := by
    apply u8_of_lt; unfold evx_min2; split_ifs <;> omega
  have hcnt : u8 (evx_min2 (evx_min2 (8 - d % 8) (8 - so % 8)) (lim - so)) = w := by
    rw [hw]; apply u8_of_lt; rw [← hw]; omega
  refine ⟨w, hw1, by omega, ?_, ?_, ?_, ?_⟩
  · unfold unaligned_step
    simp only [htb, hsb, hbl, hcap, hcnt]
    exact u32_of_lt (by omega)
  · unfold unaligned_step
    simp only [htb, hsb, hbl, hcap, hcnt]
    exact u32_of_lt (by omega)
  · unfold unaligned_step
    simp only [List.length_set]
  · intro j
    unfold unaligned_step
    have e3 : ∀ x : Nat, x >>> 3 = x / 8 := fun x => by rw [Nat.shiftRight_eq_div_pow]
    simp only [htb, hsb, hbl, hcap, hcnt, e3]
    rw [mem_bit_eq]
    by_cases hj : j / 8 = d / 8
    · rw [hj, bitstream.getD_set_eq _ _ _ hd,
        window_update _ _ _ _ _ _ (Nat.mod_lt j (by norm_num)) (by omega)]
      by_cases hin : d ≤ j ∧ j < d + w
      · rw [if_pos hin, if_pos (by omega), mem_bit_eq]
        have e1 : (so + (j - d)) / 8 = so / 8 := by omega
        have e2 : (so + (j - d)) % 8 = j % 8 - d % 8 + so % 8 := by omega
        rw [e1, e2]
      · rw [if_neg hin, if_neg (by omega), mem_bit_eq, hj]
    · rw [bitstream.getD_set_ne _ _ _ _ (Ne.symm hj), if_neg (by omega), mem_bit_eq]

/-- The loop of `unaligned_bit_copy` with a bound of at least `n`
iterations copies exactly the `n` bits `so, ..., so + n - 1` of the source to
the positions `d, ..., d + n - 1` of the destination. -/
theorem unaligned_loop_spec (source : List Nat) : ∀ (fuel : Nat) (dest : List Nat) (d so n : Nat),
    n ≤ fuel → so + n < 4294967296 → d + n < 4294967296 → d + n ≤ 8 * dest.length →
    (unaligned_loop fuel dest d source so (so + n)).length = dest.length ∧
    ∀ j, mem_bit (unaligned_loop fuel dest d source so (so + n)) j =
      if d ≤ j ∧ j < d + n then mem_bit source (so + (j - d)) else mem_bit dest j := by
  intro fuel
  induction fuel with
  | zero =>
    intro dest d so n hn _ _ _
    have : n = 0 := by omega
    subst this
    refine ⟨rfl, fun j => ?_⟩
    rw [if_neg (by omega)]
    rfl
  | succ fuel ih =>
    intro dest d so n hn hs hd hl
    unfold unaligned_loop
    by_cases h0 : n = 0
    · subst h0
      rw [if_neg (by omega)]
      exact ⟨rfl, fun j => by rw [if_neg (by omega)]⟩
    · rw [if_pos (by omega)]
      obtain ⟨w, hw1, hw2, e1, e2, e3, e4⟩ := unaligned_step_spec dest source d so (so + n)
        (by omega) (by omega) hs (by omega)
      simp only
      rw [e1, e2]
      have hlim : so + n = so + w + (n - w) := by omega
      rw [hlim]
      obtain ⟨i1, i2⟩ := ih (unaligned_step dest d source so (so + w + (n - w))).1 (d + w)
        (so + w) (n - w) (by omega) (by omega) (by omega) (by rw [← hlim, e3]; omega)
      rw [← hlim] at i1 i2 ⊢
      refine ⟨by rw [i1, e3], fun j => ?_⟩
      rw [i2 j, e4 j]
      by_cases c1 : d + w ≤ j ∧ j < d + w + (n - w)
      · rw [if_pos c1, if_pos (by omega)]
        congr 1
        omega
      · rw [if_neg c1]
        by_cases c2 : d ≤ j ∧ j < d + w
        · rw [if_pos c2, if_pos (by omega)]
        · rw [if_neg c2, if_neg (by omega)]

theorem memcpy_spec (source : List Nat) : ∀ (n : Nat) (dest : List Nat) (d s : Nat),
    (memcpy dest d source s n).length = dest.length ∧
    ∀ k, (memcpy dest d source s n).getD k 0 =
      if d ≤ k ∧ k < d + n ∧ k < dest.length then source.getD (s + (k - d)) 0
      else dest.getD k 0 := by
  intro n
  induction n with
  | zero =>
    intro dest d s
    exact ⟨rfl, fun k => by rw [if_neg (by omega)]; rfl⟩
  | succ n ih =>
    intro dest d s
    unfold memcpy
    obtain ⟨i1, i2⟩ := ih (dest.set d (source.getD s 0)) (d + 1) (s + 1)
    refine ⟨by rw [i1, List.length_set], fun k => ?_⟩
    rw [i2 k, List.length_set]
    by_cases c1 : d + 1 ≤ k ∧ k < d + 1 + n ∧ k < dest.length
    · rw [if_pos c1, if_pos (by omega)]
      congr 1
      omega
    · rw [if_neg c1]
      by_cases c2 : k = d
      · subst c2
        by_cases c3 : k < dest.length
        · rw [bitstream.getD_set_eq _ _ _ c3, if_pos (by omega)]
          simp
        · rw [if_neg (by omega)]
          have c4 : dest.length ≤ k := by omega
          simp [List.getD_eq_getElem?_getD, List.getElem?_set, c3, List.getElem?_eq_none c4]
      · rw [bitstream.getD_set_ne _ _ _ _ (Ne.symm c2), if_neg (by omega)]

/-- On byte-aligned offsets, `aligned_bit_copy` copies the whole bytes of
the request: `8 * (n / 8)` bits. -/
theorem aligned_bit_copy_spec (param_check : Bool) (dest source : List Nat) (d so n : Nat)
    (hd : d % 8 = 0) (hso : so % 8 = 0) (hn : 8 ≤ n) (hn32 : n < 4294967296)
    (hl : d + 8 * (n / 8) ≤ 8 * dest.length) :
    (aligned_bit_copy param_check dest d source so n).1 = 8 * (n / 8) ∧
    (aligned_bit_copy param_check dest d source so n).2.length = dest.length ∧
    ∀ j, mem_bit (aligned_bit_copy param_check dest d source so n).2 j =
      if d ≤ j ∧ j < d + 8 * (n / 8) then mem_bit source (so + (j - d)) else mem_bit dest j := by
  have e3 : ∀ x : Nat, x >>> 3 = x / 8 := fun x => by rw [Nat.shiftRight_eq_div_pow]
  have e4 : ∀ x : Nat, x <<< 3 = 8 * x := fun x => by rw [Nat.shiftLeft_eq]; omega
  unfold aligned_bit_copy
  rw [if_neg (by rw [e3]; rintro ⟨_, h | h | h⟩ <;> omega)]
  simp only [e3, e4]
  obtain ⟨m1, m2⟩ := memcpy_spec source (n / 8) dest (d / 8) (so / 8)
  refine ⟨u32_of_lt (by omega), m1, fun j => ?_⟩
  rw [mem_bit_eq, m2]
  by_cases c : d ≤ j ∧ j < d + 8 * (n / 8)
  · rw [if_pos c, if_pos (by omega), mem_bit_eq]
    have a1 : so / 8 + (j / 8 - d / 8) = (so + (j - d)) / 8 := by omega
    have a2 : j % 8 = (so + (j - d)) % 8 := by omega
    rw [a1, a2]
  · rw [if_neg c, if_neg (by omega), mem_bit_eq]

/-- The function `unaligned_bit_copy` copies exactly the requested `n ≥ 1`
bits. -/
theorem unaligned_bit_copy_spec (param_check : Bool) (dest source : List Nat) (d so n : Nat)
    (hn : 1 ≤ n) (hs : so + n < 4294967296) (hd : d + n < 4294967296)
    (hl : d + n ≤ 8 * dest.length) :
    (unaligned_bit_copy param_check dest d source so n).1 = n ∧
    (unaligned_bit_copy param_check dest d source so n).2.length = dest.length ∧
    ∀ j, mem_bit (unaligned_bit_copy param_check dest d source so n).2 j =
      if d ≤ j ∧ j < d + n then mem_bit source (so + (j - d)) else mem_bit dest j := by
  unfold unaligned_bit_copy
  rw [if_neg (by rintro ⟨_, h⟩; omega)]
  simp only
  rw [u32_of_lt hs]
  obtain ⟨i1, i2⟩ := unaligned_loop_spec source n dest d so n (le_refl n) hs hd hl
  exact ⟨trivial, i1, i2⟩

/-- The two phases shared by `write_bits` and `read_bits`: the aligned fast
path for the whole bytes when it applies, then the unaligned path for what
is left. Together they copy exactly the `n` requested bits. -/
theorem copy_phases (param_check : Bool) (dest source : List Nat) (d so n : Nat)
    (fast : Bool) (hf : fast = true → d % 8 = 0 ∧ so % 8 = 0 ∧ 8 ≤ n)
    (hs : so + n < 4294967296) (hd : d + n < 4294967296) (hl : d + n ≤ 8 * dest.length)
    (a : Nat × List Nat)
    (ha : a = if fast then aligned_bit_copy param_check dest d source so n else (0, dest))
    (b : Nat × List Nat)
    (hb : b = if a.1 < n then
        (a.1 + (unaligned_bit_copy param_check a.2 (d + a.1) source (so + a.1) (n - a.1)).1,
          (unaligned_bit_copy param_check a.2 (d + a.1) source (so + a.1) (n - a.1)).2)
      else a) :
    a.1 ≤ n ∧ ¬ (fast = true ∧ a.1 = 0) ∧ b.1 = n ∧ b.2.length = dest.length ∧
    ∀ j, mem_bit b.2 j =
      if d ≤ j ∧ j < d + n then mem_bit source (so + (j - d)) else mem_bit dest j := by
  have hA : a.1 ≤ n ∧ ¬ (fast = true ∧ a.1 = 0) ∧ a.2.length = dest.length ∧
      ∀ j, mem_bit a.2 j =
        if d ≤ j ∧ j < d + a.1 then mem_bit source (so + (j - d)) else mem_bit dest j := by
    by_cases hfast : fast = true
    · obtain ⟨f1, f2, f3⟩ := hf hfast
      obtain ⟨s1, s2, s3⟩ := aligned_bit_copy_spec param_check dest source d so n f1 f2 f3
        (by omega) (by omega)
      rw [ha, if_pos hfast, s1]
      exact ⟨by omega, by omega, s2, s3⟩
    · rw [ha, if_neg hfast]
      refine ⟨by omega, fun h => hfast h.1, rfl, fun j => ?_⟩
      rw [if_neg (by simp)]
  obtain ⟨a1, a2, a3, a4⟩ := hA
  refine ⟨a1, a2, ?_⟩
  by_cases hlt : a.1 < n
  · obtain ⟨u1, u2, u3⟩ := unaligned_bit_copy_spec param_check a.2 source (d + a.1) (so + a.1)
      (n - a.1) (by omega) (by omega) (by omega) (by rw [a3]; omega)
    rw [hb, if_pos hlt]
    simp only
    refine ⟨by rw [u1]; omega, by rw [u2, a3], fun j => ?_⟩
    rw [u3 j, a4 j]
    by_cases c1 : d + a.1 ≤ j ∧ j < d + a.1 + (n - a.1)
    · rw [if_pos c1, if_pos (by omega)]
      congr 1
      omega
    · rw [if_neg c1]
      by_cases c2 : d ≤ j ∧ j < d + a.1
      · rw [if_pos c2, if_pos (by omega)]
      · rw [if_neg c2, if_neg (by omega)]
  · have : a.1 = n := by omega
    rw [hb, if_neg hlt]
    refine ⟨this, a3, fun j => ?_⟩
    rw [a4 j, this]

namespace bitstream

theorem bit_at_eq (s : bitstream) (i : Nat) : s.bit_at i = mem_bit s.data_store i := rfl

/-- A `write_bits` request that fits: it succeeds, advances the write cursor
by `n`, stores bit `i` of `data` at position `write_index + i` and changes no
other bit. -/
theorem write_bits_ok {s : bitstream} (h : s.wf) (param_check : Bool) (data : List Nat) (n : Nat)
    (hn : param_check = true → n ≠ 0) (hc : s.write_index + n ≤ 8 * s.data_capacity) :
    (s.write_bits param_check data n).1 = EVX_SUCCESS ∧ (s.write_bits param_check data n).2.wf ∧
      (s.write_bits param_check data n).2.read_index = s.read_index ∧
      (s.write_bits param_check data n).2.write_index = s.write_index + n ∧
      (s.write_bits param_check data n).2.data_capacity = s.data_capacity ∧
      ∀ j, (s.write_bits param_check data n).2.bit_at j =
        if s.write_index ≤ j ∧ j < s.write_index + n then mem_bit data (j - s.write_index)
        else s.bit_at j := by
  have hq := query_capacity_eq h
  obtain ⟨h1, h2, h3, h4⟩ := h
  unfold write_bits
  rw [if_neg (by rintro ⟨p, q⟩; exact hn p q), if_neg (by rw [u32_of_lt (by omega), hq]; omega)]
  simp only
  generalize ha : (if decide (0 = s.write_index % 8 ∧ n ≥ 8) = true then
    aligned_bit_copy param_check s.data_store s.write_index data 0 n
    else (0, s.data_store)) = a
  have key := copy_phases param_check s.data_store data s.write_index 0 n
    (decide (0 = s.write_index % 8 ∧ n ≥ 8))
    (by intro hf; simp only [decide_eq_true_eq] at hf; omega)
    (by omega) (by omega) (by omega) a ha.symm _ rfl
  simp only [Nat.zero_add] at key
  obtain ⟨k1, k2, k3, k4, k5⟩ := key
  rw [if_neg k2, u32_of_lt (by omega : s.write_index + a.1 < 4294967296),
    sub32_of_le k1 (by omega)]
  by_cases hlt : a.1 < n
  · rw [if_pos hlt] at k3 k4 k5
    rw [if_pos hlt]
    simp only at k3 k4 k5 ⊢
    rw [k3, u32_of_lt (by omega : n < 4294967296), u32_of_lt (by omega)]
    refine ⟨by trivial,
      ⟨by simp only; rw [k4, h1], by simp only; omega, by simp only; omega, h4⟩,
      by trivial, by trivial, by trivial, fun j => ?_⟩
    rw [bit_at_eq, bit_at_eq]
    exact k5 j
  · rw [if_neg hlt] at k3 k4 k5
    rw [if_neg hlt, k3, u32_of_lt (by omega)]
    refine ⟨by trivial,
      ⟨by simp only; rw [k4, h1], by simp only; omega, by simp only; omega, h4⟩,
      by trivial, by trivial, by trivial, fun j => ?_⟩
    rw [bit_at_eq, bit_at_eq]
    exact k5 j

/-- A `read_bits` request (without overflow of `read_index + n`) succeeds,
delivers `min n occupancy` bits, advances the read cursor by that count and
stores the bits read as the first bits of the caller's array, whose other
bits are unchanged. -/
theorem read_bits_ok {s : bitstream} (h : s.wf) (param_check : Bool) (out : List Nat) (n : Nat)
    (hn : param_check = true → n ≠ 0) (hov : s.read_index + n < 4294967296)
    (hl : min n (s.write_index - s.read_index) ≤ 8 * out.length) :
    (s.read_bits param_check out n).1 = EVX_SUCCESS ∧
      (s.read_bits param_check out n).2.1 =
        { s with read_index := s.read_index + min n (s.write_index - s.read_index) } ∧
      (s.read_bits param_check out n).2.2.2 = min n (s.write_index - s.read_index) ∧
      (s.read_bits param_check out n).2.2.1.length = out.length ∧
      ∀ j, mem_bit (s.read_bits param_check out n).2.2.1 j =
        if j < min n (s.write_index - s.read_index) then s.bit_at (s.read_index + j)
        else mem_bit out j := by
  obtain ⟨h1, h2, h3, h4⟩ := h
  obtain ⟨m, hm⟩ : ∃ m, m = min n (s.write_index - s.read_index) := ⟨_, rfl⟩
  rw [← hm] at hl ⊢
  have hclamp : (if u32 (s.read_index + n) > s.write_index then
      sub32 s.write_index s.read_index else n) = m := by
    rw [u32_of_lt hov, sub32_of_le h2 (by omega), hm]
    split_ifs <;> omega
  unfold read_bits
  rw [if_neg (by rintro ⟨p, q⟩; exact hn p q)]
  simp only [hclamp]
  generalize ha : (if decide (0 = s.read_index % 8 ∧ m ≥ 8) = true then
    aligned_bit_copy param_check out 0 s.data_store s.read_index m
    else (0, out)) = a
  have key := copy_phases param_check out s.data_store 0 s.read_index m
    (decide (0 = s.read_index % 8 ∧ m ≥ 8))
    (by intro hf; simp only [decide_eq_true_eq] at hf; omega)
    (by omega) (by omega) (by omega) a ha.symm _ rfl
  simp only [Nat.zero_add, Nat.zero_le, true_and, Nat.sub_zero] at key
  obtain ⟨k1, k2, k3, k4, k5⟩ := key
  rw [if_neg k2, u32_of_lt (by omega : s.read_index + a.1 < 4294967296),
    sub32_of_le k1 (by omega)]
  by_cases hlt : a.1 < m
  · rw [if_pos hlt] at k3 k4 k5
    rw [if_pos hlt]
    simp only at k3 k4 k5 ⊢
    rw [k3, u32_of_lt (by omega : m < 4294967296), u32_of_lt (by omega)]
    exact ⟨by trivial, by trivial, by trivial, k4, k5⟩
  · rw [if_neg hlt] at k3 k4 k5
    rw [if_neg hlt, k3, u32_of_lt (by omega)]
    exact ⟨by trivial, by trivial, by trivial, k4, k5⟩

theorem write_byte_loop_ok (value : Nat) : ∀ (n i : Nat) (s : bitstream), s.wf →
    s.write_index + n ≤ 8 * s.data_capacity →
    (write_byte_loop value n i s).wf ∧
      (write_byte_loop value n i s).read_index = s.read_index ∧
      (write_byte_loop value n i s).write_index = s.write_index + n ∧
      (write_byte_loop value n i s).data_capacity = s.data_capacity ∧
      ∀ j, (write_byte_loop value n i s).bit_at j =
        if s.write_index ≤ j ∧ j < s.write_index + n then (value >>> (i + (j - s.write_index))) &&& 1
        else s.bit_at j := by
  intro n
  induction n with
  | zero =>
    intro i s h _
    exact ⟨h, rfl, rfl, rfl, fun j => by rw [if_neg (by omega)]; rfl⟩
  | succ n ih =>
    intro i s h hc
    obtain ⟨_, w2, w3, w4, w5, w6, w7⟩ := write_bit_ok h (by omega) ((value >>> i) &&& 1)
    obtain ⟨i1, i2, i3, i4, i5⟩ := ih (i + 1) (s.write_bit ((value >>> i) &&& 1)).2 w2
      (by rw [w4, w5]; omega)
    unfold write_byte_loop
    refine ⟨i1, by rw [i2, w3], by rw [i3, w4]; omega, by rw [i4, w5], fun j => ?_⟩
    rw [i5 j, w4]
    by_cases c1 : s.write_index + 1 ≤ j ∧ j < s.write_index + 1 + n
    · rw [if_pos c1, if_pos (by omega)]
      congr 2
      omega
    · rw [if_neg c1]
      by_cases c2 : j = s.write_index
      · subst c2
        rw [w6, if_pos (by omega), Nat.sub_self, Nat.add_zero, and_one]
        omega
      · rw [w7 j c2, if_neg (by omega)]

/-- A `write_byte` that fits: it succeeds, advances the write cursor by 8,
stores bit `i` of the byte at position `write_index + i` and changes no other
bit. -/
theorem write_byte_ok {s : bitstream} (h : s.wf) (hc : s.write_index + 8 ≤ 8 * s.data_capacity)
    (v : Nat) :
    (s.write_byte v).1 = EVX_SUCCESS ∧ (s.write_byte v).2.wf ∧
      (s.write_byte v).2.read_index = s.read_index ∧
      (s.write_byte v).2.write_index = s.write_index + 8 ∧
      (s.write_byte v).2.data_capacity = s.data_capacity ∧
      ∀ j, (s.write_byte v).2.bit_at j =
        if s.write_index ≤ j ∧ j < s.write_index + 8 then (v >>> (j - s.write_index)) &&& 1
        else s.bit_at j := by
  have hq := query_capacity_eq h
  have hbit : ∀ k, k < 8 → (u8 v >>> k) &&& 1 = (v >>> k) &&& 1 := by
    intro k hk
    rw [shr_and_one, shr_and_one, testBit_u8]
    simp [hk]
  by_cases ha : s.write_index % 8 = 0
  · obtain ⟨h1, h2, h3, h4⟩ := h
    have e3 : ∀ x : Nat, x >>> 3 = x / 8 := fun x => by rw [Nat.shiftRight_eq_div_pow]
    unfold write_byte
    rw [if_neg (by rw [u32_of_lt (by omega), hq]; omega), u32_of_lt (by omega : s.write_index + 8 < 4294967296)]
    simp only [ha, show u8 0 = 0 from rfl, if_true, e3]
    refine ⟨trivial, ⟨by simp only [List.length_set]; exact h1, by simp only; omega,
      by simp only; omega, h4⟩, trivial, trivial, trivial, fun j => ?_⟩
    rw [bit_at_eq, bit_at_eq, mem_bit_eq, mem_bit_eq]
    by_cases hj : j / 8 = s.write_index / 8
    · rw [hj, getD_set_eq _ _ _ (by omega), if_pos (by omega), testBit_u8, shr_and_one]
      have : j - s.write_index = j % 8 := by omega
      rw [this]
      simp [Nat.mod_lt j (by norm_num : 8 > 0)]
    · rw [getD_set_ne _ _ _ _ (Ne.symm hj), if_neg (by omega)]
  · obtain ⟨l1, l2, l3, l4, l5⟩ := write_byte_loop_ok (u8 v) 8 0 s h hc
    obtain ⟨h1, h2, h3, h4⟩ := h
    unfold write_byte
    rw [if_neg (by rw [u32_of_lt (by omega), hq]; omega), u8_of_lt (by omega : s.write_index % 8 < 256),
      if_neg (by omega)]
    simp only
    refine ⟨by trivial, l1, l2, l3, l4, fun j => ?_⟩
    rw [l5 j]
    by_cases c : s.write_index ≤ j ∧ j < s.write_index + 8
    · rw [if_pos c, if_pos c, Nat.zero_add, hbit _ (by omega)]
    · rw [if_neg c, if_neg c]

/-- A `write_byte` that does not fit (and whose index arithmetic does not
overflow) returns `CAPACITY_LIMIT` and changes nothing. -/
theorem write_byte_full {s : bitstream} (h : s.wf) (hc : 8 * s.data_capacity < s.write_index + 8)
    (ho : s.write_index + 8 < 4294967296) (v : Nat) :
    s.write_byte v = (EVX_ERROR_CAPACITY_LIMIT, s) := by
  have hq := query_capacity_eq h
  unfold write_byte
  rw [if_pos (by rw [u32_of_lt ho, hq]; omega)]

end bitstream

theorem bytes_ok_set {l : List Nat} (h : bytes_ok l) (i : Nat) {v : Nat} (hv : v < 256) :
    bytes_ok (l.set i v) := by
  intro b hb
  rcases List.mem_or_eq_of_mem_set hb with h1 | h1
  · exact h b h1
  · rw [h1]; exact hv

theorem bytes_ok_getD {l : List Nat} (h : bytes_ok l) (i : Nat) : l.getD i 0 < 256 := by
  rw [List.getD_eq_getElem?_getD]
  cases hg : l[i]? with
  | none => simp
  | some b => simpa using h b (List.mem_iff_getElem?.mpr ⟨i, hg⟩)

theorem u8_lt (x : Nat) : u8 x < 256 := Nat.mod_lt x (by norm_num)

theorem bytes_ok_memcpy {source : List Nat} (hs : bytes_ok source) : ∀ (n : Nat) (dest : List Nat)
    (d s : Nat), bytes_ok dest → bytes_ok (memcpy dest d source s n) := by
  intro n
  induction n with
  | zero => intro dest d s h; exact h
  | succ n ih =>
    intro dest d s h
    unfold memcpy
    exact ih _ _ _ (bytes_ok_set h d (bytes_ok_getD hs s))

theorem bytes_ok_unaligned_loop (source : List Nat) (lim : Nat) : ∀ (fuel : Nat) (dest : List Nat)
    (d so : Nat), bytes_ok dest → bytes_ok (unaligned_loop fuel dest d source so lim) := by
  intro fuel
  induction fuel with
  | zero => intro dest d so h; exact h
  | succ fuel ih =>
    intro dest d so h
    unfold unaligned_loop
    split_ifs
    · exact ih _ _ _ (bytes_ok_set h _ (u8_lt _))
    · exact h

/-- Both copy phases keep a byte array a byte array. -/
theorem bytes_ok_copy (param_check : Bool) {dest source : List Nat} (hd : bytes_ok dest)
    (hs : bytes_ok source) (d so n : Nat) :
    bytes_ok (aligned_bit_copy param_check dest d source so n).2 ∧
    bytes_ok (unaligned_bit_copy param_check dest d source so n).2 := by
  constructor
  · unfold aligned_bit_copy
    split_ifs
    · exact hd
    · exact bytes_ok_memcpy hs _ _ _ _ hd
  · unfold unaligned_bit_copy
    split_ifs
    · exact hd
    · exact bytes_ok_unaligned_loop _ _ _ _ _ _ hd

/-- Two bytes with the same eight bits are equal. -/
theorem byte_eq_of_bits {a b : Nat} (ha : a < 256) (hb : b < 256)
    (h : ∀ i, i < 8 → a.testBit i = b.testBit i) : a = b := by
  apply Nat.eq_of_testBit_eq
  intro i
  by_cases hi : i < 8
  · exact h i hi
  · have h256 : (256 : Nat) ≤ 2 ^ i := by
      calc (256 : Nat) = 2 ^ 8 := by norm_num
        _ ≤ 2 ^ i := Nat.pow_le_pow_right (by norm_num) (by omega)
    rw [Nat.testBit_lt_two_pow (lt_of_lt_of_le ha h256),
      Nat.testBit_lt_two_pow (lt_of_lt_of_le hb h256)]

namespace bitstream

theorem bytes_ok_write_bits (param_check : Bool) {s : bitstream} (hs : bytes_ok s.data_store)
    {data : List Nat} (hd : bytes_ok data) (n : Nat) :
    bytes_ok (s.write_bits param_check data n).2.data_store := by
  unfold write_bits
  by_cases c1 : param_check = true ∧ n = 0
  · rw [if_pos c1]; exact hs
  rw [if_neg c1]
  by_cases c2 : u32 (s.write_index + n) > s.query_capacity
  · rw [if_pos c2]; exact hs
  rw [if_neg c2]
  simp only
  have ha : bytes_ok (if decide (0 = s.write_index % 8 ∧ n ≥ 8) = true then
      aligned_bit_copy param_check s.data_store s.write_index data 0 n
      else (0, s.data_store)).2 := by
    split_ifs
    · exact (bytes_ok_copy param_check hs hd _ _ _).1
    · exact hs
  generalize (if decide (0 = s.write_index % 8 ∧ n ≥ 8) = true then
      aligned_bit_copy param_check s.data_store s.write_index data 0 n
      else (0, s.data_store)) = a at ha ⊢
  by_cases c3 : decide (0 = s.write_index % 8 ∧ n ≥ 8) = true ∧ a.1 = 0
  · rw [if_pos c3]; exact ha
  rw [if_neg c3]
  by_cases c4 : a.1 < n
  · rw [if_pos c4]; exact (bytes_ok_copy param_check ha hd _ _ _).2
  · rw [if_neg c4]; exact ha

theorem bytes_ok_read_bits (param_check : Bool) {s : bitstream} (hs : bytes_ok s.data_store)
    {out : List Nat} (hd : bytes_ok out) (n : Nat) :
    bytes_ok (s.read_bits param_check out n).2.2.1 := by
  unfold read_bits
  by_cases c1 : param_check = true ∧ n = 0
  · rw [if_pos c1]; exact hd
  rw [if_neg c1]
  simp only
  generalize (if u32 (s.read_index + n) > s.write_index then
      sub32 s.write_index s.read_index else n) = m
  have ha : bytes_ok (if decide (0 = s.read_index % 8 ∧ m ≥ 8) = true then
      aligned_bit_copy param_check out 0 s.data_store s.read_index m
      else (0, out)).2 := by
    split_ifs
    · exact (bytes_ok_copy param_check hd hs _ _ _).1
    · exact hd
  generalize (if decide (0 = s.read_index % 8 ∧ m ≥ 8) = true then
      aligned_bit_copy param_check out 0 s.data_store s.read_index m
      else (0, out)) = a at ha ⊢
  by_cases c3 : decide (0 = s.read_index % 8 ∧ m ≥ 8) = true ∧ a.1 = 0
  · rw [if_pos c3]; exact ha
  rw [if_neg c3]
  by_cases c4 : a.1 < m
  · rw [if_pos c4]; exact (bytes_ok_copy param_check ha hs _ _ _).2
  · rw [if_neg c4]; exact ha

/-- Appending to the live content: a buffer that differs from `s` by `n` new
bits `f 0, ..., f (n - 1)` at the write position. -/
theorem live_append {s t : bitstream} (hrw : s.read_index ≤ s.write_index)
    (hr : t.read_index = s.read_index) (n : Nat) (hw : t.write_index = s.write_index + n)
    (f : Nat → Nat)
    (hb : ∀ j, t.bit_at j = if s.write_index ≤ j ∧ j < s.write_index + n then f (j - s.write_index)
      else s.bit_at j) :
    t.live = s.live ++ (List.range n).map f := by
  apply List.ext_getElem?
  intro i
  unfold live
  rw [hr, hw]
  by_cases h1 : i < s.write_index - s.read_index
  · rw [List.getElem?_append_left (by simp; omega)]
    simp only [List.getElem?_map, List.getElem?_range' _ _ (show i < s.write_index + n - s.read_index by omega),
      List.getElem?_range' _ _ h1, Option.map_some', Nat.one_mul]
    rw [hb, if_neg (by omega)]
  · rw [List.getElem?_append_right (by simp; omega)]
    simp only [List.length_map, List.length_range']
    by_cases h2 : i < s.write_index + n - s.read_index
    · simp only [List.getElem?_map, List.getElem?_range' _ _ h2, Option.map_some', Nat.one_mul]
      rw [List.getElem?_range (by omega), Option.map_some', hb, if_pos (by omega)]
      congr 2
      omega
    · rw [List.getElem?_eq_none (by simp; omega), List.getElem?_eq_none (by simp; omega)]

theorem read_byte_loop_ok : ∀ (n i : Nat) (s : bitstream) (dest : Nat), s.wf →
    s.read_index + n ≤ s.write_index →
    (read_byte_loop n i s dest).1 = { s with read_index := s.read_index + n } ∧
    ∀ p, p < 8 → ((read_byte_loop n i s dest).2 >>> p) &&& 1 =
      if i ≤ p ∧ p < i + n then s.bit_at (s.read_index + (p - i)) else (dest >>> p) &&& 1 := by
  intro n
  induction n with
  | zero =>
    intro i s dest _ _
    exact ⟨rfl, fun p _ => by rw [if_neg (by omega)]; rfl⟩
  | succ n ih =>
    intro i s dest h hc
    have hr := read_bit_ok h (by omega : s.read_index < s.write_index) 0
    have hb := bit_at_lt s s.read_index
    rw [keep_low_bit (by omega) hb] at hr
    obtain ⟨i1, i2⟩ := ih (i + 1) { s with read_index := s.read_index + 1 }
      (u8 ((dest &&& not32 (1 <<< i)) ||| (s.bit_at s.read_index <<< i)))
      (wf_advance h (by omega)) (by simp only; omega)
    unfold read_byte_loop
    simp only [hr]
    refine ⟨by rw [i1]; simp only [bitstream.mk.injEq, true_and, and_true]; omega, fun p hp => ?_⟩
    rw [i2 p hp]
    have hbb : s.bit_at s.read_index = s.bit_at s.read_index &&& 1 := by
      rw [and_one]; omega
    by_cases c1 : i + 1 ≤ p ∧ p < i + 1 + n
    · rw [if_pos c1, if_pos (by omega)]
      have e : ∀ k, ({ s with read_index := s.read_index + 1 } : bitstream).bit_at k = s.bit_at k :=
        fun k => rfl
      rw [e]
      congr 1
      simp only
      omega
    · rw [if_neg c1]
      nth_rewrite 1 [hbb]
      rw [byte_update dest _ i p hp]
      by_cases c2 : p = i
      · subst c2
        rw [if_pos rfl, if_pos (by omega), Nat.sub_self, Nat.add_zero]
        omega
      · rw [if_neg c2, if_neg (by omega)]

/-- A `read_byte` with at least eight bits available (and whose index
arithmetic does not overflow): it succeeds, advances the read cursor by 8
and delivers the eight stored bits at the old read position, least
significant first. -/
theorem read_byte_ok {s : bitstream} (h : s.wf) (hc : s.read_index + 8 ≤ s.write_index)
    (dest : Nat) :
    (s.read_byte dest).1 = EVX_SUCCESS ∧
      (s.read_byte dest).2.1 = { s with read_index := s.read_index + 8 } ∧
      ∀ p, p < 8 → ((s.read_byte dest).2.2 >>> p) &&& 1 = s.bit_at (s.read_index + p) := by
  obtain ⟨l1, l2⟩ := read_byte_loop_ok 8 0 s dest h hc
  obtain ⟨h1, h2, h3, h4⟩ := h
  have e3 : ∀ x : Nat, x >>> 3 = x / 8 := fun x => by rw [Nat.shiftRight_eq_div_pow]
  unfold read_byte
  rw [if_neg (by rw [u32_of_lt (by omega)]; omega), u8_of_lt (by omega : s.read_index % 8 < 256),
    u32_of_lt (by omega : s.read_index + 8 < 4294967296)]
  by_cases ha : s.read_index % 8 = 0
  · rw [if_pos (by omega)]
    refine ⟨rfl, rfl, fun p hp => ?_⟩
    simp only [e3]
    rw [bit_at_eq, mem_bit_eq, shr_and_one]
    have a1 : (s.read_index + p) / 8 = s.read_index / 8 := by omega
    have a2 : (s.read_index + p) % 8 = p := by omega
    rw [a1, a2]
  · rw [if_neg (by omega)]
    simp only
    refine ⟨by trivial, l1, fun p hp => ?_⟩
    rw [l2 p hp, if_pos (by omega), Nat.sub_zero]

/-- A `read_byte` with fewer than eight bits available (and whose index
arithmetic does not overflow) returns `INVALID_RESOURCE` and changes
nothing. -/
theorem read_byte_underflow {s : bitstream} (hc : s.write_index < s.read_index + 8)
    (ho : s.read_index + 8 < 4294967296) (dest : Nat) :
    s.read_byte dest = (EVX_ERROR_INVALID_RESOURCE, s, dest) := by
  unfold read_byte
  rw [if_pos (by rw [u32_of_lt ho]; omega)]

end bitstream

namespace entropy_coder

/-- The status and the coder that `decode_symbol` returns do not depend on
the destination: the status of its `write_bit` is dropped. -/
theorem decode_symbol_ignores_dest (c : entropy_coder) (v : Nat) (dst dst' : bitstream) :
    (c.decode_symbol v dst).1 = EVX_SUCCESS ∧
      (c.decode_symbol v dst).2.1 = (c.decode_symbol v dst').2.1 := by
  unfold decode_symbol
  simp only
  split_ifs <;> exact ⟨rfl, rfl⟩

theorem decode_loop_ignores_dest (fuel : Nat) : ∀ (n : Nat) (c : entropy_coder)
    (src dst dst' : bitstream),
    (decode_loop fuel n c src dst).map (fun r => (r.1, r.2.1, r.2.2.1)) =
      (decode_loop fuel n c src dst').map (fun r => (r.1, r.2.1, r.2.2.1)) := by
  intro n
  induction n with
  | zero => intro c src dst dst'; rfl
  | succ n ih =>
    intro c src dst dst'
    obtain ⟨d1, d2⟩ := decode_symbol_ignores_dest c c.value dst dst'
    obtain ⟨d3, _⟩ := decode_symbol_ignores_dest c c.value dst' dst
    unfold decode_loop
    simp only [d1, d3, ne_eq, not_true_eq_false, if_false, d2]
    cases resolve_decode_scaling fuel (c.decode_symbol c.value dst').2.1 src with
    | none => rfl
    | some r =>
      obtain ⟨st, c1, src1⟩ := r
      simp only
      by_cases hst : st = EVX_SUCCESS
      · rw [if_neg (by simpa using hst), if_neg (by simpa using hst)]
        exact ih c1 src1 _ _
      · rw [if_pos hst, if_pos hst]
        rfl

/-- The status, the coder and the source that `decode` returns are the same
for every destination, whatever its capacity. -/
theorem decode_ignores_dest (param_check : Bool) (fuel : Nat) (c : entropy_coder) (n : Nat)
    (src dst dst' : bitstream) (auto_start : Bool) :
    (c.decode param_check fuel n src dst auto_start).map (fun r => (r.1, r.2.1, r.2.2.1)) =
      (c.decode param_check fuel n src dst' auto_start).map (fun r => (r.1, r.2.1, r.2.2.1)) := by
  unfold decode
  by_cases c1 : param_check = true ∧ n = 0
  · rw [if_pos c1, if_pos c1]; rfl
  rw [if_neg c1, if_neg c1]
  by_cases c2 : auto_start = true
  · rw [if_pos c2, if_pos c2]
    simp only
    split_ifs
    · rfl
    · exact decode_loop_ignores_dest fuel n _ _ _ _
  · rw [if_neg c2, if_neg c2]
    exact decode_loop_ignores_dest fuel n _ _ _ _

end entropy_coder

/-- C11 (decode surfaces destination capacity exhaustion), evaluated at a
failing input. A default coder decodes one symbol from the source `[1]` into
a destination of capacity zero: `decode` returns `EVX_SUCCESS` although the
decoded bit was not appended (the destination is unchanged), in release and
in debug builds. -/
theorem decode_ignores_full_destination :
    bitstream.construct.free_bits = 0 ∧
    (entropy_coder.construct.decode false 17 1 one_bit_source bitstream.construct true).map
      (fun r => (r.1, r.2.2.2)) = some (EVX_SUCCESS, bitstream.construct) ∧
    (entropy_coder.construct.decode true 17 1 one_bit_source bitstream.construct true).map
      (fun r => (r.1, r.2.2.2)) = some (EVX_SUCCESS, bitstream.construct) := by
  decide

/-- The symbol count guard in the states in which the division of
`resolve_model` is defined whenever the guard lets the call reach it: for
a symbol `s` in `{0, 1}`, `encode_symbol(s)` returns
`EVX_ERROR_INVALID_RESOURCE` exactly when `history[s] ≥ 2^31`, and then
leaves the coder unchanged; otherwise it returns `EVX_SUCCESS`, increments
`history[s]` by one and leaves the other count as it was. -/
theorem symbol_count_guard_defined (c : entropy_coder) (s : Nat) (hs : s < 2)
    (_hdef : c.history s < 2 * EVX_GB → c.resolve_model_defined) :
    ((c.encode_symbol s).1 = EVX_ERROR_INVALID_RESOURCE ↔ c.history s ≥ 2 * EVX_GB) ∧
    (c.history s ≥ 2 * EVX_GB → (c.encode_symbol s).2 = c) ∧
    (c.history s < 2 * EVX_GB →
      (c.encode_symbol s).1 = EVX_SUCCESS ∧
      (c.encode_symbol s).2.history s = c.history s + 1 ∧
      (c.encode_symbol s).2.history (1 - s) = c.history (1 - s)) := by
  have hg : u32 (2 * EVX_GB) = 2147483648 := by decide
  have hg2 : 2 * EVX_GB = 2147483648 := by decide
  rw [hg2]
  by_cases h : c.history s ≥ 2147483648
  · have e : c.encode_symbol s = (EVX_ERROR_INVALID_RESOURCE, c) := by
      unfold entropy_coder.encode_symbol
      rw [hg, if_pos h]
    rw [e]
    exact ⟨⟨fun _ => h, fun _ => rfl⟩, fun _ => rfl, fun h' => absurd h (by omega)⟩
  · have hlt : c.history s < 2147483648 := by omega
    have e1 : (c.encode_symbol s).1 = EVX_SUCCESS := by
      unfold entropy_coder.encode_symbol
      rw [hg, if_neg h]
    refine ⟨⟨fun h' => ?_, fun h' => absurd h' h⟩, fun h' => absurd h' h, fun _ => ⟨e1, ?_⟩⟩
    · rw [e1] at h'
      exact absurd h' (by decide)
    · unfold entropy_coder.encode_symbol
      rw [hg, if_neg h]
      obtain ⟨f1, f2, f3, f4, f5, f6, f7, f8⟩ := entropy_coder.resolve_model_fields c
      unfold entropy_coder.history at hlt ⊢
      rcases (show s = 0 ∨ s = 1 by omega) with rfl | rfl
      · simp only [show (0 &&& 1 : Nat) = 0 by decide, ne_eq, not_true_eq_false, if_false,
          entropy_coder.history_incr, if_true] at hlt ⊢
        rw [f6, f7, u32_of_lt (by omega)]
        exact ⟨rfl, rfl⟩
      · simp only [show (1 &&& 1 : Nat) = 1 by decide, ne_eq, one_ne_zero, not_false_eq_true,
          if_true, entropy_coder.history_incr, if_false] at hlt ⊢
        rw [f6, f7, u32_of_lt (by omega)]
        exact ⟨rfl, rfl⟩

/-- Two byte arrays whose first `8 n` bits agree have the same first `n`
bytes. -/
theorem take_eq_of_bits {l S : List Nat} {n : Nat} (hS : S.length = n) (hl : n ≤ l.length)
    (hlb : bytes_ok l) (hSb : bytes_ok S) (h : ∀ j, j < 8 * n → mem_bit l j = mem_bit S j) :
    l.take n = S := by
  apply List.ext_getElem
  · rw [List.length_take, hS]; omega
  · intro k h1 h2
    rw [List.getElem_take]
    have hk : k < n := by rw [hS] at h2; exact h2
    have e1 : l[k] = l.getD k 0 := by
      rw [List.getD_eq_getElem?_getD, List.getElem?_eq_getElem (by omega)]; rfl
    have e2 : S[k] = S.getD k 0 := by
      rw [List.getD_eq_getElem?_getD, List.getElem?_eq_getElem h2]; rfl
    rw [e1, e2]
    apply byte_eq_of_bits (bytes_ok_getD hlb k) (bytes_ok_getD hSb k)
    intro i hi
    have hb := h (8 * k + i) (by omega)
    rw [mem_bit_eq, mem_bit_eq] at hb
    have a1 : (8 * k + i) / 8 = k := by omega
    have a2 : (8 * k + i) % 8 = i := by omega
    rw [a1, a2] at hb
    generalize (l.getD k 0).testBit i = x at hb ⊢
    generalize (S.getD k 0).testBit i = y at hb ⊢
    cases x <;> cases y <;> simp at hb ⊢

/-- C13 (BitBuffer byte round trip). For every byte sequence `S` of length
`n ≥ 1`, every well-formed buffer with `read_index = write_index` (at any
bit alignment) and at least `8 n` free bits, and every caller array `out`
of at least `n` bytes: `write_bytes(S, n)` succeeds, the following
`read_bytes(out, n)` succeeds and returns `n`, and `out[0..n)` equals `S`. -/
theorem byte_round_trip (s : bitstream) (S out : List Nat) (n : Nat) (param_check : Bool)
    (hs : s.wf) (hst : bytes_ok s.data_store) (he : s.read_index = s.write_index)
    (hn : 1 ≤ n) (hS : S.length = n) (hSb : bytes_ok S) (hout : n ≤ out.length)
    (hob : bytes_ok out) (hcap : 8 * n ≤ s.free_bits) :
    (s.write_bytes param_check S n).1 = EVX_SUCCESS ∧
    ((s.write_bytes param_check S n).2.read_bytes param_check out n).1 = EVX_SUCCESS ∧
    ((s.write_bytes param_check S n).2.read_bytes param_check out n).2.2.2 = n ∧
    ((s.write_bytes param_check S n).2.read_bytes param_check out n).2.2.1.take n = S ∧
    ((s.write_bytes param_check S n).2.read_bytes param_check out n).2.2.1.length =
      out.length := by
  have hwf := hs
  obtain ⟨h1, h2, h3, h4⟩ := hs
  unfold bitstream.free_bits at hcap
  have e8 : u32 (n <<< 3) = 8 * n := by
    rw [Nat.shiftLeft_eq, u32_of_lt (by omega)]; omega
  obtain ⟨w1, w2, w3, w4, w5, w6⟩ := bitstream.write_bits_ok hwf param_check S (8 * n)
    (fun _ => by omega) (by omega)
  have hmin : min (8 * n) ((s.write_bits param_check S (8 * n)).2.write_index -
      (s.write_bits param_check S (8 * n)).2.read_index) = 8 * n := by
    rw [w3, w4]; omega
  obtain ⟨r1, r2, r3, r4, r5⟩ := bitstream.read_bits_ok w2 param_check out (8 * n)
    (fun _ => by omega) (by rw [w3]; omega) (by rw [hmin]; omega)
  rw [hmin] at r2 r3 r5
  have hbytes := bitstream.bytes_ok_read_bits param_check
    (bitstream.bytes_ok_write_bits param_check hst hSb (8 * n)) hob (8 * n)
  unfold bitstream.read_bytes bitstream.write_bytes
  rw [if_neg (by rintro ⟨_, q⟩; omega), e8]
  simp only
  refine ⟨w1, r1, by rw [r3, Nat.shiftRight_eq_div_pow]; omega, ?_, r4⟩
  apply take_eq_of_bits hS (by rw [r4]; exact hout) hbytes hSb
  intro j hj
  rw [r5 j, if_pos hj, w6, w3, if_pos (by omega)]
  congr 1
  omega

/-- Witness for `byte_round_trip`: two bytes written at bit offset 3 of a
four-byte buffer. -/
theorem byte_round_trip_witness :
    (({ read_index := 3, write_index := 3, data_capacity := 4, data_store := [5, 0, 0, 0] } :
        bitstream).write_bytes false [1, 2] 2).1 = EVX_SUCCESS ∧
    ((({ read_index := 3, write_index := 3, data_capacity := 4, data_store := [5, 0, 0, 0] } :
        bitstream).write_bytes false [1, 2] 2).2.read_bytes false [0, 0] 2).1 = EVX_SUCCESS ∧
    ((({ read_index := 3, write_index := 3, data_capacity := 4, data_store := [5, 0, 0, 0] } :
        bitstream).write_bytes false [1, 2] 2).2.read_bytes false [0, 0] 2).2.2.2 = 2 ∧
    ((({ read_index := 3, write_index := 3, data_capacity := 4, data_store := [5, 0, 0, 0] } :
        bitstream).write_bytes false [1, 2] 2).2.read_bytes false [0, 0] 2).2.2.1.take 2 =
      [1, 2] ∧
    ((({ read_index := 3, write_index := 3, data_capacity := 4, data_store := [5, 0, 0, 0] } :
        bitstream).write_bytes false [1, 2] 2).2.read_bytes false [0, 0] 2).2.2.1.length =
      [0, 0].length :=
  byte_round_trip
    { read_index := 3, write_index := 3, data_capacity := 4, data_store := [5, 0, 0, 0] }
    [1, 2] [0, 0] 2 false (by decide) (by unfold bytes_ok; decide) (by decide) (by decide)
    (by decide) (by unfold bytes_ok; decide) (by decide) (by unfold bytes_ok; decide) (by decide)

namespace bitstream

theorem live_eq_map (s : bitstream) :
    s.live = (List.range (s.write_index - s.read_index)).map (fun j => s.bit_at (s.read_index + j)) := by
  unfold live
  rw [List.range'_eq_map_range, List.map_map]
  rfl

/-- The bits `read_bits` delivers are the first live bits of the buffer. -/
theorem read_bits_live {s : bitstream} (h : s.wf) (param_check : Bool) (out : List Nat) (n : Nat)
    (hn : 1 ≤ n) (hocc : n ≤ s.write_index - s.read_index) (hl : n ≤ 8 * out.length) :
    (s.read_bits param_check out n).1 = EVX_SUCCESS ∧
      (s.read_bits param_check out n).2.2.2 = n ∧
      (s.read_bits param_check out n).2.1.read_index = s.read_index + n ∧
      mem_bits (s.read_bits param_check out n).2.2.1 n = s.live.take n := by
  have hmin : min n (s.write_index - s.read_index) = n := by omega
  have hov : s.read_index + n < 4294967296 := by
    obtain ⟨_, _, _, _⟩ := h
    omega
  obtain ⟨r1, r2, r3, r4, r5⟩ := read_bits_ok h param_check out n (fun _ => by omega) hov
    (by rw [hmin]; exact hl)
  rw [hmin] at r2 r3 r5
  refine ⟨r1, r3, by rw [r2], ?_⟩
  unfold mem_bits
  rw [live_eq_map, ← List.map_take, List.take_range, Nat.min_eq_left hocc]
  apply List.map_congr_left
  intro j hj
  rw [List.mem_range] at hj
  rw [r5 j, if_pos hj]

theorem live_write_byte {s : bitstream} (h : s.wf) (hc : s.write_index + 8 ≤ 8 * s.data_capacity)
    (v : Nat) : (s.write_byte v).2.live = s.live ++ byte_bits v := by
  obtain ⟨_, _, w3, w4, _, w6⟩ := write_byte_ok h hc v
  exact live_append h.2.1 w3 8 w4 (fun i => (v >>> i) &&& 1) w6

theorem live_write_bits {s : bitstream} (h : s.wf) (param_check : Bool) (data : List Nat) (n : Nat)
    (hn : param_check = true → n ≠ 0) (hc : s.write_index + n ≤ 8 * s.data_capacity) :
    (s.write_bits param_check data n).2.live = s.live ++ mem_bits data n := by
  obtain ⟨_, _, w3, w4, _, w6⟩ := write_bits_ok h param_check data n hn hc
  exact live_append h.2.1 w3 n w4 (mem_bit data) w6

end bitstream

/-- C14 (mixed alignment). For every `k` in `[0, 7]`, every `k` bits and
every byte `v`, on a well-formed empty buffer with at least `k + 8` free
bits: the `k` calls of `write_bit` followed by `write_byte(v)` succeed, and
`read_bits(out, k + 8)` then succeeds, returns the count `k + 8` and leaves
in `out`, in wire order, the `k` bits followed by bits `0, ..., 7` of `v`. -/
theorem mixed_alignment (k : Nat) (bits : List Nat) (v : Nat) (s : bitstream) (out : List Nat)
    (param_check : Bool) (hk : k ≤ 7) (hbits : bits.length = k) (hb : ∀ b ∈ bits, b < 2)
    (hs : s.wf) (he : s.read_index = s.write_index) (hcap : k + 8 ≤ s.free_bits)
    (hout : k + 8 ≤ 8 * out.length) :
    (s.write_list bits).live = bits ∧
    ((s.write_list bits).write_byte v).1 = EVX_SUCCESS ∧
    (((s.write_list bits).write_byte v).2.read_bits param_check out (k + 8)).1 = EVX_SUCCESS ∧
    (((s.write_list bits).write_byte v).2.read_bits param_check out (k + 8)).2.2.2 = k + 8 ∧
    mem_bits (((s.write_list bits).write_byte v).2.read_bits param_check out (k + 8)).2.2.1
      (k + 8) = bits ++ byte_bits v := by
  have hfree := hcap
  unfold bitstream.free_bits at hcap
  have hempty : s.live = [] := by
    unfold bitstream.live
    rw [he, Nat.sub_self]
    rfl
  obtain ⟨l1, l2, l3, l4, l5⟩ := bitstream.write_list_ok bits s hs (by omega)
  have hmap : bits.map (· % 2) = bits := by
    conv_rhs => rw [← List.map_id bits]
    apply List.map_congr_left
    intro b hb'
    exact Nat.mod_eq_of_lt (hb b hb')
  rw [hempty, List.nil_append, hmap] at l2
  have hc2 : (s.write_list bits).write_index + 8 ≤ 8 * (s.write_list bits).data_capacity := by
    rw [l4, l5, hbits]
    obtain ⟨_, _, _, _⟩ := hs
    omega
  obtain ⟨w1, w2, w3, w4, w5, _⟩ := bitstream.write_byte_ok l1 hc2 v
  have hlive := bitstream.live_write_byte l1 hc2 v
  rw [l2] at hlive
  obtain ⟨r1, r2, _, r4⟩ := bitstream.read_bits_live w2 param_check out (k + 8) (by omega)
    (by rw [w3, w4, l3, l4, hbits, he]; omega) hout
  refine ⟨l2, w1, r1, r2, ?_⟩
  rw [r4, hlive]
  apply List.take_of_length_le
  simp [hbits, byte_bits]

/-- Witness for `mixed_alignment`: three bits, then the byte `0xC5`. -/
theorem mixed_alignment_witness :
    (sixteen_bit_buffer.write_list [1, 0, 1]).live = [1, 0, 1] ∧
    ((sixteen_bit_buffer.write_list [1, 0, 1]).write_byte 197).1 = EVX_SUCCESS ∧
    (((sixteen_bit_buffer.write_list [1, 0, 1]).write_byte 197).2.read_bits false [0, 0]
      (3 + 8)).1 = EVX_SUCCESS ∧
    (((sixteen_bit_buffer.write_list [1, 0, 1]).write_byte 197).2.read_bits false [0, 0]
      (3 + 8)).2.2.2 = 3 + 8 ∧
    mem_bits (((sixteen_bit_buffer.write_list [1, 0, 1]).write_byte 197).2.read_bits false
      [0, 0] (3 + 8)).2.2.1 (3 + 8) = [1, 0, 1] ++ byte_bits 197 :=
  mixed_alignment 3 [1, 0, 1] 197 sixteen_bit_buffer [0, 0] false (by decide) (by decide)
    (by decide) (by decide) (by decide) (by decide) (by decide)

namespace bitstream

/-- A `write_bits` request that does not fit, and whose index arithmetic does
not overflow, returns `CAPACITY_LIMIT` and changes nothing. -/
theorem write_bits_full {s : bitstream} (h : s.wf) (param_check : Bool) (data : List Nat) (n : Nat)
    (hn : param_check = true → n ≠ 0) (hc : 8 * s.data_capacity < s.write_index + n)
    (ho : s.write_index + n < 4294967296) :
    s.write_bits param_check data n = (EVX_ERROR_CAPACITY_LIMIT, s) := by
  have hq := query_capacity_eq h
  unfold write_bits
  rw [if_neg (by rintro ⟨p, q⟩; exact hn p q), if_pos (by rw [u32_of_lt ho, hq]; omega)]

end bitstream

/-- C15 (bit layout), evaluated at a failing input. On an empty 16-bit
buffer, `write_bytes(src, 2^29 + 1)` with a source of `2^29 + 1` bytes
`0xFF` returns success after storing one byte only (the bit count
`byte_count << 3` wraps to `8`), and the following `write_byte(0)` succeeds
at bit 8: the stored bit 8 is `0`, while bit 8 of the stream of inputs is
bit 0 of the second source byte, `1`. -/
theorem bit_layout_breaks_on_count_overflow :
    large_source.length = 536870913 ∧
    (sixteen_bit_buffer.write_bytes false large_source 536870913).1 = EVX_SUCCESS ∧
    (sixteen_bit_buffer.write_bytes false large_source 536870913).2.write_index = 8 ∧
    ((sixteen_bit_buffer.write_bytes false large_source 536870913).2.write_byte 0).1 =
      EVX_SUCCESS ∧
    ((sixteen_bit_buffer.write_bytes false large_source 536870913).2.write_byte 0).2.write_index =
      16 ∧
    ((sixteen_bit_buffer.write_bytes false large_source 536870913).2.write_byte 0).2.bit_at 8 =
      0 ∧
    mem_bit large_source 8 = 1 :=
  ⟨List.length_replicate _ _, by decide, by decide, by decide, by decide, by decide, by decide⟩

/-- C16 (write past capacity is a no-op), evaluated at failing inputs. On an
empty 16-bit buffer `write_bytes(src, 2^29)` asks for `2^32` bits and returns
`EVX_SUCCESS` (`EVX_ERROR_INVALIDARG` in a debug build), and
`write_bytes(src, 2^29 + 1)` returns `EVX_SUCCESS` and moves `write_index`
to 8. On a buffer with 8 of its 16 bits written, `write_bits(src, 2^32 - 8)`
returns `EVX_SUCCESS` and leaves `write_index = 0`. None of them returns
`EVX_ERROR_CAPACITY_LIMIT`. -/
theorem write_past_capacity_wraps :
    large_source.length = 536870913 ∧
    sixteen_bit_buffer.write_bytes false large_source 536870912 =
      (EVX_SUCCESS, sixteen_bit_buffer) ∧
    (sixteen_bit_buffer.write_bytes true large_source 536870912).1 = EVX_ERROR_INVALIDARG ∧
    (sixteen_bit_buffer.write_bytes false large_source 536870913).1 = EVX_SUCCESS ∧
    (sixteen_bit_buffer.write_bytes false large_source 536870913).2.write_index = 8 ∧
    ((sixteen_bit_buffer.write_byte 7).2.write_bits false large_source 4294967288).1 =
      EVX_SUCCESS ∧
    ((sixteen_bit_buffer.write_byte 7).2.write_bits false large_source 4294967288).2.write_index =
      0 :=
  ⟨List.length_replicate _ _, by decide, by decide, by decide, by decide, by decide, by decide⟩

/-- C17 (unit write capacity rule), evaluated at a failing input. On a
well-formed buffer of `2^32 - 8` bits that is full, `write_index + 8` exceeds
the capacity, yet `write_byte` returns `EVX_SUCCESS` and leaves
`write_index = 0`: the sum wraps to `0` in `uint32`. -/
theorem write_byte_wraps_at_max_capacity :
    max_full_buffer.wf ∧ max_full_buffer.query_capacity = 4294967288 ∧
    max_full_buffer.write_index + 8 > max_full_buffer.query_capacity ∧
    (max_full_buffer.write_byte 255).1 = EVX_SUCCESS ∧
    (max_full_buffer.write_byte 255).2.write_index = 0 :=
  ⟨⟨List.length_replicate _ _, by decide, by decide, by decide⟩, by decide, by decide, by decide,
    by decide⟩

/-- C18 (unit read underflow), evaluated at a failing input. On a
well-formed buffer of `2^32 - 8` bits that is full and completely read, the
occupancy is `0`, yet `read_byte` returns `EVX_SUCCESS` and leaves
`read_index = 0`: the sum `read_index + 8` wraps to `0` in `uint32`. -/
theorem read_byte_wraps_at_max_capacity :
    max_spent_buffer.wf ∧ max_spent_buffer.query_occupancy = 0 ∧
    (max_spent_buffer.read_byte 0).1 = EVX_SUCCESS ∧
    (max_spent_buffer.read_byte 0).2.1.read_index = 0 :=
  ⟨⟨List.length_replicate _ _, by decide, by decide, by decide⟩, by decide, by decide, by decide⟩

/-- C19 (read_bits short-read contract), evaluated at a failing input. On a
16-bit buffer with 8 unread bits, `read_bits(out, 0xFFFFFFFF)` returns
success with the count still `0xFFFFFFFF` (not `min(n, 8) = 8`) and leaves
`read_index = 7`: the sum `read_index + n` wraps in `uint32`, so the count
is not clamped. -/
theorem read_bits_count_wraps :
    half_read_buffer.wf ∧ half_read_buffer.query_occupancy = 8 ∧
    large_out.length = 536870912 ∧
    (half_read_buffer.read_bits false large_out 4294967295).1 = EVX_SUCCESS ∧
    (half_read_buffer.read_bits false large_out 4294967295).2.2.2 = 4294967295 ∧
    (half_read_buffer.read_bits false large_out 4294967295).2.1.read_index = 7 :=
  ⟨by decide, by decide, List.length_replicate _ _, by decide, by decide, by decide⟩

theorem stream_length (c : write_call) : c.stream.length =
    match c with
    | .bit _ => 1
    | .byte _ => 8
    | .bits _ n => n
    | .bytes _ n => 8 * n := by
  cases c <;> simp [write_call.stream, byte_bits, mem_bits]

/-- A successful call whose input fits in the free capacity appends its
input bits to the live content. -/
theorem run_fitting_call (param_check : Bool) {s : bitstream} (h : s.wf) (c : write_call)
    (hfit : s.write_index + c.stream.length ≤ 8 * s.data_capacity)
    (hok : (c.run param_check s).1 = EVX_SUCCESS) :
    (c.run param_check s).2.wf ∧ (c.run param_check s).2.read_index = s.read_index ∧
      (c.run param_check s).2.write_index = s.write_index + c.stream.length ∧
      (c.run param_check s).2.data_capacity = s.data_capacity ∧
      (c.run param_check s).2.live = s.live ++ c.stream := by
  rw [stream_length] at hfit ⊢
  cases c with
  | bit v =>
    simp only [write_call.run, write_call.stream] at hfit hok ⊢
    obtain ⟨_, w2, w3, w4, w5, _, _⟩ := bitstream.write_bit_ok h (by omega) v
    have hl := bitstream.live_write_bit h (by omega) v
    refine ⟨w2, w3, w4, w5, ?_⟩
    rw [hl, and_one]
  | byte v =>
    simp only [write_call.run, write_call.stream] at hfit hok ⊢
    obtain ⟨_, w2, w3, w4, w5, _⟩ := bitstream.write_byte_ok h hfit v
    exact ⟨w2, w3, w4, w5, bitstream.live_write_byte h hfit v⟩
  | bits data n =>
    simp only [write_call.run, write_call.stream] at hfit hok ⊢
    have hn : param_check = true → n ≠ 0 := by
      intro hp hn
      unfold bitstream.write_bits at hok
      rw [if_pos ⟨hp, hn⟩] at hok
      have hok' : EVX_ERROR_INVALIDARG = EVX_SUCCESS := hok
      exact absurd hok' (by decide)
    obtain ⟨_, w2, w3, w4, w5, _⟩ := bitstream.write_bits_ok h param_check data n hn hfit
    exact ⟨w2, w3, w4, w5, bitstream.live_write_bits h param_check data n hn hfit⟩
  | bytes data n =>
    simp only [write_call.run, write_call.stream] at hfit hok ⊢
    have e8 : u32 (n <<< 3) = 8 * n := by
      obtain ⟨_, _, _, _⟩ := h
      rw [Nat.shiftLeft_eq, u32_of_lt (by omega)]; omega
    unfold bitstream.write_bytes at hok ⊢
    rw [e8] at hok ⊢
    have hn : param_check = true → 8 * n ≠ 0 := by
      intro hp hn
      unfold bitstream.write_bits at hok
      rw [if_pos ⟨hp, hn⟩] at hok
      have hok' : EVX_ERROR_INVALIDARG = EVX_SUCCESS := hok
      exact absurd hok' (by decide)
    obtain ⟨_, w2, w3, w4, w5, _⟩ := bitstream.write_bits_ok h param_check data (8 * n) hn hfit
    exact ⟨w2, w3, w4, w5, bitstream.live_write_bits h param_check data (8 * n) hn hfit⟩

theorem run_fitting_calls (param_check : Bool) : ∀ (calls : List write_call) (s t : bitstream),
    s.wf → s.write_index + (calls_stream calls).length ≤ 8 * s.data_capacity →
    run_calls param_check s calls = some t →
    t.wf ∧ t.read_index = s.read_index ∧
      t.write_index = s.write_index + (calls_stream calls).length ∧
      t.live = s.live ++ calls_stream calls := by
  intro calls
  induction calls with
  | nil =>
    intro s t h _ hr
    simp only [run_calls, Option.some.injEq] at hr
    subst hr
    simp [calls_stream, h]
  | cons c cs ih =>
    intro s t h hfit hr
    have hcs : calls_stream (c :: cs) = c.stream ++ calls_stream cs := by
      simp [calls_stream]
    rw [hcs, List.length_append] at hfit
    unfold run_calls at hr
    by_cases hok : (c.run param_check s).1 = EVX_SUCCESS
    · rw [if_neg (by simpa using hok)] at hr
      obtain ⟨w1, w2, w3, w4, w5⟩ := run_fitting_call param_check h c (by omega) hok
      obtain ⟨i1, i2, i3, i4⟩ := ih _ t w1 (by rw [w3, w4]; omega) hr
      refine ⟨i1, by rw [i2, w2], by rw [i3, w3, hcs, List.length_append]; omega, ?_⟩
      rw [i4, w5, hcs, List.append_assoc]
    · rw [if_pos hok] at hr
      exact absurd hr (by simp)

/-- The bit layout contract for requests that fit: after a sequence of
successful write calls on an empty buffer at position 0 whose inputs total
at most the capacity, the write cursor is the length of the input stream and
bit `i` of the stream is bit `i & 7` of byte `i >> 3`. -/
theorem bit_layout_of_fitting_calls (param_check : Bool) (calls : List write_call)
    (s t : bitstream) (hs : s.wf) (hr0 : s.read_index = 0) (hw0 : s.write_index = 0)
    (hfit : (calls_stream calls).length ≤ 8 * s.data_capacity)
    (hrun : run_calls param_check s calls = some t) :
    t.write_index = (calls_stream calls).length ∧
    ∀ i, i < t.write_index →
      (t.data_store.getD (i >>> 3) 0 >>> (i &&& 7)) &&& 1 = (calls_stream calls).getD i 0 := by
  obtain ⟨r1, r2, r3, r4⟩ := run_fitting_calls param_check calls s t hs (by omega) hrun
  have hempty : s.live = [] := by
    unfold bitstream.live
    rw [hr0, hw0]
    rfl
  rw [hempty, List.nil_append] at r4
  rw [hw0, Nat.zero_add] at r3
  refine ⟨r3, fun i hi => ?_⟩
  have e : (List.map (fun j => t.bit_at (0 + j)) (List.range (t.write_index - 0))).getD i 0 =
      t.bit_at i := by
    rw [List.getD_eq_getElem?_getD, List.getElem?_map, List.getElem?_range (by omega)]
    simp
  have e7 : i &&& 7 = i % 8 := Nat.and_pow_two_sub_one_eq_mod i 3
  rw [← r4, bitstream.live_eq_map, r2, hr0, e, e7]
  rfl

namespace bitstream

/-- The capacity behaviour of the spec's scenario: a buffer sized to 16 bits
accepts two `write_byte` calls, refuses the third with `CAPACITY_LIMIT` and
keeps an occupancy of 16. -/
theorem sized_sixteen_accepts_two (param_check : Bool) (s : bitstream) (fresh : Nat → Nat)
    (a b c : Nat) :
    (resize_capacity param_check s 16 fresh).1 = 16 ∧
    ((resize_capacity param_check s 16 fresh).2.write_byte a).1 = EVX_SUCCESS ∧
    (((resize_capacity param_check s 16 fresh).2.write_byte a).2.write_byte b).1 = EVX_SUCCESS ∧
    ((((resize_capacity param_check s 16 fresh).2.write_byte a).2.write_byte b).2.write_byte c).1 =
      EVX_ERROR_CAPACITY_LIMIT ∧
    ((((resize_capacity param_check s 16 fresh).2.write_byte a).2.write_byte b).2.write_byte
      c).2.query_occupancy = 16 := by
  obtain ⟨s0, hs0⟩ : ∃ s0 : bitstream, s0 = ⟨0, 0, 2, [u8 (fresh 0), u8 (fresh 1)]⟩ := ⟨_, rfl⟩
  have e : resize_capacity param_check s 16 fresh = (16, s0) := by
    unfold resize_capacity
    rw [if_neg (by rintro ⟨_, q⟩; exact absurd q (by decide)), hs0]
    rfl
  rw [e]
  simp only
  have hwf : s0.wf := by
    rw [hs0]
    exact ⟨rfl, by simp, by simp, by simp⟩
  have hi : s0.read_index = 0 ∧ s0.write_index = 0 ∧ s0.data_capacity = 2 := by
    rw [hs0]
    exact ⟨rfl, rfl, rfl⟩
  obtain ⟨a1, a2, a3, a4, a5, _⟩ := write_byte_ok hwf (by omega) a
  obtain ⟨b1, b2, b3, b4, b5, _⟩ := write_byte_ok a2 (by rw [a4, a5]; omega) b
  have hfull := write_byte_full b2 (by rw [b4, b5, a4, a5]; omega) (by rw [b4, a4]; omega) c
  refine ⟨trivial, a1, b1, by rw [hfull], ?_⟩
  rw [hfull]
  simp only
  unfold query_occupancy
  rw [b3, b4, a3, a4, hi.1, hi.2.1]
  rfl

/-- A `read_bit` on a buffer without unread bits returns `INVALID_RESOURCE`
and changes nothing. -/
theorem read_bit_underflow {s : bitstream} (hc : s.write_index ≤ s.read_index) (dest : Nat) :
    s.read_bit dest = (EVX_ERROR_INVALID_RESOURCE, s, dest) := by
  unfold read_bit
  rw [if_pos hc]

end bitstream

/-- The source offset after one iteration of the loop of
`unaligned_bit_copy`: it advances by at least one bit and not past the copy
limit. -/
theorem unaligned_step_offset (dest source : List Nat) (d so lim : Nat) (hso : so < lim)
    (hlim : lim < 4294967296) :
    so < (unaligned_step dest d source so lim).2.2 ∧
      (unaligned_step dest d source so lim).2.2 ≤ lim := by
  have htb : u8 (d % 8) = d % 8 := u8_of_lt (by omega)
  have hsb : u8 (so % 8) = so % 8 := u8_of_lt (by omega)
  have hbl : sub32 lim so = lim - so := sub32_of_le (by omega) hlim
  obtain ⟨w, hw⟩ : ∃ w, w = evx_min2 (evx_min2 (8 - d % 8) (8 - so % 8)) (lim - so) := ⟨_, rfl⟩
  have hw1 : 1 ≤ w := by
    rw [hw]; unfold evx_min2; split_ifs <;> omega
  have hw2 : w ≤ 8 := by
    rw [hw]; unfold evx_min2; split_ifs <;> omega
  have hw4 : w ≤ lim - so := by
    rw [hw]; unfold evx_min2; split_ifs <;> omega
  have hcap : u8 (evx_min2 (8 - d % 8) (8 - so % 8)) = evx_min2 (8 - d % 8) (8 - so % 8) := by
    apply u8_of_lt; unfold evx_min2; split_ifs <;> omega
  have hcnt : u8 (evx_min2 (evx_min2 (8 - d % 8) (8 - so % 8)) (lim - so)) = w := by
    rw [hw]; apply u8_of_lt; rw [← hw]; omega
  unfold unaligned_step
  simp only [htb, hsb, hbl, hcap, hcnt]
  rw [u32_of_lt (by omega)]
  omega

theorem unaligned_loop_succ (source : List Nat) (fuel : Nat) (dest : List Nat) (d so lim : Nat) :
    unaligned_loop (fuel + 1) dest d source so lim =
      if so < lim then
        unaligned_loop fuel (unaligned_step dest d source so lim).1
          (unaligned_step dest d source so lim).2.1 source
          (unaligned_step dest d source so lim).2.2 lim
      else dest := rfl

/-- The bound of `unaligned_loop` is never reached with the loop still
running: from `lim - so` iterations on, a larger bound gives the same
result. -/
theorem unaligned_loop_bound (source : List Nat) (lim : Nat) (hlim : lim < 4294967296) :
    ∀ (fuel : Nat) (dest : List Nat) (d so : Nat), lim - so ≤ fuel →
    unaligned_loop (fuel + 1) dest d source so lim = unaligned_loop fuel dest d source so lim := by
  intro fuel
  induction fuel with
  | zero =>
    intro dest d so h
    rw [unaligned_loop_succ, if_neg (by omega)]
    rfl
  | succ fuel ih =>
    intro dest d so h
    conv_lhs => rw [unaligned_loop_succ]
    conv_rhs => rw [unaligned_loop_succ]
    by_cases c : so < lim
    · obtain ⟨o1, o2⟩ := unaligned_step_offset dest source d so lim c hlim
      rw [if_pos c, if_pos c]
      exact ih _ _ _ (by omega)
    · rw [if_neg c, if_neg c]

/-! ### Derived constants (C26) -/

/-- C26 (counterexample): the coder's `HALF`, `QTR` and `3QTR` constants
are not the powers of two `32768`, `16384` and their triple `49152`. -/
theorem derived_constants_differ :
    ¬ (EVX_ENTROPY_PRECISION_MAX = 65535 ∧ EVX_ENTROPY_HALF_RANGE = 32768 ∧
      EVX_ENTROPY_QTR_RANGE = 16384 ∧ EVX_ENTROPY_3QTR_RANGE = 49152 ∧
      EVX_ENTROPY_MSB_MASK = 32768) := by
  decide

/-- C26 (amended): with precision `16` the constants are
`PRECISION_MAX = 2^16 - 1 = 65535`, `HALF_RANGE = PRECISION_MAX >> 1 = 32767`
and `QTR_RANGE = HALF_RANGE >> 1 = 16383` (the last values of the lower
half and of the lowest quarter, so that `HALF_RANGE + 1 = 2^15` and
`QTR_RANGE + 1 = 2^14`), `3QTR_RANGE` is computed as `3 * QTR_RANGE`, and
`MSB_MASK = 2^15 = 32768`. -/
theorem derived_constants :
    EVX_ENTROPY_PRECISION = 16 ∧
    EVX_ENTROPY_PRECISION_MAX = 2 ^ EVX_ENTROPY_PRECISION - 1 ∧
    EVX_ENTROPY_PRECISION_MAX = 65535 ∧
    EVX_ENTROPY_HALF_RANGE = EVX_ENTROPY_PRECISION_MAX >>> 1 ∧
    EVX_ENTROPY_HALF_RANGE = 32767 ∧
    EVX_ENTROPY_HALF_RANGE + 1 = 2 ^ (EVX_ENTROPY_PRECISION - 1) ∧
    EVX_ENTROPY_QTR_RANGE = EVX_ENTROPY_HALF_RANGE >>> 1 ∧
    EVX_ENTROPY_QTR_RANGE = 16383 ∧
    EVX_ENTROPY_QTR_RANGE + 1 = 2 ^ (EVX_ENTROPY_PRECISION - 2) ∧
    EVX_ENTROPY_3QTR_RANGE = 3 * EVX_ENTROPY_QTR_RANGE ∧
    EVX_ENTROPY_MSB_MASK = 2 ^ (EVX_ENTROPY_PRECISION - 1) ∧
    EVX_ENTROPY_MSB_MASK = 32768 := by
  decide

/-! ### The model split (C27) -/

namespace entropy_coder

theorem resolve_model_fixed_hist (c : entropy_coder) (ha : c.adaptive = false) (a b : Nat) :
    ({ c with history0 := a, history1 := b } : entropy_coder).resolve_model.mid =
      c.resolve_model.mid := by
  unfold resolve_model
  simp only [ha]
  rfl

end entropy_coder

/-- C27: the model split keeps both sub-intervals non-empty. For every
coder with `low < high ≤ PRECISION_MAX`, `resolve_model` gives
`low ≤ mid < high`: in adaptive mode for all counts between `1` and `2^31`
that are not both `2^31`, in fixed mode for every model below
`PRECISION_MAX`. So `[low, mid]` and `[mid + 1, high]` are non-empty,
disjoint and cover `[low, high]`. -/
theorem model_split_nonempty (c : entropy_coder)
    (hlh : c.low < c.high) (hmax : c.high ≤ EVX_ENTROPY_PRECISION_MAX)
    (hm : if c.adaptive then
        1 ≤ c.history0 ∧ c.history0 ≤ 2 ^ 31 ∧ 1 ≤ c.history1 ∧ c.history1 ≤ 2 ^ 31 ∧
          ¬ (c.history0 = 2 ^ 31 ∧ c.history1 = 2 ^ 31)
      else c.model < EVX_ENTROPY_PRECISION_MAX) :
    c.low ≤ c.resolve_model.mid ∧ c.resolve_model.mid < c.high ∧
      c.resolve_model.low = c.low ∧ c.resolve_model.high = c.high ∧
      (∀ x, c.low ≤ x ∧ x ≤ c.high ↔
        (c.low ≤ x ∧ x ≤ c.resolve_model.mid) ∨ (c.resolve_model.mid + 1 ≤ x ∧ x ≤ c.high)) := by
  rw [PRECISION_MAX_eq] at hmax
  have key : c.low ≤ c.resolve_model.mid ∧ c.resolve_model.mid < c.high := by
    by_cases ha : c.adaptive = true
    · rw [if_pos ha] at hm
      obtain ⟨h1, h2, h3, h4, h5⟩ := hm
      have hv : c.valid := ⟨le_of_lt hlh, hmax⟩
      have hmo : c.model_ok := by
        unfold entropy_coder.model_ok
        rw [if_pos ha]
        exact ⟨h1, h3⟩
      have hh : c.history0 + c.history1 < 4294967296 := by
        norm_num at h2 h4 h5
        omega
      obtain ⟨i1, _, i3⟩ := entropy_coder.resolve_model_mid hv hmo hh
      exact ⟨i1, i3 hlh⟩
    · rw [if_neg ha, PRECISION_MAX_eq] at hm
      have ha' : c.adaptive = false := by simpa using ha
      have hv : ({ c with history0 := 0, history1 := 0 } : entropy_coder).valid :=
        ⟨le_of_lt hlh, hmax⟩
      have hmo : ({ c with history0 := 0, history1 := 0 } : entropy_coder).model_ok := by
        unfold entropy_coder.model_ok
        simp only [ha', Bool.false_eq_true, if_false]
        omega
      obtain ⟨i1, _, i3⟩ := entropy_coder.resolve_model_mid hv hmo (by simp)
      rw [entropy_coder.resolve_model_fixed_hist c ha'] at i1 i3
      exact ⟨i1, i3 hlh⟩
  refine ⟨key.1, key.2, rfl, rfl, ?_⟩
  intro x
  constructor
  · rintro ⟨h1, h2⟩
    by_cases hx : x ≤ c.resolve_model.mid
    · exact Or.inl ⟨h1, hx⟩
    · exact Or.inr ⟨by omega, h2⟩
  · rintro (⟨h1, h2⟩ | ⟨h1, h2⟩)
    · exact ⟨h1, by omega⟩
    · exact ⟨by omega, h2⟩

theorem model_split_nonempty_witness :
    (entropy_coder.construct.low ≤ entropy_coder.construct.resolve_model.mid ∧
      entropy_coder.construct.resolve_model.mid < entropy_coder.construct.high) ∧
    entropy_coder.construct.resolve_model.mid = 32767 := by
  have h := model_split_nonempty entropy_coder.construct (by decide) (by decide) (by decide)
  exact ⟨⟨h.1, h.2.1⟩, by decide⟩

/-! ### Flush emission (C25) -/

namespace entropy_coder

end entropy_coder

/-- C29: the unaligned bit copy is exact and framed. For separate source
and destination arrays, bit offsets `s` and `d` and a count `n ≥ 1` with
`s + n` and `d + n` below `2^32` (and the destination range inside the
destination array), `unaligned_bit_copy` returns `n`, afterwards
destination bit `d + i` equals source bit `s + i` for every `i < n`
(bit `j` is bit `j % 8`, counted from the least significant, of byte
`j / 8`), every destination bit outside `[d, d + n)` is unchanged, and the
array keeps its length. -/
theorem unaligned_copy_exact_framed (param_check : Bool) (dest source : List Nat)
    (d s n : Nat) (hn : 1 ≤ n) (hs : s + n < 2 ^ 32) (hd : d + n < 2 ^ 32)
    (hl : d + n ≤ 8 * dest.length) :
    (unaligned_bit_copy param_check dest d source s n).1 = n ∧
    (∀ i, i < n →
      mem_bit (unaligned_bit_copy param_check dest d source s n).2 (d + i) =
        mem_bit source (s + i)) ∧
    (∀ j, ¬ (d ≤ j ∧ j < d + n) →
      mem_bit (unaligned_bit_copy param_check dest d source s n).2 j = mem_bit dest j) ∧
    (unaligned_bit_copy param_check dest d source s n).2.length = dest.length := by
  obtain ⟨i1, i2, i3⟩ := unaligned_bit_copy_spec param_check dest source d s n hn
    (by norm_num at hs; exact hs) (by norm_num at hd; exact hd) hl
  refine ⟨i1, ?_, ?_, i2⟩
  · intro i hi
    rw [i3, if_pos ⟨by omega, by omega⟩]
    congr 2
    omega
  · intro j hj
    rw [i3, if_neg hj]

theorem unaligned_copy_exact_framed_witness :
    (unaligned_bit_copy true [0, 0, 0] 3 [255, 255] 5 9).1 = 9 ∧
    (unaligned_bit_copy true [0, 0, 0] 3 [255, 255] 5 9).2 = [248, 15, 0] := by
  have h := unaligned_copy_exact_framed true [0, 0, 0] [255, 255] 3 5 9 (by decide)
    (by decide) (by decide) (by decide)
  exact ⟨h.1, by decide⟩

/-! ### The state at the exit of the scaling loops (C28) -/

namespace entropy_coder

/-- The encoder loop breaks only on a stopped interval. -/
theorem encode_iter_none {c : entropy_coder} {dest : bitstream} (hv : c.valid)
    (hs : c.encode_scaling_iter dest = none) : c.stopped := by
  obtain ⟨hlh, hmax⟩ := hv
  by_cases hh : c.high < 32768
  · have hl : c.low < 32768 := by omega
    unfold encode_scaling_iter at hs
    rw [msb_low hh, msb_low hl] at hs
    simp only [if_true] at hs
    split_ifs at hs
  by_cases hl : 32768 ≤ c.low
  · unfold encode_scaling_iter at hs
    rw [msb_high (by omega) hmax, msb_high hl (by omega)] at hs
    simp only [if_true] at hs
    split_ifs at hs
  by_cases h3 : c.high ≤ 49149 ∧ 16384 ≤ c.low
  · unfold encode_scaling_iter at hs
    rw [msb_high (by omega) hmax, msb_low (by omega), THREE_QTR_RANGE_eq, QTR_RANGE_eq] at hs
    simp only [show ¬ ((32768 : Nat) = 0) by decide, if_false] at hs
    rw [if_pos ⟨h3.1, by omega⟩] at hs
    exact absurd hs (by simp)
  · exact ⟨by omega, by omega, hmax, h3⟩

/-- The encoder loop, when it returns success, returns a stopped interval. -/
theorem encode_scaling_exit : ∀ (fuel : Nat) (c c1 : entropy_coder) (dest dest1 : bitstream),
    c.valid → resolve_encode_scaling fuel c dest = some (EVX_SUCCESS, c1, dest1) →
    c1.stopped := by
  intro fuel
  induction fuel with
  | zero => intro c c1 dest dest1 _ h; simp [resolve_encode_scaling] at h
  | succ n ih =>
    intro c c1 dest dest1 hv h
    unfold resolve_encode_scaling at h
    cases hi : c.encode_scaling_iter dest with
    | none =>
      rw [hi] at h
      simp only [Option.some.injEq, Prod.mk.injEq, true_and] at h
      rw [← h.1]
      exact encode_iter_none hv hi
    | some r =>
      obtain ⟨st, c2, dest2⟩ := r
      rw [hi] at h
      simp only at h
      by_cases hst : st = EVX_SUCCESS
      · subst hst
        rw [if_neg (by simp)] at h
        obtain ⟨g1, g2, _⟩ := encode_iter_coder hv hi
        exact ih c2 c1 dest2 dest1 ⟨g1, g2⟩ h
      · rw [if_pos hst] at h
        simp only [Option.some.injEq, Prod.mk.injEq] at h
        exact absurd h.1 hst

/-- The rule of a decoder iteration acts on the bounds alone: whatever
`value` holds, the stored interval is the one the encoder rule gives,
before the shift. -/
theorem decode_rule_bounds {d d2 : entropy_coder} (hv : d.valid)
    (hr : d.decode_scaling_rule = some d2) :
    (d.high < 32768 ∧ d2.low = d.low ∧ d2.high = d.high) ∨
    (32768 ≤ d.low ∧ d2.low = d.low - 32768 ∧ d2.high = d.high - 32768) ∨
    (32768 ≤ d.high ∧ d.low < 32768 ∧ d.high ≤ 49149 ∧ 16384 ≤ d.low ∧
      d2.low = d.low - 16384 ∧ d2.high = d.high - 16384) := by
  obtain ⟨hlh, hmax⟩ := hv
  unfold decode_scaling_rule at hr
  rw [HALF_RANGE_eq, THREE_QTR_RANGE_eq, QTR_RANGE_eq] at hr
  by_cases h1 : d.high ≤ 32767
  · rw [if_pos h1] at hr
    simp only [Option.some.injEq] at hr
    subst hr
    exact Or.inl ⟨by omega, rfl, rfl⟩
  rw [if_neg h1] at hr
  by_cases h2 : d.low > 32767
  · rw [if_pos h2] at hr
    simp only [Option.some.injEq, Nat.reduceAdd] at hr
    subst hr
    refine Or.inr (Or.inl ⟨by omega, ?_, ?_⟩)
    · exact sub32_of_le (by omega) (by omega)
    · exact sub32_of_le (by omega) (by omega)
  rw [if_neg h2] at hr
  by_cases h3 : d.high ≤ 49149 ∧ d.low > 16383
  · rw [if_pos h3] at hr
    simp only [Option.some.injEq, Nat.reduceAdd] at hr
    subst hr
    refine Or.inr (Or.inr ⟨by omega, by omega, h3.1, by omega, ?_, ?_⟩)
    · exact sub32_of_le (by omega) (by omega)
    · exact sub32_of_le (by omega) (by omega)
  · rw [if_neg h3] at hr
    exact absurd hr (by simp)

/-- The decoder loop breaks only on a stopped interval. -/
theorem decode_rule_none {d : entropy_coder} (hv : d.valid)
    (hr : d.decode_scaling_rule = none) : d.stopped := by
  obtain ⟨hlh, hmax⟩ := hv
  unfold decode_scaling_rule at hr
  rw [HALF_RANGE_eq, THREE_QTR_RANGE_eq, QTR_RANGE_eq] at hr
  split_ifs at hr with h1 h2 h3
  exact ⟨by omega, by omega, hmax, by omega⟩

theorem shift_value_bounds {d : entropy_coder} (hl : d.low < 32768) (hh : d.high < 32768)
    (bit : Nat) :
    (d.shift_value bit).low = 2 * d.low ∧ (d.shift_value bit).high = 2 * d.high + 1 := by
  unfold shift_value
  simp only
  rw [shift_bounds_eq hl hh]
  exact ⟨rfl, rfl⟩

/-- A successful decoder iteration, read on the bounds: the same three
rules as the encoder, independent of `value` and of the bit shifted in. -/
theorem decode_iter_bounds {d d1 : entropy_coder} {bit bit1 : Nat} {source source1 : bitstream}
    (hv : d.valid) (hb : bit < 2)
    (h : d.decode_scaling_iter bit source = some (EVX_SUCCESS, d1, bit1, source1)) :
    bit1 < 2 ∧
    ((d.high < 32768 ∧ d1.low = 2 * d.low ∧ d1.high = 2 * d.high + 1) ∨
    (32768 ≤ d.low ∧ d1.low = 2 * (d.low - 32768) ∧ d1.high = 2 * (d.high - 32768) + 1) ∨
    (32768 ≤ d.high ∧ d.low < 32768 ∧ d.high ≤ 49149 ∧ 16384 ≤ d.low ∧
      d1.low = 2 * (d.low - 16384) ∧ d1.high = 2 * (d.high - 16384) + 1)) := by
  obtain ⟨d2, hr, heq, hb1⟩ := decode_iter_success hb h
  refine ⟨hb1, ?_⟩
  have hlh := hv.1
  have hmax := hv.2
  rcases decode_rule_bounds hv hr with ⟨g1, g2, g3⟩ | ⟨g1, g2, g3⟩ | ⟨g1, g2, g3, g4, g5, g6⟩
  · obtain ⟨e1, e2⟩ := shift_value_bounds (d := d2) (by omega) (by omega) bit1
    rw [heq, e1, e2, g2, g3]
    exact Or.inl ⟨g1, rfl, rfl⟩
  · obtain ⟨e1, e2⟩ := shift_value_bounds (d := d2) (by omega) (by omega) bit1
    rw [heq, e1, e2, g2, g3]
    exact Or.inr (Or.inl ⟨g1, rfl, rfl⟩)
  · obtain ⟨e1, e2⟩ := shift_value_bounds (d := d2) (by omega) (by omega) bit1
    rw [heq, e1, e2, g5, g6]
    exact Or.inr (Or.inr ⟨g1, g2, g3, g4, rfl, rfl⟩)

theorem decode_iter_valid {d d1 : entropy_coder} {bit bit1 : Nat} {source source1 : bitstream}
    (hv : d.valid) (hb : bit < 2)
    (h : d.decode_scaling_iter bit source = some (EVX_SUCCESS, d1, bit1, source1)) :
    d1.valid ∧ bit1 < 2 := by
  obtain ⟨hb1, hc⟩ := decode_iter_bounds hv hb h
  obtain ⟨hlh, hmax⟩ := hv
  refine ⟨?_, hb1⟩
  unfold valid
  rcases hc with ⟨g1, g2, g3⟩ | ⟨g1, g2, g3⟩ | ⟨g1, g2, g3, g4, g5, g6⟩ <;> omega

theorem decode_iter_none {d : entropy_coder} {bit : Nat} {source : bitstream} (hv : d.valid)
    (h : d.decode_scaling_iter bit source = none) : d.stopped := by
  unfold decode_scaling_iter at h
  cases hr : d.decode_scaling_rule with
  | none => exact decode_rule_none hv hr
  | some d2 =>
    rw [hr] at h
    simp only at h
    split_ifs at h

/-- The decoder loop, when it returns success, returns a stopped interval. -/
theorem decode_scaling_exit : ∀ (fuel : Nat) (d d1 : entropy_coder) (bit : Nat)
    (source source1 : bitstream),
    d.valid → bit < 2 →
    resolve_decode_scaling_loop fuel d bit source = some (EVX_SUCCESS, d1, source1) →
    d1.stopped := by
  intro fuel
  induction fuel with
  | zero => intro d d1 bit source source1 _ _ h; simp [resolve_decode_scaling_loop] at h
  | succ n ih =>
    intro d d1 bit source source1 hv hb h
    unfold resolve_decode_scaling_loop at h
    cases hi : d.decode_scaling_iter bit source with
    | none =>
      rw [hi] at h
      simp only [Option.some.injEq, Prod.mk.injEq, true_and] at h
      rw [← h.1]
      exact decode_iter_none hv hi
    | some r =>
      obtain ⟨st, d2, bit2, source2⟩ := r
      rw [hi] at h
      simp only at h
      by_cases hst : st = EVX_SUCCESS
      · subst hst
        rw [if_neg (by simp)] at h
        obtain ⟨g1, g2⟩ := decode_iter_valid hv hb hi
        exact ih d2 d1 bit2 source2 source1 g1 g2 h
      · rw [if_pos hst] at h
        simp only [Option.some.injEq, Prod.mk.injEq] at h
        exact absurd h.1 hst

theorem stopped_bounds {c : entropy_coder} (h : c.stopped) :
    c.low ≤ 32767 ∧ 32768 ≤ c.high ∧ c.high ≤ 65535 ∧ 16383 ≤ c.high - c.low ∧
      1 ≤ c.high - c.low := by
  obtain ⟨h1, h2, h3, h4⟩ := h
  refine ⟨h1, h2, h3, ?_, ?_⟩ <;> omega

end entropy_coder

/-- C28: the interval never collapses between symbols. From every coder
with `low ≤ high ≤ PRECISION_MAX`, whenever `resolve_encode_scaling` or
`resolve_decode_scaling` returns success, the bounds it leaves satisfy
`low ≤ 32767 < 32768 ≤ high ≤ 65535` and `high - low ≥ 16383`, hence
`high - low ≥ 1` at the next model resolution. -/
theorem scaling_exit_interval (c : entropy_coder)
    (hv : c.low ≤ c.high ∧ c.high ≤ EVX_ENTROPY_PRECISION_MAX) :
    (∀ (fuel : Nat) (dest : bitstream) (c1 : entropy_coder) (dest1 : bitstream),
      entropy_coder.resolve_encode_scaling fuel c dest = some (EVX_SUCCESS, c1, dest1) →
      c1.low ≤ 32767 ∧ 32768 ≤ c1.high ∧ c1.high ≤ 65535 ∧ 16383 ≤ c1.high - c1.low ∧
        1 ≤ c1.high - c1.low) ∧
    (∀ (fuel : Nat) (source : bitstream) (c1 : entropy_coder) (source1 : bitstream),
      entropy_coder.resolve_decode_scaling fuel c source = some (EVX_SUCCESS, c1, source1) →
      c1.low ≤ 32767 ∧ 32768 ≤ c1.high ∧ c1.high ≤ 65535 ∧ 16383 ≤ c1.high - c1.low ∧
        1 ≤ c1.high - c1.low) := by
  rw [PRECISION_MAX_eq] at hv
  constructor
  · intro fuel dest c1 dest1 h
    exact entropy_coder.stopped_bounds (entropy_coder.encode_scaling_exit fuel c c1 dest dest1 hv h)
  · intro fuel source c1 source1 h
    exact entropy_coder.stopped_bounds
      (entropy_coder.decode_scaling_exit fuel c c1 0 source source1 hv (by decide) h)

/-- Witness for `scaling_exit_interval`: the interval `[0, 16383]` is
doubled twice by either loop and leaves it as `[0, 65535]`. -/
theorem scaling_exit_interval_witness :
    entropy_coder.resolve_encode_scaling 17 quarter_coder sixteen_bit_buffer =
      some (EVX_SUCCESS, { quarter_coder with high := 65535 },
        sixteen_bit_buffer.write_list [0, 0]) ∧
    entropy_coder.resolve_decode_scaling 17 quarter_coder sixteen_bit_buffer =
      some (EVX_SUCCESS, { quarter_coder with high := 65535 }, sixteen_bit_buffer) ∧
    16383 ≤ ({ quarter_coder with high := 65535 } : entropy_coder).high -
      ({ quarter_coder with high := 65535 } : entropy_coder).low :=
  ⟨by decide, by decide,
    ((scaling_exit_interval quarter_coder (by decide)).1 17 sixteen_bit_buffer
      { quarter_coder with high := 65535 } (sixteen_bit_buffer.write_list [0, 0])
      (by decide)).2.2.2.1⟩

/-! ### The decoder scaling loop mirrors the encoder's (C23) -/

namespace entropy_coder

theorem decode_rule_e2_bounds {d : entropy_coder} (hv : d.valid) (hl : 32768 ≤ d.low) :
    d.decode_scaling_rule = some { d with high := d.high - 32768, low := d.low - 32768,
                                          value := sub32 d.value 32768 } := by
  obtain ⟨hlh, hmax⟩ := hv
  unfold decode_scaling_rule
  rw [HALF_RANGE_eq, if_neg (by omega), if_pos (by omega)]
  simp only [Nat.reduceAdd]
  rw [sub32_of_le (by omega : 32768 ≤ d.high) (by omega),
    sub32_of_le (by omega : 32768 ≤ d.low) (by omega)]

theorem decode_rule_e3_bounds {d : entropy_coder} (hv : d.valid) (h1 : 32768 ≤ d.high)
    (h2 : d.low < 32768) (h3 : d.high ≤ 49149) (h4 : 16384 ≤ d.low) :
    d.decode_scaling_rule = some { d with high := d.high - 16384, low := d.low - 16384,
                                          value := sub32 d.value 16384 } := by
  obtain ⟨hlh, hmax⟩ := hv
  unfold decode_scaling_rule
  rw [HALF_RANGE_eq, THREE_QTR_RANGE_eq, QTR_RANGE_eq, if_neg (by omega), if_neg (by omega),
    if_pos ⟨h3, by omega⟩]
  simp only [Nat.reduceAdd]
  rw [sub32_of_le (by omega : 16384 ≤ d.high) (by omega),
    sub32_of_le (by omega : 16384 ≤ d.low) (by omega)]

/-- Once a rule has fired, a decoder iteration on a well-formed source
always succeeds, whatever the source holds. -/
theorem decode_iter_progress {d d2 : entropy_coder} (hr : d.decode_scaling_rule = some d2)
    {src : bitstream} (hs : src.wf) (bit : Nat) :
    ∃ b src1, decode_scaling_iter d bit src = some (EVX_SUCCESS, d2.shift_value b, b, src1) ∧
      src1.wf := by
  unfold decode_scaling_iter
  rw [hr]
  simp only
  by_cases he : src.is_empty = true
  · refine ⟨bit, src, ?_, hs⟩
    rw [he]
    simp
  · have hne : src.read_index < src.write_index := by
      obtain ⟨_, h2, _, _⟩ := hs
      unfold bitstream.is_empty at he
      simp only [beq_iff_eq] at he
      omega
    have hrd := bitstream.read_bit_ok hs hne bit
    refine ⟨(bit &&& 254) ||| src.bit_at src.read_index,
      { src with read_index := src.read_index + 1 }, ?_, bitstream.wf_advance hs hne⟩
    rw [if_pos (by simpa using he), hrd]
    simp only [ne_eq, not_true_eq_false, if_false]

/-- Both scaling loops in lockstep: started on the same interval, with
`j` bounding the iterations left and room for `e3_count + j` bits in the
destination, either the loop bound stops both, or both return success
with the same interval. -/
theorem scaling_lockstep : ∀ (fuel j : Nat) (c d : entropy_coder) (dest src : bitstream)
    (bit : Nat), c.valid → d.low = c.low → d.high = c.high →
    65536 ≤ (c.high - c.low + 1) * 2 ^ j → c.e3_count + j ≤ dest.free_bits →
    dest.wf → src.wf →
    (resolve_encode_scaling fuel c dest = none ∧
      resolve_decode_scaling_loop fuel d bit src = none ∧ fuel ≤ j) ∨
    (∃ c1 dest1 d1 src1, resolve_encode_scaling fuel c dest = some (EVX_SUCCESS, c1, dest1) ∧
      resolve_decode_scaling_loop fuel d bit src = some (EVX_SUCCESS, d1, src1) ∧
      d1.low = c1.low ∧ d1.high = c1.high) := by
  intro fuel
  induction fuel with
  | zero =>
    intro j c d dest src bit _ _ _ _ _ _ _
    exact Or.inl ⟨rfl, rfl, Nat.zero_le _⟩
  | succ fuel ih =>
    intro j c d dest src bit hv hl hh hw hcap hd hs
    have hv' := hv
    obtain ⟨hlh, hmax⟩ := hv'
    have hdv : d.valid := ⟨by rw [hl, hh]; exact hlh, by rw [hh]; exact hmax⟩
    have hfree : dest.free_bits < 4294967296 := by
      obtain ⟨_, _, _, h4⟩ := hd
      unfold bitstream.free_bits
      omega
    have hj0 : (c.high < 32768 ∨ 32768 ≤ c.low ∨ (c.high ≤ 49149 ∧ 16384 ≤ c.low)) → 0 < j := by
      intro h
      rcases Nat.eq_zero_or_pos j with h0 | h0
      · subst h0; simp at hw; omega
      · exact h0
    have lift : ∀ {c2 d2 : entropy_coder} {dest2 src2 : bitstream} {b2 : Nat},
        c.encode_scaling_iter dest = some (EVX_SUCCESS, c2, dest2) →
        d.decode_scaling_iter bit src = some (EVX_SUCCESS, d2, b2, src2) →
        ((resolve_encode_scaling fuel c2 dest2 = none ∧
          resolve_decode_scaling_loop fuel d2 b2 src2 = none ∧ fuel ≤ j - 1) ∨
        (∃ c1 dest1 d1 src1,
          resolve_encode_scaling fuel c2 dest2 = some (EVX_SUCCESS, c1, dest1) ∧
          resolve_decode_scaling_loop fuel d2 b2 src2 = some (EVX_SUCCESS, d1, src1) ∧
          d1.low = c1.low ∧ d1.high = c1.high)) → 0 < j →
        (resolve_encode_scaling (fuel + 1) c dest = none ∧
          resolve_decode_scaling_loop (fuel + 1) d bit src = none ∧ fuel + 1 ≤ j) ∨
        (∃ c1 dest1 d1 src1,
          resolve_encode_scaling (fuel + 1) c dest = some (EVX_SUCCESS, c1, dest1) ∧
          resolve_decode_scaling_loop (fuel + 1) d bit src = some (EVX_SUCCESS, d1, src1) ∧
          d1.low = c1.low ∧ d1.high = c1.high) := by
      intro c2 d2 dest2 src2 b2 he hdi hrec hjp
      have e1 : resolve_encode_scaling (fuel + 1) c dest = resolve_encode_scaling fuel c2 dest2 := by
        conv_lhs => unfold resolve_encode_scaling
        rw [he]
        simp
      have e2 : resolve_decode_scaling_loop (fuel + 1) d bit src =
          resolve_decode_scaling_loop fuel d2 b2 src2 := by
        conv_lhs => unfold resolve_decode_scaling_loop
        rw [hdi]
        simp
      rw [e1, e2]
      rcases hrec with ⟨a1, a2, a3⟩ | h
      · exact Or.inl ⟨a1, a2, by omega⟩
      · exact Or.inr h
    by_cases c1 : c.high < 32768
    · have hjp := hj0 (Or.inl c1)
      have hen := iter_e1 hv c1 hd (by omega)
      obtain ⟨b, src1, hdi, hs1⟩ := decode_iter_progress
        (decode_rule_e1 (by rw [hh]; exact c1)) hs bit
      obtain ⟨q1, q2⟩ := shift_value_bounds (d := d) (by omega) (by omega) b
      have hd1 := bitstream.write_list_ok (0 :: List.replicate c.e3_count 1) dest hd
        (by simp; omega)
      have hf1 := bitstream.free_bits_write_list hd
        (show (0 :: List.replicate c.e3_count 1).length ≤ dest.free_bits by simp; omega)
      refine lift hen hdi ?_ hjp
      exact ih (j - 1) _ _ _ _ b ⟨by simp; omega, by simp; omega⟩
        (by rw [q1, hl]) (by rw [q2, hh])
        (width_step hjp hw (by simp only; omega))
        (by rw [hf1]; simp; omega) hd1.1 hs1
    by_cases c2 : 32768 ≤ c.low
    · have hjp := hj0 (Or.inr (Or.inl c2))
      have hen := iter_e2 hv c2 hd (by omega)
      obtain ⟨b, src1, hdi, hs1⟩ := decode_iter_progress
        (decode_rule_e2_bounds hdv (by rw [hl]; exact c2)) hs bit
      obtain ⟨q1, q2⟩ := shift_value_bounds
        (d := { d with high := d.high - 32768, low := d.low - 32768,
                       value := sub32 d.value 32768 })
        (by simp only; omega) (by simp only; omega) b
      have hd1 := bitstream.write_list_ok (1 :: List.replicate c.e3_count 0) dest hd
        (by simp; omega)
      have hf1 := bitstream.free_bits_write_list hd
        (show (1 :: List.replicate c.e3_count 0).length ≤ dest.free_bits by simp; omega)
      refine lift hen hdi ?_ hjp
      exact ih (j - 1) _ _ _ _ b ⟨by simp; omega, by simp; omega⟩
        (by rw [q1, hl]) (by rw [q2, hh])
        (width_step hjp hw (by simp only; omega))
        (by rw [hf1]; simp; omega) hd1.1 hs1
    by_cases c3 : c.high ≤ 49149 ∧ 16384 ≤ c.low
    · have hjp := hj0 (Or.inr (Or.inr c3))
      have hen := iter_e3 hv (by omega) (by omega) c3.1 c3.2 (by omega) dest
      obtain ⟨b, src1, hdi, hs1⟩ := decode_iter_progress
        (decode_rule_e3_bounds hdv (by omega) (by omega) (by rw [hh]; exact c3.1)
          (by rw [hl]; exact c3.2)) hs bit
      obtain ⟨q1, q2⟩ := shift_value_bounds
        (d := { d with high := d.high - 16384, low := d.low - 16384,
                       value := sub32 d.value 16384 })
        (by simp only; omega) (by simp only; omega) b
      refine lift hen hdi ?_ hjp
      exact ih (j - 1) _ _ _ _ b ⟨by simp; omega, by simp; omega⟩
        (by rw [q1, hl]) (by rw [q2, hh])
        (width_step hjp hw (by simp only; omega))
        (by simp only; omega) hd hs1
    · refine Or.inr ⟨c, dest, d, src, ?_, ?_, hl, hh⟩
      · unfold resolve_encode_scaling
        rw [iter_stop hv (by omega) (by omega) c3]
      · unfold resolve_decode_scaling_loop
        have hr : d.decode_scaling_rule = none :=
          decode_rule_stop (by omega) (by omega) (by rw [hl, hh]; exact c3)
        have hi : d.decode_scaling_iter bit src = none := by
          unfold decode_scaling_iter
          rw [hr]
        rw [hi]

end entropy_coder

/-- C23: decode scaling mirrors encode scaling. Take an interval
`low ≤ high ≤ PRECISION_MAX` held by an encoder `c` and by a decoder `d`
(whose `value` and other fields are arbitrary), any well-formed source
and a destination with room for `e3_count + 16` bits. Then for every
bound `fuel` on the number of loop tests, `resolve_encode_scaling` returns
within `fuel` tests exactly when `resolve_decode_scaling` does (so the two
loops perform the same number of iterations), `17` tests always suffice,
and when they return both report success with identical `low` and
`high`. -/
theorem decode_scaling_mirrors_encode (c d : entropy_coder) (dest source : bitstream)
    (hv : c.low ≤ c.high ∧ c.high ≤ EVX_ENTROPY_PRECISION_MAX)
    (hl : d.low = c.low) (hh : d.high = c.high) (hd : dest.wf) (hs : source.wf)
    (hcap : c.e3_count + 16 ≤ dest.free_bits) (fuel : Nat) :
    ((entropy_coder.resolve_encode_scaling fuel c dest).isSome =
      (entropy_coder.resolve_decode_scaling fuel d source).isSome) ∧
    (17 ≤ fuel → (entropy_coder.resolve_encode_scaling fuel c dest).isSome = true) ∧
    (∀ r1 r2, entropy_coder.resolve_encode_scaling fuel c dest = some r1 →
      entropy_coder.resolve_decode_scaling fuel d source = some r2 →
      r1.1 = EVX_SUCCESS ∧ r2.1 = EVX_SUCCESS ∧
        r2.2.1.low = r1.2.1.low ∧ r2.2.1.high = r1.2.1.high) := by
  rw [PRECISION_MAX_eq] at hv
  have hw : 65536 ≤ (c.high - c.low + 1) * 2 ^ 16 := by
    have : 1 ≤ c.high - c.low + 1 := by omega
    calc 65536 = 1 * 2 ^ 16 := by norm_num
      _ ≤ (c.high - c.low + 1) * 2 ^ 16 := Nat.mul_le_mul_right _ this
  unfold entropy_coder.resolve_decode_scaling
  rcases entropy_coder.scaling_lockstep fuel 16 c d dest source 0 hv hl hh hw hcap hd hs with
    ⟨a1, a2, a3⟩ | ⟨c1, dest1, d1, src1, a1, a2, a3, a4⟩
  · rw [a1, a2]
    refine ⟨rfl, fun h => by omega, ?_⟩
    intro r1 r2 h1
    exact absurd h1 (by simp)
  · rw [a1, a2]
    refine ⟨rfl, fun _ => rfl, ?_⟩
    intro r1 r2 h1 h2
    simp only [Option.some.injEq] at h1 h2
    subst h1 h2
    exact ⟨rfl, rfl, a3, a4⟩

/-- Witness for `decode_scaling_mirrors_encode`: the interval `[0, 16383]`,
a decoder window of `5`, and a source holding the bits `1, 0`. -/
theorem decode_scaling_mirrors_encode_witness :
    ((entropy_coder.resolve_encode_scaling 2 quarter_coder sixteen_bit_buffer).isSome =
      (entropy_coder.resolve_decode_scaling 2 { quarter_coder with value := 5 }
        flush_sample_source).isSome) ∧
    (entropy_coder.resolve_encode_scaling 2 quarter_coder sixteen_bit_buffer).isSome = false ∧
    (entropy_coder.resolve_encode_scaling 3 quarter_coder sixteen_bit_buffer).isSome = true :=
  ⟨(decode_scaling_mirrors_encode quarter_coder { quarter_coder with value := 5 }
      sixteen_bit_buffer flush_sample_source (by decide) rfl rfl (by decide) (by decide)
      (by decide) 2).1, by decide, by decide⟩

/-! ### One iteration of the encoder scaling loop (C24) -/

namespace entropy_coder

theorem flush_inverse_loop_fail (v : Nat) : ∀ (n : Nat) (s : bitstream), s.wf →
    s.free_bits < n → (flush_inverse_loop v n s).1 = EVX_ERROR_EXECUTION_FAILURE := by
  intro n
  induction n with
  | zero => intro s _ h; omega
  | succ n ih =>
    intro s h hn
    unfold flush_inverse_loop
    simp only
    by_cases hc : s.write_index < 8 * s.data_capacity
    · obtain ⟨hst, hwf, hr, hw, hcap, _, _⟩ := bitstream.write_bit_ok h hc v
      rw [if_neg (by simp [hst])]
      apply ih _ hwf
      unfold bitstream.free_bits at hn ⊢
      rw [hw, hcap]
      omega
    · have hfull : s.write_index = 8 * s.data_capacity := by
        obtain ⟨_, _, h3, _⟩ := h
        omega
      rw [bitstream.write_bit_full h hfull v]
      rfl

theorem flush_inverse_bits_fail (c : entropy_coder) (m : Nat) (s : bitstream) (h : s.wf)
    (hn : s.free_bits < c.e3_count) : (c.flush_inverse_bits m s).1 ≠ EVX_SUCCESS := by
  unfold flush_inverse_bits
  simp only
  have hf := flush_inverse_loop_fail (if m = 0 then 1 else 0) c.e3_count s h hn
  rw [if_pos (by rw [hf]; decide), hf]
  decide

/-- An iteration whose bounds share the top bit, on a destination without
room for the bit and the pending inverse bits: the write fails and the
iteration returns `INVALID_RESOURCE`. -/
theorem iter_no_room {c : entropy_coder} (hv : c.valid) (hm : c.high < 32768 ∨ 32768 ≤ c.low)
    {dest : bitstream} (hd : dest.wf) (hn : dest.free_bits < c.e3_count + 1) :
    ∃ c1 dest1, encode_scaling_iter c dest = some (EVX_ERROR_INVALID_RESOURCE, c1, dest1) := by
  obtain ⟨hlh, hmax⟩ := hv
  have hmsb : (c.high &&& EVX_ENTROPY_MSB_MASK) = (c.low &&& EVX_ENTROPY_MSB_MASK) := by
    rcases hm with h | h
    · rw [msb_low h, msb_low (by omega)]
    · rw [msb_high (by omega) hmax, msb_high h (by omega)]
  unfold encode_scaling_iter
  rw [if_pos hmsb]
  simp only
  generalize u8 ((c.high &&& EVX_ENTROPY_MSB_MASK) >>> (EVX_ENTROPY_PRECISION - 1)) = msb
  by_cases hw : (dest.write_bit msb).1 = EVX_SUCCESS
  · rw [if_neg (by simp [hw])]
    have hc : dest.write_index < 8 * dest.data_capacity := by
      by_contra hcon
      have hfull : dest.write_index = 8 * dest.data_capacity := by
        obtain ⟨_, _, h3, _⟩ := hd
        omega
      rw [bitstream.write_bit_full hd hfull msb] at hw
      have hw' : EVX_ERROR_CAPACITY_LIMIT = EVX_SUCCESS := hw
      exact absurd hw' (by decide)
    obtain ⟨_, hwf, _, hwi, hcap, _, _⟩ := bitstream.write_bit_ok hd hc msb
    have hfree : (dest.write_bit msb).2.free_bits < c.e3_count := by
      unfold bitstream.free_bits at hn ⊢
      rw [hwi, hcap]
      omega
    have hfail := flush_inverse_bits_fail
      { c with low := sub32 c.low (u32 (u32 (EVX_ENTROPY_HALF_RANGE * msb) + msb)),
               high := sub32 c.high (u32 (u32 (EVX_ENTROPY_HALF_RANGE * msb) + msb)) }
      msb (dest.write_bit msb).2 hwf hfree
    rw [if_pos hfail]
    exact ⟨_, _, rfl⟩
  · rw [if_pos hw]
    exact ⟨_, _, rfl⟩

end entropy_coder

/-- C24 (counterexample): rule (a) on a destination without room. The
bounds `[0, 16383]` share the top bit `0` and no bit is pending, but on a
buffer of capacity `0` the iteration appends nothing, does not double the
bounds and returns `INVALID_RESOURCE`. -/
theorem scaling_rule_without_room :
    quarter_coder.low ≤ quarter_coder.high ∧
    quarter_coder.high ≤ EVX_ENTROPY_PRECISION_MAX ∧
    quarter_coder.low / 32768 = 0 ∧ quarter_coder.high / 32768 = 0 ∧
    bitstream.construct.wf ∧
    quarter_coder.encode_scaling_iter bitstream.construct =
      some (EVX_ERROR_INVALID_RESOURCE, quarter_coder, bitstream.construct) ∧
    quarter_coder.high ≠ 2 * quarter_coder.high + 1 := by
  decide

/-- C24 (amended): one iteration of the encoder scaling loop, from a coder
with `low ≤ high ≤ PRECISION_MAX` and `e3_count = k`, on a well-formed
destination. (a) If `low` and `high` share the top bit `m` and the
destination has at least `k + 1` free bits, the iteration appends `m`
followed by exactly `k` copies of `1 - m`, sets `e3_count` to `0`,
`low` to `2 * (low - m * 2^15)` and `high` to `2 * (high - m * 2^15) + 1`;
with fewer than `k + 1` free bits it returns `INVALID_RESOURCE`. (b) Else
if `high ≤ 3QTR_RANGE` and `low > QTR_RANGE` (and `k + 1 < 2^32`) it
appends nothing, sets `e3_count` to `k + 1`, `low` to
`2 * (low - (QTR_RANGE + 1))` and `high` to
`2 * (high - (QTR_RANGE + 1)) + 1`. (c) Otherwise the loop exits with
nothing changed. -/
theorem encode_scaling_rules (c : entropy_coder) (dest : bitstream)
    (hv : c.low ≤ c.high ∧ c.high ≤ EVX_ENTROPY_PRECISION_MAX) (hd : dest.wf) :
    (∀ m, c.low / 2 ^ (EVX_ENTROPY_PRECISION - 1) = m →
      c.high / 2 ^ (EVX_ENTROPY_PRECISION - 1) = m →
      (c.e3_count + 1 ≤ dest.free_bits →
        c.encode_scaling_iter dest = some (EVX_SUCCESS,
          { c with low := 2 * (c.low - m * 2 ^ (EVX_ENTROPY_PRECISION - 1)),
                   high := 2 * (c.high - m * 2 ^ (EVX_ENTROPY_PRECISION - 1)) + 1,
                   e3_count := 0 },
          dest.write_list (m :: List.replicate c.e3_count (1 - m))) ∧
        (dest.write_list (m :: List.replicate c.e3_count (1 - m))).live =
          dest.live ++ m :: List.replicate c.e3_count (1 - m)) ∧
      (dest.free_bits < c.e3_count + 1 →
        ∃ c1 dest1, c.encode_scaling_iter dest =
          some (EVX_ERROR_INVALID_RESOURCE, c1, dest1))) ∧
    (c.low / 2 ^ (EVX_ENTROPY_PRECISION - 1) ≠ c.high / 2 ^ (EVX_ENTROPY_PRECISION - 1) →
      c.high ≤ EVX_ENTROPY_3QTR_RANGE → c.low > EVX_ENTROPY_QTR_RANGE →
      c.e3_count + 1 < 2 ^ 32 →
      c.encode_scaling_iter dest = some (EVX_SUCCESS,
        { c with low := 2 * (c.low - (EVX_ENTROPY_QTR_RANGE + 1)),
                 high := 2 * (c.high - (EVX_ENTROPY_QTR_RANGE + 1)) + 1,
                 e3_count := c.e3_count + 1 }, dest)) ∧
    (c.low / 2 ^ (EVX_ENTROPY_PRECISION - 1) ≠ c.high / 2 ^ (EVX_ENTROPY_PRECISION - 1) →
      ¬ (c.high ≤ EVX_ENTROPY_3QTR_RANGE ∧ c.low > EVX_ENTROPY_QTR_RANGE) →
      c.encode_scaling_iter dest = none) := by
  rw [PRECISION_MAX_eq] at hv
  rw [PRECISION_eq, THREE_QTR_RANGE_eq, QTR_RANGE_eq]
  simp only [Nat.add_one_sub_one, Nat.reducePow, Nat.reduceAdd]
  have hv' : c.valid := hv
  obtain ⟨hlh, hmax⟩ := hv
  refine ⟨?_, ?_, ?_⟩
  · intro m hm1 hm2
    have hm : m = 0 ∨ m = 1 := by omega
    constructor
    · intro hroom
      have hlen : (m :: List.replicate c.e3_count (1 - m)).length ≤ dest.free_bits := by
        simp; omega
      obtain ⟨_, i2, _⟩ := bitstream.write_list_ok _ dest hd hlen
      have hmap : (m :: List.replicate c.e3_count (1 - m)).map (· % 2) =
          m :: List.replicate c.e3_count (1 - m) := by
        rcases hm with h | h <;> subst h <;> simp
      rw [hmap] at i2
      refine ⟨?_, i2⟩
      rcases hm with h | h
      · subst h
        have hh : c.high < 32768 := by omega
        rw [entropy_coder.iter_e1 hv' hh hd hroom]
        simp
      · subst h
        have hl : 32768 ≤ c.low := by omega
        rw [entropy_coder.iter_e2 hv' hl hd hroom]
    · intro hroom
      refine entropy_coder.iter_no_room hv' ?_ hd hroom
      rcases hm with h | h
      · subst h; exact Or.inl (by omega)
      · subst h; exact Or.inr (by omega)
  · intro hne h3 h4 hk
    have h1 : 32768 ≤ c.high := by
      by_contra hcon
      apply hne
      rw [Nat.div_eq_of_lt (by omega), Nat.div_eq_of_lt (by omega)]
    have h2 : c.low < 32768 := by
      by_contra hcon
      apply hne
      omega
    exact entropy_coder.iter_e3 hv' h1 h2 h3 (by omega) hk dest
  · intro hne h3
    have h1 : 32768 ≤ c.high := by
      by_contra hcon
      apply hne
      rw [Nat.div_eq_of_lt (by omega), Nat.div_eq_of_lt (by omega)]
    have h2 : c.low < 32768 := by
      by_contra hcon
      apply hne
      omega
    exact entropy_coder.iter_stop hv' h1 h2 (by omega) dest

/-- Witness for `encode_scaling_rules`: rule (a) on the interval
`[0, 16383]` with an empty buffer of sixteen bits. -/
theorem encode_scaling_rules_witness :
    quarter_coder.encode_scaling_iter sixteen_bit_buffer = some (EVX_SUCCESS,
      { quarter_coder with low := 2 * (quarter_coder.low - 0 * 2 ^ (EVX_ENTROPY_PRECISION - 1)),
                           high := 2 * (quarter_coder.high - 0 * 2 ^ (EVX_ENTROPY_PRECISION - 1)) + 1,
                           e3_count := 0 },
      sixteen_bit_buffer.write_list (0 :: List.replicate quarter_coder.e3_count (1 - 0))) :=
  (((encode_scaling_rules quarter_coder sixteen_bit_buffer (by decide) (by decide)).1 0
    (by decide) (by decide)).1 (by decide)).1

/-! ### The occupancy algebra (C22) -/

namespace bitstream

theorem empty_cursors (s : bitstream) : s.empty.read_index = 0 ∧ s.empty.write_index = 0 :=
  ⟨rfl, rfl⟩

theorem resize_cursors (s : bitstream) (size : Nat) (fresh : Nat → Nat) (hsize : 0 < size)
    (param_check : Bool) :
    (s.resize_capacity param_check size fresh).1 = size ∧
    (s.resize_capacity param_check size fresh).2.read_index = 0 ∧
    (s.resize_capacity param_check size fresh).2.write_index = 0 := by
  unfold resize_capacity
  rw [if_neg (by rintro ⟨_, h⟩; omega)]
  exact ⟨rfl, rfl, rfl⟩

theorem query_capacity_bound (s : bitstream) :
    s.query_capacity < 4294967296 ∧ s.query_capacity % 8 = 0 := by
  unfold query_capacity u32
  rw [Nat.shiftLeft_eq]
  omega

/-- A successful `write_bit` advances `write_index` by one and keeps it
within `query_capacity`, whatever the store holds. -/
theorem write_bit_cursor {s : bitstream} (hw : s.write_index ≤ s.query_capacity) (v : Nat)
    (hs : (s.write_bit v).1 = EVX_SUCCESS) :
    (s.write_bit v).2.write_index = s.write_index + 1 ∧
    (s.write_bit v).2.read_index = s.read_index ∧
    (s.write_bit v).2.query_capacity = s.query_capacity ∧
    s.write_index + 1 ≤ s.query_capacity := by
  obtain ⟨q1, q2⟩ := query_capacity_bound s
  have hlt : s.write_index + 1 < 4294967296 := by omega
  unfold write_bit at hs ⊢
  rw [u32_of_lt hlt] at hs ⊢
  by_cases hc : s.write_index + 1 > s.query_capacity
  · rw [if_pos hc] at hs
    have hs' : EVX_ERROR_CAPACITY_LIMIT = EVX_SUCCESS := hs
    exact absurd hs' (by decide)
  · rw [if_neg hc]
    exact ⟨rfl, rfl, rfl, by omega⟩

/-- A successful `read_bit` advances `read_index` by one, not past
`write_index`. -/
theorem read_bit_cursor {s : bitstream} (hw : s.write_index < 4294967296) (d : Nat)
    (hs : (s.read_bit d).1 = EVX_SUCCESS) :
    (s.read_bit d).2.1.read_index = s.read_index + 1 ∧
    (s.read_bit d).2.1.write_index = s.write_index ∧
    (s.read_bit d).2.1.query_capacity = s.query_capacity ∧
    s.read_index + 1 ≤ s.write_index := by
  unfold read_bit at hs ⊢
  by_cases hc : s.read_index ≥ s.write_index
  · rw [if_pos hc] at hs
    have hs' : EVX_ERROR_INVALID_RESOURCE = EVX_SUCCESS := hs
    exact absurd hs' (by decide)
  · rw [if_neg hc]
    simp only
    rw [u32_of_lt (by omega)]
    exact ⟨by trivial, by trivial, by trivial, by omega⟩

end bitstream

/-- The cursors after an interleaving of successful single-bit calls. -/
theorem run_bit_calls_cursors : ∀ (calls : List bit_call) (s t : bitstream),
    s.read_index ≤ s.write_index → s.write_index ≤ s.query_capacity →
    run_bit_calls s calls = some t →
    t.write_index = s.write_index + count_writes calls ∧
    t.read_index = s.read_index + count_reads calls ∧
    t.read_index ≤ t.write_index ∧ t.write_index ≤ t.query_capacity ∧
    t.query_capacity = s.query_capacity := by
  intro calls
  induction calls with
  | nil =>
    intro s t h1 h2 h
    simp only [run_bit_calls, Option.some.injEq] at h
    subst h
    exact ⟨rfl, rfl, h1, h2, rfl⟩
  | cons k ks ih =>
    intro s t h1 h2 h
    unfold run_bit_calls at h
    by_cases hst : (k.run s).1 = EVX_SUCCESS
    · rw [if_neg (by simp [hst])] at h
      cases k with
      | write v =>
        obtain ⟨a1, a2, a3, a4⟩ := bitstream.write_bit_cursor h2 v hst
        obtain ⟨b1, b2, b3, b4, b5⟩ := ih (s.write_bit v).2 t (by rw [a1, a2]; omega)
          (by rw [a1, a3]; exact a4) h
        rw [a1] at b1
        rw [a2] at b2
        rw [a3] at b5
        refine ⟨?_, ?_, b3, b4, b5⟩
        · rw [b1]; simp only [count_writes]; omega
        · rw [b2]; simp only [count_reads]
      | read =>
        have hq := (bitstream.query_capacity_bound s).1
        obtain ⟨a1, a2, a3, a4⟩ := bitstream.read_bit_cursor (by omega) 0 hst
        obtain ⟨b1, b2, b3, b4, b5⟩ := ih (s.read_bit 0).2.1 t (by rw [a1, a2]; omega)
          (by rw [a2, a3]; exact h2) h
        rw [a2] at b1
        rw [a1] at b2
        rw [a3] at b5
        refine ⟨?_, ?_, b3, b4, b5⟩
        · rw [b1]; simp only [count_writes]
        · rw [b2]; simp only [count_reads]; omega
    · rw [if_pos hst] at h
      exact absurd h (by simp)

/-- C22: the occupancy algebra. On a buffer whose cursors are at zero (as
`empty` and `resize_capacity` leave them), after any interleaving of
successful `write_bit` and `read_bit` calls, `w` writes and `r` reads,
`query_occupancy()` is `w - r`; the cursors are `write_index = w` and
`read_index = r`, the reads never outnumber the writes and the writes fit
the capacity. -/
theorem occupancy_algebra (s t : bitstream) (calls : List bit_call)
    (hr : s.read_index = 0) (hw : s.write_index = 0)
    (hrun : run_bit_calls s calls = some t) :
    t.query_occupancy = count_writes calls - count_reads calls ∧
    count_reads calls ≤ count_writes calls ∧
    count_writes calls ≤ s.query_capacity ∧
    t.write_index = count_writes calls ∧ t.read_index = count_reads calls := by
  obtain ⟨a1, a2, a3, a4, a5⟩ := run_bit_calls_cursors calls s t (by rw [hr, hw])
    (by rw [hw]; exact Nat.zero_le _) hrun
  rw [hw, Nat.zero_add] at a1
  rw [hr, Nat.zero_add] at a2
  have hq := (bitstream.query_capacity_bound t).1
  unfold bitstream.query_occupancy
  rw [sub32_of_le a3 (by omega), a1, a2]
  rw [a1, a2] at a3
  rw [a1, a5] at a4
  exact ⟨rfl, a3, a4, rfl, rfl⟩

/-- Witness for `occupancy_algebra`: two writes, a read, a write and a read
on an emptied buffer of sixteen bits leave an occupancy of one. -/
theorem occupancy_algebra_witness :
    run_bit_calls half_read_buffer.empty
      [bit_call.write 1, bit_call.write 0, bit_call.read, bit_call.write 1, bit_call.read] =
      some ⟨2, 3, 2, [5, 2]⟩ ∧
    bitstream.query_occupancy ⟨2, 3, 2, [5, 2]⟩ = 3 - 2 :=
  ⟨by decide, (occupancy_algebra half_read_buffer.empty ⟨2, 3, 2, [5, 2]⟩
    [bit_call.write 1, bit_call.write 0, bit_call.read, bit_call.write 1, bit_call.read]
    rfl rfl (by decide)).1⟩

/-! ### The bulk write against the bit-by-bit write (C30) -/

theorem list_eq_of_bits {a b : List Nat} (hlen : a.length = b.length) (ha : bytes_ok a)
    (hb : bytes_ok b) (h : ∀ j, mem_bit a j = mem_bit b j) : a = b := by
  have := take_eq_of_bits (l := a) (S := b) (n := a.length) hlen.symm (le_refl _) ha hb
    (fun j _ => h j)
  rwa [List.take_length] at this

namespace bitstream

theorem write_bit_store (s : bitstream) (v : Nat) :
    (s.write_bit v).2.data_store.length = s.data_store.length ∧
    (bytes_ok s.data_store → bytes_ok (s.write_bit v).2.data_store) := by
  unfold write_bit
  split_ifs
  · exact ⟨rfl, fun h => h⟩
  · simp only [List.length_set]
    exact ⟨trivial, fun h => bytes_ok_set h _ (u8_lt _)⟩

theorem write_list_store : ∀ (bits : List Nat) (s : bitstream),
    (s.write_list bits).data_store.length = s.data_store.length ∧
    (bytes_ok s.data_store → bytes_ok (s.write_list bits).data_store) := by
  intro bits
  induction bits with
  | nil => intro s; exact ⟨rfl, fun h => h⟩
  | cons b bs ih =>
    intro s
    obtain ⟨a1, a2⟩ := write_bit_store s b
    obtain ⟨b1, b2⟩ := ih (s.write_bit b).2
    simp only [write_list]
    exact ⟨by rw [b1, a1], fun h => b2 (a2 h)⟩

/-- Successive `write_bit` calls that fit, bit by bit: position
`write_index + i` receives the lowest bit of element `i`, and no other bit
changes. -/
theorem write_list_bits : ∀ (bits : List Nat) (s : bitstream), s.wf →
    bits.length ≤ s.free_bits →
    ∀ j, (s.write_list bits).bit_at j =
      if s.write_index ≤ j ∧ j < s.write_index + bits.length then
        bits.getD (j - s.write_index) 0 % 2
      else s.bit_at j := by
  intro bits
  induction bits with
  | nil =>
    intro s _ _ j
    simp only [write_list, List.length_nil, Nat.add_zero]
    rw [if_neg (by omega)]
  | cons b bs ih =>
    intro s h hlen j
    simp only [List.length_cons] at hlen
    have hc : s.write_index < 8 * s.data_capacity := by
      unfold free_bits at hlen; omega
    obtain ⟨_, hwf, hr, hw, hcap, hbit, hframe⟩ := write_bit_ok h hc b
    have hfree : bs.length ≤ (s.write_bit b).2.free_bits := by
      unfold free_bits at hlen ⊢; rw [hw, hcap]; omega
    simp only [write_list, List.length_cons]
    rw [ih _ hwf hfree j, hw]
    by_cases h1 : j = s.write_index
    · subst h1
      rw [if_neg (by omega), if_pos (by omega), hbit]
      simp
    · rw [hframe j h1]
      by_cases h2 : s.write_index + 1 ≤ j ∧ j < s.write_index + 1 + bs.length
      · rw [if_pos h2, if_pos (by omega)]
        have e : j - s.write_index = (j - (s.write_index + 1)) + 1 := by omega
        rw [e, List.getD_cons_succ]
      · rw [if_neg h2, if_neg (by omega)]

end bitstream

theorem mem_bits_getD (data : List Nat) (n i : Nat) (hi : i < n) :
    (mem_bits data n).getD i 0 = mem_bit data i := by
  unfold mem_bits
  rw [List.getD_eq_getElem?_getD, List.getElem?_map, List.getElem?_range hi]
  rfl

/-- C30: the hybrid bulk write equals the bit-by-bit write. For every
well-formed buffer (holding bytes), every source byte array and every
`n ≥ 1` with `write_index + n ≤ 8 * data_capacity`, `write_bits(src, n)`
returns success and leaves the whole buffer (stored bytes, both cursors,
capacity) identical to `n` successive `write_bit` calls on bits
`0, ..., n - 1` of the source (bit `i` is bit `i % 8`, counted from the
least significant, of byte `i / 8`), each of which succeeds. -/
theorem bulk_write_eq_bitwise (param_check : Bool) (s : bitstream) (data : List Nat) (n : Nat)
    (hs : s.wf) (hsb : bytes_ok s.data_store) (hdb : bytes_ok data) (hn : 1 ≤ n)
    (hfit : s.write_index + n ≤ 8 * s.data_capacity) :
    s.write_bits param_check data n = (EVX_SUCCESS, s.write_list (mem_bits data n)) ∧
    run_calls param_check s ((mem_bits data n).map write_call.bit) =
      some (s.write_list (mem_bits data n)) := by
  have hlen : (mem_bits data n).length = n := by simp [mem_bits]
  have hfree : (mem_bits data n).length ≤ s.free_bits := by
    rw [hlen]; unfold bitstream.free_bits; omega
  obtain ⟨a1, a2, a3, a4, a5, a6⟩ := bitstream.write_bits_ok hs param_check data n
    (fun _ => by omega) hfit
  obtain ⟨b1, _, b3, b4, b5⟩ := bitstream.write_list_ok (mem_bits data n) s hs hfree
  have b6 := bitstream.write_list_bits (mem_bits data n) s hs hfree
  obtain ⟨c1, c2⟩ := bitstream.write_list_store (mem_bits data n) s
  have hstore : (s.write_bits param_check data n).2.data_store =
      (s.write_list (mem_bits data n)).data_store := by
    apply list_eq_of_bits
    · rw [a2.1, b1.1, a5, b5]
    · exact bitstream.bytes_ok_write_bits param_check hsb hdb n
    · exact c2 hsb
    · intro j
      rw [← bitstream.bit_at_eq, ← bitstream.bit_at_eq, a6 j, b6 j, hlen]
      by_cases hj : s.write_index ≤ j ∧ j < s.write_index + n
      · rw [if_pos hj, if_pos hj, mem_bits_getD data n _ (by omega)]
        have := mem_bit_lt data (j - s.write_index)
        omega
      · rw [if_neg hj, if_neg hj]
  constructor
  · have e : (s.write_bits param_check data n).2 = s.write_list (mem_bits data n) := by
      cases hx : (s.write_bits param_check data n).2 with
      | mk r w c d =>
        cases hy : s.write_list (mem_bits data n) with
        | mk r1 w1 c1 d1 =>
          rw [hx] at a3 a4 a5 hstore
          rw [hy] at b3 b4 b5 hstore
          simp only at a3 a4 a5 b3 b4 b5 hstore
          rw [a3, a4, a5, b3, b4, b5, hstore, hlen]
    rw [← e, ← a1]
  · have hgen : ∀ (bits : List Nat) (u : bitstream), u.wf → bits.length ≤ u.free_bits →
        run_calls param_check u (bits.map write_call.bit) = some (u.write_list bits) := by
      intro bits
      induction bits with
      | nil => intro u _ _; rfl
      | cons b bs ih =>
        intro u hu hl
        simp only [List.length_cons] at hl
        have hc : u.write_index < 8 * u.data_capacity := by
          unfold bitstream.free_bits at hl; omega
        obtain ⟨hst, hwf, _, hw, hcap, _, _⟩ := bitstream.write_bit_ok hu hc b
        have hfree1 : bs.length ≤ (u.write_bit b).2.free_bits := by
          unfold bitstream.free_bits at hl ⊢; rw [hw, hcap]; omega
        simp only [List.map_cons, run_calls, write_call.run, hst, ne_eq, not_true_eq_false,
          if_false, bitstream.write_list]
        exact ih _ hwf hfree1
    exact hgen _ s hs hfree

/-- Witness for `bulk_write_eq_bitwise`: eleven bits written at the aligned
position `8`, one byte on the fast path and three bits on the unaligned
path. -/
theorem bulk_write_eq_bitwise_witness :
    bitstream.write_bits true ⟨0, 8, 3, [1, 0, 0]⟩ [165, 5] 11 =
      (EVX_SUCCESS, bitstream.write_list ⟨0, 8, 3, [1, 0, 0]⟩ (mem_bits [165, 5] 11)) ∧
    bitstream.write_list ⟨0, 8, 3, [1, 0, 0]⟩ (mem_bits [165, 5] 11) = ⟨0, 19, 3, [1, 165, 5]⟩ :=
  ⟨(bulk_write_eq_bitwise true ⟨0, 8, 3, [1, 0, 0]⟩ [165, 5] 11 (by decide)
    (by unfold bytes_ok; decide) (by unfold bytes_ok; decide) (by decide) (by decide)).1,
    by decide⟩

/-! ### The cursor invariant (C21) -/

namespace bitstream

theorem wf_empty {s : bitstream} (h : s.wf) : s.empty.wf := by
  obtain ⟨h1, h2, h3, h4⟩ := h
  exact ⟨h1, le_refl _, Nat.zero_le _, h4⟩

theorem wf_clear (s : bitstream) : s.clear.wf := by
  unfold clear empty wf
  simp

theorem wf_seek {s : bitstream} (h : s.wf) (bit_offset : Nat) :
    (s.seek bit_offset).1 = EVX_SUCCESS ∧ (s.seek bit_offset).2.wf ∧
    (s.seek bit_offset).2.read_index = min bit_offset s.write_index ∧
    (s.seek bit_offset).2.write_index = s.write_index := by
  obtain ⟨h1, h2, h3, h4⟩ := h
  unfold seek wf
  simp only
  by_cases hb : bit_offset ≥ s.write_index
  · rw [if_pos hb]
    refine ⟨rfl, ⟨h1, le_refl _, h3, h4⟩, ?_, trivial⟩
    omega
  · rw [if_neg hb]
    refine ⟨rfl, ⟨h1, by omega, h3, h4⟩, ?_, trivial⟩
    omega

theorem align_eight (n : Nat) (h : n + 7 < 4294967296) :
    align n 8 % 8 = 0 ∧ n ≤ align n 8 ∧ align n 8 < n + 8 := by
  unfold align greater_multiple
  simp only
  by_cases hm : 0 ≠ n % 8
  · rw [if_pos hm, u32_of_lt (by omega)]
    omega
  · rw [if_neg hm]
    omega

theorem wf_resize (param_check : Bool) {s : bitstream} (h : s.wf) (size : Nat)
    (fresh : Nat → Nat) (hsize : size + 7 < 4294967296) :
    (s.resize_capacity param_check size fresh).2.wf := by
  unfold resize_capacity
  by_cases hp : param_check = true ∧ size = 0
  · rw [if_pos hp]
    exact h
  · rw [if_neg hp]
    obtain ⟨a1, a2, a3⟩ := align_eight size hsize
    unfold wf clear empty
    simp only [List.length_map, List.length_range, true_and, le_refl, Nat.zero_le]
    rw [Nat.shiftRight_eq_div_pow]
    omega

theorem wf_assign (param_check : Bool) {s : bitstream} (h : s.wf) (bytes : List Nat)
    (size : Nat) (fresh : Nat → Nat) (hsize : size < 536870912) :
    (s.assign param_check bytes size fresh).2.wf := by
  unfold assign
  by_cases hp : param_check = true ∧ size = 0
  · rw [if_pos hp]
    exact h
  · rw [if_neg hp]
    unfold wf
    simp only [(memcpy_spec bytes size _ 0 0).1, List.length_map, List.length_range, true_and,
      Nat.zero_le]
    rw [Nat.shiftLeft_eq, u32_of_lt (by omega)]
    omega

theorem wf_write_bit {s : bitstream} (h : s.wf) (v : Nat) : (s.write_bit v).2.wf := by
  by_cases hc : s.write_index < 8 * s.data_capacity
  · exact (write_bit_ok h hc v).2.1
  · have hfull : s.write_index = 8 * s.data_capacity := by
      obtain ⟨_, _, h3, _⟩ := h
      omega
    rw [write_bit_full h hfull v]
    exact h

theorem wf_write_byte {s : bitstream} (h : s.wf) (v : Nat)
    (ho : s.write_index + 8 < 4294967296) : (s.write_byte v).2.wf := by
  by_cases hc : s.write_index + 8 ≤ 8 * s.data_capacity
  · exact (write_byte_ok h hc v).2.1
  · rw [write_byte_full h (by omega) ho v]
    exact h

theorem wf_write_bits (param_check : Bool) {s : bitstream} (h : s.wf) (data : List Nat)
    (n : Nat) (ho : s.write_index + n < 4294967296) :
    (s.write_bits param_check data n).2.wf := by
  by_cases hp : param_check = true ∧ n = 0
  · unfold write_bits
    rw [if_pos hp]
    exact h
  · have hn : param_check = true → n ≠ 0 := fun h1 h2 => hp ⟨h1, h2⟩
    by_cases hc : s.write_index + n ≤ 8 * s.data_capacity
    · exact (write_bits_ok h param_check data n hn hc).2.1
    · rw [write_bits_full h param_check data n hn (by omega) ho]
      exact h

theorem wf_write_bytes (param_check : Bool) {s : bitstream} (h : s.wf) (data : List Nat)
    (n : Nat) (ho : s.write_index + 8 * n < 4294967296) :
    (s.write_bytes param_check data n).2.wf := by
  unfold write_bytes
  rw [Nat.shiftLeft_eq, u32_of_lt (by omega)]
  exact wf_write_bits param_check h data _ (by omega)

theorem wf_read_bit {s : bitstream} (h : s.wf) (d : Nat) : (s.read_bit d).2.1.wf := by
  by_cases hc : s.read_index < s.write_index
  · rw [read_bit_ok h hc d]
    exact wf_advance h hc
  · rw [read_bit_underflow (by omega) d]
    exact h

theorem wf_read_byte {s : bitstream} (h : s.wf) (d : Nat)
    (ho : s.read_index + 8 < 4294967296) : (s.read_byte d).2.1.wf := by
  have h' := h
  obtain ⟨h1, h2, h3, h4⟩ := h'
  by_cases hc : s.read_index + 8 ≤ s.write_index
  · rw [(read_byte_ok h hc d).2.1]
    exact ⟨h1, by simp only; omega, h3, h4⟩
  · rw [read_byte_underflow (by omega) ho d]
    exact h

theorem wf_read_bits (param_check : Bool) {s : bitstream} (h : s.wf) (out : List Nat) (n : Nat)
    (ho : s.read_index + n < 4294967296)
    (hl : min n (s.write_index - s.read_index) ≤ 8 * out.length) :
    (s.read_bits param_check out n).2.1.wf := by
  have h' := h
  obtain ⟨h1, h2, h3, h4⟩ := h'
  by_cases hp : param_check = true ∧ n = 0
  · unfold read_bits
    rw [if_pos hp]
    exact h
  · have hn : param_check = true → n ≠ 0 := fun h1 h2 => hp ⟨h1, h2⟩
    rw [(read_bits_ok h param_check out n hn ho hl).2.1]
    exact ⟨h1, by simp only; omega, h3, h4⟩

theorem wf_read_bytes (param_check : Bool) {s : bitstream} (h : s.wf) (out : List Nat) (n : Nat)
    (ho : s.read_index + 8 * n < 4294967296)
    (hl : min (8 * n) (s.write_index - s.read_index) ≤ 8 * out.length) :
    (s.read_bytes param_check out n).2.1.wf := by
  unfold read_bytes
  by_cases hp : param_check = true ∧ n = 0
  · rw [if_pos hp]
    exact h
  · rw [if_neg hp]
    simp only
    rw [Nat.shiftLeft_eq, u32_of_lt (by omega)]
    exact wf_read_bits param_check h out _ (by omega) (by
      have e : n * 2 ^ 3 = 8 * n := by omega
      rw [e]; exact hl)

/-- The sized constructor leaves a well-formed, empty buffer whatever the
members held before, unless the debug-build argument check refuses the
size `0`: then it returns before any member is set. -/
theorem construct_sized_wf (param_check : Bool) (raw : bitstream) (size : Nat)
    (fresh : Nat → Nat) (hp : ¬ (param_check = true ∧ size = 0))
    (hsize : size + 7 < 4294967296) :
    (construct_sized param_check raw size fresh).wf ∧
    (construct_sized param_check raw size fresh).read_index = 0 ∧
    (construct_sized param_check raw size fresh).write_index = 0 := by
  unfold construct_sized resize_capacity
  rw [if_neg hp]
  obtain ⟨a1, a2, a3⟩ := align_eight size hsize
  unfold wf clear empty
  simp only [List.length_map, List.length_range, true_and, le_refl, Nat.zero_le, and_true]
  rw [Nat.shiftRight_eq_div_pow]
  omega

theorem construct_sized_zero_debug (raw : bitstream) (fresh : Nat → Nat) :
    construct_sized true raw 0 fresh = { raw with data_store := [] } := rfl

theorem construct_bytes_wf (param_check : Bool) (raw : bitstream) (bytes : List Nat)
    (size : Nat) (fresh : Nat → Nat) (hp : ¬ (param_check = true ∧ size = 0))
    (hsize : size < 536870912) :
    (construct_bytes param_check raw bytes size fresh).wf ∧
    (construct_bytes param_check raw bytes size fresh).read_index = 0 ∧
    (construct_bytes param_check raw bytes size fresh).write_index = 8 * size := by
  unfold construct_bytes assign
  rw [if_neg hp]
  unfold wf
  simp only [(memcpy_spec bytes size _ 0 0).1, List.length_map, List.length_range, true_and,
    Nat.zero_le]
  rw [Nat.shiftLeft_eq, u32_of_lt (by omega)]
  omega

theorem wf_cursors {s : bitstream} (h : s.wf) :
    s.read_index ≤ s.write_index ∧ s.write_index ≤ s.query_capacity := by
  rw [query_capacity_eq h]
  exact ⟨h.2.1, h.2.2.1⟩

/-- The cursor invariant where no index sum leaves the `uint32` range: on
a well-formed buffer every public operation, successful or not, leaves a
well-formed buffer, hence `read_index ≤ write_index ≤ query_capacity()`. -/
theorem cursor_invariant_in_range (param_check : Bool) (s : bitstream) (h : s.wf) :
    construct.wf ∧ s.empty.wf ∧ s.clear.wf ∧
    (∀ off, (s.seek off).2.wf) ∧
    (∀ size fresh, size + 7 < 4294967296 → (s.resize_capacity param_check size fresh).2.wf) ∧
    (∀ bytes size fresh, size < 536870912 → (s.assign param_check bytes size fresh).2.wf) ∧
    (∀ v, (s.write_bit v).2.wf) ∧
    (∀ v, s.write_index + 8 < 4294967296 → (s.write_byte v).2.wf) ∧
    (∀ data n, s.write_index + n < 4294967296 → (s.write_bits param_check data n).2.wf) ∧
    (∀ data n, s.write_index + 8 * n < 4294967296 →
      (s.write_bytes param_check data n).2.wf) ∧
    (∀ d, (s.read_bit d).2.1.wf) ∧
    (∀ d, s.read_index + 8 < 4294967296 → (s.read_byte d).2.1.wf) ∧
    (∀ out n, s.read_index + n < 4294967296 →
      min n (s.write_index - s.read_index) ≤ 8 * out.length →
      (s.read_bits param_check out n).2.1.wf) ∧
    (∀ out n, s.read_index + 8 * n < 4294967296 →
      min (8 * n) (s.write_index - s.read_index) ≤ 8 * out.length →
      (s.read_bytes param_check out n).2.1.wf) :=
  ⟨by decide, wf_empty h, wf_clear s, fun off => (wf_seek h off).2.1,
    fun size fresh hs => wf_resize param_check h size fresh hs,
    fun bytes size fresh hs => wf_assign param_check h bytes size fresh hs,
    fun v => wf_write_bit h v, fun v ho => wf_write_byte h v ho,
    fun data n ho => wf_write_bits param_check h data n ho,
    fun data n ho => wf_write_bytes param_check h data n ho,
    fun d => wf_read_bit h d, fun d ho => wf_read_byte h d ho,
    fun out n ho hl => wf_read_bits param_check h out n ho hl,
    fun out n ho hl => wf_read_bytes param_check h out n ho hl⟩

end bitstream

/-- C21 (cursor invariant), evaluated at a failing input. A buffer of
sixteen bits after `write_byte(7)` and `read_byte` is well formed with
`read_index = write_index = 8`. On it `write_bits(src, 2^32 - 8)`, in a
release or a debug build, returns `EVX_SUCCESS`, keeps `read_index = 8` and
leaves `write_index = 0`: the invariant `read_index ≤ write_index` is
lost. -/
theorem cursor_invariant_breaks :
    ((sixteen_bit_buffer.write_byte 7).2.read_byte 0).2.1 = spent_byte_buffer ∧
    spent_byte_buffer.wf ∧
    spent_byte_buffer.read_index ≤ spent_byte_buffer.write_index ∧
    spent_byte_buffer.write_index ≤ spent_byte_buffer.query_capacity ∧
    large_source.length = 536870913 ∧
    (spent_byte_buffer.write_bits false large_source 4294967288).1 = EVX_SUCCESS ∧
    (spent_byte_buffer.write_bits false large_source 4294967288).2.read_index = 8 ∧
    (spent_byte_buffer.write_bits false large_source 4294967288).2.write_index = 0 ∧
    (spent_byte_buffer.write_bits true large_source 4294967288).1 = EVX_SUCCESS ∧
    (spent_byte_buffer.write_bits true large_source 4294967288).2.read_index = 8 ∧
    (spent_byte_buffer.write_bits true large_source 4294967288).2.write_index = 0 ∧
    ¬ ((spent_byte_buffer.write_bits false large_source 4294967288).2.read_index ≤
      (spent_byte_buffer.write_bits false large_source 4294967288).2.write_index) :=
  ⟨by decide, by decide, by decide, by decide, List.length_replicate _ _, by decide, by decide,
    by decide, by decide, by decide, by decide, by decide⟩

/-! ### Termination of the scaling loops (C31) -/

namespace entropy_coder

/-- Whatever an iteration of the encoder loop returns, the bounds it leaves
are ordered and in range; when it continues (status success) the width
`high - low` has become `2 * (high - low) + 1`. -/
theorem encode_iter_result {c c1 : entropy_coder} {dest dest1 : bitstream} {st : evx_status}
    (hv : c.valid) (hs : c.encode_scaling_iter dest = some (st, c1, dest1)) :
    c1.valid ∧ (st = EVX_SUCCESS → c1.high - c1.low = 2 * (c.high - c.low) + 1) := by
  obtain ⟨hlh, hmax⟩ := hv
  have hne : ¬ (EVX_ERROR_INVALID_RESOURCE = EVX_SUCCESS) := by decide
  by_cases hh : c.high < 32768
  · have hl : c.low < 32768 := by omega
    unfold encode_scaling_iter at hs
    rw [msb_low hh, msb_low hl] at hs
    simp only [if_true, Nat.zero_shiftRight, show u8 0 = 0 from rfl, Nat.mul_zero, Nat.add_zero,
      show u32 0 = 0 from rfl] at hs
    rw [sub32_of_le (Nat.zero_le _) (by omega), sub32_of_le (Nat.zero_le _) (by omega)] at hs
    simp only [Nat.sub_zero] at hs
    obtain ⟨g1, g2, _⟩ := flush_inverse_bits_fields c 0 (dest.write_bit 0).2
    split_ifs at hs with h1 h2
    · simp only [Option.some.injEq, Prod.mk.injEq] at hs
      obtain ⟨e1, e2, _⟩ := hs
      subst e1 e2
      exact ⟨⟨hlh, hmax⟩, fun h => absurd h hne⟩
    · simp only [Option.some.injEq, Prod.mk.injEq] at hs
      obtain ⟨e1, e2, _⟩ := hs
      subst e1 e2
      refine ⟨⟨?_, ?_⟩, fun h => absurd h hne⟩
      · rw [g1, g2]; exact hlh
      · rw [g2]; exact hmax
    · simp only [Option.some.injEq, Prod.mk.injEq] at hs
      obtain ⟨e1, e2, _⟩ := hs
      rw [shift_bounds_eq (by rw [g1]; exact hl) (by rw [g2]; exact hh)] at e2
      subst e2
      unfold valid
      simp only [g1, g2]
      exact ⟨⟨by omega, by omega⟩, fun _ => by omega⟩
  by_cases hl : 32768 ≤ c.low
  · unfold encode_scaling_iter at hs
    rw [msb_high (by omega) hmax, msb_high hl (by omega)] at hs
    have hmsb : u8 (32768 >>> (EVX_ENTROPY_PRECISION - 1)) = 1 := by decide
    have hsub : u32 (u32 (EVX_ENTROPY_HALF_RANGE * 1) + 1) = 32768 := by decide
    simp only [if_true, hmsb, hsub] at hs
    rw [sub32_of_le hl (by omega), sub32_of_le (by omega : 32768 ≤ c.high) (by omega)] at hs
    obtain ⟨g1, g2, _⟩ := flush_inverse_bits_fields
      { c with low := c.low - 32768, high := c.high - 32768 } 1 (dest.write_bit 1).2
    simp only at g1 g2
    split_ifs at hs with h1 h2
    · simp only [Option.some.injEq, Prod.mk.injEq] at hs
      obtain ⟨e1, e2, _⟩ := hs
      subst e1 e2
      exact ⟨⟨by simp only; omega, by simp only; omega⟩, fun h => absurd h hne⟩
    · simp only [Option.some.injEq, Prod.mk.injEq] at hs
      obtain ⟨e1, e2, _⟩ := hs
      subst e1 e2
      refine ⟨⟨?_, ?_⟩, fun h => absurd h hne⟩
      · rw [g1, g2]; omega
      · rw [g2]; omega
    · simp only [Option.some.injEq, Prod.mk.injEq] at hs
      obtain ⟨e1, e2, _⟩ := hs
      rw [shift_bounds_eq (by rw [g1]; omega) (by rw [g2]; omega)] at e2
      subst e2
      unfold valid
      simp only [g1, g2]
      exact ⟨⟨by omega, by omega⟩, fun _ => by omega⟩
  · by_cases h3 : c.high ≤ 49149 ∧ 16384 ≤ c.low
    · unfold encode_scaling_iter at hs
      rw [msb_high (by omega) hmax, msb_low (by omega), THREE_QTR_RANGE_eq, QTR_RANGE_eq] at hs
      simp only [show ¬ ((32768 : Nat) = 0) by decide, if_false] at hs
      rw [if_pos ⟨h3.1, by omega⟩] at hs
      rw [sub32_of_le (by omega) (by omega), sub32_of_le (by omega) (by omega)] at hs
      rw [shift_bounds_eq (by simp; omega) (by simp; omega)] at hs
      simp only [Option.some.injEq, Prod.mk.injEq] at hs
      obtain ⟨e1, e2, _⟩ := hs
      subst e2
      unfold valid
      simp only
      exact ⟨⟨by omega, by omega⟩, fun _ => by omega⟩
    · rw [iter_stop ⟨hlh, hmax⟩ (by omega) (by omega) h3] at hs
      exact absurd hs (by simp)

/-- What an iteration of the decoder loop can return: the rule has fired,
and either the shifted state with success, or the unshifted state with
`EXECUTION_FAILURE` when the read failed. -/
theorem decode_iter_cases {d d1 : entropy_coder} {bit bit1 : Nat} {source source1 : bitstream}
    {st : evx_status}
    (h : d.decode_scaling_iter bit source = some (st, d1, bit1, source1)) :
    ∃ d2, d.decode_scaling_rule = some d2 ∧
      ((st = EVX_SUCCESS ∧ d1 = d2.shift_value bit1) ∨
        (st ≠ EVX_SUCCESS ∧ d1 = d2)) := by
  unfold decode_scaling_iter at h
  cases hr : d.decode_scaling_rule with
  | none => rw [hr] at h; simp at h
  | some d2 =>
    rw [hr] at h
    simp only at h
    refine ⟨d2, rfl, ?_⟩
    by_cases he : source.is_empty = true
    · rw [he] at h
      simp only [not_true_eq_false, if_false, Option.some.injEq, Prod.mk.injEq] at h
      obtain ⟨h0, h1, h2, _⟩ := h
      rw [h2] at h1
      exact Or.inl ⟨h0.symm, h1.symm⟩
    · have he' : source.is_empty = false := by simpa using he
      rw [he'] at h
      simp only [Bool.false_eq_true, not_false_eq_true, if_true] at h
      by_cases hs : (source.read_bit bit).1 = EVX_SUCCESS
      · rw [if_neg (by simp [hs])] at h
        simp only [Option.some.injEq, Prod.mk.injEq] at h
        obtain ⟨h0, h1, h2, _⟩ := h
        rw [h2] at h1
        exact Or.inl ⟨h0.symm, h1.symm⟩
      · rw [if_pos (by simpa using hs)] at h
        simp only [Option.some.injEq, Prod.mk.injEq] at h
        obtain ⟨h0, h1, _⟩ := h
        refine Or.inr ⟨?_, h1.symm⟩
        rw [← h0]
        decide

/-- Whatever an iteration of the decoder loop returns, the bounds it leaves
are ordered and in range; when it continues (status success) the width
`high - low` has become `2 * (high - low) + 1`. -/
theorem decode_iter_result {d d1 : entropy_coder} {bit bit1 : Nat} {source source1 : bitstream}
    {st : evx_status} (hv : d.valid)
    (h : d.decode_scaling_iter bit source = some (st, d1, bit1, source1)) :
    d1.valid ∧ (st = EVX_SUCCESS → d1.high - d1.low = 2 * (d.high - d.low) + 1) := by
  obtain ⟨d2, hr, hc⟩ := decode_iter_cases h
  have hlh := hv.1
  have hmax := hv.2
  have hb := decode_rule_bounds hv hr
  have h2 : d2.low ≤ d2.high ∧ d2.high < 32768 ∧ d2.high - d2.low = d.high - d.low := by
    rcases hb with ⟨g1, g2, g3⟩ | ⟨g1, g2, g3⟩ | ⟨g1, g2, g3, g4, g5, g6⟩ <;>
      refine ⟨?_, ?_, ?_⟩ <;> omega
  rcases hc with ⟨hst, he⟩ | ⟨hst, he⟩
  · obtain ⟨e1, e2⟩ := shift_value_bounds (d := d2) (by omega) (by omega) bit1
    rw [he]
    unfold valid
    rw [e1, e2]
    exact ⟨⟨by omega, by omega⟩, fun _ => by omega⟩
  · rw [he]
    exact ⟨⟨h2.1, by omega⟩, fun h => absurd h hst⟩

/-- The encoder loop returns within `j + 1` loop tests when `j` doublings
take the width past the range, whatever the destination; the bounds it
returns are ordered and in range. -/
theorem encode_scaling_returns : ∀ (fuel j : Nat) (c : entropy_coder) (dest : bitstream),
    c.valid → 65536 ≤ (c.high - c.low + 1) * 2 ^ j → j < fuel →
    ∃ st c1 dest1, resolve_encode_scaling fuel c dest = some (st, c1, dest1) ∧ c1.valid := by
  intro fuel
  induction fuel with
  | zero => intro j c dest _ _ hj; omega
  | succ fuel ih =>
    intro j c dest hv hw hj
    unfold resolve_encode_scaling
    cases hi : c.encode_scaling_iter dest with
    | none => exact ⟨_, _, _, rfl, hv⟩
    | some r =>
      obtain ⟨st, c2, dest2⟩ := r
      obtain ⟨hv2, hwid⟩ := encode_iter_result hv hi
      simp only
      by_cases hst : st = EVX_SUCCESS
      · rw [if_neg (by simp [hst])]
        have hjp : 0 < j := by
          rcases Nat.eq_zero_or_pos j with h0 | h0
          · subst h0
            have := hwid hst
            have := hv2.2
            simp at hw
            omega
          · exact h0
        have hw2 := hwid hst
        exact ih (j - 1) c2 dest2 hv2
          (width_step hjp hw (by have := hv2.1; have := hv.1; omega)) (by omega)
      · rw [if_pos hst]
        exact ⟨_, _, _, rfl, hv2⟩

/-- The decoder loop returns within `j + 1` loop tests when `j` doublings
take the width past the range, whatever the source and the local `bit`
hold; the bounds it returns are ordered and in range. -/
theorem decode_scaling_returns : ∀ (fuel j : Nat) (d : entropy_coder) (bit : Nat)
    (source : bitstream),
    d.valid → 65536 ≤ (d.high - d.low + 1) * 2 ^ j → j < fuel →
    ∃ st d1 source1, resolve_decode_scaling_loop fuel d bit source = some (st, d1, source1) ∧
      d1.valid := by
  intro fuel
  induction fuel with
  | zero => intro j d bit source _ _ hj; omega
  | succ fuel ih =>
    intro j d bit source hv hw hj
    unfold resolve_decode_scaling_loop
    cases hi : d.decode_scaling_iter bit source with
    | none => exact ⟨_, _, _, rfl, hv⟩
    | some r =>
      obtain ⟨st, d2, bit2, source2⟩ := r
      obtain ⟨hv2, hwid⟩ := decode_iter_result hv hi
      simp only
      by_cases hst : st = EVX_SUCCESS
      · rw [if_neg (by simp [hst])]
        have hjp : 0 < j := by
          rcases Nat.eq_zero_or_pos j with h0 | h0
          · subst h0
            have := hwid hst
            have := hv2.2
            simp at hw
            omega
          · exact h0
        have hw2 := hwid hst
        exact ih (j - 1) d2 bit2 source2 hv2
          (width_step hjp hw (by have := hv2.1; have := hv.1; omega)) (by omega)
      · rw [if_pos hst]
        exact ⟨_, _, _, rfl, hv2⟩

theorem width_sixteen (c : entropy_coder) :
    65536 ≤ (c.high - c.low + 1) * 2 ^ 16 := by
  have : 1 ≤ c.high - c.low + 1 := by omega
  calc 65536 = 1 * 2 ^ 16 := by norm_num
    _ ≤ (c.high - c.low + 1) * 2 ^ 16 := Nat.mul_le_mul_right _ this

end entropy_coder

/-- C31: the renormalisation loops terminate. From every coder with
`low ≤ high ≤ PRECISION_MAX`: whatever an iteration of the loop of
`resolve_encode_scaling` (any destination) or of `resolve_decode_scaling`
(any source, any content of the local `bit`) returns, the bounds it
leaves satisfy `low ≤ high ≤ PRECISION_MAX`; every iteration that does not
exit replaces the width `high - low` by `2 * (high - low) + 1`; and both
methods return within `PRECISION + 1 = 17` loop tests, that is after at
most `16` iterations, again with `low ≤ high ≤ PRECISION_MAX`. -/
theorem scaling_loops_terminate (c : entropy_coder)
    (hv : c.low ≤ c.high ∧ c.high ≤ EVX_ENTROPY_PRECISION_MAX) :
    (∀ (dest : bitstream) (st : evx_status) (c1 : entropy_coder) (dest1 : bitstream),
      c.encode_scaling_iter dest = some (st, c1, dest1) →
      c1.low ≤ c1.high ∧ c1.high ≤ EVX_ENTROPY_PRECISION_MAX ∧
        (st = EVX_SUCCESS → c1.high - c1.low = 2 * (c.high - c.low) + 1)) ∧
    (∀ (bit : Nat) (source : bitstream) (st : evx_status) (c1 : entropy_coder) (bit1 : Nat)
      (source1 : bitstream),
      c.decode_scaling_iter bit source = some (st, c1, bit1, source1) →
      c1.low ≤ c1.high ∧ c1.high ≤ EVX_ENTROPY_PRECISION_MAX ∧
        (st = EVX_SUCCESS → c1.high - c1.low = 2 * (c.high - c.low) + 1)) ∧
    (∀ (fuel : Nat) (dest : bitstream), EVX_ENTROPY_PRECISION < fuel →
      ∃ st c1 dest1, entropy_coder.resolve_encode_scaling fuel c dest = some (st, c1, dest1) ∧
        c1.low ≤ c1.high ∧ c1.high ≤ EVX_ENTROPY_PRECISION_MAX) ∧
    (∀ (fuel : Nat) (source : bitstream), EVX_ENTROPY_PRECISION < fuel →
      ∃ st c1 source1,
        entropy_coder.resolve_decode_scaling fuel c source = some (st, c1, source1) ∧
        c1.low ≤ c1.high ∧ c1.high ≤ EVX_ENTROPY_PRECISION_MAX) := by
  rw [PRECISION_MAX_eq] at hv ⊢
  rw [PRECISION_eq]
  have hv' : c.valid := hv
  refine ⟨?_, ?_, ?_, ?_⟩
  · intro dest st c1 dest1 h
    obtain ⟨a1, a2⟩ := entropy_coder.encode_iter_result hv' h
    exact ⟨a1.1, a1.2, a2⟩
  · intro bit source st c1 bit1 source1 h
    obtain ⟨a1, a2⟩ := entropy_coder.decode_iter_result hv' h
    exact ⟨a1.1, a1.2, a2⟩
  · intro fuel dest hf
    obtain ⟨st, c1, dest1, a1, a2⟩ := entropy_coder.encode_scaling_returns fuel 16 c dest hv'
      (entropy_coder.width_sixteen c) hf
    exact ⟨st, c1, dest1, a1, a2.1, a2.2⟩
  · intro fuel source hf
    obtain ⟨st, c1, source1, a1, a2⟩ := entropy_coder.decode_scaling_returns fuel 16 c 0 source
      hv' (entropy_coder.width_sixteen c) hf
    exact ⟨st, c1, source1, a1, a2.1, a2.2⟩

/-- Witness for `scaling_loops_terminate`: from the point interval `[0, 0]`
both loops double the width sixteen times; sixteen loop tests are not
enough, seventeen are. -/
theorem scaling_loops_terminate_witness :
    (∃ st c1 dest1, entropy_coder.resolve_encode_scaling 17 point_coder sixteen_bit_buffer =
        some (st, c1, dest1) ∧ c1.low ≤ c1.high ∧ c1.high ≤ EVX_ENTROPY_PRECISION_MAX) ∧
    entropy_coder.resolve_encode_scaling 17 point_coder sixteen_bit_buffer =
      some (EVX_SUCCESS, { point_coder with high := 65535 },
        sixteen_bit_buffer.write_list (List.replicate 16 0)) ∧
    entropy_coder.resolve_encode_scaling 16 point_coder sixteen_bit_buffer = none ∧
    entropy_coder.resolve_decode_scaling 16 point_coder sixteen_bit_buffer = none ∧
    entropy_coder.resolve_decode_scaling 17 point_coder sixteen_bit_buffer =
      some (EVX_SUCCESS, { point_coder with high := 65535 }, sixteen_bit_buffer) :=
  ⟨(scaling_loops_terminate point_coder (by decide)).2.2.1 17 sixteen_bit_buffer (by decide),
    by decide, by decide, by decide, by decide⟩

/-! ### The decoder is total (C32) -/

namespace entropy_coder

/-- The priming loop succeeds on every well-formed source. -/
theorem prime_loop_status : ∀ (n : Nat) (c : entropy_coder) (bit : Nat) (src : bitstream),
    src.wf → (prime_loop n c bit src).1 = EVX_SUCCESS ∧ (prime_loop n c bit src).2.2.2.wf := by
  intro n
  induction n with
  | zero => intro c bit src hs; exact ⟨rfl, hs⟩
  | succ n ih =>
    intro c bit src hs
    unfold prime_loop
    by_cases he : src.is_empty = true
    · rw [if_neg (by simp [he])]
      exact ih _ _ _ hs
    · have hne : src.read_index < src.write_index := by
        obtain ⟨_, h2, _, _⟩ := hs
        unfold bitstream.is_empty at he
        simp only [beq_iff_eq] at he
        omega
      rw [if_pos (by simpa using he)]
      simp only
      rw [bitstream.read_bit_ok hs hne bit]
      simp only [ne_eq, not_true_eq_false, if_false]
      exact ih _ _ _ (bitstream.wf_advance hs hne)

/-- With the window inside the interval, `decode_symbol` takes one of its two
branches and writes one bit. -/
theorem decode_symbol_branch {m : Nat} {c : entropy_coder} (h : window_inv m c)
    (dest : bitstream) :
    ((c.value ≥ c.resolve_model.low ∧ c.value ≤ c.resolve_model.mid) ∨
      (c.value > c.resolve_model.mid ∧ c.value ≤ c.resolve_model.high)) ∧
    ¬ ((c.value ≥ c.resolve_model.low ∧ c.value ≤ c.resolve_model.mid) ∧
      (c.value > c.resolve_model.mid ∧ c.value ≤ c.resolve_model.high)) ∧
    (c.decode_symbol c.value dest).1 = EVX_SUCCESS ∧
    ∃ b, b < 2 ∧ (c.decode_symbol c.value dest).2.2 = (dest.write_bit b).2 := by
  obtain ⟨h1, h2, h3, h4⟩ := h
  obtain ⟨f1, f2, _⟩ := resolve_model_fields c
  refine ⟨?_, by omega, ?_, ?_⟩
  · rw [f1, f2]
    omega
  · unfold decode_symbol
    simp only
    split_ifs <;> rfl
  · unfold decode_symbol
    simp only
    by_cases b0 : c.value ≥ c.resolve_model.low ∧ c.value ≤ c.resolve_model.mid
    · rw [if_pos b0]
      exact ⟨0, by omega, rfl⟩
    · rw [if_neg b0]
      have b1 : c.value > c.resolve_model.mid ∧ c.value ≤ c.resolve_model.high := by
        rw [f1] at b0
        rw [f2]
        omega
      rw [if_pos b1]
      exact ⟨1, by omega, rfl⟩

/-- The decoder scaling loop on a well-formed source: it returns success
within `j + 1` loop tests and keeps the window invariant. -/
theorem decode_scaling_window {m : Nat} : ∀ (fuel j : Nat) (d : entropy_coder) (bit : Nat)
    (src : bitstream), window_inv m d → bit < 2 → src.wf →
    65536 ≤ (d.high - d.low + 1) * 2 ^ j → j < fuel →
    ∃ d1 src1, resolve_decode_scaling_loop fuel d bit src = some (EVX_SUCCESS, d1, src1) ∧
      src1.wf ∧ window_inv m d1 := by
  intro fuel
  induction fuel with
  | zero => intro j d bit src _ _ _ _ hj; omega
  | succ fuel ih =>
    intro j d bit src hw hb hs hwid hj
    have hv : d.valid := ⟨by obtain ⟨a, b, _⟩ := hw; omega, hw.2.2.1⟩
    unfold resolve_decode_scaling_loop
    cases hr : d.decode_scaling_rule with
    | none =>
      have hi : d.decode_scaling_iter bit src = none := by
        unfold decode_scaling_iter
        rw [hr]
      rw [hi]
      exact ⟨d, src, rfl, hs, hw⟩
    | some d2 =>
      obtain ⟨b, src1, hi, hs1⟩ := decode_iter_progress hr hs bit
      obtain ⟨hv2, hw2⟩ := decode_iter_result hv hi
      obtain ⟨_, _, _, hb1⟩ := decode_iter_success hb hi
      have hw1 := window_inv_scale hw hb hi
      rw [hi]
      simp only [ne_eq, not_true_eq_false, if_false]
      have hjp : 0 < j := by
        rcases Nat.eq_zero_or_pos j with h0 | h0
        · subst h0
          have := hw2 rfl
          have := hv2.2
          simp at hwid
          omega
        · exact h0
      have hw3 := hw2 rfl
      exact ih (j - 1) _ b src1 hw1 hb1 hs1
        (width_step hjp hwid (by have := hv2.1; have := hv.1; omega)) (by omega)

/-- The symbol loop of `decode` on a well-formed source, from a state with
the window inside the interval: every round writes one bit and the loop
returns success. -/
theorem decode_loop_total (fuel : Nat) (hf : 16 < fuel) : ∀ (n m : Nat) (c : entropy_coder)
    (src dst : bitstream), window_inv m c → m + n < 2147483648 → src.wf → dst.wf →
    n ≤ dst.free_bits →
    ∃ c1 src1 bits, decode_loop fuel n c src dst =
        some (EVX_SUCCESS, c1, src1, dst.write_list bits) ∧
      bits.length = n ∧ (∀ b ∈ bits, b < 2) ∧ src1.wf ∧ window_inv (m + n) c1 := by
  intro n
  induction n with
  | zero =>
    intro m c src dst hw _ hs _ _
    exact ⟨c, src, [], rfl, rfl, by simp, hs, hw⟩
  | succ n ih =>
    intro m c src dst hw hmn hs hd hroom
    obtain ⟨_, _, hst, b, hb, hdst⟩ := decode_symbol_branch hw dst
    have hw1 := window_inv_symbol hw (by omega) dst
    have hc : dst.write_index < 8 * dst.data_capacity := by
      unfold bitstream.free_bits at hroom; omega
    obtain ⟨_, hwf, _, hwi, hcap, _, _⟩ := bitstream.write_bit_ok hd hc b
    obtain ⟨d1, src1, hsc, hs1, hw2⟩ := decode_scaling_window fuel 16
      (c.decode_symbol c.value dst).2.1 0 src hw1 (by omega) hs (width_sixteen _) hf
    have hfree : n ≤ (dst.write_bit b).2.free_bits := by
      unfold bitstream.free_bits at hroom ⊢
      rw [hwi, hcap]
      omega
    obtain ⟨c2, src2, bits, hl, hlen, hbits, hs2, hw3⟩ := ih (m + 1) d1 src1 (dst.write_bit b).2
      hw2 (by omega) hs1 hwf hfree
    refine ⟨c2, src2, b :: bits, ?_, by simp [hlen], ?_, hs2, ?_⟩
    · unfold decode_loop
      simp only
      rw [if_neg (by simp [hst])]
      unfold resolve_decode_scaling
      rw [hsc]
      simp only [ne_eq, not_true_eq_false, if_false]
      rw [hdst, hl]
      rfl
    · intro x hx
      rcases List.mem_cons.mp hx with h | h
      · rw [h]; exact hb
      · exact hbits x h
    · rw [show m + (n + 1) = m + 1 + n by omega]
      exact hw3

end entropy_coder

/-- C32: the decoder is total on arbitrary input. Take a coder that is
adaptive or has a fixed model on the precision scale, any well-formed
source (whatever bits it holds, none included), a symbol count `n` with
`1 ≤ n < 2^31` and a well-formed destination with at least `n` free bits.
Then `decode(n, src, dst, auto_start = true)` returns (within `17` tests
of each scaling loop) with success and has appended exactly `n` bits to
the destination; and in every state the session passes through, exactly
one of the two branch conditions of `decode_symbol` holds. -/
theorem decoder_total (param_check : Bool) (fuel : Nat) (c : entropy_coder) (n : Nat)
    (source dest : bitstream)
    (hk : c.adaptive = true ∨ c.model ≤ EVX_ENTROPY_PRECISION_MAX)
    (hs : source.wf) (hd : dest.wf) (hn1 : 1 ≤ n) (hn : n < 2 ^ 31)
    (hroom : n ≤ dest.free_bits) (hf : EVX_ENTROPY_PRECISION < fuel) :
    (∃ c1 source1 bits,
      c.decode param_check fuel n source dest true =
        some (EVX_SUCCESS, c1, source1, dest.write_list bits) ∧
      bits.length = n ∧ (∀ b ∈ bits, b < 2) ∧
      (dest.write_list bits).live = dest.live ++ bits ∧
      (dest.write_list bits).write_index = dest.write_index + n ∧
      (dest.write_list bits).read_index = dest.read_index) ∧
    (∀ (k : Nat) (s : entropy_coder), decode_reach (c.start_decode source).2.1 k s →
      ((s.value ≥ s.resolve_model.low ∧ s.value ≤ s.resolve_model.mid) ∨
        (s.value > s.resolve_model.mid ∧ s.value ≤ s.resolve_model.high)) ∧
      ¬ ((s.value ≥ s.resolve_model.low ∧ s.value ≤ s.resolve_model.mid) ∧
        (s.value > s.resolve_model.mid ∧ s.value ≤ s.resolve_model.high))) := by
  have hn' : n < 2147483648 := by norm_num at hn; exact hn
  rw [PRECISION_eq] at hf
  have h0 := entropy_coder.window_inv_start c source hk
  constructor
  · obtain ⟨p1, p2⟩ := entropy_coder.prime_loop_status EVX_ENTROPY_PRECISION
      ({ c with value := 0 } : entropy_coder).clear 0 source hs
    have h0' : window_inv 0 (entropy_coder.prime_loop EVX_ENTROPY_PRECISION
        ({ c with value := 0 } : entropy_coder).clear 0 source).2.1 := h0
    obtain ⟨c1, src1, bits, hl, hlen, hbits, _, _⟩ := entropy_coder.decode_loop_total fuel hf n 0
      _ _ dest h0' (by omega) p2 hd hroom
    obtain ⟨_, i2, i3, i4, _⟩ := bitstream.write_list_ok bits dest hd (by rw [hlen]; exact hroom)
    refine ⟨c1, src1, bits, ?_, hlen, hbits, ?_, by rw [i4, hlen], i3⟩
    · unfold entropy_coder.decode
      rw [if_neg (by rintro ⟨_, h⟩; omega)]
      simp only [if_true]
      rw [if_neg (by simp [p1])]
      exact hl
    · rw [i2]
      congr 1
      conv_rhs => rw [← List.map_id bits]
      apply List.map_congr_left
      intro x hx
      have := hbits x hx
      simp only [id]
      omega
  · intro k s hreach
    have hw := entropy_coder.window_inv_reach h0 hreach
    obtain ⟨a1, a2, _⟩ := entropy_coder.decode_symbol_branch hw bitstream.construct
    exact ⟨a1, a2⟩

/-- Witness for `decoder_total`: a default coder decodes three symbols from
an empty source into a buffer of sixteen bits. -/
theorem decoder_total_witness :
    (∃ c1 source1 bits,
      entropy_coder.construct.decode true 17 3 bitstream.construct sixteen_bit_buffer true =
        some (EVX_SUCCESS, c1, source1, sixteen_bit_buffer.write_list bits) ∧
      bits.length = 3 ∧ (∀ b ∈ bits, b < 2) ∧
      (sixteen_bit_buffer.write_list bits).live = sixteen_bit_buffer.live ++ bits ∧
      (sixteen_bit_buffer.write_list bits).write_index = sixteen_bit_buffer.write_index + 3 ∧
      (sixteen_bit_buffer.write_list bits).read_index = sixteen_bit_buffer.read_index) ∧
    (entropy_coder.construct.decode true 17 3 bitstream.construct sixteen_bit_buffer true).map
      (fun r => (r.1, r.2.2.2.write_index, r.2.2.2.data_store)) = some (EVX_SUCCESS, 3, [0, 0]) :=
  ⟨(decoder_total true 17 entropy_coder.construct 3 bitstream.construct sixteen_bit_buffer
    (Or.inl rfl) (by decide) (by decide) (by decide) (by decide) (by decide) (by decide)).1,
    by decide⟩

/-! ### The round trip with a destination that fits the code stream (C1, C2) -/

namespace bitstream

theorem live_lt_two (s : bitstream) : ∀ b ∈ s.live, b < 2 := by
  intro b hb
  unfold live at hb
  obtain ⟨i, _, rfl⟩ := List.mem_map.mp hb
  exact bit_at_lt s i

end bitstream

namespace entropy_coder

/-- Pending bits are emitted or stay pending: the loop never drops them. -/
theorem scaling_out_pending : ∀ (fuel : Nat) (c : entropy_coder),
    c.e3_count ≤ (scaling_out fuel c).2.length + (scaling_out fuel c).1.e3_count := by
  intro fuel
  induction fuel with
  | zero => intro c; simp [scaling_out]
  | succ fuel ih =>
    intro c
    by_cases c1 : c.high < 32768
    · simp only [scaling_out, if_pos c1, List.length_cons, List.length_append,
        List.length_replicate]
      omega
    · by_cases c2 : 32768 ≤ c.low
      · simp only [scaling_out, if_neg c1, if_pos c2, List.length_cons, List.length_append,
          List.length_replicate]
        omega
      · by_cases c3 : c.high ≤ 49149 ∧ 16384 ≤ c.low
        · simp only [scaling_out, if_neg c1, if_neg c2, if_pos c3]
          have := ih { c with low := 2 * (c.low - 16384), high := 2 * (c.high - 16384) + 1,
                              e3_count := c.e3_count + 1 }
          simp only at this
          omega
        · simp only [scaling_out, if_neg c1, if_neg c2, if_neg c3, List.length_nil]
          omega

/-- The refinement `scaling_refines` with the exact room: the destination
holds the bits the loop emits, and the bits emitted plus those left pending
fit a `uint32`. -/
theorem scaling_refines_fit : ∀ (fuel j : Nat) (c : entropy_coder) (dest : bitstream),
    c.valid → 65536 ≤ (c.high - c.low + 1) * 2 ^ j → j < fuel → dest.wf →
    (scaling_out fuel c).2.length + (scaling_out fuel c).1.e3_count < 4294967296 →
    (scaling_out fuel c).2.length ≤ dest.free_bits →
    resolve_encode_scaling fuel c dest =
      some (EVX_SUCCESS, (scaling_out fuel c).1, dest.write_list (scaling_out fuel c).2) := by
  intro fuel
  induction fuel with
  | zero => intro j c dest _ _ hj; omega
  | succ fuel ih =>
    intro j c dest hv hw hj hd hsum hn
    have hv' := hv
    obtain ⟨hlh, hmax⟩ := hv'
    have hj0 : (c.high < 32768 ∨ 32768 ≤ c.low ∨ (c.high ≤ 49149 ∧ 16384 ≤ c.low)) → 0 < j := by
      intro h
      rcases Nat.eq_zero_or_pos j with h0 | h0
      · subst h0; simp at hw; omega
      · exact h0
    unfold resolve_encode_scaling
    by_cases c1 : c.high < 32768
    · have hjp := hj0 (Or.inl c1)
      simp only [scaling_out, if_pos c1] at hn hsum ⊢
      simp only [List.length_cons, List.length_append, List.length_replicate] at hn hsum
      rw [iter_e1 hv c1 hd (by omega)]
      simp only [ne_eq, not_true_eq_false, if_false]
      have hd1 := bitstream.write_list_ok (0 :: List.replicate c.e3_count 1) dest hd
        (by simp; omega)
      have hf1 := bitstream.free_bits_write_list hd
        (show (0 :: List.replicate c.e3_count 1).length ≤ dest.free_bits by simp; omega)
      rw [ih (j - 1) _ _ ⟨by simp; omega, by simp; omega⟩
        (width_step hjp hw (by simp only; omega))
        (by omega) hd1.1 (by omega) (by rw [hf1]; simp; omega)]
      rw [← bitstream.write_list_append]
      simp
    · by_cases c2 : 32768 ≤ c.low
      · have hjp := hj0 (Or.inr (Or.inl c2))
        simp only [scaling_out, if_neg c1, if_pos c2] at hn hsum ⊢
        simp only [List.length_cons, List.length_append, List.length_replicate] at hn hsum
        rw [iter_e2 hv c2 hd (by omega)]
        simp only [ne_eq, not_true_eq_false, if_false]
        have hd1 := bitstream.write_list_ok (1 :: List.replicate c.e3_count 0) dest hd
          (by simp; omega)
        have hf1 := bitstream.free_bits_write_list hd
          (show (1 :: List.replicate c.e3_count 0).length ≤ dest.free_bits by simp; omega)
        rw [ih (j - 1) _ _ ⟨by simp; omega, by simp; omega⟩
          (width_step hjp hw (by simp only; omega))
          (by omega) hd1.1 (by omega) (by rw [hf1]; simp; omega)]
        rw [← bitstream.write_list_append]
        simp
      · by_cases c3 : c.high ≤ 49149 ∧ 16384 ≤ c.low
        · have hjp := hj0 (Or.inr (Or.inr c3))
          have hp := scaling_out_pending fuel
            { c with low := 2 * (c.low - 16384), high := 2 * (c.high - 16384) + 1,
                     e3_count := c.e3_count + 1 }
          simp only [scaling_out, if_neg c1, if_neg c2, if_pos c3] at hn hsum ⊢
          simp only at hp
          rw [iter_e3 hv (by omega) (by omega) c3.1 c3.2 (by omega)]
          simp only [ne_eq, not_true_eq_false, if_false]
          exact ih (j - 1) _ _ ⟨by simp; omega, by simp; omega⟩
            (width_step hjp hw (by simp only; omega))
            (by omega) hd hsum hn
        · simp only [scaling_out, if_neg c1, if_neg c2, if_neg c3] at hn ⊢
          rw [iter_stop hv (by omega) (by omega) c3]
          rfl

theorem encode_symbol_e3 (c : entropy_coder) (b : Nat) :
    (c.encode_symbol b).2.e3_count = c.e3_count := by
  unfold encode_symbol history_incr
  simp only
  split_ifs <;> rfl

/-- Pending bits are emitted or stay pending across the symbols of `B`. -/
theorem symbols_out_pending : ∀ (B : List Nat) (fuel : Nat) (c : entropy_coder),
    c.e3_count ≤ (symbols_out fuel c B).length + (encode_end fuel c B).e3_count := by
  intro B
  induction B with
  | nil => intro fuel c; simp [symbols_out, encode_end]
  | cons b B ih =>
    intro fuel c
    have h1 := scaling_out_pending fuel (c.encode_symbol b).2
    have h2 := ih fuel (scaling_out fuel (c.encode_symbol b).2).1
    rw [encode_symbol_e3] at h1
    simp only [symbols_out, encode_end, List.length_append]
    omega

/-- The loop of `encode` on a source holding the bits `B`, with room for
exactly what it emits: it succeeds, empties the source and appends
`symbols_out`. -/
theorem encode_loop_refines_fit : ∀ (B : List Nat) (fuel n : Nat) (c : entropy_coder)
    (src dst : bitstream), 17 ≤ fuel → B.length ≤ n → c.stopped → c.model_ok →
    c.hist_ok B.length → src.wf → src.live = B → dst.wf →
    (symbols_out fuel c B).length + (encode_end fuel c B).e3_count < 4294967296 →
    (symbols_out fuel c B).length ≤ dst.free_bits →
    ∃ src1, encode_loop fuel n c src dst =
        some (EVX_SUCCESS, encode_end fuel c B, src1, dst.write_list (symbols_out fuel c B)) ∧
      src1.wf ∧ src1.live = [] := by
  intro B
  induction B with
  | nil =>
    intro fuel n c src dst _ _ _ _ _ hsrc hl _ _ _
    refine ⟨src, ?_, hsrc, hl⟩
    unfold encode_loop
    rw [bitstream.is_empty_of_live_nil hsrc hl]
    rfl
  | cons b B ih =>
    intro fuel n c src dst hf hn hs hm hh hsrc hl hdst hsum hcap
    obtain ⟨n, rfl⟩ : ∃ k, n = k + 1 := ⟨n - 1, by simp at hn; omega⟩
    obtain ⟨q1, q2, q3, q4, q5, hb⟩ := bitstream.read_bit_live hsrc hl (show (0 : Nat) < 2 by omega)
    have hh1 : c.hist_ok 1 := by unfold hist_ok at *; simp at hh; omega
    obtain ⟨e1, e2, _, _, e5, _⟩ := encode_symbol_ok hs hm hb hh1
    obtain ⟨r1, r2, r3, r4, r5⟩ := encode_round hs hm hb (by simpa using hh) hf
    have hp := symbols_out_pending B fuel (scaling_out fuel (c.encode_symbol b).2).1
    simp only [symbols_out, encode_end, List.length_append, List.length_cons] at hcap hsum
    have hsc := scaling_refines_fit fuel 16 (c.encode_symbol b).2 dst e2 (valid_width16 _)
      (by omega) hdst (by omega) (by omega)
    have hd1 := bitstream.write_list_ok (scaling_out fuel (c.encode_symbol b).2).2 dst hdst
      (by omega)
    have hf1 := bitstream.free_bits_write_list hdst
      (show (scaling_out fuel (c.encode_symbol b).2).2.length ≤ dst.free_bits by omega)
    obtain ⟨src1, i1, i2, i3⟩ := ih fuel n _ (src.read_bit 0).2.1 _ hf (by simp at hn; omega)
      r1 r2 r3 q4 q5 hd1.1 (by omega) (by rw [hf1]; omega)
    refine ⟨src1, ?_, i2, i3⟩
    unfold encode_loop
    rw [q1]
    simp only [Bool.false_eq_true, if_false, q2, ne_eq, not_true_eq_false, q3, e1, hsc, i1,
      symbols_out, encode_end, bitstream.write_list_append]

/-- One-shot `encode` with `auto_finish` on a source holding `B`: with
room for `encode_out`, and nothing more asked of the destination, it
succeeds and appends exactly `encode_out`. -/
theorem encode_refines_fit {B : List Nat} {fuel : Nat} {c : entropy_coder}
    {src dst : bitstream}
    (hf : 17 ≤ fuel) (hs : c.stopped) (hm : c.model_ok) (hh : c.hist_ok B.length)
    (hsrc : src.wf) (hl : src.live = B) (hdst : dst.wf)
    (hcap : (encode_out fuel c B).length ≤ dst.free_bits) :
    ∃ src1, encode fuel c src dst true =
        some (EVX_SUCCESS, (encode_end fuel c B).clear, src1,
          dst.write_list (encode_out fuel c B)) ∧ src1.wf ∧ src1.live = [] := by
  have hfb := free_bits_lt hdst
  rw [encode_out_eq, List.length_append, flush_out_length] at hcap
  have hn : B.length ≤ src.write_index - src.read_index := by
    rw [← bitstream.live_length, hl]
  obtain ⟨src1, i1, i2, i3⟩ := encode_loop_refines_fit B fuel _ c src dst hf hn hs hm hh hsrc hl
    hdst (by omega) (by omega)
  have hd1 := bitstream.write_list_ok (symbols_out fuel c B) dst hdst (by omega)
  have hf1 := bitstream.free_bits_write_list hdst
    (show (symbols_out fuel c B).length ≤ dst.free_bits by omega)
  refine ⟨src1, ?_, i2, i3⟩
  unfold encode
  rw [i1]
  simp only [ne_eq, not_true_eq_false, if_false, if_true]
  rw [flush_encoder_ok hd1.1 (by omega) (by rw [hf1]; omega)]
  simp only [ne_eq, not_true_eq_false, if_false, clear_clear, encode_out_eq,
    bitstream.write_list_append]

/-- The round trip from a fresh coder, with a destination that has room
for the code stream `encode_out` and an output buffer with room for `B`. -/
theorem round_trip_fit {B : List Nat} {fuel : Nat} {c cd : entropy_coder}
    {src enc out : bitstream} (param_check : Bool) (hf : 17 ≤ fuel) (hB : B ≠ [])
    (hc : c.fresh) (hm : c.model_ok) (hh : c.hist_ok B.length)
    (ha : cd.adaptive = c.adaptive) (hmo : cd.model = c.model)
    (hsrc : src.wf) (hl : src.live = B) (henc : enc.wf) (he : enc.live = []) (hout : out.wf)
    (hcapo : B.length ≤ out.free_bits)
    (hcap : (encode_out fuel c B).length ≤ enc.free_bits) :
    ∃ src1 d1 enc2,
      c.encode fuel src enc true = some (EVX_SUCCESS, (encode_end fuel c B).clear, src1,
        enc.write_list (encode_out fuel c B)) ∧
      (enc.write_list (encode_out fuel c B)).live = encode_out fuel c B ∧
      cd.decode param_check fuel B.length (enc.write_list (encode_out fuel c B)) out true =
        some (EVX_SUCCESS, d1, enc2, out.write_list B) ∧
      (out.write_list B).live = out.live ++ B := by
  have hbits : ∀ b ∈ B, b < 2 := by
    rw [← hl]
    exact bitstream.live_lt_two src
  have hs := fresh_stopped hc
  have hk0 : c.e3_count = 0 := hc.2.2.1
  obtain ⟨src1, henc1, _, _⟩ := encode_refines_fit hf hs hm hh hsrc hl henc hcap
  have P := promise_encode B fuel c hf hs hm hh hbits
  obtain ⟨m, t, hm2, ht, ho⟩ := promise_bits P
  rw [hk0] at ho
  simp only [List.replicate_zero, List.nil_append] at ho
  have hobits : ∀ b ∈ encode_out fuel c B, b < 2 := by
    rw [ho]
    intro b hb
    rcases List.mem_cons.mp hb with rfl | hb
    · exact hm2
    · exact ht b hb
  obtain ⟨w1, w2, _, _, _⟩ := bitstream.write_list_ok (encode_out fuel c B) enc henc hcap
  rw [he, map_mod_two hobits, List.nil_append] at w2
  obtain ⟨o1, o2, _, _, _⟩ := bitstream.write_list_ok B out hout hcapo
  rw [map_mod_two hbits] at o2
  have hsy := sync_clear hc ha hmo
  have hlast := encode_out_last fuel c B
  obtain ⟨bit1, enc2, x1, pad1, i1, i2, i3, i4, i5, i6, i7⟩ := prime_loop_ok 16
    ({ cd with value := 0 } : entropy_coder).clear 0 (enc.write_list (encode_out fuel c B))
    [] (encode_out fuel c B) [] (encode_end fuel c B).flush_last w1 (by omega)
    (by rw [clear_value]; rfl) (by simp) (by simp) (by simp [w2]) (by simp) (fun _ => rfl)
    (fun _ => by rw [w2]; exact hlast) (fun _ _ => rfl)
  simp only [List.length_nil, Nat.zero_add] at i2
  have hrel : window_rel (encode_end fuel c B).flush_last c.e3_count (encode_out fuel c B)
      (win 16 x1) enc2.live := by
    rw [hk0]
    exact ⟨m, t, x1, pad1, hm2, ht, by simpa using ho, i2, rfl, by rw [i3, ho], i4, i5, i6⟩
  obtain ⟨d1, enc3, hdec⟩ := decode_lockstep B fuel c
    { ({ cd with value := 0 } : entropy_coder).clear with value := win x1.length x1 } enc2 out
    hf hs hm hh hbits
    (by
      obtain ⟨y1, y2, y3, y4, y5⟩ := hsy
      exact ⟨y1, y2, y3, y4, y5⟩)
    (by simp only; rw [i2]; exact hrel) i7 hout hcapo
  refine ⟨src1, d1, enc3, henc1, w2, ?_, o2⟩
  have hn0 : ¬ (param_check = true ∧ B.length = 0) := by
    intro h
    exact hB (List.length_eq_zero.mp h.2)
  unfold decode
  rw [if_neg hn0]
  simp only [if_true, PRECISION_eq, i1, ne_eq, not_true_eq_false, if_false]
  exact hdec

end entropy_coder

/-- C1 (adaptive coder round trip). For every non-empty bit sequence `B` of
length `n < 2^31`, a source buffer holding exactly `B`, an empty
destination of sufficient capacity, that is with room for the code stream
of `B` (the list `encode_out`, which the theorem shows is what `encode`
appends), and an empty output buffer with room for `n` bits:
`encode(src, enc, auto_finish = true)` on a default-constructed coder
succeeds and leaves `enc` holding exactly the code stream, and
`decode(n, enc, out, auto_start = true)` on the same coder then succeeds
and leaves `out` holding exactly the bits of `B` in order. -/
theorem adaptive_round_trip (B : List Nat) (src enc out : bitstream) (fuel : Nat)
    (param_check : Bool) (hB : B ≠ []) (hn : B.length < 2 ^ 31)
    (hsrc : src.wf) (hl : src.live = B) (henc : enc.wf) (he : enc.live = [])
    (hcap : (entropy_coder.encode_out fuel entropy_coder.construct B).length ≤ enc.free_bits)
    (hout : out.wf) (ho : out.live = [])
    (hcapo : B.length ≤ out.free_bits) (hf : 17 ≤ fuel) :
    ∃ c1 src1 enc1 c2 enc2 out1,
      entropy_coder.construct.encode fuel src enc true = some (EVX_SUCCESS, c1, src1, enc1) ∧
      enc1.live = entropy_coder.encode_out fuel entropy_coder.construct B ∧
      c1.decode param_check fuel B.length enc1 out true = some (EVX_SUCCESS, c2, enc2, out1) ∧
      out1.live = B := by
  have hn' : B.length < 2147483648 := by norm_num at hn; exact hn
  have hfresh : entropy_coder.construct.fresh := by
    unfold entropy_coder.fresh entropy_coder.construct
    simp [PRECISION_MAX_eq]
  have hm : entropy_coder.construct.model_ok := by
    unfold entropy_coder.model_ok entropy_coder.construct
    simp
  have hh : entropy_coder.construct.hist_ok B.length := by
    unfold entropy_coder.hist_ok entropy_coder.construct
    simp only
    omega
  obtain ⟨src1, d1, enc2, h1, h2, h3, h4⟩ := entropy_coder.round_trip_fit param_check hf hB
    hfresh hm hh (entropy_coder.encode_end_clear_kind fuel B entropy_coder.construct).1
    (entropy_coder.encode_end_clear_kind fuel B entropy_coder.construct).2
    hsrc hl henc he hout hcapo hcap
  rw [ho, List.nil_append] at h4
  exact ⟨_, src1, _, d1, enc2, _, h1, h2, h3, h4⟩

set_option maxRecDepth 1000000 in
/-- Witness for `adaptive_round_trip`: the repository test
`test_basic_cabac_rt`. The source holds the 32 bytes `i mod 4` (256 bits),
the destination and the output are buffers of 512 bits; the code stream
has 144 bits. -/
theorem adaptive_round_trip_witness :
    (entropy_coder.encode_out 17 entropy_coder.construct test_source.live).length = 144 ∧
    ∃ c1 src1 enc1 c2 enc2 out1,
      entropy_coder.construct.encode 17 test_source test_buffer true =
        some (EVX_SUCCESS, c1, src1, enc1) ∧
      enc1.live = entropy_coder.encode_out 17 entropy_coder.construct test_source.live ∧
      c1.decode false 17 test_source.live.length enc1 test_buffer true =
        some (EVX_SUCCESS, c2, enc2, out1) ∧
      out1.live = test_source.live :=
  ⟨by decide,
    adaptive_round_trip test_source.live test_source test_buffer test_buffer 17 false
      (by decide) (by decide) (by decide) rfl (by decide)
      (by decide) (by decide) (by decide) (by decide)
      (by decide) (by decide)⟩

/-- C2 (fixed-model coder round trip). For every model in `[1, 65534]` and
every non-empty bit sequence `B` of length `n < 2^31`, with a source holding
exactly `B`, an empty destination of sufficient capacity, that is with
room for the code stream of `B` (the list `encode_out`, which the theorem
shows is what `encode` appends), and an empty output buffer with room for
`n` bits: one-shot `encode` on a coder constructed with
`entropy_coder(model)` succeeds and one-shot `decode(n, ...)` on the same
coder succeeds and leaves `out` holding exactly `B`. -/
theorem fixed_round_trip (model : Nat) (B : List Nat) (src enc out : bitstream) (fuel : Nat)
    (param_check : Bool) (_hm1 : 1 ≤ model) (hm2 : model ≤ EVX_ENTROPY_PRECISION_MAX - 1)
    (hB : B ≠ []) (hn : B.length < 2 ^ 31)
    (hsrc : src.wf) (hl : src.live = B) (henc : enc.wf) (he : enc.live = [])
    (hcap : (entropy_coder.encode_out fuel (entropy_coder.construct_model model) B).length ≤
      enc.free_bits)
    (hout : out.wf) (ho : out.live = [])
    (hcapo : B.length ≤ out.free_bits) (hf : 17 ≤ fuel) :
    ∃ c1 src1 enc1 c2 enc2 out1,
      (entropy_coder.construct_model model).encode fuel src enc true =
        some (EVX_SUCCESS, c1, src1, enc1) ∧
      enc1.live = entropy_coder.encode_out fuel (entropy_coder.construct_model model) B ∧
      c1.decode param_check fuel B.length enc1 out true = some (EVX_SUCCESS, c2, enc2, out1) ∧
      out1.live = B := by
  have hn' : B.length < 2147483648 := by norm_num at hn; exact hn
  rw [PRECISION_MAX_eq] at hm2
  have hfresh : (entropy_coder.construct_model model).fresh := by
    unfold entropy_coder.fresh entropy_coder.construct_model
    simp [PRECISION_MAX_eq]
  have hm : (entropy_coder.construct_model model).model_ok := by
    unfold entropy_coder.model_ok entropy_coder.construct_model
    simp only [Bool.false_eq_true, if_false]
    omega
  have hh : (entropy_coder.construct_model model).hist_ok B.length := by
    unfold entropy_coder.hist_ok entropy_coder.construct_model
    simp only
    omega
  obtain ⟨src1, d1, enc2, h1, h2, h3, h4⟩ := entropy_coder.round_trip_fit param_check hf hB
    hfresh hm hh (entropy_coder.encode_end_clear_kind fuel B _).1
    (entropy_coder.encode_end_clear_kind fuel B _).2
    hsrc hl henc he hout hcapo hcap
  rw [ho, List.nil_append] at h4
  exact ⟨_, src1, _, d1, enc2, _, h1, h2, h3, h4⟩

set_option maxRecDepth 1000000 in
/-- Witness for `fixed_round_trip`: the source and the 512-bit buffers of
the repository test with the fixed model `HALF_RANGE`; the code stream has
258 bits. -/
theorem fixed_round_trip_witness :
    (entropy_coder.encode_out 17 (entropy_coder.construct_model 32767)
      test_source.live).length = 258 ∧
    ∃ c1 src1 enc1 c2 enc2 out1,
      (entropy_coder.construct_model 32767).encode 17 test_source test_buffer true =
        some (EVX_SUCCESS, c1, src1, enc1) ∧
      enc1.live = entropy_coder.encode_out 17 (entropy_coder.construct_model 32767)
        test_source.live ∧
      c1.decode false 17 test_source.live.length enc1 test_buffer true =
        some (EVX_SUCCESS, c2, enc2, out1) ∧
      out1.live = test_source.live :=
  ⟨by decide,
    fixed_round_trip 32767 test_source.live test_source test_buffer test_buffer 17 false
      (by decide) (by decide) (by decide) (by decide) (by decide) rfl (by decide)
      (by decide) (by decide) (by decide) (by decide) (by decide) (by decide)⟩

/-- C5 (counterexample): a fixed model above `PRECISION_MAX`. The
constructor `entropy_coder(131070)` is accepted; after `start_decode` on an
empty source and the first `decode_symbol` the state, a reachable state of
the session with one symbol decoded, has `high = 131070 > PRECISION_MAX`. -/
theorem window_invariant_needs_model_scale :
    decode_reach ((entropy_coder.construct_model 131070).start_decode bitstream.construct).2.1
      1 wide_model_decoded ∧
    wide_model_decoded.low = 0 ∧ wide_model_decoded.value = 0 ∧
    wide_model_decoded.high = 131070 ∧
    ¬ (wide_model_decoded.high ≤ EVX_ENTROPY_PRECISION_MAX) :=
  ⟨decode_reach.symbol bitstream.construct decode_reach.start (by decide), by decide, by decide,
    by decide, by decide⟩

set_option maxRecDepth 1000000 in
/-- C32 (counterexample): a fixed model above `PRECISION_MAX`. With
`entropy_coder(1005780)`, the source bytes `5, 181` and a destination of
40 free bits, `decode(33, src, dst, auto_start = true)` returns
`EVX_SUCCESS` having appended only 32 bits: at the 33rd symbol the window
`value = 11072` is below `low = 29248` and neither branch of
`decode_symbol` is taken. -/
theorem decoder_skips_symbol :
    skip_sample_source.wf ∧ forty_bit_buffer.wf ∧ 33 ≤ forty_bit_buffer.free_bits ∧
    ((entropy_coder.construct_model 1005780).decode false 17 33 skip_sample_source
      forty_bit_buffer true).map (fun r => (r.1, r.2.2.2.write_index)) =
        some (EVX_SUCCESS, 32) ∧
    ((entropy_coder.construct_model 1005780).decode false 17 32 skip_sample_source
      forty_bit_buffer true).map
        (fun r => (r.1, r.2.1.low, r.2.1.high, r.2.1.value, r.2.2.2.write_index)) =
        some (EVX_SUCCESS, 29248, 62335, 11072, 32) := by
  decide

/-- C12 (symbol count guard), evaluated at a failing input. In the adaptive
state with counts `[1, 2^32 - 1]` the guard of `encode_symbol(0)` passes
(`history[0] = 1 < 2^31`) and the call goes on to `resolve_model`, whose
`uint32` divisor `history[0] + history[1]` is `0`: the division is
undefined and the call neither refuses nor succeeds. The state is one
`decode_symbol` away from the counts `[1, 2^32 - 2]`: the decoder increments
a count that the encoder's guard would refuse. -/
theorem guard_misses_zero_divisor :
    zero_divisor_coder.adaptive = true ∧
    zero_divisor_coder.history 0 = 1 ∧
    zero_divisor_coder.history 0 < 2 * EVX_GB ∧
    u32 (zero_divisor_coder.history0 + zero_divisor_coder.history1) = 0 ∧
    ¬ zero_divisor_coder.resolve_model_defined ∧
    near_zero_divisor_coder.resolve_model_defined ∧
    (near_zero_divisor_coder.decode_symbol near_zero_divisor_coder.value
      bitstream.construct).1 = EVX_SUCCESS ∧
    (near_zero_divisor_coder.decode_symbol near_zero_divisor_coder.value
      bitstream.construct).2.1.history0 = zero_divisor_coder.history0 ∧
    (near_zero_divisor_coder.decode_symbol near_zero_divisor_coder.value
      bitstream.construct).2.1.history1 = zero_divisor_coder.history1 ∧
    (near_zero_divisor_coder.encode_symbol 1).1 = EVX_ERROR_INVALID_RESOURCE := by
  decide

end evx
